import Mathlib

/-!
# sql/dd_table_share.cc : compiling a TABLE_SHARE from data-dictionary objects

A shallow embedding of the column stage (`column_preamble_bits`,
`fill_column_from_dd`, `fill_columns_from_dd`), of the key stage
(`fill_indexes_from_dd` and the functions it calls), of the key post-processing
in `prepare_share` (with `is_suitable_for_primary_key`), of
`dd_index_is_candidate_key`, and of the partition values
(`get_part_column_values`, `setup_partition_from_dd`), followed by the
properties proved about them.

Conventions of the embedding.

* Pointers into `share->default_values` (`rec_pos`, `null_pos`, `Field::ptr`)
  are byte offsets from the start of that buffer.
* Pointer arrays that are filled slot by slot (`share->field`) are maps from
  the slot number to an optional object; `none` is the NULL pointer.
* `uint` counters that stay far below `2^32` (bit cursor, field number,
  offsets) are natural numbers; where the source relies on wrap-around or
  narrows a value (`(uint) (find_type(...) - 1)`, the `uint16` members of
  `KEY_PART_INFO`, the key lengths, the count check of the partition values),
  the value is reduced modulo `2^32` or `2^16`.
* A function that reports failure by returning `true` returns `none` here.
* Classes declared outside this file (`Field`, `handler`, `TYPELIB`) are
  records of the members and method results that this file reads.
-/

namespace DdTableShare

/-! ## Column types -/

/-- Type tags of `dd::enum_column_types`. -/
inductive enum_column_types where
  | DECIMAL | TINY | SHORT | LONG | FLOAT | DOUBLE | TYPE_NULL | TIMESTAMP
  | LONGLONG | INT24 | DATE | TIME | DATETIME | YEAR | NEWDATE | VARCHAR | BIT
  | TIMESTAMP2 | DATETIME2 | TIME2 | NEWDECIMAL | ENUM | SET | TINY_BLOB
  | MEDIUM_BLOB | LONG_BLOB | BLOB | VAR_STRING | STRING | GEOMETRY | JSON
  deriving DecidableEq, Repr

/-- Type tags of `enum_field_types` (mysql_com.h), as far as this file names them. -/
inductive enum_field_types where
  | MYSQL_TYPE_DECIMAL | MYSQL_TYPE_TINY | MYSQL_TYPE_SHORT | MYSQL_TYPE_LONG
  | MYSQL_TYPE_FLOAT | MYSQL_TYPE_DOUBLE | MYSQL_TYPE_NULL | MYSQL_TYPE_TIMESTAMP
  | MYSQL_TYPE_LONGLONG | MYSQL_TYPE_INT24 | MYSQL_TYPE_DATE | MYSQL_TYPE_TIME
  | MYSQL_TYPE_DATETIME | MYSQL_TYPE_YEAR | MYSQL_TYPE_NEWDATE | MYSQL_TYPE_VARCHAR
  | MYSQL_TYPE_BIT | MYSQL_TYPE_TIMESTAMP2 | MYSQL_TYPE_DATETIME2 | MYSQL_TYPE_TIME2
  | MYSQL_TYPE_NEWDECIMAL | MYSQL_TYPE_ENUM | MYSQL_TYPE_SET | MYSQL_TYPE_TINY_BLOB
  | MYSQL_TYPE_MEDIUM_BLOB | MYSQL_TYPE_LONG_BLOB | MYSQL_TYPE_BLOB
  | MYSQL_TYPE_VAR_STRING | MYSQL_TYPE_STRING | MYSQL_TYPE_GEOMETRY | MYSQL_TYPE_JSON
  deriving DecidableEq, Repr

/-- The function `dd_get_old_field_type`: one case per dd column type. -/
def dd_get_old_field_type : enum_column_types → enum_field_types
  | .DECIMAL => .MYSQL_TYPE_DECIMAL
  | .TINY => .MYSQL_TYPE_TINY
  | .SHORT => .MYSQL_TYPE_SHORT
  | .LONG => .MYSQL_TYPE_LONG
  | .FLOAT => .MYSQL_TYPE_FLOAT
  | .DOUBLE => .MYSQL_TYPE_DOUBLE
  | .TYPE_NULL => .MYSQL_TYPE_NULL
  | .TIMESTAMP => .MYSQL_TYPE_TIMESTAMP
  | .LONGLONG => .MYSQL_TYPE_LONGLONG
  | .INT24 => .MYSQL_TYPE_INT24
  | .DATE => .MYSQL_TYPE_DATE
  | .TIME => .MYSQL_TYPE_TIME
  | .DATETIME => .MYSQL_TYPE_DATETIME
  | .YEAR => .MYSQL_TYPE_YEAR
  | .NEWDATE => .MYSQL_TYPE_NEWDATE
  | .VARCHAR => .MYSQL_TYPE_VARCHAR
  | .BIT => .MYSQL_TYPE_BIT
  | .TIMESTAMP2 => .MYSQL_TYPE_TIMESTAMP2
  | .DATETIME2 => .MYSQL_TYPE_DATETIME2
  | .TIME2 => .MYSQL_TYPE_TIME2
  | .NEWDECIMAL => .MYSQL_TYPE_NEWDECIMAL
  | .ENUM => .MYSQL_TYPE_ENUM
  | .SET => .MYSQL_TYPE_SET
  | .TINY_BLOB => .MYSQL_TYPE_TINY_BLOB
  | .MEDIUM_BLOB => .MYSQL_TYPE_MEDIUM_BLOB
  | .LONG_BLOB => .MYSQL_TYPE_LONG_BLOB
  | .BLOB => .MYSQL_TYPE_BLOB
  | .VAR_STRING => .MYSQL_TYPE_VAR_STRING
  | .STRING => .MYSQL_TYPE_STRING
  | .GEOMETRY => .MYSQL_TYPE_GEOMETRY
  | .JSON => .MYSQL_TYPE_JSON

/-- Geometry sub types of `Field::geometry_type` (field.h), numbered as there. -/
inductive geometry_type where
  | GEOM_GEOMETRY | GEOM_POINT | GEOM_LINESTRING | GEOM_POLYGON | GEOM_MULTIPOINT
  | GEOM_MULTILINESTRING | GEOM_MULTIPOLYGON | GEOM_GEOMETRYCOLLECTION
  deriving DecidableEq, Repr

/-- The cast `(Field::geometry_type) sub_type` of the stored option `geom_type`. -/
def geometry_type_of_uint : Nat → geometry_type
  | 1 => .GEOM_POINT
  | 2 => .GEOM_LINESTRING
  | 3 => .GEOM_POLYGON
  | 4 => .GEOM_MULTIPOINT
  | 5 => .GEOM_MULTILINESTRING
  | 6 => .GEOM_MULTIPOLYGON
  | 7 => .GEOM_GEOMETRYCOLLECTION
  | _ => .GEOM_GEOMETRY

/-! ## Data-dictionary objects read by the compiler -/

/-- The entries of a column's `options()` that this file reads; `none` is an
absent key, for which `get_bool` and `get_uint32` leave their output untouched. -/
structure Column_options where
  treat_bit_as_char : Option Bool := none
  geom_type : Option Nat := none
  deriving DecidableEq, Repr

/-- The members of `dd::Column` read by this file. -/
structure Column where
  name : String := "c"
  type : enum_column_types := .LONG
  is_nullable : Bool := false
  is_hidden : Bool := false
  is_virtual : Bool := false
  is_generation_expression_null : Bool := true
  generation_expression : String := ""
  char_length : Nat := 0
  collation_id : Nat := 8
  numeric_scale : Nat := 0
  is_numeric_scale_null : Bool := true
  is_unsigned : Bool := false
  is_zerofill : Bool := false
  is_auto_increment : Bool := false
  default_option : String := ""
  update_option : String := ""
  has_no_default : Bool := false
  is_default_value_null : Bool := false
  elements_count : Nat := 0
  ordinal_position : Nat := 1
  options : Column_options := {}
  deriving DecidableEq, Repr

/-- The call `options().get_bool("treat_bit_as_char", &b)` on a local that
holds `init`: an absent key leaves the local as it was. -/
def Column_options.get_treat_bit_as_char (o : Column_options) (init : Bool) : Bool :=
  o.treat_bit_as_char.getD init

/-- The function `column_preamble_bits`: number of bits the column takes in the
record preamble. Its local `treat_bit_as_char` is declared without an
initial value; the dictionary stores the option for every BIT column, and an
absent key is read here as `false`, the initial value `fill_column_from_dd`
gives to its own local. -/
def column_preamble_bits (col_obj : Column) : Nat :=
  let result := 0
  let result := if col_obj.is_nullable then result + 1 else result
  if col_obj.type = enum_column_types.BIT then
    let treat_bit_as_char := col_obj.options.get_treat_bit_as_char false
    if !treat_bit_as_char then result + (col_obj.char_length &&& 7) else result
  else result

/-- Index kinds of `dd::Index::enum_index_type`. -/
inductive enum_index_type where
  | IT_PRIMARY | IT_UNIQUE | IT_MULTIPLE | IT_FULLTEXT | IT_SPATIAL
  deriving DecidableEq, Repr

/-- Sort orders of `dd::Index_element::enum_index_element_order`. -/
inductive enum_index_element_order where
  | ORDER_UNDEF | ORDER_ASC | ORDER_DESC
  deriving DecidableEq, Repr

/-- The members of `dd::Index_element` read by this file. -/
structure Index_element where
  column : Column := {}
  length : Nat := 0
  order : enum_index_element_order := .ORDER_ASC
  is_hidden : Bool := false
  deriving DecidableEq, Repr

/-- Index algorithms of `dd::Index::enum_index_algorithm`. -/
inductive enum_index_algorithm where
  | IA_SE_SPECIFIC | IA_BTREE | IA_RTREE | IA_HASH | IA_FULLTEXT
  deriving DecidableEq, Repr

/-- The entries of an index's `options()` that this file reads; `none` is an
absent key. -/
structure Index_options where
  flags : Option Nat := none
  block_size : Option Nat := none
  parser_name : Option String := none
  deriving DecidableEq, Repr

/-- The members of `dd::Index` read by the functions modelled here. -/
structure Index where
  name : String := "k"
  type : enum_index_type := .IT_MULTIPLE
  algorithm : enum_index_algorithm := .IA_SE_SPECIFIC
  is_algorithm_explicit : Bool := false
  is_hidden : Bool := false
  is_visible : Bool := true
  is_generated : Bool := false
  ordinal_position : Nat := 1
  elements : List Index_element := []
  options : Index_options := {}
  comment : String := ""
  deriving DecidableEq, Repr

/-- The members of `dd::Partition_value` read by this file; `column_num` and
`list_num` are `uint`. -/
structure Partition_value where
  column_num : Nat := 0
  list_num : Nat := 0
  is_value_null : Bool := false
  max_value : Bool := false
  value_utf8 : String := ""
  deriving DecidableEq, Repr

/-- The entries of a partition's `options()` that `get_partition_options`
reads; `none` is an absent key. -/
structure Partition_options where
  max_rows : Option Nat := none
  min_rows : Option Nat := none
  data_file_name : String := ""
  index_file_name : String := ""
  nodegroup_id : Option Nat := none
  deriving DecidableEq, Repr

/-- The members of `dd::Partition` read by this file. -/
structure Partition where
  name : String := "p"
  comment : String := ""
  level : Nat := 0
  number : Nat := 0
  options : Partition_options := {}
  values : List Partition_value := []
  deriving DecidableEq, Repr

/-- The values of `dd::Table::enum_partition_type` that the switch of
`fill_partitioning_from_dd` names; `PT_OTHER` is any value it does not name
(its `default:` case). -/
inductive enum_partition_type where
  | PT_NONE | PT_HASH | PT_KEY_51 | PT_KEY_55 | PT_LINEAR_HASH | PT_LINEAR_KEY_51
  | PT_LINEAR_KEY_55 | PT_RANGE | PT_LIST | PT_RANGE_COLUMNS | PT_LIST_COLUMNS | PT_AUTO
  | PT_AUTO_LINEAR | PT_OTHER
  deriving DecidableEq, Repr

/-- The values of `dd::Table::enum_subpartition_type` that the switch of
`fill_partitioning_from_dd` names; `ST_OTHER` is any value it does not name. -/
inductive enum_subpartition_type where
  | ST_NONE | ST_HASH | ST_KEY_51 | ST_KEY_55 | ST_LINEAR_HASH | ST_LINEAR_KEY_51
  | ST_LINEAR_KEY_55 | ST_OTHER
  deriving DecidableEq, Repr

/-- The values of `dd::Table::enum_default_partitioning`; `DP_OTHER` is any
value the switches of `fill_partitioning_from_dd` do not name. -/
inductive enum_default_partitioning where
  | DP_NONE | DP_NO | DP_YES | DP_NUMBER | DP_OTHER
  deriving DecidableEq, Repr

/-- The values of `dd::Table::enum_row_format` that `dd_get_old_row_format`
names; `RF_OTHER` is any value it does not name. -/
inductive enum_row_format where
  | RF_FIXED | RF_DYNAMIC | RF_COMPRESSED | RF_REDUNDANT | RF_COMPACT | RF_PAGED | RF_OTHER
  deriving DecidableEq, Repr

/-- The entries of a table's `options()` that `fill_share_from_dd` reads, each
with the type of the getter that reads it; `none` is an absent key, for which
`exists` answers false and a getter leaves its output untouched. -/
structure Table_options where
  max_rows : Option Nat := none
  min_rows : Option Nat := none
  pack_record : Option Bool := none
  pack_keys : Option Bool := none
  checksum : Option Bool := none
  delay_key_write : Option Bool := none
  stats_persistent : Option Bool := none
  avg_row_length : Option Nat := none
  row_type : Option Nat := none
  stats_sample_pages : Option Nat := none
  stats_auto_recalc : Option Nat := none
  key_block_size : Option Nat := none
  storage : Option Nat := none
  connection_string : Option String := none
  compress : Option String := none
  encrypt_type : Option String := none
  deriving DecidableEq, Repr

/-! ## Fields -/

/-- The members of `CHARSET_INFO` read by this file. -/
structure CHARSET_INFO where
  number : Nat := 0
  state : Nat := 0
  deriving DecidableEq, Repr

/-- The bits of `Field::enum_auto_flags` that `fill_column_from_dd` rebuilds
(`NEXT_NUMBER`, `DEFAULT_NOW`, `ON_UPDATE_NOW` occupy disjoint bits of the
`uchar`, so the value is the triple of memberships). -/
structure auto_flags_t where
  NEXT_NUMBER : Bool := false
  DEFAULT_NOW : Bool := false
  ON_UPDATE_NOW : Bool := false
  deriving DecidableEq, Repr

/-- Result kinds of `Item_result`. -/
inductive Item_result where
  | STRING_RESULT | REAL_RESULT | INT_RESULT | ROW_RESULT | DECIMAL_RESULT
  deriving DecidableEq, Repr

/-- The arguments of the call to `make_field` in `fill_column_from_dd`. -/
structure make_field_args where
  ptr : Nat
  field_length : Nat
  null_pos : Nat
  null_bit : Nat
  field_type : enum_field_types
  field_charset : CHARSET_INFO
  geom_type : geometry_type
  auto_flags : auto_flags_t
  interval_count : Option Nat
  field_name : String
  maybe_null : Bool
  is_zerofill : Bool
  is_unsigned : Bool
  decimals : Nat
  treat_bit_as_char : Bool
  deriving DecidableEq, Repr

/-- What the object built by `make_field` (field.cc) answers to the methods of
class `Field` (field.h) that this file calls, and its `field_length` and initial
`flags` members. The class is declared outside this file, so its answers are
taken from the environment (`Server.field_class`). -/
structure Field_class where
  type : enum_field_types := .MYSQL_TYPE_LONG
  real_type : enum_field_types := .MYSQL_TYPE_LONG
  result_type : Item_result := .INT_RESULT
  field_length : Nat := 11
  key_length : Nat := 4
  pack_length : Nat := 4
  pack_length_in_rec : Nat := 4
  flags : Nat := 0
  deriving DecidableEq, Repr

/-- The class `Generated_column`, as filled by `fill_column_from_dd`. -/
structure Generated_column where
  field_stored : Bool
  expr_str : String
  deriving DecidableEq, Repr

/-- A `Field` of the table share: where it lives in the record (`ptr`, the null
byte and the bit position handed to `make_field`), the members set by
`fill_column_from_dd`, and the answers of its class. -/
structure Field where
  ptr : Nat := 0
  null_ptr : Nat := 0
  null_bit_pos : Nat := 0
  maybe_null : Bool := false
  geom_type : geometry_type := .GEOM_GEOMETRY
  auto_flags : auto_flags_t := {}
  treat_bit_as_char : Bool := false
  field_name : String := "c"
  charset : CHARSET_INFO := {}
  decimals : Nat := 0
  field_index : Nat := 0
  gcol_info : Option Generated_column := none
  stored_in_db : Bool := true
  flags : Nat := 0
  cls : Field_class := {}
  deriving DecidableEq, Repr

/-- Modelled from the spec: `Field::real_maybe_null` (field.h) is not part of
this file; it tells the column's "nullability": the field has a null bit, which
`make_field` gives it exactly when it is called with `maybe_null`. -/
def Field.real_maybe_null (f : Field) : Bool := f.maybe_null

/-- Modelled from the spec: the member `Field::null_bit` (field.h) is set outside
this file; it is the mask of the column's "null-bit slot" in its null byte, a
`uchar` with the bit at the position handed to `make_field`, for a nullable
field. -/
def Field.null_bit (f : Field) : Nat :=
  if f.maybe_null then (1 <<< f.null_bit_pos) % 256 else 0

/-- Modelled from the spec: `Field::is_virtual_gcol` (field.h) is not part of
this file; the field belongs to a "virtual generated column": it has generation
information and is not stored. -/
def Field.is_virtual_gcol (f : Field) : Bool := f.gcol_info.isSome && !f.stored_in_db

/-- The method `Field::type`. -/
def Field.type (f : Field) : enum_field_types := f.cls.type

/-- The method `Field::real_type`. -/
def Field.real_type (f : Field) : enum_field_types := f.cls.real_type

/-- The member `Field::field_length`. -/
def Field.field_length (f : Field) : Nat := f.cls.field_length

/-- The method `Field::key_length`. -/
def Field.key_length (f : Field) : Nat := f.cls.key_length

/-- The method `Field::pack_length`. -/
def Field.pack_length (f : Field) : Nat := f.cls.pack_length

/-- The method `Field::pack_length_in_rec`. -/
def Field.pack_length_in_rec (f : Field) : Nat := f.cls.pack_length_in_rec

/-- The method `Field::result_type`. -/
def Field.result_type (f : Field) : Item_result := f.cls.result_type

/-- The method `Field::get_geometry_type`. -/
def Field.get_geometry_type (f : Field) : geometry_type := f.geom_type

/-- The collaborators outside this file: collation lookup, the `Field` class
hierarchy behind `make_field`, `calc_key_length` (field.cc), and the lookup of a
full-text parser plugin by name (true when the plugin is loaded). -/
structure Server where
  dd_get_mysql_charset : Nat → Option CHARSET_INFO
  field_class : make_field_args → Field_class
  calc_key_length : enum_field_types → Nat → Nat → Bool → Nat → Nat
  my_plugin_lock_by_name : String → Bool

/-- Modelled from the spec: `make_field` (field.cc) is not part of this file; the
object it builds lives at the "offset" and "null-bit slot" it is called with and
keeps the attributes it is given; what its class answers comes from the
server. -/
def make_field (env : Server) (a : make_field_args) : Field :=
  { ptr := a.ptr
    null_ptr := a.null_pos
    null_bit_pos := a.null_bit
    maybe_null := a.maybe_null
    geom_type := a.geom_type
    auto_flags := a.auto_flags
    treat_bit_as_char := a.treat_bit_as_char
    field_name := a.field_name
    charset := a.field_charset
    decimals := a.decimals
    flags := (env.field_class a).flags
    cls := env.field_class a }

/-! ## Keys and the table share -/

/-- The members of `KEY_PART_INFO` (key.h) used by this file; `field` is the
object `key_part->field` points to, `length` and `store_length` are `uint16`. -/
structure KEY_PART_INFO where
  field : Field := {}
  offset : Nat := 0
  null_offset : Nat := 0
  length : Nat := 0
  store_length : Nat := 0
  fieldnr : Nat := 0
  key_part_flag : Nat := 0
  null_bit : Nat := 0
  bin_cmp : Bool := false
  deriving DecidableEq, Repr

/-- Key algorithms of `enum ha_key_alg` (my_base.h). -/
inductive ha_key_alg where
  | HA_KEY_ALG_SE_SPECIFIC | HA_KEY_ALG_BTREE | HA_KEY_ALG_RTREE | HA_KEY_ALG_HASH
  | HA_KEY_ALG_FULLTEXT
  deriving DecidableEq, Repr

/-- The members of `KEY` (key.h) used by this file. `key_part` is the run of
slots that `keyinfo->key_part` points to: the user-defined parts first, then
the room reserved for primary-key parts. -/
structure KEY where
  name : Option String := none
  key_length : Nat := 0
  flags : Nat := 0
  actual_flags : Nat := 0
  user_defined_key_parts : Nat := 0
  actual_key_parts : Nat := 0
  unused_key_parts : Nat := 0
  usable_key_parts : Nat := 0
  block_size : Nat := 0
  algorithm : ha_key_alg := .HA_KEY_ALG_SE_SPECIFIC
  is_algorithm_explicit : Bool := false
  is_visible : Bool := true
  parser : Option String := none
  comment : String := ""
  key_part : List KEY_PART_INFO := []
  deriving DecidableEq, Repr

/-- The structure `TYPELIB` (typelib.h): `count` names, then a NULL entry. -/
structure TYPELIB where
  count : Nat := 0
  type_names : List (Option String) := []
  deriving DecidableEq, Repr

/-- The structure `part_column_list_val` (partition_element.h), zeroed by
default; `value_str` is `column_value.value_str`, `none` the NULL pointer. -/
structure part_column_list_val where
  null_value : Bool := false
  max_value : Bool := false
  value_str : Option String := none
  deriving DecidableEq, Repr

/-- The structure `part_elem_value` (partition_element.h), zeroed by default;
`col_val_array` is the run of `num_columns` cells it points to. -/
structure part_elem_value where
  value : Int := 0
  added_items : Nat := 0
  null_value : Bool := false
  unsigned_flag : Bool := false
  col_val_array : List part_column_list_val := []
  deriving DecidableEq, Repr

/-- The members of `partition_element` (partition_element.h) written by
`setup_partition_from_dd`, as its constructor leaves them. -/
structure partition_element where
  partition_name : Option String := none
  part_comment : Option String := none
  engine_type : Nat := 0
  part_max_rows : Nat := 0
  part_min_rows : Nat := 0
  data_file_name : Option String := none
  index_file_name : Option String := none
  nodegroup_id : Nat := 65535
  tablespace_name : Option String := none
  range_value : Int := 0
  max_value : Bool := false
  signed_flag : Bool := false
  has_null_value : Bool := false
  list_val_list : List part_elem_value := []
  deriving DecidableEq, Repr

/-- An element of the list `part_info->partitions`: the `partition_element` of a
partition together with its member `subpartitions`. The elements of
`subpartitions` are `partition_element` objects too; this file never gives
them subpartitions of their own, so the tree has these two levels. -/
structure partition_node where
  elem : partition_element := {}
  subpartitions : List partition_element := []
  deriving DecidableEq, Repr

/-- The values of `enum class partition_type` (partition_element.h). -/
inductive partition_type where
  | NONE | RANGE | HASH | LIST
  deriving DecidableEq, Repr

/-- The values of `enum_key_algorithm` (partition_info.h) named in this file. -/
inductive enum_key_algorithm where
  | KEY_ALGORITHM_NONE | KEY_ALGORITHM_51 | KEY_ALGORITHM_55
  deriving DecidableEq, Repr

/-- The members of `partition_info` (partition_info.h) read or written by
`fill_partitioning_from_dd`, `setup_partition_from_dd` and
`get_part_column_values`. `default_engine_type` is the `handlerton` pointer (0
is NULL); `part_func_string` and `subpart_func_string` are NULL as `none`. -/
structure partition_info where
  default_engine_type : Nat := 0
  part_type : partition_type := .NONE
  column_list : Bool := false
  num_columns : Nat := 0
  subpart_type : partition_type := .NONE
  list_of_part_fields : Bool := false
  list_of_subpart_fields : Bool := false
  linear_hash_ind : Bool := false
  key_algorithm : enum_key_algorithm := .KEY_ALGORITHM_NONE
  is_auto_partitioned : Bool := false
  part_field_list : List String := []
  subpart_field_list : List String := []
  part_func_string : Option String := none
  part_func_len : Nat := 0
  subpart_func_string : Option String := none
  subpart_func_len : Nat := 0
  partitions : List partition_node := []
  num_parts : Nat := 0
  num_subparts : Nat := 0
  use_default_partitions : Bool := true
  use_default_num_partitions : Bool := true
  use_default_subpartitions : Bool := true
  use_default_num_subpartitions : Bool := true
  deriving DecidableEq, Repr

/-- The values of `enum row_type` (handler.h) named in this file. -/
inductive row_type where
  | ROW_TYPE_DEFAULT | ROW_TYPE_FIXED | ROW_TYPE_DYNAMIC | ROW_TYPE_COMPRESSED
  | ROW_TYPE_REDUNDANT | ROW_TYPE_COMPACT | ROW_TYPE_PAGED
  deriving DecidableEq, Repr

/-- The members of `TABLE_SHARE` (table.h) read or written by this file. -/
structure TABLE_SHARE where
  fields : Nat := 0
  vfields : Nat := 0
  null_bytes : Nat := 0
  last_null_bit_pos : Nat := 0
  db_create_options : Nat := 0
  reclength : Nat := 0
  stored_rec_length : Nat := 0
  field : Nat → Option Field := fun _ => none
  found_next_number_field : Option Nat := none
  keys : Nat := 0
  key_parts : Nat := 0
  key_info : List KEY := []
  keynames : TYPELIB := {}
  keys_in_use : Nat := 0
  visible_indexes : Nat := 0
  primary_key : Nat := 0
  max_key_length : Nat := 0
  total_key_length : Nat := 0
  max_unique_length : Nat := 0
  crashed : Nat := 0
  system : Bool := false
  max_rows : Nat := 0
  min_rows : Nat := 0
  rowid_field_offset : Nat := 0
  db_low_byte_first : Bool := true
  db_plugin : Nat := 0
  db_options_in_use : Nat := 0
  avg_row_length : Nat := 0
  table_charset : Option CHARSET_INFO := none
  db_record_offset : Nat := 0
  real_row_type : row_type := .ROW_TYPE_DEFAULT
  row_type : row_type := .ROW_TYPE_DEFAULT
  stats_sample_pages : Nat := 0
  stats_auto_recalc : Nat := 0
  mysql_version : Nat := 0
  key_block_size : Nat := 0
  default_storage_media : Nat := 0
  tablespace : Option String := none
  comment : Option String := none
  connect_string : Option String := none
  compress : Option String := none
  encrypt_type : Option String := none
  blob_fields : Nat := 0
  blob_field : List Nat := []
  table_category : Nat := 0
  is_view : Bool := false
  view_object : Option String := none
  auto_partitioned : Bool := false
  partition_info_str : Option String := none
  partition_info_str_len : Nat := 0
  m_part_info : Option partition_info := none

/-- The members of `dd::Table` read by this file. -/
structure Table where
  columns : List Column := []
  indexes : List Index := []
  engine : String := "InnoDB"
  options : Table_options := {}
  collation_id : Nat := 8
  row_format : enum_row_format := .RF_DYNAMIC
  mysql_version_id : Nat := 0
  comment : String := ""
  partition_type : enum_partition_type := .PT_NONE
  subpartition_type : enum_subpartition_type := .ST_NONE
  partition_expression : String := ""
  subpartition_expression : String := ""
  default_partitioning : enum_default_partitioning := .DP_NONE
  default_subpartitioning : enum_default_partitioning := .DP_NONE
  partitions : List Partition := []

/-! ## The column stage -/

/-- Bit `HA_OPTION_PACK_RECORD` of `db_create_options` (my_base.h). -/
def HA_OPTION_PACK_RECORD : Nat := 1

/-- Field flag `NO_DEFAULT_VALUE_FLAG` (mysql_com.h). -/
def NO_DEFAULT_VALUE_FLAG : Nat := 4096

/-- The constant `NOT_FIXED_DEC` (my_global.h). -/
def NOT_FIXED_DEC : Nat := 31

/-- The function `fill_column_from_dd`: builds the `Field` of one column at the
given null byte, null bit position and record position, and stores it in slot
`field_nr` of `share->field`. The only failing path is an unknown collation.
The updates of the share (`vfields`, `found_next_number_field`, `field`) are
gathered in the last step. The bytes written to the default record image, the
names of the ENUM and SET elements, the storage medium, the column format and
the comment are not part of the model. -/
def fill_column_from_dd (env : Server) (share : TABLE_SHARE) (col_obj : Column)
    (null_pos null_bit_pos rec_pos field_nr : Nat) : Option TABLE_SHARE :=
  let name := col_obj.name
  let field_type := dd_get_old_field_type col_obj.type
  let field_length := col_obj.char_length
  let auto_flags : auto_flags_t :=
    { DEFAULT_NOW := !col_obj.default_option.isEmpty
      ON_UPDATE_NOW := !col_obj.update_option.isEmpty
      NEXT_NUMBER := col_obj.is_auto_increment }
  let treat_bit_as_char :=
    if field_type = .MYSQL_TYPE_BIT then col_obj.options.get_treat_bit_as_char false else false
  match env.dd_get_mysql_charset col_obj.collation_id with
  | none => none
  | some charset =>
    let decimals :=
      if field_type = .MYSQL_TYPE_DECIMAL ∨ field_type = .MYSQL_TYPE_NEWDECIMAL then
        col_obj.numeric_scale
      else if field_type = .MYSQL_TYPE_FLOAT ∨ field_type = .MYSQL_TYPE_DOUBLE then
        (if col_obj.is_numeric_scale_null then NOT_FIXED_DEC else col_obj.numeric_scale)
      else 0
    let geom_type :=
      if field_type = .MYSQL_TYPE_GEOMETRY then
        geometry_type_of_uint (col_obj.options.geom_type.getD 0)
      else geometry_type.GEOM_GEOMETRY
    let interval :=
      if field_type = .MYSQL_TYPE_ENUM ∨ field_type = .MYSQL_TYPE_SET then
        some col_obj.elements_count
      else none
    let gcol_info : Option Generated_column :=
      if !col_obj.is_generation_expression_null then
        some { field_stored := !col_obj.is_virtual, expr_str := col_obj.generation_expression }
      else none
    let vfields := if gcol_info.isSome then share.vfields + 1 else share.vfields
    let reg_field := make_field env
      { ptr := rec_pos, field_length := field_length, null_pos := null_pos,
        null_bit := null_bit_pos, field_type := field_type, field_charset := charset,
        geom_type := geom_type, auto_flags := auto_flags, interval_count := interval,
        field_name := name, maybe_null := col_obj.is_nullable,
        is_zerofill := col_obj.is_zerofill, is_unsigned := col_obj.is_unsigned,
        decimals := decimals, treat_bit_as_char := treat_bit_as_char }
    let stored_in_db :=
      match gcol_info with
      | some g => g.field_stored
      | none => true
    let found_next_number_field :=
      if auto_flags.NEXT_NUMBER then some field_nr else share.found_next_number_field
    let flags :=
      if col_obj.has_no_default then reg_field.flags ||| NO_DEFAULT_VALUE_FLAG
      else reg_field.flags
    let reg_field :=
      { reg_field with
        field_index := field_nr
        gcol_info := gcol_info
        stored_in_db := stored_in_db
        flags := flags }
    some { share with
      vfields := vfields
      found_next_number_field := found_next_number_field
      field := fun i => if i = field_nr then some reg_field else share.field i }

/-- The locals of `fill_columns_from_dd` that its two loops carry along. -/
structure column_scan where
  null_pos : Nat
  rec_pos : Nat
  null_bit_pos : Nat
  field_nr : Nat
  has_vgc : Bool
  deriving DecidableEq, Repr

/-- The tail of both loop bodies of `fill_columns_from_dd`: account for the
column in the null bits, stepping to the next null byte past bit 7, and count
the field. -/
def account_column (col_obj : Column) (c : column_scan) : column_scan :=
  let null_bit_pos := c.null_bit_pos + column_preamble_bits col_obj
  let c :=
    if null_bit_pos > 7 then
      { c with null_pos := c.null_pos + 1, null_bit_pos := null_bit_pos - 8 }
    else { c with null_bit_pos := null_bit_pos }
  { c with field_nr := c.field_nr + 1 }

/-- The expression `share->field[field_nr]->pack_length_in_rec()`, read right
after `fill_column_from_dd` has stored the field in that slot. -/
def slot_pack_length_in_rec (share : TABLE_SHARE) (field_nr : Nat) : Nat :=
  match share.field field_nr with
  | some f => f.pack_length_in_rec
  | none => 0

/-- The first loop of `fill_columns_from_dd`: hidden columns are skipped,
stored columns are compiled at the running record position, virtual ones are
only noted and accounted for. -/
def fill_columns_first_pass (env : Server) :
    List Column → TABLE_SHARE → column_scan → Option (TABLE_SHARE × column_scan)
  | [], share, c => some (share, c)
  | col_obj :: rest, share, c =>
    if col_obj.is_hidden then fill_columns_first_pass env rest share c
    else if !col_obj.is_virtual then
      match fill_column_from_dd env share col_obj c.null_pos c.null_bit_pos c.rec_pos
          c.field_nr with
      | none => none
      | some share1 =>
        let c1 := { c with rec_pos := c.rec_pos + slot_pack_length_in_rec share1 c.field_nr }
        fill_columns_first_pass env rest share1 (account_column col_obj c1)
    else
      fill_columns_first_pass env rest share (account_column col_obj { c with has_vgc := true })

/-- The second loop of `fill_columns_from_dd`: only virtual columns are
compiled, every non-hidden column is accounted for. -/
def fill_columns_second_pass (env : Server) :
    List Column → TABLE_SHARE → column_scan → Option (TABLE_SHARE × column_scan)
  | [], share, c => some (share, c)
  | col_obj2 :: rest, share, c =>
    if col_obj2.is_hidden then fill_columns_second_pass env rest share c
    else if col_obj2.is_virtual then
      match fill_column_from_dd env share col_obj2 c.null_pos c.null_bit_pos c.rec_pos
          c.field_nr with
      | none => none
      | some share1 =>
        let c1 := { c with rec_pos := c.rec_pos + slot_pack_length_in_rec share1 c.field_nr }
        fill_columns_second_pass env rest share1 (account_column col_obj2 c1)
    else
      fill_columns_second_pass env rest share (account_column col_obj2 c)

/-- The initial value of `null_bit_pos` in both passes of
`fill_columns_from_dd`: `(db_create_options & HA_OPTION_PACK_RECORD) ? 0 : 1`. -/
def initial_null_bit_pos (share : TABLE_SHARE) : Nat :=
  if share.db_create_options &&& HA_OPTION_PACK_RECORD ≠ 0 then 0 else 1

/-- The cursor with which the first pass of `fill_columns_from_dd` starts. -/
def first_pass_start (share : TABLE_SHARE) : column_scan :=
  { null_pos := 0
    rec_pos := share.null_bytes
    null_bit_pos := initial_null_bit_pos share
    field_nr := 0
    has_vgc := false }

/-- The cursor with which the second pass starts: null byte, bit position and
field number are reset, the record position continues. -/
def second_pass_start (share : TABLE_SHARE) (c : column_scan) : column_scan :=
  { c with null_pos := 0, null_bit_pos := initial_null_bit_pos share, field_nr := 0 }

/-- The body of `fill_columns_from_dd` up to its closing assertions: the share
together with the final values of the locals. -/
def fill_columns_scan (env : Server) (share : TABLE_SHARE) (tab_obj : Table) :
    Option (TABLE_SHARE × column_scan) :=
  let share := { share with field := fun _ => none, vfields := 0 }
  match fill_columns_first_pass env tab_obj.columns share (first_pass_start share) with
  | none => none
  | some (share1, c1) =>
    if c1.has_vgc then
      let share2 :=
        if share1.stored_rec_length > c1.rec_pos then
          { share1 with stored_rec_length := c1.rec_pos }
        else share1
      fill_columns_second_pass env tab_obj.columns share2 (second_pass_start share2 c1)
    else some (share1, c1)

/-- The function `fill_columns_from_dd`. -/
def fill_columns_from_dd (env : Server) (share : TABLE_SHARE) (tab_obj : Table) :
    Option TABLE_SHARE :=
  (fill_columns_scan env share tab_obj).map Prod.fst

/-- The value that the first closing assertion of `fill_columns_from_dd`
compares with `share->null_bytes`: `null_pos - null_flags + (null_bit_pos + 7) / 8`. -/
def scanned_null_bytes (c : column_scan) : Nat :=
  c.null_pos + (c.null_bit_pos + 7) / 8

/-! ## Post-processing of the keys: `prepare_share` -/

/-- The sentinel `MAX_KEY` (sql_const.h, `MAX_INDEXES`): 64 in the default build. -/
def MAX_KEY : Nat := 64

/-- Key flag `HA_NOSAME` (my_base.h). -/
def HA_NOSAME : Nat := 1

/-- Key flag `HA_NULL_PART_KEY` (my_base.h). -/
def HA_NULL_PART_KEY : Nat := 64

/-- Key flag `HA_VIRTUAL_GEN_KEY` (my_base.h). -/
def HA_VIRTUAL_GEN_KEY : Nat := 262144

/-- Key part flag `HA_PART_KEY_SEG` (my_base.h). -/
def HA_PART_KEY_SEG : Nat := 4

/-- Key part flag `HA_VAR_LENGTH_PART` (my_base.h). -/
def HA_VAR_LENGTH_PART : Nat := 8

/-- Key part flag `HA_BLOB_PART` (my_base.h). -/
def HA_BLOB_PART : Nat := 32

/-- Key part flag `HA_REVERSE_SORT` (my_base.h). -/
def HA_REVERSE_SORT : Nat := 128

/-- Key part flag `HA_BIT_PART` (my_base.h). -/
def HA_BIT_PART : Nat := 1024

/-- Width `HA_KEY_NULL_LENGTH` of the null indicator in a key image (my_base.h). -/
def HA_KEY_NULL_LENGTH : Nat := 1

/-- Width `HA_KEY_BLOB_LENGTH` of the length prefix in a key image (my_base.h). -/
def HA_KEY_BLOB_LENGTH : Nat := 2

/-- Handler flag `HA_ANY_INDEX_MAY_BE_UNIQUE` (handler.h). -/
def HA_ANY_INDEX_MAY_BE_UNIQUE : Nat := 1073741824

/-- The constant `MAX_LEN_GEOM_POINT_FIELD` (field.h): the length of a POINT,
"which is 25" in the words of `is_suitable_for_primary_key`. -/
def MAX_LEN_GEOM_POINT_FIELD : Nat := 25

/-- The constant `MAX_FIELDS_BEFORE_HASH` (sql_const.h). -/
def MAX_FIELDS_BEFORE_HASH : Nat := 32

/-- Field flag `BLOB_FLAG` (mysql_com.h). -/
def BLOB_FLAG : Nat := 16

/-- Charset state bit `MY_CS_BINSORT` (m_ctype.h). -/
def MY_CS_BINSORT : Nat := 16

/-- The string `primary_key_name` (sql_table.cc). -/
def primary_key_name : String := "PRIMARY"

/-- Conversion of a C integer expression to `uint` (32 bits). -/
def to_uint (z : Int) : Nat := (z % 4294967296).toNat

/-- Conversion of a C integer expression to `uint16`. -/
def to_uint16 (z : Int) : Nat := (z % 65536).toNat

/-- The function `is_suitable_for_primary_key`: may this key part be part of a
promoted primary key. -/
def is_suitable_for_primary_key (key_part : KEY_PART_INFO) (table_field : Field) : Bool :=
  if table_field.is_virtual_gcol then false
  else if !table_field.real_maybe_null && table_field.type = .MYSQL_TYPE_BLOB &&
      table_field.field_length = key_part.length then true
  else if !table_field.real_maybe_null && table_field.type = .MYSQL_TYPE_GEOMETRY &&
      table_field.get_geometry_type = .GEOM_POINT &&
      key_part.length = MAX_LEN_GEOM_POINT_FIELD then true
  else if table_field.real_maybe_null || table_field.key_length != key_part.length then false
  else true

/-- Comparison of two names the way `find_type` compares characters: letter
case is ignored. -/
def names_match (j x : String) : Bool :=
  j.toList.map Char.toUpper = x.toList.map Char.toUpper

/-- The scan of `find_type` over the NULL-terminated array of names, from
position `pos`. -/
def find_type_scan (x : String) : List (Option String) → Nat → Int
  | [], _ => 0
  | none :: _, _ => 0
  | some j :: rest, pos =>
    if names_match j x then (pos : Int) + 1 else find_type_scan x rest (pos + 1)

/-- Modelled from the spec: `find_type` (typelib.c) is not part of this file;
called with `FIND_TYPE_NO_PREFIX` it finds the key with an "explicit primary
designation": it answers the position, counted from 1, of the first name equal
to `x` up to letter case, and 0 when there is none or the list is empty. -/
def find_type (x : String) (typelib : TYPELIB) : Int :=
  if typelib.count = 0 then 0 else find_type_scan x typelib.type_names 0

/-- The members of `handler` that `prepare_share` reads. -/
structure handler where
  set_ha_share_ref_fails : Bool := false
  low_byte_first : Bool := true
  ha_table_flags : Nat := 0
  deriving DecidableEq, Repr

/-- The collaborators of `prepare_share`: the storage engine, the allocator and
`find_ref_key` (key.cc), which is given the keys, their number and the
auto-increment field (`none` if the slot it is read from is empty) and answers
the number of the key that starts with the field, or a negative number when
there is none. -/
structure Engine where
  supports_extended_keys : Bool := false
  my_hash_insert_fails : Bool := false
  get_new_handler : Option handler := some {}
  find_ref_key : List KEY → Nat → Option Field → Int := fun _ _ _ => 0
  alloc_root_fails : Bool := false

/-- The inner loop of the promotion test in `prepare_share`: `primary_key` has
been set to `key`; the first unsuitable part resets it to `MAX_KEY` and leaves
the loop. -/
def promotion_scan (key : Nat) : List KEY_PART_INFO → Nat
  | [] => key
  | key_part :: rest =>
    if is_suitable_for_primary_key key_part key_part.field = false then MAX_KEY
    else promotion_scan key rest

/-- The promotion test of `prepare_share` for key number `key`: only when no
primary key is known yet and the key is unique. -/
def promote_key (primary_key key : Nat) (keyinfo : KEY) : Nat :=
  if primary_key ≥ MAX_KEY ∧ keyinfo.flags &&& HA_NOSAME ≠ 0 then
    promotion_scan key (keyinfo.key_part.take keyinfo.user_defined_key_parts)
  else primary_key

/-- Modelled from the spec: `KEY_PART_INFO::init_flags` (table.cc) is not part
of this file; it marks the part as "blob/variable-character/geometry-typed" or
bit-typed and touches no other flag. -/
def KEY_PART_INFO.init_flags (key_part : KEY_PART_INFO) : KEY_PART_INFO :=
  let field := key_part.field
  if field.type = .MYSQL_TYPE_BLOB ∨ field.type = .MYSQL_TYPE_GEOMETRY then
    { key_part with key_part_flag := key_part.key_part_flag ||| HA_BLOB_PART }
  else if field.real_type = .MYSQL_TYPE_VARCHAR then
    { key_part with key_part_flag := key_part.key_part_flag ||| HA_VAR_LENGTH_PART }
  else if field.type = .MYSQL_TYPE_BIT then
    { key_part with key_part_flag := key_part.key_part_flag ||| HA_BIT_PART }
  else key_part

/-- What one turn of the key part loop of `prepare_share` carries along: the
key, the parts already handled, and the share's `crashed` marker. -/
structure key_part_scan where
  keyinfo : KEY
  done : List KEY_PART_INFO
  crashed : Nat
  deriving DecidableEq, Repr

/-- One turn of the key part loop of `prepare_share` (part number `i`). The
calls that only write to the `Field` object and to `usable_parts`
(`setup_key_part_field`, the `PART_KEY_FLAG` and `PRI_KEY_FLAG` updates) leave
no trace in the model. -/
def prepare_key_part (s : key_part_scan) (i : Nat) (key_part : KEY_PART_INFO) :
    key_part_scan :=
  let field := key_part.field
  let keyinfo := s.keyinfo
  let (key_part, keyinfo) :=
    if field.real_maybe_null then
      ({ key_part with
          null_offset := field.null_ptr
          null_bit := field.null_bit
          store_length := to_uint16 (key_part.store_length + HA_KEY_NULL_LENGTH) },
       { keyinfo with
          flags := keyinfo.flags ||| HA_NULL_PART_KEY
          key_length := to_uint (keyinfo.key_length + HA_KEY_NULL_LENGTH) })
    else (key_part, keyinfo)
  let (key_part, keyinfo) :=
    if field.type = .MYSQL_TYPE_BLOB ∨ field.real_type = .MYSQL_TYPE_VARCHAR ∨
        field.type = .MYSQL_TYPE_GEOMETRY then
      ({ key_part with store_length := to_uint16 (key_part.store_length + HA_KEY_BLOB_LENGTH) },
       if i + 1 ≤ keyinfo.user_defined_key_parts then
         { keyinfo with key_length := to_uint (keyinfo.key_length + HA_KEY_BLOB_LENGTH) }
       else keyinfo)
    else (key_part, keyinfo)
  let key_part := key_part.init_flags
  let keyinfo :=
    if field.is_virtual_gcol then { keyinfo with flags := keyinfo.flags ||| HA_VIRTUAL_GEN_KEY }
    else keyinfo
  if field.key_length ≠ key_part.length then
    if field.type = .MYSQL_TYPE_NEWDECIMAL then
      let diff : Int := (key_part.length : Int) - (field.key_length : Int)
      let keyinfo := { keyinfo with key_length := to_uint ((keyinfo.key_length : Int) - to_uint diff) }
      let key_part :=
        { key_part with
          store_length := to_uint16 ((key_part.store_length : Int) - to_uint16 diff)
          length := to_uint16 field.key_length }
      { keyinfo := keyinfo, done := s.done ++ [key_part], crashed := 1 }
    else
      let key_part := { key_part with key_part_flag := key_part.key_part_flag ||| HA_PART_KEY_SEG }
      { keyinfo := keyinfo, done := s.done ++ [key_part], crashed := s.crashed }
  else { keyinfo := keyinfo, done := s.done ++ [key_part], crashed := s.crashed }

/-- The key part loop of `prepare_share` over the user-defined parts, from
part number `i`. -/
def prepare_key_parts (s : key_part_scan) (i : Nat) : List KEY_PART_INFO → key_part_scan
  | [] => s
  | key_part :: rest => prepare_key_parts (prepare_key_part s i key_part) (i + 1) rest

/-- Modelled from the spec: `add_pk_parts_to_sk` (table.cc) is not part of this
file; the secondary key "receives the primary key's key parts appended as a
hidden suffix ... counted in `actual_key_parts`", taking the place of the
reserved slots. The result is the key and the number of parts appended. -/
def add_pk_parts_to_sk (sk : KEY) (pk : KEY) : KEY × Nat :=
  let pk_parts := pk.key_part.take pk.user_defined_key_parts
  let n := pk_parts.length
  ({ sk with
      key_part := sk.key_part.take sk.user_defined_key_parts ++ pk_parts ++
        sk.key_part.drop (sk.user_defined_key_parts + n)
      actual_key_parts := sk.actual_key_parts + n
      unused_key_parts := sk.unused_key_parts - n }, n)

/-- The macro `set_if_bigger`. -/
def set_if_bigger (a b : Nat) : Nat := if a < b then b else a

/-- The part of the loop body of `prepare_share` that works on the key itself,
after the promotion test: the key part loop, `actual_flags`, and the appended
primary-key parts. The result is the key and the share's `crashed` marker. -/
def prepare_key_info (eng : Engine) (share : TABLE_SHARE) (primary_key key : Nat)
    (keyinfo : KEY) : KEY × Nat :=
  let user_parts := keyinfo.key_part.take keyinfo.user_defined_key_parts
  let scan := prepare_key_parts { keyinfo := keyinfo, done := [], crashed := share.crashed } 0
    user_parts
  let keyinfo :=
    { scan.keyinfo with
      key_part := scan.done ++ keyinfo.key_part.drop keyinfo.user_defined_key_parts }
  let keyinfo := { keyinfo with actual_flags := keyinfo.flags }
  let use_extended_sk := eng.supports_extended_keys
  let keyinfo :=
    if use_extended_sk ∧ primary_key < MAX_KEY ∧ key ≠ 0 ∧
        keyinfo.flags &&& HA_NOSAME = 0 then
      match share.key_info[primary_key]? with
      | some pk => (add_pk_parts_to_sk keyinfo pk).1
      | none => keyinfo
    else keyinfo
  (keyinfo, scan.crashed)

/-- The body of the loop over the keys in `prepare_share`, for key number
`key`, on the share and the local `primary_key`. The cursor `key_part` of the
source stands at `keyinfo->key_part` at the head of every turn: both
`fill_indexes_from_dd` and this loop step over the user-defined parts and the
reserved room of each key (as long as no more primary-key parts are appended
than were reserved), so `key_part[i]` is part `i` of the key at hand. -/
def prepare_key (eng : Engine) (handler_file : handler) (st : TABLE_SHARE × Nat) (key : Nat) :
    TABLE_SHARE × Nat :=
  let share := st.1
  let primary_key := st.2
  match share.key_info[key]? with
  | none => st
  | some keyinfo =>
    let ha_option := handler_file.ha_table_flags
    let keyinfo := { keyinfo with name := (share.keynames.type_names[key]?).join }
    let primary_key := promote_key primary_key key keyinfo
    let r := prepare_key_info eng share primary_key key keyinfo
    let keyinfo := r.1
    let max_key_length :=
      set_if_bigger share.max_key_length (keyinfo.key_length + keyinfo.user_defined_key_parts)
    let total_key_length := share.total_key_length + keyinfo.key_length
    let max_unique_length :=
      if keyinfo.flags &&& HA_NOSAME ≠ 0 ∨ ha_option &&& HA_ANY_INDEX_MAY_BE_UNIQUE ≠ 0 then
        set_if_bigger share.max_unique_length keyinfo.key_length
      else share.max_unique_length
    ({ share with
        key_info := share.key_info.set key keyinfo
        crashed := r.2
        max_key_length := max_key_length
        total_key_length := total_key_length
        max_unique_length := max_unique_length }, primary_key)

/-- The loop over the keys in `prepare_share`: keys `0 .. share->keys - 1` in
order. -/
def prepare_keys (eng : Engine) (handler_file : handler) (share : TABLE_SHARE)
    (primary_key : Nat) : TABLE_SHARE × Nat :=
  (List.range share.keys).foldl (prepare_key eng handler_file) (share, primary_key)

/-- The test `share->keys_in_use.is_set(n)` on the key bitmap. -/
def is_set (map n : Nat) : Bool := map.testBit n

/-- The end of the key block of `prepare_share`: the local `primary_key` becomes
`share->primary_key` when it is a key in use, and a single integer column gives
the `_rowid` alias. -/
def set_primary_key (share : TABLE_SHARE) (primary_key : Nat) : TABLE_SHARE :=
  if primary_key < MAX_KEY ∧ is_set share.keys_in_use primary_key then
    let share := { share with primary_key := primary_key }
    match share.key_info[primary_key]? with
    | some pk =>
      if pk.user_defined_key_parts = 1 then
        match pk.key_part[0]? with
        | some key_part =>
          if key_part.field.result_type = .INT_RESULT then
            { share with rowid_field_offset := key_part.fieldnr }
          else share
        | none => share
      else share
    | none => share
  else { share with primary_key := MAX_KEY }

/-- The block "Fix key->name and key_part->field" of `prepare_share`: with keys,
the key named PRIMARY is looked up, the keys are processed in order and the
primary key is recorded; without keys there is no primary key. -/
def prepare_share_keys (eng : Engine) (handler_file : handler) (share : TABLE_SHARE) :
    TABLE_SHARE :=
  if share.keys ≠ 0 then
    let primary_key := to_uint (find_type primary_key_name share.keynames - 1)
    let st := prepare_keys eng handler_file share primary_key
    set_primary_key st.1 st.2
  else { share with primary_key := MAX_KEY }

/-- The function `prepare_share`, up to and including the search for the
auto-increment key; `none` is the result `true` (failure). The name hash, the
blob offsets and the column bitmap built at its ends are not carried by the
model, only their failures are. -/
def prepare_share (eng : Engine) (share : TABLE_SHARE) : Option TABLE_SHARE :=
  let share :=
    { share with system := share.max_rows = 1 ∧ share.min_rows = 1 ∧ share.keys = 0 }
  let use_hash := decide (share.fields ≥ MAX_FIELDS_BEFORE_HASH)
  if use_hash ∧ 0 < share.fields ∧ eng.my_hash_insert_fails then none
  else
    match eng.get_new_handler with
    | none => none
    | some handler_file =>
      if handler_file.set_ha_share_ref_fails then none
      else
        let share := { share with db_low_byte_first := handler_file.low_byte_first }
        let share := prepare_share_keys eng handler_file share
        if share.found_next_number_field.isSome ∧
            eng.find_ref_key share.key_info share.keys
              (share.found_next_number_field.bind share.field) < 0 then none
        else if eng.alloc_root_fails then none
        else some share

/-! ## The key stage: `fill_indexes_from_dd` and the candidate key test -/

/-- The function `fill_index_element_from_dd`: the key part of one index
element. The part points to the field in slot `fieldnr - 1` of `share->field`;
`none` stands for the dereference of an empty slot. -/
def fill_index_element_from_dd (share : TABLE_SHARE) (idx_elem_obj : Index_element)
    (keypart : KEY_PART_INFO) : Option KEY_PART_INFO :=
  let keypart := { keypart with length := to_uint16 idx_elem_obj.length }
  let keypart := { keypart with store_length := keypart.length }
  let keypart := { keypart with fieldnr := idx_elem_obj.column.ordinal_position }
  match share.field (keypart.fieldnr - 1) with
  | none => none
  | some field =>
    let keypart := { keypart with field := field, offset := field.ptr }
    let keypart :=
      { keypart with
        bin_cmp := (field.real_type ≠ .MYSQL_TYPE_VARCHAR ∧ field.real_type ≠ .MYSQL_TYPE_STRING) ∨
          field.charset.state &&& MY_CS_BINSORT ≠ 0 }
    if idx_elem_obj.order = .ORDER_DESC then
      some { keypart with key_part_flag := keypart.key_part_flag ||| HA_REVERSE_SORT }
    else some keypart

/-- Key flag `HA_PACK_KEY` (my_base.h). -/
def HA_PACK_KEY : Nat := 2

/-- Key flag `HA_BINARY_PACK_KEY` (my_base.h). -/
def HA_BINARY_PACK_KEY : Nat := 32

/-- Key flag `HA_FULLTEXT` (my_base.h). -/
def HA_FULLTEXT : Nat := 128

/-- Key flag `HA_SPATIAL` (my_base.h). -/
def HA_SPATIAL : Nat := 1024

/-- Key flag `HA_USES_COMMENT` (my_base.h). -/
def HA_USES_COMMENT : Nat := 4096

/-- Key flag `HA_GENERATED_KEY` (my_base.h). -/
def HA_GENERATED_KEY : Nat := 8192

/-- Key flag `HA_USES_PARSER` (my_base.h). -/
def HA_USES_PARSER : Nat := 16384

/-- Key flag `HA_USES_BLOCK_SIZE` (my_base.h). -/
def HA_USES_BLOCK_SIZE : Nat := 32768

/-- The function `dd_get_old_index_algorithm_type`. -/
def dd_get_old_index_algorithm_type : enum_index_algorithm → ha_key_alg
  | .IA_SE_SPECIFIC => .HA_KEY_ALG_SE_SPECIFIC
  | .IA_BTREE => .HA_KEY_ALG_BTREE
  | .IA_RTREE => .HA_KEY_ALG_RTREE
  | .IA_HASH => .HA_KEY_ALG_HASH
  | .IA_FULLTEXT => .HA_KEY_ALG_FULLTEXT

/-- The loop of `fill_index_elements_from_dd`: the non-hidden elements fill the
slots `keyinfo->key_part + i` of key `key_nr` in order. -/
def fill_index_elements_scan (key_nr : Nat) :
    List Index_element → Nat → TABLE_SHARE → Option TABLE_SHARE
  | [], _, share => some share
  | idx_elem_obj :: rest, i, share =>
    if idx_elem_obj.is_hidden then fill_index_elements_scan key_nr rest i share
    else
      let keyinfo := share.key_info.getD key_nr {}
      match fill_index_element_from_dd share idx_elem_obj (keyinfo.key_part.getD i {}) with
      | none => none
      | some keypart =>
        let keyinfo := { keyinfo with key_part := keyinfo.key_part.set i keypart }
        fill_index_elements_scan key_nr rest (i + 1)
          { share with key_info := share.key_info.set key_nr keyinfo }

/-- The function `fill_index_elements_from_dd`; `none` stands for the
dereference of an empty field slot in `fill_index_element_from_dd`. -/
def fill_index_elements_from_dd (share : TABLE_SHARE) (idx_obj : Index) (key_nr : Nat) :
    Option TABLE_SHARE :=
  fill_index_elements_scan key_nr idx_obj.elements 0 share

/-- The function `fill_index_from_dd`: name, algorithm, visibility, number of
user-defined parts, flags, key length and options of key `key_nr`. It fails
when the full-text parser plugin named by the index is not loaded. -/
def fill_index_from_dd (env : Server) (share : TABLE_SHARE) (idx_obj : Index) (key_nr : Nat) :
    Option TABLE_SHARE :=
  let keyinfo := share.key_info.getD key_nr {}
  let name := idx_obj.name
  let keyinfo := if !name.isEmpty then { keyinfo with name := some name } else keyinfo
  let type_names :=
    if !name.isEmpty then share.keynames.type_names.set key_nr (some name)
    else share.keynames.type_names
  let keyinfo :=
    { keyinfo with
      algorithm := dd_get_old_index_algorithm_type idx_obj.algorithm
      is_algorithm_explicit := idx_obj.is_algorithm_explicit
      is_visible := idx_obj.is_visible
      user_defined_key_parts := idx_obj.elements.countP (fun (idx_ele : Index_element) => !idx_ele.is_hidden) }
  let flags :=
    match idx_obj.type with
    | .IT_MULTIPLE => 0
    | .IT_FULLTEXT => HA_FULLTEXT
    | .IT_SPATIAL => HA_SPATIAL
    | .IT_PRIMARY => HA_NOSAME
    | .IT_UNIQUE => HA_NOSAME
  let flags := if idx_obj.is_generated then flags ||| HA_GENERATED_KEY else flags
  let key_length :=
    idx_obj.elements.foldl
      (fun (len : Nat) (idx_elem : Index_element) =>
        if !idx_elem.is_hidden then to_uint (len + idx_elem.length) else len) 0
  let stored_flags := idx_obj.options.flags.getD 0
  let flags := flags ||| stored_flags
  let block_size := idx_obj.options.block_size.getD keyinfo.block_size
  let flags := if idx_obj.options.block_size.isSome then flags ||| HA_USES_BLOCK_SIZE else flags
  let parser_found :=
    match idx_obj.options.parser_name with
    | some pn => env.my_plugin_lock_by_name pn
    | none => true
  if !parser_found then none
  else
    let flags := if idx_obj.options.parser_name.isSome then flags ||| HA_USES_PARSER else flags
    let flags := if idx_obj.comment.length ≠ 0 then flags ||| HA_USES_COMMENT else flags
    let keyinfo :=
      { keyinfo with
        flags := flags
        key_length := key_length
        block_size := block_size
        parser := if idx_obj.options.parser_name.isSome then idx_obj.options.parser_name
          else keyinfo.parser
        comment := idx_obj.comment }
    some { share with
      key_info := share.key_info.set key_nr keyinfo
      keynames := { share.keynames with type_names := type_names } }

/-- The sizing loop of `fill_indexes_from_dd`: counts the non-hidden indexes and
their non-hidden elements, and notes the number of parts of the index at
ordinal position 1. -/
def count_indexes : List Index → TABLE_SHARE × Nat → TABLE_SHARE × Nat
  | [], st => st
  | idx_obj :: rest, (share, primary_key_parts) =>
    if idx_obj.is_hidden then count_indexes rest (share, primary_key_parts)
    else
      let share := { share with keys := share.keys + 1 }
      let key_parts := idx_obj.elements.countP (fun (idx_ele : Index_element) => !idx_ele.is_hidden)
      let share := { share with key_parts := share.key_parts + key_parts }
      let primary_key_parts :=
        if idx_obj.ordinal_position = 1 then key_parts else primary_key_parts
      count_indexes rest (share, primary_key_parts)

/-- The first filling loop of `fill_indexes_from_dd`: every non-hidden index is
compiled by `fill_index_from_dd`, remembered in `index_at_pos` and marked in
`keys_in_use` (and in `visible_indexes` if it is visible). -/
def fill_keys_scan (env : Server) :
    List Index → Nat → TABLE_SHARE × List Index → Option (TABLE_SHARE × List Index)
  | [], _, st => some st
  | idx_obj :: rest, key_nr, (share, index_at_pos) =>
    if idx_obj.is_hidden then fill_keys_scan env rest key_nr (share, index_at_pos)
    else
      match fill_index_from_dd env share idx_obj key_nr with
      | none => none
      | some share =>
        let index_at_pos := index_at_pos ++ [idx_obj]
        let share := { share with keys_in_use := share.keys_in_use ||| (1 <<< key_nr) }
        let share :=
          if idx_obj.is_visible then
            { share with visible_indexes := share.visible_indexes ||| (1 <<< key_nr) }
          else share
        fill_keys_scan env rest (key_nr + 1) (share, index_at_pos)

/-- One turn of the `do ... while` loop of `fill_indexes_from_dd`: key `key_nr`
gets its run of key part slots (the user-defined parts, and the room for the
primary-key parts if the key will be extended), the user-defined parts are
filled, and the part counters are set. -/
def fill_key_parts (use_extended_sk : Bool) (primary_key_parts : Nat) (index_at_pos : List Index)
    (share : TABLE_SHARE) (key_nr : Nat) : Option TABLE_SHARE :=
  let keyinfo := share.key_info.getD key_nr {}
  let extended := use_extended_sk ∧ key_nr ≠ 0 ∧ keyinfo.flags &&& HA_NOSAME = 0
  let room := if extended then primary_key_parts else 0
  let keyinfo :=
    { keyinfo with key_part := List.replicate (keyinfo.user_defined_key_parts + room) {} }
  let share := { share with key_info := share.key_info.set key_nr keyinfo }
  match fill_index_elements_from_dd share (index_at_pos.getD key_nr {}) key_nr with
  | none => none
  | some share =>
    let keyinfo := share.key_info.getD key_nr {}
    let keyinfo := { keyinfo with actual_key_parts := keyinfo.user_defined_key_parts }
    let keyinfo :=
      if extended then { keyinfo with unused_key_parts := primary_key_parts } else keyinfo
    let share := { share with key_info := share.key_info.set key_nr keyinfo }
    some (if extended then { share with key_parts := share.key_parts + primary_key_parts }
      else share)

/-- The `do ... while (key_nr < share->keys)` loop of `fill_indexes_from_dd`,
entered only with at least one key. -/
def fill_keys_parts (use_extended_sk : Bool) (primary_key_parts : Nat) (index_at_pos : List Index)
    (share : TABLE_SHARE) : Option TABLE_SHARE :=
  (List.range share.keys).foldl
    (fun st key_nr => st.bind (fun sh =>
      fill_key_parts use_extended_sk primary_key_parts index_at_pos sh key_nr))
    (some share)

/-- The function `fill_indexes_from_dd`; `none` is a failure (an allocation, a
parser plugin that is not loaded) or the dereference of an empty field slot.
The statistics arrays `rec_per_key` are not part of the model. -/
def fill_indexes_from_dd (env : Server) (eng : Engine) (share : TABLE_SHARE) (tab_obj : Table) :
    Option TABLE_SHARE :=
  let use_extended_sk := eng.supports_extended_keys
  let counted := count_indexes tab_obj.indexes (share, 0)
  let share := counted.1
  let primary_key_parts := counted.2
  let share := { share with keys_in_use := 0, visible_indexes := 0 }
  if share.keys ≠ 0 then
    if eng.alloc_root_fails then none
    else
      let share :=
        { share with
          key_info := List.replicate share.keys {}
          keynames := { count := share.keys, type_names := List.replicate share.keys none } }
      match fill_keys_scan env tab_obj.indexes 0 (share, []) with
      | none => none
      | some (share, index_at_pos) =>
        fill_keys_parts use_extended_sk primary_key_parts index_at_pos share
  else some share

/-- The function `dd_index_element_is_prefix`: the element is shorter or longer
than the key length `calc_key_length` gives for the whole column. -/
def dd_index_element_is_prefix (env : Server) (idx_el : Index_element) : Bool :=
  let col := idx_el.column
  let field_type := dd_get_old_field_type col.type
  let interval_parts :=
    if field_type = .MYSQL_TYPE_ENUM ∨ field_type = .MYSQL_TYPE_SET then col.elements_count else 0
  env.calc_key_length field_type col.char_length col.numeric_scale col.is_unsigned
    interval_parts != idx_el.length

/-- The loop of `dd_index_is_candidate_key` over the index elements. -/
def candidate_key_scan (env : Server) : List Index_element → Bool
  | [] => true
  | idx_elem_obj :: rest =>
    if idx_elem_obj.is_hidden then candidate_key_scan env rest
    else if idx_elem_obj.column.is_nullable then false
    else if (idx_elem_obj.column.type = .TINY_BLOB ∧ idx_elem_obj.length = 255) ∨
        (idx_elem_obj.column.type = .BLOB ∧ idx_elem_obj.length = 65535) ∨
        (idx_elem_obj.column.type = .MEDIUM_BLOB ∧ idx_elem_obj.length = 16777215) ∨
        (idx_elem_obj.column.type = .LONG_BLOB ∧ idx_elem_obj.length = 4294967295) then
      candidate_key_scan env rest
    else if idx_elem_obj.column.type = .GEOMETRY ∧
        (geometry_type_of_uint (idx_elem_obj.column.options.geom_type.getD 0) = .GEOM_POINT ∧
          idx_elem_obj.length = MAX_LEN_GEOM_POINT_FIELD) then
      candidate_key_scan env rest
    else if dd_index_element_is_prefix env idx_elem_obj then false
    else candidate_key_scan env rest

/-- The function `dd_index_is_candidate_key`. -/
def dd_index_is_candidate_key (env : Server) (idx_obj : Index) : Bool :=
  if idx_obj.type ≠ .IT_PRIMARY ∧ idx_obj.type ≠ .IT_UNIQUE then false
  else candidate_key_scan env idx_obj.elements

/-! ## Vocabulary of the statements -/

/-- The columns that the loops of `fill_columns_from_dd` do not skip, in logical
order. -/
def visible_columns (cols : List Column) : List Column :=
  cols.filter (fun col_obj => !col_obj.is_hidden)

/-- Sum of `column_preamble_bits` over the non-hidden columns. -/
def preamble_bits_sum (cols : List Column) : Nat :=
  ((visible_columns cols).map column_preamble_bits).sum

/-- Number of null bits of a table: the initial bit position of the scan plus
the preamble bits of its non-hidden columns. -/
def total_null_bits (share : TABLE_SHARE) (cols : List Column) : Nat :=
  initial_null_bit_pos share + preamble_bits_sum cols

/-- Every non-hidden column of the list has a collation that resolves: the
condition under which `fill_columns_from_dd` does not fail. -/
def collations_resolve (env : Server) (cols : List Column) : Prop :=
  ∀ col_obj ∈ cols, col_obj.is_hidden = false →
    (env.dd_get_mysql_charset col_obj.collation_id).isSome = true

/-- The field `f` is the one `fill_column_from_dd` builds for the column
`col_obj` when called with these positions and this field number. -/
def is_field_of (f : Field) (col_obj : Column) (null_pos null_bit_pos rec_pos field_nr : Nat) :
    Prop :=
  f.ptr = rec_pos ∧ f.null_ptr = null_pos ∧ f.null_bit_pos = null_bit_pos ∧
    f.field_index = field_nr ∧ f.field_name = col_obj.name ∧
    f.maybe_null = col_obj.is_nullable

/-- The members of the share that `fill_column_from_dd` leaves alone, as far as
the column stage reads them. -/
def same_layout_inputs (a b : TABLE_SHARE) : Prop :=
  a.null_bytes = b.null_bytes ∧ a.db_create_options = b.db_create_options ∧
    a.stored_rec_length = b.stored_rec_length ∧ a.fields = b.fields

/-- The key qualifies for promotion in `prepare_share`: it is unique and
`is_suitable_for_primary_key` accepts every user-defined key part. -/
def qualifies (keyinfo : KEY) : Prop :=
  keyinfo.flags &&& HA_NOSAME ≠ 0 ∧
    ∀ key_part ∈ keyinfo.key_part.take keyinfo.user_defined_key_parts,
      is_suitable_for_primary_key key_part key_part.field = true

/-- The key with number `k` of the list qualifies for promotion. -/
def qualifies_at (key_info : List KEY) (k : Nat) : Prop :=
  match key_info[k]? with
  | some keyinfo => qualifies keyinfo
  | none => False

instance (keyinfo : KEY) : Decidable (qualifies keyinfo) :=
  inferInstanceAs (Decidable (keyinfo.flags &&& HA_NOSAME ≠ 0 ∧
    ∀ key_part ∈ keyinfo.key_part.take keyinfo.user_defined_key_parts,
      is_suitable_for_primary_key key_part key_part.field = true))

instance (key_info : List KEY) (k : Nat) : Decidable (qualifies_at key_info k) :=
  show Decidable (match key_info[k]? with
    | some keyinfo => qualifies keyinfo
    | none => False) from
  match key_info[k]? with
  | some keyinfo => inferInstanceAs (Decidable (qualifies keyinfo))
  | none => inferInstanceAs (Decidable False)

/-- The local `primary_key` of `prepare_share` after the first `n` turns of the
loop over the keys, computed from the keys as they are before the loop. -/
def promoted_key (key_info : List KEY) (primary_key : Nat) (n : Nat) : Nat :=
  (List.range n).foldl
    (fun pk k =>
      match key_info[k]? with
      | some keyinfo => promote_key pk k keyinfo
      | none => pk)
    primary_key

/-- The indexes that the loops of `fill_indexes_from_dd` do not skip, in
order. -/
def listed_indexes (indexes : List Index) : List Index :=
  indexes.filter (fun idx_obj => !idx_obj.is_hidden)

/-- The number of keys, the map of keys in use and the number of key names are
the same in both shares. -/
def same_key_maps (a b : TABLE_SHARE) : Prop :=
  a.keys = b.keys ∧ a.keys_in_use = b.keys_in_use ∧
    a.keynames.type_names.length = b.keynames.type_names.length

/-- Both loops of `fill_columns_from_dd` in one: the columns selected by `sel`
are compiled, the others are only accounted for, and with `mark` they set
`has_vgc`. -/
def columns_pass (env : Server) (sel : Column → Bool) (mark : Bool) :
    List Column → TABLE_SHARE → column_scan → Option (TABLE_SHARE × column_scan)
  | [], share, c => some (share, c)
  | col_obj :: rest, share, c =>
    if col_obj.is_hidden then columns_pass env sel mark rest share c
    else if sel col_obj then
      match fill_column_from_dd env share col_obj c.null_pos c.null_bit_pos c.rec_pos
          c.field_nr with
      | none => none
      | some share1 =>
        let c1 := { c with rec_pos := c.rec_pos + slot_pack_length_in_rec share1 c.field_nr }
        columns_pass env sel mark rest share1 (account_column col_obj c1)
    else
      columns_pass env sel mark rest share
        (account_column col_obj (if mark then { c with has_vgc := true } else c))

/-- The null cursor `(null_pos, null_bit_pos)` after accounting for one column. -/
def null_cursor_step (p : Nat × Nat) (col_obj : Column) : Nat × Nat :=
  let c := account_column col_obj
    { null_pos := p.1, null_bit_pos := p.2, rec_pos := 0, field_nr := 0, has_vgc := false }
  (c.null_pos, c.null_bit_pos)

/-- The null cursor after accounting for a list of (non-hidden) columns. -/
def null_cursor_after (cols : List Column) (p : Nat × Nat) : Nat × Nat :=
  cols.foldl null_cursor_step p

/-- What one pass over the columns has done when it ends with the share
`share1` and the cursor `c1`, having started from `share` and `c`. -/
structure pass_result (sel : Column → Bool) (mark : Bool) (cols : List Column)
    (share : TABLE_SHARE) (c : column_scan) (share1 : TABLE_SHARE) (c1 : column_scan) :
    Prop where
  layout : same_layout_inputs share1 share
  field_nr : c1.field_nr = c.field_nr + (visible_columns cols).length
  rec_pos : c.rec_pos ≤ c1.rec_pos
  null_cursor : (c1.null_pos, c1.null_bit_pos) =
    null_cursor_after (visible_columns cols) (c.null_pos, c.null_bit_pos)
  has_vgc : c1.has_vgc =
    (c.has_vgc || (mark && (visible_columns cols).any (fun col_obj => !sel col_obj)))
  below : ∀ i, i < c.field_nr → share1.field i = share.field i
  above : ∀ i, c1.field_nr ≤ i → share1.field i = share.field i
  skipped : ∀ k col_obj, (visible_columns cols)[k]? = some col_obj → sel col_obj = false →
    share1.field (c.field_nr + k) = share.field (c.field_nr + k)
  compiled : ∀ k col_obj, (visible_columns cols)[k]? = some col_obj → sel col_obj = true →
    ∃ f, share1.field (c.field_nr + k) = some f ∧
      is_field_of f col_obj
        (null_cursor_after ((visible_columns cols).take k) (c.null_pos, c.null_bit_pos)).1
        (null_cursor_after ((visible_columns cols).take k) (c.null_pos, c.null_bit_pos)).2
        f.ptr (c.field_nr + k) ∧
      c.rec_pos ≤ f.ptr ∧ f.ptr + f.pack_length_in_rec ≤ c1.rec_pos

/-! ## Example inputs -/

/-- An example server: collation ids 1 to 999 resolve, the parser `ngram` is
loaded; a BIT field keeps
`field_length / 8` whole bytes in the record body (its remaining bits live in
the preamble) unless it is treated as a character field, integers have their
usual widths, other types take `field_length` bytes. -/
def example_server : Server where
  dd_get_mysql_charset := fun id => if 0 < id ∧ id < 1000 then some { number := id } else none
  field_class := fun a =>
    match a.field_type with
    | .MYSQL_TYPE_BIT =>
      if a.treat_bit_as_char then
        { type := .MYSQL_TYPE_BIT, real_type := .MYSQL_TYPE_BIT, field_length := a.field_length,
          key_length := (a.field_length + 7) / 8, pack_length := (a.field_length + 7) / 8,
          pack_length_in_rec := (a.field_length + 7) / 8 }
      else
        { type := .MYSQL_TYPE_BIT, real_type := .MYSQL_TYPE_BIT, field_length := a.field_length,
          key_length := (a.field_length + 7) / 8, pack_length := (a.field_length + 7) / 8,
          pack_length_in_rec := a.field_length / 8 }
    | .MYSQL_TYPE_TINY =>
      { type := .MYSQL_TYPE_TINY, real_type := .MYSQL_TYPE_TINY, field_length := a.field_length,
        key_length := 1, pack_length := 1, pack_length_in_rec := 1 }
    | .MYSQL_TYPE_LONG =>
      { type := .MYSQL_TYPE_LONG, real_type := .MYSQL_TYPE_LONG, field_length := a.field_length,
        key_length := 4, pack_length := 4, pack_length_in_rec := 4 }
    | .MYSQL_TYPE_LONGLONG =>
      { type := .MYSQL_TYPE_LONGLONG, real_type := .MYSQL_TYPE_LONGLONG,
        field_length := a.field_length, key_length := 8, pack_length := 8,
        pack_length_in_rec := 8 }
    | t =>
      { type := t, real_type := t, result_type := .STRING_RESULT, field_length := a.field_length,
        key_length := a.field_length, pack_length := a.field_length,
        pack_length_in_rec := a.field_length }
  calc_key_length := fun t len _ _ _ =>
    match t with
    | .MYSQL_TYPE_TINY => 1
    | .MYSQL_TYPE_LONG => 4
    | .MYSQL_TYPE_LONGLONG => 8
    | .MYSQL_TYPE_BIT => (len + 7) / 8
    | _ => len
  my_plugin_lock_by_name := fun name => name = "ngram"

/-- An example table: a nullable integer, a BIT(10) column, a hidden column, and
a nullable virtual generated integer. -/
def example_table : Table where
  columns :=
    [ { name := "a", type := .LONG, is_nullable := true, char_length := 11, ordinal_position := 1 },
      { name := "b", type := .BIT, char_length := 10, ordinal_position := 2,
        options := { treat_bit_as_char := some false } },
      { name := "h", type := .LONGLONG, is_hidden := true, char_length := 20,
        ordinal_position := 3 },
      { name := "v", type := .LONG, is_nullable := true, is_virtual := true,
        is_generation_expression_null := false, generation_expression := "a + 1",
        char_length := 11, ordinal_position := 4 } ]

/-- An example share for `example_table`, as `fill_share_from_dd` leaves it:
one null byte, a record of 1 + 4 + 1 + 4 bytes. -/
def example_share : TABLE_SHARE :=
  { fields := 3, null_bytes := 1, reclength := 10, stored_rec_length := 10 }

/-- An example table that starts with a virtual generated column, so that slot
0 is filled by the second pass. -/
def example_table_virtual_first : Table where
  columns :=
    [ { name := "v", type := .LONG, is_nullable := true, is_virtual := true,
        is_generation_expression_null := false, generation_expression := "a + 1",
        char_length := 11, ordinal_position := 1 },
      { name := "a", type := .LONG, is_nullable := true, char_length := 11,
        ordinal_position := 2 } ]

/-- The example share with the packed-record option set. -/
def example_share_packed : TABLE_SHARE :=
  { example_share with db_create_options := HA_OPTION_PACK_RECORD }

/-- An example table with a stored BIT(3) column, which has no whole byte in the
record body, followed by a virtual generated integer. -/
def example_table_bit : Table where
  columns :=
    [ { name := "b", type := .BIT, char_length := 3, ordinal_position := 1,
        options := { treat_bit_as_char := some false } },
      { name := "v", type := .LONG, is_virtual := true,
        is_generation_expression_null := false, generation_expression := "b + 1",
        char_length := 11, ordinal_position := 2 } ]

/-- The initial null bit position in the words of the specification: "starting
at bit 0 (or bit 1 if the packed record option is set)". -/
def initial_null_bit_pos_as_specified (share : TABLE_SHARE) : Nat :=
  if share.db_create_options &&& HA_OPTION_PACK_RECORD ≠ 0 then 1 else 0

/-- The null bit position of the field in slot 0 after `fill_columns_from_dd`. -/
def first_field_null_bit_pos (env : Server) (share : TABLE_SHARE) (tab_obj : Table) :
    Option Nat :=
  (fill_columns_from_dd env share tab_obj).bind
    (fun share1 => (share1.field 0).map (fun f => f.null_bit_pos))

/-- The record offset `Field::ptr` of the field in slot `k` after
`fill_columns_from_dd`. -/
def field_offset (env : Server) (share : TABLE_SHARE) (tab_obj : Table) (k : Nat) : Option Nat :=
  (fill_columns_from_dd env share tab_obj).bind
    (fun share1 => (share1.field k).map (fun f => f.ptr))

/-- A NOT NULL integer field. -/
def int_field : Field := { field_name := "a", ptr := 1, field_index := 0 }

/-- A nullable integer field. -/
def nullable_int_field : Field :=
  { field_name := "n", ptr := 5, field_index := 1, maybe_null := true, null_bit_pos := 1 }

/-- A NOT NULL integer field of a virtual generated column. -/
def virtual_int_field : Field :=
  { field_name := "v", ptr := 9, field_index := 2,
    gcol_info := some { field_stored := false, expr_str := "a + 1" }, stored_in_db := false }

/-- A key over the whole of one integer field. -/
def int_key (name : String) (flags : Nat) (field : Field) : KEY :=
  { name := some name, flags := flags, key_length := 4, user_defined_key_parts := 1,
    actual_key_parts := 1,
    key_part := [{ field := field, length := 4, store_length := 4,
                   fieldnr := field.field_index + 1, offset := field.ptr }] }

/-- An example share with three unique keys: `un` on a nullable column, then
`u1` and `u2` on NOT NULL columns. -/
def example_key_share : TABLE_SHARE :=
  { fields := 3, keys := 3, key_parts := 3,
    key_info := [int_key "un" HA_NOSAME nullable_int_field, int_key "u1" HA_NOSAME int_field,
      int_key "u2" HA_NOSAME int_field],
    keynames := { count := 3, type_names := [some "un", some "u1", some "u2"] },
    keys_in_use := 7, visible_indexes := 7 }

/-- An example share whose only key is unique and lies on a NOT NULL virtual
generated column, over its whole length. -/
def example_virtual_key_share : TABLE_SHARE :=
  { fields := 3, keys := 1, key_parts := 1,
    key_info := [int_key "uv" HA_NOSAME virtual_int_field],
    keynames := { count := 1, type_names := [some "uv"] },
    keys_in_use := 1, visible_indexes := 1 }

/-- A NOT NULL BLOB field: its `key_length()` is 0, its `field_length` 65535. -/
def blob_field : Field :=
  { field_name := "t", ptr := 13, field_index := 3,
    cls := { type := .MYSQL_TYPE_BLOB, real_type := .MYSQL_TYPE_BLOB,
             result_type := .STRING_RESULT, field_length := 65535, key_length := 0,
             pack_length := 10, pack_length_in_rec := 10, flags := BLOB_FLAG } }

/-- A unique index over the whole of the column of `example_virtual_table`. -/
def example_virtual_index : Index where
  name := "uv"
  type := .IT_UNIQUE
  elements :=
    [ { column :=
          { name := "v", type := .LONG, is_virtual := true,
            is_generation_expression_null := false, generation_expression := "1",
            char_length := 11, ordinal_position := 1 },
        length := 4 } ]

/-- A table with one column, a NOT NULL virtual generated integer, and the unique
index `example_virtual_index` on it. -/
def example_virtual_table : Table where
  columns :=
    [ { name := "v", type := .LONG, is_virtual := true,
        is_generation_expression_null := false, generation_expression := "1",
        char_length := 11, ordinal_position := 1 } ]
  indexes := [example_virtual_index]

/-- The stages of `open_table_def` modelled here, in its order:
`fill_columns_from_dd`, `fill_indexes_from_dd`, then `prepare_share`. -/
def compile_columns_and_keys (env : Server) (eng : Engine) (share : TABLE_SHARE)
    (tab_obj : Table) : Option TABLE_SHARE :=
  ((fill_columns_from_dd env share tab_obj).bind
    (fun share1 => fill_indexes_from_dd env eng share1 tab_obj)).bind
    (fun share2 => prepare_share eng share2)

/-- The answers of `is_suitable_for_primary_key` for the key parts that
`fill_index_element_from_dd` builds for the elements of an index, on the fields
that `fill_columns_from_dd` builds for a table. -/
def compiled_parts_suitable (env : Server) (share : TABLE_SHARE) (tab_obj : Table)
    (idx_obj : Index) : Option (List (Option Bool)) :=
  (fill_columns_from_dd env share tab_obj).map (fun share1 =>
    (idx_obj.elements.filter (fun e => !e.is_hidden)).map (fun idx_elem_obj =>
      (fill_index_element_from_dd share1 idx_elem_obj {}).map (fun key_part =>
        is_suitable_for_primary_key key_part key_part.field)))

/-- Sum of `pack_length_in_rec()` over the fields that a pass has compiled: the
columns of the list selected by `sel`, the first of them in slot `k`. -/
def compiled_width (sel : Column → Bool) (share : TABLE_SHARE) : List Column → Nat → Nat
  | [], _ => 0
  | col_obj :: rest, k =>
    (if sel col_obj then slot_pack_length_in_rec share k else 0) +
      compiled_width sel share rest (k + 1)

/-- Sum of `pack_length_in_rec()` over the fields of the stored (non-hidden,
non-virtual) columns of a table, read from the slots of the share. -/
def stored_columns_width (share : TABLE_SHARE) (cols : List Column) : Nat :=
  compiled_width (fun col_obj => !col_obj.is_virtual) share (visible_columns cols) 0

/-- The share as `fill_columns_from_dd` sees it when its first loop starts (the
field slots are empty, no generated column is counted yet). -/
def columns_start (share : TABLE_SHARE) : TABLE_SHARE :=
  { share with field := fun _ => none, vfields := 0 }

/-- The same table with no column marked virtual: `fill_columns_from_dd` then
compiles every column in its first pass and defers none. -/
def undeferred (tab_obj : Table) : Table :=
  { tab_obj with
    columns := tab_obj.columns.map (fun col_obj => { col_obj with is_virtual := false }) }

/-- The record offset at which the first pass of `fill_columns_from_dd` ends. -/
def first_pass_offset (env : Server) (share : TABLE_SHARE) (tab_obj : Table) : Option Nat :=
  (fill_columns_first_pass env tab_obj.columns (columns_start share)
    (first_pass_start (columns_start share))).map (fun r => r.2.rec_pos)

/-- The field of the key part is of a type with a length prefix in the key
image: a BLOB type, a VARCHAR real type or a GEOMETRY type. -/
def has_length_bytes (field : Field) : Prop :=
  field.type = .MYSQL_TYPE_BLOB ∨ field.real_type = .MYSQL_TYPE_VARCHAR ∨
    field.type = .MYSQL_TYPE_GEOMETRY

instance (field : Field) : Decidable (has_length_bytes field) :=
  inferInstanceAs (Decidable (field.type = .MYSQL_TYPE_BLOB ∨
    field.real_type = .MYSQL_TYPE_VARCHAR ∨ field.type = .MYSQL_TYPE_GEOMETRY))

/-- The decimal clamp of `prepare_share` applies to the key part: its length
differs from the column's `key_length()` and it lies on a NEWDECIMAL column. -/
def decimal_clamp_applies (key_part : KEY_PART_INFO) : Prop :=
  key_part.field.key_length ≠ key_part.length ∧ key_part.field.type = .MYSQL_TYPE_NEWDECIMAL

instance (key_part : KEY_PART_INFO) : Decidable (decimal_clamp_applies key_part) :=
  inferInstanceAs (Decidable (key_part.field.key_length ≠ key_part.length ∧
    key_part.field.type = .MYSQL_TYPE_NEWDECIMAL))

/-- What one turn of the key part loop of `prepare_share` does to the key part
itself, written out member by member (`prepare_key_part_done` shows that this
is the part the loop body leaves). -/
def prepared_part (key_part : KEY_PART_INFO) : KEY_PART_INFO :=
  let field := key_part.field
  let store_length :=
    if field.real_maybe_null then to_uint16 (key_part.store_length + HA_KEY_NULL_LENGTH)
    else key_part.store_length
  let store_length :=
    if has_length_bytes field then to_uint16 (store_length + HA_KEY_BLOB_LENGTH)
    else store_length
  let flagged :=
    ({ key_part with
      null_offset := if field.real_maybe_null then field.null_ptr else key_part.null_offset
      null_bit := if field.real_maybe_null then field.null_bit else key_part.null_bit
      store_length := store_length } : KEY_PART_INFO).init_flags
  if decimal_clamp_applies key_part then
    { flagged with
      store_length := to_uint16 ((store_length : Int) -
        to_uint16 ((key_part.length : Int) - (field.key_length : Int)))
      length := to_uint16 field.key_length }
  else if field.key_length ≠ key_part.length then
    { flagged with key_part_flag := flagged.key_part_flag ||| HA_PART_KEY_SEG }
  else flagged

/-- What one turn of the key part loop of `prepare_share` (part number `i`) does
to the key, written out member by member (`prepare_key_part_keyinfo` shows that
this is the key the loop body leaves). -/
def prepared_key (keyinfo : KEY) (i : Nat) (key_part : KEY_PART_INFO) : KEY :=
  let field := key_part.field
  let flags := if field.real_maybe_null then keyinfo.flags ||| HA_NULL_PART_KEY else keyinfo.flags
  let flags := if field.is_virtual_gcol then flags ||| HA_VIRTUAL_GEN_KEY else flags
  let key_length :=
    if field.real_maybe_null then to_uint (keyinfo.key_length + HA_KEY_NULL_LENGTH)
    else keyinfo.key_length
  let key_length :=
    if has_length_bytes field ∧ i + 1 ≤ keyinfo.user_defined_key_parts then
      to_uint (key_length + HA_KEY_BLOB_LENGTH)
    else key_length
  let key_length :=
    if decimal_clamp_applies key_part then
      to_uint ((key_length : Int) - to_uint ((key_part.length : Int) - (field.key_length : Int)))
    else key_length
  { keyinfo with flags := flags, key_length := key_length }

/-- The guard in front of the call of `add_pk_parts_to_sk` in `prepare_share`,
for key number `key` with the local `primary_key` as it is in that turn. -/
def extension_applies (eng : Engine) (primary_key key : Nat) (keyinfo : KEY) : Prop :=
  eng.supports_extended_keys = true ∧ primary_key < MAX_KEY ∧ key ≠ 0 ∧
    keyinfo.flags &&& HA_NOSAME = 0

instance (eng : Engine) (primary_key key : Nat) (keyinfo : KEY) :
    Decidable (extension_applies eng primary_key key keyinfo) :=
  inferInstanceAs (Decidable (eng.supports_extended_keys = true ∧ primary_key < MAX_KEY ∧
    key ≠ 0 ∧ keyinfo.flags &&& HA_NOSAME = 0))

/-- The share and the local `primary_key` of `prepare_share` after the first `n`
turns of its loop over the keys. -/
def keys_state (eng : Engine) (handler_file : handler) (share : TABLE_SHARE) (primary_key : Nat)
    (n : Nat) : TABLE_SHARE × Nat :=
  (List.range n).foldl (prepare_key eng handler_file) (share, primary_key)

/-- The decimal clamp applies to one of the user-defined parts of the key. -/
def has_clamped_part (keyinfo : KEY) : Prop :=
  ∃ key_part ∈ keyinfo.key_part.take keyinfo.user_defined_key_parts,
    decimal_clamp_applies key_part

instance (keyinfo : KEY) : Decidable (has_clamped_part keyinfo) :=
  inferInstanceAs (Decidable (∃ key_part ∈ keyinfo.key_part.take keyinfo.user_defined_key_parts,
    decimal_clamp_applies key_part))

/-- The share on which the key block of `prepare_share` works: `system` and
`db_low_byte_first` have been set. -/
def keys_input (handler_file : handler) (share : TABLE_SHARE) : TABLE_SHARE :=
  { share with
    system := share.max_rows = 1 ∧ share.min_rows = 1 ∧ share.keys = 0
    db_low_byte_first := handler_file.low_byte_first }

/-- The local `primary_key` with which the loop over the keys of `prepare_share`
starts: the position of the key named PRIMARY, or a value of at least
`MAX_KEY`. -/
def named_primary_key (share : TABLE_SHARE) : Nat :=
  to_uint (find_type primary_key_name share.keynames - 1)

/-- The key as `prepare_share` has it after the key part loop and the copy of
the flags to `actual_flags`, before the guard of `add_pk_parts_to_sk`. -/
def key_after_parts (share : TABLE_SHARE) (keyinfo : KEY) : KEY :=
  let scan := prepare_key_parts { keyinfo := keyinfo, done := [], crashed := share.crashed } 0
    (keyinfo.key_part.take keyinfo.user_defined_key_parts)
  { scan.keyinfo with
    key_part := (keyinfo.key_part.take keyinfo.user_defined_key_parts).map prepared_part ++
      keyinfo.key_part.drop keyinfo.user_defined_key_parts
    actual_flags := scan.keyinfo.flags }

/-- An example table with keys: a NOT NULL integer `id`, a nullable VARCHAR(20)
`name` and a NOT NULL DECIMAL `amount` whose `key_length()` is 5 on the example
server; the primary key on `id`, a descending non-unique key on `name`, and a
non-unique key on `amount` whose recorded length 7 is not the column's key
length. -/
def example_keyed_table : Table where
  columns :=
    [ { name := "id", type := .LONG, char_length := 11, ordinal_position := 1 },
      { name := "name", type := .VARCHAR, is_nullable := true, char_length := 20,
        ordinal_position := 2 },
      { name := "amount", type := .NEWDECIMAL, char_length := 5, numeric_scale := 2,
        ordinal_position := 3 } ]
  indexes :=
    [ { name := "PRIMARY", type := .IT_PRIMARY, ordinal_position := 1,
        elements := [ { column := { name := "id", type := .LONG, char_length := 11,
                                    ordinal_position := 1 },
                        length := 4 } ] },
      { name := "by_name", type := .IT_MULTIPLE, ordinal_position := 2,
        elements := [ { column := { name := "name", type := .VARCHAR, is_nullable := true,
                                    char_length := 20, ordinal_position := 2 },
                        length := 20, order := .ORDER_DESC } ] },
      { name := "by_amount", type := .IT_MULTIPLE, ordinal_position := 3,
        elements := [ { column := { name := "amount", type := .NEWDECIMAL, char_length := 5,
                                    numeric_scale := 2, ordinal_position := 3 },
                        length := 7 } ] } ]

/-- An example share for `example_keyed_table`: one null byte, a record of
1 + 4 + 20 + 5 bytes. -/
def example_keyed_share : TABLE_SHARE :=
  { fields := 3, null_bytes := 1, reclength := 30, stored_rec_length := 30 }

/-- The share of `example_keyed_table` after `fill_columns_from_dd`. -/
def example_columns_share : TABLE_SHARE :=
  (fill_columns_from_dd example_server example_keyed_share example_keyed_table).getD {}

/-- The share of `example_keyed_table` after `fill_columns_from_dd` and
`fill_indexes_from_dd`, as `prepare_share` receives it. -/
def example_keys_share (eng : Engine) : TABLE_SHARE :=
  (fill_indexes_from_dd example_server eng example_columns_share example_keyed_table).getD {}

/-- The element of the key `by_name` of `example_keyed_table`. -/
def example_name_element : Index_element :=
  { column := { name := "name", type := .VARCHAR, is_nullable := true, char_length := 20,
                ordinal_position := 2 },
    length := 20, order := .ORDER_DESC }

/-- The element of the key `by_amount` of `example_keyed_table`. -/
def example_amount_element : Index_element :=
  { column := { name := "amount", type := .NEWDECIMAL, char_length := 5, numeric_scale := 2,
                ordinal_position := 3 },
    length := 7 }

/-- An engine with the extended-keys capability. -/
def extended_engine : Engine := { supports_extended_keys := true }

/-- The share of `example_keyed_table` after `prepare_share`. -/
def example_prepared_share (eng : Engine) : TABLE_SHARE :=
  (prepare_share eng (example_keys_share eng)).getD {}

/-- The key part that `fill_index_element_from_dd` builds for an index element
on the columns of `example_keyed_table`. -/
def example_key_part (idx_elem_obj : Index_element) : KEY_PART_INFO :=
  (fill_index_element_from_dd example_columns_share idx_elem_obj {}).getD {}

/-- The table `example_keyed_table` with the recorded length of the key on
`amount` set to 3, below the column's key length 5. -/
def example_short_decimal_table : Table :=
  { example_keyed_table with
    indexes :=
      [ { name := "PRIMARY", type := .IT_PRIMARY, ordinal_position := 1,
          elements := [ { column := { name := "id", type := .LONG, char_length := 11,
                                      ordinal_position := 1 },
                          length := 4 } ] },
        { name := "by_amount", type := .IT_MULTIPLE, ordinal_position := 2,
          elements := [ { column := { name := "amount", type := .NEWDECIMAL, char_length := 5,
                                      numeric_scale := 2, ordinal_position := 3 },
                          length := 3 } ] } ] }

/-- The share of `example_short_decimal_table` after `fill_columns_from_dd` and
`fill_indexes_from_dd`. -/
def example_short_decimal_share : TABLE_SHARE :=
  (fill_indexes_from_dd example_server {} example_columns_share
    example_short_decimal_table).getD {}

/-- Key length of key `k`, and length and store length of its part 0. -/
def key_lengths (share : TABLE_SHARE) (k : Nat) : Option (Nat × Nat × Nat) :=
  (share.key_info[k]?).bind (fun keyinfo =>
    (keyinfo.key_part[0]?).map (fun key_part =>
      (keyinfo.key_length, key_part.length, key_part.store_length)))

/-- The collaborators of the partition stage: the allocator (`strdup_root`,
`alloc_root`, `multi_alloc_root`, the placement `new`), `List::push_back`, the
lookup `dd::get_tablespace_name` (`none` is its failure) and the parsers
`dd::Properties::to_int64` and `dd::Properties::to_uint64` (`none` is the
result `true`, a text that is not a number of that kind); the objects that the
constructors of `partition_info` and `partition_element` build; the
`handlerton` pointer `plugin_data<handlerton *>(ha_resolve_by_name_raw(...))`
of an engine name (0 is NULL); `dd::eat_str` on the rest of a text, which
gives the next field name and what is left after it (`none` is the result
`true`); and `generate_partition_syntax` (`none` is NULL). -/
structure Partition_env where
  alloc_root_fails : Bool := false
  push_back_fails : Bool := false
  get_tablespace_name : Partition → Option (Option String) := fun _ => some none
  to_int64 : String → Option Int := fun _ => none
  to_uint64 : String → Option Nat := fun _ => none
  new_partition_info : partition_info := {}
  new_partition_element : partition_element := {}
  plugin_data : String → Nat := fun _ => 1
  eat_str : List Char → Option (String × List Char) := fun _ => none
  generate_partition_syntax : partition_info → Option String := fun _ => some ""

/-- The constant `UNDEF_NODEGROUP` (partition_element.h). -/
def UNDEF_NODEGROUP : Nat := 65535

/-- The function `copy_option_string`: NULL for an empty or absent option. -/
def copy_option_string (value : String) : Option String :=
  if value.length ≠ 0 then some value else none

/-- The function `get_partition_options`; `nodegroup_id` is a `uint16` member. -/
def get_partition_options (part_elem : partition_element) (part_options : Partition_options) :
    partition_element :=
  { part_elem with
    part_max_rows := part_options.max_rows.getD part_elem.part_max_rows
    part_min_rows := part_options.min_rows.getD part_elem.part_min_rows
    data_file_name := copy_option_string part_options.data_file_name
    index_file_name := copy_option_string part_options.index_file_name
    nodegroup_id := to_uint16 (part_options.nodegroup_id.getD UNDEF_NODEGROUP) }

/-- The store through `(ulonglong*) &range_value`: the 64 bits of an unsigned
number read back as a `longlong`. -/
def to_longlong (u : Nat) : Int :=
  if u % 18446744073709551616 < 9223372036854775808 then (u % 18446744073709551616 : Nat)
  else ((u % 18446744073709551616 : Nat) : Int) - 18446744073709551616

/-- The body of the second loop of `get_part_column_values`: the value entry
marks or fills the cell `col_vals[column_num]` of the row
`p_elem_values[list_num]`. The copy made by `strmake_root` is taken to
succeed. -/
def store_column_value (p_elem_values : List part_elem_value) (part_value : Partition_value) :
    List part_elem_value :=
  let p_val := p_elem_values.getD part_value.list_num {}
  let col_vals := p_val.col_val_array
  let cell := col_vals.getD part_value.column_num {}
  let cell :=
    if part_value.is_value_null then { cell with null_value := true }
    else if part_value.max_value then { cell with max_value := true }
    else { cell with value_str := some part_value.value_utf8 }
  p_elem_values.set part_value.list_num
    { p_val with col_val_array := col_vals.set part_value.column_num cell }

/-- The function `get_part_column_values`; `none` is the result `true`. The
assertions compiled only into debug builds (`DBUG_ASSERT`) are not part of the
model. -/
def get_part_column_values (penv : Partition_env) (part_info : partition_info)
    (part_elem : partition_element) (part_obj : Partition) :
    Option (partition_info × partition_element) :=
  let max_column_id := part_obj.values.foldl (fun m part_value => max m part_value.column_num) 0
  let max_list_index := part_obj.values.foldl (fun m part_value => max m part_value.list_num) 0
  let entries := to_uint part_obj.values.length
  if entries ≠ to_uint (to_uint (max_column_id + 1) * to_uint (max_list_index + 1)) then none
  else
    let part_info := { part_info with num_columns := to_uint (max_column_id + 1) }
    if penv.alloc_root_fails then none
    else
      let p_elem_values : List part_elem_value :=
        List.replicate (max_list_index + 1)
          { added_items := 1, col_val_array := List.replicate part_info.num_columns {} }
      let p_elem_values := part_obj.values.foldl store_column_value p_elem_values
      if penv.push_back_fails then none
      else
        some (part_info,
          { part_elem with list_val_list := part_elem.list_val_list ++ p_elem_values })

/-- The test `part_value->value_utf8()[0] == '-'`. -/
def starts_with_minus (value_utf8 : String) : Bool :=
  value_utf8.toList.head? = some '-'

/-- The index into `list_val_array` that the non-column LIST branch of
`setup_partition_from_dd` computes for a value entry with list number
`list_num`. -/
def list_value_index (has_null_value : Bool) (null_entry list_num : Nat) : Nat :=
  if has_null_value ∧ list_num > null_entry then to_uint ((list_num : Int) - 1) else list_num

/-- The first loop of the non-column LIST branch: `(max_index, entries,
has_null_value, null_entry)`. -/
def list_scan (values : List Partition_value) (has_null_value : Bool) :
    Nat × Nat × Bool × Nat :=
  values.foldl
    (fun st part_value =>
      let max_index := max st.1 part_value.list_num
      let entries := to_uint (st.2.1 + 1)
      if part_value.value_utf8.isEmpty then (max_index, entries, true, part_value.list_num)
      else (max_index, entries, st.2.2.1, st.2.2.2))
    (0, 0, has_null_value, 0)

/-- The second loop of the non-column LIST branch: every non-empty value is
parsed into its slot of `list_val_array`; `none` is a failed parse. A slot
outside the array is not stored. -/
def list_store (penv : Partition_env) (has_null_value : Bool) (null_entry : Nat) :
    List Partition_value → List part_elem_value → Option (List part_elem_value)
  | [], list_val_array => some list_val_array
  | part_value :: rest, list_val_array =>
    if part_value.value_utf8.isEmpty then
      list_store penv has_null_value null_entry rest list_val_array
    else
      let list_index := list_value_index has_null_value null_entry part_value.list_num
      let list_val := list_val_array.getD list_index {}
      if starts_with_minus part_value.value_utf8 then
        match penv.to_int64 part_value.value_utf8 with
        | none => none
        | some v =>
          list_store penv has_null_value null_entry rest
            (list_val_array.set list_index { list_val with unsigned_flag := false, value := v })
      else
        match penv.to_uint64 part_value.value_utf8 with
        | none => none
        | some u =>
          list_store penv has_null_value null_entry rest
            (list_val_array.set list_index
              { list_val with unsigned_flag := true, value := to_longlong u })

/-- The function `setup_partition_from_dd`; `none` is the result `true`. In the
non-column RANGE branch the single value entry is the first of the list
(`*part_obj->values().begin()`); with no entry at all the source dereferences
the end of the list, which is `none` here. -/
def setup_partition_from_dd (penv : Partition_env) (part_info : partition_info)
    (part_elem : partition_element) (part_obj : Partition) ( is_subpart : Bool) :
    Option (partition_info × partition_element) :=
  if part_obj.comment.length ≠ 0 ∧ penv.alloc_root_fails then none
  else
    let part_elem :=
      if part_obj.comment.length ≠ 0 then { part_elem with part_comment := some part_obj.comment }
      else part_elem
    if penv.alloc_root_fails then none
    else
      let part_elem := { part_elem with partition_name := some part_obj.name }
      let part_elem := { part_elem with engine_type := part_info.default_engine_type }
      let part_elem := get_partition_options part_elem part_obj.options
      match penv.get_tablespace_name part_obj with
      | none => none
      | some tablespace_name =>
        let part_elem := { part_elem with tablespace_name := tablespace_name }
        if is_subpart then some (part_info, part_elem)
        else if part_info.part_type = .RANGE then
          if part_info.column_list then get_part_column_values penv part_info part_elem part_obj
          else
            match part_obj.values with
            | [] => none
            | part_value :: _ =>
              if part_value.max_value then some (part_info, { part_elem with max_value := true })
              else if starts_with_minus part_value.value_utf8 then
                match penv.to_int64 part_value.value_utf8 with
                | none => none
                | some v =>
                  some (part_info, { part_elem with signed_flag := true, range_value := v })
              else
                match penv.to_uint64 part_value.value_utf8 with
                | none => none
                | some u =>
                  some (part_info,
                    { part_elem with signed_flag := false, range_value := to_longlong u })
        else if part_info.part_type = .LIST then
          if part_info.column_list then get_part_column_values penv part_info part_elem part_obj
          else
            let scan := list_scan part_obj.values part_elem.has_null_value
            let max_index := scan.1
            let entries := scan.2.1
            let part_elem := { part_elem with has_null_value := scan.2.2.1 }
            let null_entry := scan.2.2.2
            if entries ≠ to_uint (max_index + 1) then none
            else
              let entries := if part_elem.has_null_value then to_uint ((entries : Int) - 1) else entries
              if entries ≠ 0 ∧ penv.alloc_root_fails then none
              else
                let list_val_array : List part_elem_value := List.replicate entries {}
                match list_store penv part_elem.has_null_value null_entry part_obj.values
                    list_val_array with
                | none => none
                | some list_val_array =>
                  if entries ≠ 0 ∧ penv.push_back_fails then none
                  else
                    some (part_info,
                      { part_elem with
                        list_val_list := part_elem.list_val_list ++ list_val_array })
        else some (part_info, part_elem)

/-- The largest `column_num` among the value entries of a partition, 0 without
entries: the local `max_column_id` of `get_part_column_values` after its first
loop. -/
def max_column_num (part_obj : Partition) : Nat :=
  part_obj.values.foldl (fun m part_value => max m part_value.column_num) 0

/-- The largest `list_num` among the value entries of a partition, 0 without
entries: the local `max_list_index` of `get_part_column_values` after its first
loop. -/
def max_list_num (part_obj : Partition) : Nat :=
  part_obj.values.foldl (fun m part_value => max m part_value.list_num) 0

/-- What one value entry does to the cell it addresses. -/
def write_cell (cell : part_column_list_val) (part_value : Partition_value) :
    part_column_list_val :=
  if part_value.is_value_null then { cell with null_value := true }
  else if part_value.max_value then { cell with max_value := true }
  else { cell with value_str := some part_value.value_utf8 }

/-- The value entries that address the cell `(list_index, column_index)`. -/
def entries_of_cell (values : List Partition_value) (list_index column_index : Nat) :
    List Partition_value :=
  values.filter (fun part_value =>
    decide (part_value.list_num = list_index ∧ part_value.column_num = column_index))

/-- The cell `(list_index, column_index)` as the value entries that address it
leave it, starting from a zeroed cell. -/
def written_cell (values : List Partition_value) (list_index column_index : Nat) :
    part_column_list_val :=
  (entries_of_cell values list_index column_index).foldl write_cell {}

/-- The cell `(list_index, column_index)` of a value matrix. -/
def cell_at (p_elem_values : List part_elem_value) (list_index column_index : Nat) :
    part_column_list_val :=
  ((p_elem_values.getD list_index {}).col_val_array).getD column_index {}

/-- The cell is present: flagged null, flagged max-value, or holding a literal
string (the condition of the debug assertion of `get_part_column_values`). -/
def cell_present (cell : part_column_list_val) : Bool :=
  cell.null_value || cell.max_value || cell.value_str.isSome

/-- The value matrix has `rows` rows of `columns` cells each. -/
def matrix_shape (rows columns : Nat) (p_elem_values : List part_elem_value) : Prop :=
  p_elem_values.length = rows ∧ ∀ p_val ∈ p_elem_values, p_val.col_val_array.length = columns

/-- A partition with the six value entries of a 3 by 2 matrix: list numbers 0
to 2, column numbers 0 and 1. -/
def example_matrix_partition : Partition where
  name := "p0"
  values :=
    [ { list_num := 0, column_num := 0, value_utf8 := "1" },
      { list_num := 0, column_num := 1, value_utf8 := "a" },
      { list_num := 1, column_num := 0, value_utf8 := "2" },
      { list_num := 1, column_num := 1, is_value_null := true },
      { list_num := 2, column_num := 0, value_utf8 := "3" },
      { list_num := 2, column_num := 1, max_value := true } ]

/-- The partition `example_matrix_partition` without its last value entry: five
entries, still with the largest list number 2 and the largest column number
1. -/
def example_short_partition : Partition :=
  { example_matrix_partition with values := example_matrix_partition.values.take 5 }

/-- A partition with two value entries for the cell `(0, 1)` and none for the
cell `(0, 0)`. -/
def example_duplicate_partition : Partition where
  name := "p0"
  values :=
    [ { list_num := 0, column_num := 1, value_utf8 := "a" },
      { list_num := 0, column_num := 1, value_utf8 := "b" } ]

/-- An example of `partition_info` for a table partitioned by LIST COLUMNS. -/
def example_list_columns_info : partition_info :=
  { part_type := .LIST, column_list := true }

/-- An example of the collaborators of the partition stage: allocations
succeed, no tablespace is named, and the parsers know the texts "2000" and
"-5" (each of its own kind). -/
def example_partition_env : Partition_env where
  to_int64 := fun s => if s = "-5" then some (-5) else none
  to_uint64 := fun s => if s = "2000" then some 2000 else none

/-- An example of `partition_info` for a table partitioned by RANGE over an
expression. -/
def example_range_info : partition_info :=
  { part_type := .RANGE, column_list := false }

/-- A RANGE partition `VALUES LESS THAN (2000)`. -/
def example_range_partition : Partition :=
  { name := "p0", values := [ { value_utf8 := "2000" } ] }

/-- A RANGE partition `VALUES LESS THAN (-5)`. -/
def example_negative_partition : Partition :=
  { name := "p0", values := [ { value_utf8 := "-5" } ] }

/-- A RANGE partition `VALUES LESS THAN MAXVALUE`. -/
def example_maxvalue_partition : Partition :=
  { name := "p1", number := 1, values := [ { max_value := true } ] }

/-- A RANGE partition whose value text is not a number. -/
def example_bad_range_partition : Partition :=
  { name := "p0", values := [ { value_utf8 := "abc" } ] }

/-! ## The partition stage: `set_field_list` and `fill_partitioning_from_dd` -/

/-- How a run that gives no share ends: the function returns `true`, or it
executes an operation without defined behaviour (a division by zero, the
dereference of a NULL pointer) and returns nothing. -/
inductive stage_failure where
  | returns_true
  | undefined_behaviour
  deriving DecidableEq, Repr

/-- The call `strdup_root(mem_root, str.c_str())`: NULL when the allocation
fails. -/
def strdup_root (penv : Partition_env) (str : String) : Option String :=
  if penv.alloc_root_fails then none else some str

/-- The loop `while (it != end)` of `set_field_list`, on the text between the
iterator and the end: `dd::eat_str` takes the next field name, which is copied
and appended to the list. The loop is run for at most `fuel` turns; it ends
within as many turns as the text has characters whenever every call of
`dd::eat_str` consumes at least one. -/
def set_field_list_loop (penv : Partition_env) :
    Nat → List Char → List String → Option (List String)
  | 0, it, field_list => if it.isEmpty then some field_list else none
  | fuel + 1, it, field_list =>
    if it.isEmpty then some field_list
    else
      match penv.eat_str it with
      | none => none
      | some (field_name, it1) =>
        if penv.alloc_root_fails then none
        else if penv.push_back_fails then none
        else set_field_list_loop penv fuel it1 (field_list ++ [field_name])

/-- The function `set_field_list`; `none` is the result `true`. -/
def set_field_list (penv : Partition_env) (str : String) (field_list : List String) :
    Option (List String) :=
  set_field_list_loop penv str.length str.toList field_list

/-- The switch of `fill_partitioning_from_dd` on `tab_obj->partition_type()`,
with the cases that fall through written out; `none` is its `default:` case,
which returns `true`. The assignment `share->auto_partitioned= true` of the
case `PT_AUTO` is made in `fill_partitioning_from_dd` below. -/
def set_partition_type (part_info : partition_info) :
    enum_partition_type → Option partition_info
  | .PT_RANGE_COLUMNS =>
    some { part_info with column_list := true, list_of_part_fields := true, part_type := .RANGE }
  | .PT_RANGE => some { part_info with part_type := .RANGE }
  | .PT_LIST_COLUMNS =>
    some { part_info with column_list := true, list_of_part_fields := true, part_type := .LIST }
  | .PT_LIST => some { part_info with part_type := .LIST }
  | .PT_LINEAR_HASH => some { part_info with linear_hash_ind := true, part_type := .HASH }
  | .PT_HASH => some { part_info with part_type := .HASH }
  | .PT_LINEAR_KEY_51 =>
    some { part_info with
      linear_hash_ind := true, key_algorithm := .KEY_ALGORITHM_51, list_of_part_fields := true,
      part_type := .HASH }
  | .PT_KEY_51 =>
    some { part_info with
      key_algorithm := .KEY_ALGORITHM_51, list_of_part_fields := true, part_type := .HASH }
  | .PT_LINEAR_KEY_55 =>
    some { part_info with
      linear_hash_ind := true, key_algorithm := .KEY_ALGORITHM_55, list_of_part_fields := true,
      part_type := .HASH }
  | .PT_KEY_55 =>
    some { part_info with
      key_algorithm := .KEY_ALGORITHM_55, list_of_part_fields := true, part_type := .HASH }
  | .PT_AUTO_LINEAR =>
    some { part_info with
      linear_hash_ind := true, key_algorithm := .KEY_ALGORITHM_55, part_type := .HASH,
      list_of_part_fields := true, is_auto_partitioned := true }
  | .PT_AUTO =>
    some { part_info with
      key_algorithm := .KEY_ALGORITHM_55, part_type := .HASH, list_of_part_fields := true,
      is_auto_partitioned := true }
  | .PT_NONE => none
  | .PT_OTHER => none

/-- The switch of `fill_partitioning_from_dd` on `tab_obj->subpartition_type()`,
with the cases that fall through written out; `none` is its `default:` case,
which returns `true`. -/
def set_subpartition_type (part_info : partition_info) :
    enum_subpartition_type → Option partition_info
  | .ST_NONE => some { part_info with subpart_type := .NONE }
  | .ST_LINEAR_HASH => some { part_info with linear_hash_ind := true, subpart_type := .HASH }
  | .ST_HASH => some { part_info with subpart_type := .HASH }
  | .ST_LINEAR_KEY_51 =>
    some { part_info with
      linear_hash_ind := true, key_algorithm := .KEY_ALGORITHM_51, list_of_subpart_fields := true,
      subpart_type := .HASH }
  | .ST_KEY_51 =>
    some { part_info with
      key_algorithm := .KEY_ALGORITHM_51, list_of_subpart_fields := true, subpart_type := .HASH }
  | .ST_LINEAR_KEY_55 =>
    some { part_info with
      linear_hash_ind := true, key_algorithm := .KEY_ALGORITHM_55, list_of_subpart_fields := true,
      subpart_type := .HASH }
  | .ST_KEY_55 =>
    some { part_info with
      key_algorithm := .KEY_ALGORITHM_55, list_of_subpart_fields := true, subpart_type := .HASH }
  | .ST_OTHER => none

/-- The part of `fill_partitioning_from_dd` that stores the partition
expression and the subpartition expression: as a list of field names when the
scheme lists fields, as a copy of the text otherwise. Lengths are counted in
bytes. The result of `strdup_root` is not checked by the source. -/
def set_partition_expressions (penv : Partition_env) (tab_obj : Table)
    (part_info : partition_info) : Option partition_info :=
  let part_expr := tab_obj.partition_expression
  let filled : Option partition_info :=
    if part_info.list_of_part_fields then
      match set_field_list penv part_expr part_info.part_field_list with
      | none => none
      | some part_field_list =>
        some { part_info with
          part_field_list := part_field_list, part_func_string := none, part_func_len := 0 }
    else
      some { part_info with
        part_func_string := strdup_root penv part_expr
        part_func_len := part_expr.utf8ByteSize }
  match filled with
  | none => none
  | some part_info =>
    let subpart_expr := tab_obj.subpartition_expression
    let part_info := { part_info with subpart_func_len := subpart_expr.utf8ByteSize }
    if part_info.subpart_func_len ≠ 0 then
      if part_info.list_of_subpart_fields then
        match set_field_list penv subpart_expr part_info.subpart_field_list with
        | none => none
        | some subpart_field_list =>
          some { part_info with
            subpart_field_list := subpart_field_list, subpart_func_string := none,
            subpart_func_len := 0 }
      else some { part_info with subpart_func_string := strdup_root penv subpart_expr }
    else some part_info

/-- The locals that the loop of `fill_partitioning_from_dd` over the partitions
carries along, with `part_info`. The pointer `curr_part` is the position, in
`part_info->partitions`, of the element it points to (`none` is NULL); the
iterator `part_elem_it` is the position of the element that `part_elem_it++`
gives next. -/
structure partition_scan where
  part_info : partition_info
  curr_part : Option Nat := none
  part_elem_it : Nat := 0
  num_subparts : Nat := 0
  deriving DecidableEq, Repr

/-- The call `curr_part->subpartitions.push_back(curr_part_elem)`, for the
element at position `i` of the list of partitions. -/
def push_subpartition (partitions : List partition_node) (i : Nat)
    (curr_part_elem : partition_element) : List partition_node :=
  match partitions[i]? with
  | some node =>
    partitions.set i { node with subpartitions := node.subpartitions ++ [curr_part_elem] }
  | none => partitions

/-- The body of the loop of `fill_partitioning_from_dd` over the partitions,
for one `dd::Partition`; `size` is `tab_obj->partitions().size()`. A record of
level 0 is appended to the list of partitions. A record of another level is a
subpartition: with `curr_part` still NULL the iterator is set to the first
partition and the number of subpartitions per partition is computed; when the
number of the record is a multiple of it, `curr_part` moves to the element the
iterator gives (NULL past the last one); the record is appended to the
subpartitions of `curr_part`. The division by a list of partitions without
elements, the remainder by zero subpartitions and the dereference of a NULL
`curr_part` have no defined behaviour. -/
def add_partition (penv : Partition_env) (size : Nat) (s : partition_scan)
    (part_obj : Partition) : Except stage_failure partition_scan :=
  let part_id := part_obj.number
  let level := part_obj.level
  let is_subpart := decide (level ≠ 0)
  if penv.alloc_root_fails then .error .returns_true
  else
    match setup_partition_from_dd penv s.part_info penv.new_partition_element part_obj
        is_subpart with
    | none => .error .returns_true
    | some (part_info, curr_part_elem) =>
      if !is_subpart then
        if penv.push_back_fails then .error .returns_true
        else
          .ok { s with
            part_info :=
              { part_info with
                partitions := part_info.partitions ++ [{ elem := curr_part_elem }] } }
      else
        let elements := part_info.partitions.length
        if s.curr_part.isNone ∧ elements = 0 then .error .undefined_behaviour
        else
          let part_elem_it := if s.curr_part.isNone then 0 else s.part_elem_it
          let num_subparts :=
            if s.curr_part.isNone then to_uint (((size - elements) / elements : Nat) : Int)
            else s.num_subparts
          if num_subparts = 0 then .error .undefined_behaviour
          else
            let advance := decide (part_id % num_subparts = 0)
            let curr_part :=
              if advance then (if part_elem_it < elements then some part_elem_it else none)
              else s.curr_part
            let part_elem_it := if advance then part_elem_it + 1 else part_elem_it
            match curr_part with
            | none => .error .undefined_behaviour
            | some i =>
              if penv.push_back_fails then .error .returns_true
              else
                .ok
                  { part_info :=
                      { part_info with
                        partitions := push_subpartition part_info.partitions i curr_part_elem }
                    curr_part := some i
                    part_elem_it := part_elem_it
                    num_subparts := num_subparts }

/-- The loop of `fill_partitioning_from_dd` over `tab_obj->partitions()`. -/
def add_partitions (penv : Partition_env) (size : Nat) :
    List Partition → partition_scan → Except stage_failure partition_scan
  | [], s => .ok s
  | part_obj :: rest, s =>
    match add_partition penv size s part_obj with
    | .error e => .error e
    | .ok s1 => add_partitions penv size rest s1

/-- The assignments of `num_parts` and `num_subparts` after the loop of
`fill_partitioning_from_dd`. -/
def set_partition_counts (s : partition_scan) : partition_info :=
  let part_info := { s.part_info with num_parts := s.part_info.partitions.length }
  match s.curr_part with
  | some i =>
    { part_info with num_subparts := (part_info.partitions.getD i {}).subpartitions.length }
  | none => { part_info with num_subparts := 0 }

/-- The switch of `fill_partitioning_from_dd` on `tab_obj->default_partitioning()`. -/
def set_default_partitioning (part_info : partition_info) :
    enum_default_partitioning → partition_info
  | .DP_NO =>
    { part_info with use_default_partitions := false, use_default_num_partitions := false }
  | .DP_YES =>
    { part_info with use_default_partitions := true, use_default_num_partitions := true }
  | .DP_NUMBER =>
    { part_info with use_default_partitions := true, use_default_num_partitions := false }
  | .DP_NONE => part_info
  | .DP_OTHER => part_info

/-- The switch of `fill_partitioning_from_dd` on
`tab_obj->default_subpartitioning()`. -/
def set_default_subpartitioning (part_info : partition_info) :
    enum_default_partitioning → partition_info
  | .DP_NO =>
    { part_info with use_default_subpartitions := false, use_default_num_subpartitions := false }
  | .DP_YES =>
    { part_info with use_default_subpartitions := true, use_default_num_subpartitions := true }
  | .DP_NUMBER =>
    { part_info with use_default_subpartitions := true, use_default_num_subpartitions := false }
  | .DP_NONE => part_info
  | .DP_OTHER => part_info

/-- The head of `fill_partitioning_from_dd`, for a partitioned table: the new
`partition_info` with its engine, what the two switches on the partition type
and the subpartition type set, and the two expressions. The object built by
`new partition_info` is used without a check: when the allocation fails, the
assignment to `part_info->default_engine_type` dereferences NULL. -/
def partition_info_from_dd (penv : Partition_env) (tab_obj : Table) :
    Except stage_failure partition_info :=
  if penv.alloc_root_fails then .error .undefined_behaviour
  else
    let part_info := penv.new_partition_info
    let hton := penv.plugin_data tab_obj.engine
    let part_info := { part_info with default_engine_type := hton }
    if part_info.default_engine_type = 0 then .error .returns_true
    else
      match set_partition_type part_info tab_obj.partition_type with
      | none => .error .returns_true
      | some part_info =>
        match set_subpartition_type part_info tab_obj.subpartition_type with
        | none => .error .returns_true
        | some part_info =>
          match set_partition_expressions penv tab_obj part_info with
          | none => .error .returns_true
          | some part_info => .ok part_info

/-- The function `fill_partitioning_from_dd`. The assertions compiled only into
debug builds are not part of the model. -/
def fill_partitioning_from_dd (penv : Partition_env) (share : TABLE_SHARE) (tab_obj : Table) :
    Except stage_failure TABLE_SHARE :=
  if tab_obj.partition_type = .PT_NONE then .ok share
  else
    match partition_info_from_dd penv tab_obj with
    | .error e => .error e
    | .ok part_info =>
      let share :=
        if tab_obj.partition_type = .PT_AUTO ∨ tab_obj.partition_type = .PT_AUTO_LINEAR then
          { share with auto_partitioned := true }
        else share
      match add_partitions penv tab_obj.partitions.length tab_obj.partitions
          { part_info := part_info } with
      | .error e => .error e
      | .ok scan =>
        let part_info := set_partition_counts scan
        let part_info := set_default_partitioning part_info tab_obj.default_partitioning
        let part_info := set_default_subpartitioning part_info tab_obj.default_subpartitioning
        match penv.generate_partition_syntax part_info with
        | none => .error .returns_true
        | some buf =>
          if penv.alloc_root_fails then .error .returns_true
          else
            .ok { share with
              partition_info_str := some buf
              partition_info_str_len := buf.utf8ByteSize
              m_part_info := some part_info }

/-! ## The table stage: `fill_share_from_dd`, and `open_table_def` -/

/-- Bit `HA_OPTION_PACK_KEYS` of `db_create_options` (my_base.h). -/
def HA_OPTION_PACK_KEYS : Nat := 2

/-- Bit `HA_OPTION_CHECKSUM` of `db_create_options` (my_base.h). -/
def HA_OPTION_CHECKSUM : Nat := 32

/-- Bit `HA_OPTION_DELAY_KEY_WRITE` of `db_create_options` (my_base.h). -/
def HA_OPTION_DELAY_KEY_WRITE : Nat := 64

/-- Bit `HA_OPTION_NO_PACK_KEYS` of `db_create_options` (my_base.h). -/
def HA_OPTION_NO_PACK_KEYS : Nat := 128

/-- Bit `HA_OPTION_STATS_PERSISTENT` of `db_create_options` (my_base.h). -/
def HA_OPTION_STATS_PERSISTENT : Nat := 4096

/-- Bit `HA_OPTION_NO_STATS_PERSISTENT` of `db_create_options` (my_base.h). -/
def HA_OPTION_NO_STATS_PERSISTENT : Nat := 8192

/-- The value `HA_SM_DEFAULT` of `enum ha_storage_media` (handler.h). -/
def HA_SM_DEFAULT : Nat := 0

/-- The values of `dd::enum_table_type` named by `open_table_def`. -/
inductive enum_table_type where
  | BASE_TABLE | USER_VIEW | SYSTEM_VIEW
  deriving DecidableEq, Repr

/-- The collaborators of `fill_share_from_dd` and `open_table_def`: the plugin
that `ha_resolve_by_name_raw` finds for an engine name (0 is NULL), the
default character set, the value that the local `bool_opt` of
`fill_share_from_dd` holds before anything is stored in it, the cast of a
stored number to `dd::Table::enum_row_format`, the function
`prepare_default_value_buffer_and_table_share` and the lookup
`dd::get_tablespace_name` (`none` is the result `true` of either), and for
`open_table_def` the answers of the dictionary: `dd::schema_exists` and
`dd::abstract_table_type` (`none` is a failed call), the view that `acquire`
gives (`none` a failed call, `some none` no view), the table that `acquire`
gives (`none` leaves `table_def` NULL), and `get_table_category`. -/
structure Session where
  ha_resolve_by_name_raw : String → Nat := fun _ => 1
  default_charset_info : CHARSET_INFO := {}
  bool_opt : Bool := false
  row_format_of_option : Nat → enum_row_format := fun _ => .RF_OTHER
  prepare_default_value_buffer_and_table_share : Table → TABLE_SHARE → Option TABLE_SHARE :=
    fun _ share => some share
  get_tablespace_name : Table → Option (Option String) := fun _ => some none
  schema_exists : Option Bool := some true
  abstract_table_type : Option enum_table_type := some .BASE_TABLE
  acquire_view : Option (Option String) := some none
  acquire_table : Option Table := none
  get_table_category : Nat := 0

/-- The function `dd_get_old_row_format`; a value that the switch does not name
leaves it and gives `ROW_TYPE_FIXED`. -/
def dd_get_old_row_format : enum_row_format → row_type
  | .RF_FIXED => .ROW_TYPE_FIXED
  | .RF_DYNAMIC => .ROW_TYPE_DYNAMIC
  | .RF_COMPRESSED => .ROW_TYPE_COMPRESSED
  | .RF_REDUNDANT => .ROW_TYPE_REDUNDANT
  | .RF_COMPACT => .ROW_TYPE_COMPACT
  | .RF_PAGED => .ROW_TYPE_PAGED
  | .RF_OTHER => .ROW_TYPE_FIXED

/-- The bits that `fill_share_from_dd` gathers in `share->db_create_options`,
starting from 0. The option `pack_record` is read without a test that it
exists: when it is absent, `bool_opt` still holds the value it had before. -/
def table_create_options (ses : Session) (table_options : Table_options) : Nat :=
  let db_create_options := 0
  let bool_opt := table_options.pack_record.getD ses.bool_opt
  let db_create_options :=
    if bool_opt then db_create_options ||| HA_OPTION_PACK_RECORD else db_create_options
  let db_create_options :=
    match table_options.pack_keys with
    | some bool_opt =>
      db_create_options ||| (if bool_opt then HA_OPTION_PACK_KEYS else HA_OPTION_NO_PACK_KEYS)
    | none => db_create_options
  let db_create_options :=
    match table_options.checksum with
    | some bool_opt =>
      if bool_opt then db_create_options ||| HA_OPTION_CHECKSUM else db_create_options
    | none => db_create_options
  let db_create_options :=
    match table_options.delay_key_write with
    | some bool_opt =>
      if bool_opt then db_create_options ||| HA_OPTION_DELAY_KEY_WRITE else db_create_options
    | none => db_create_options
  match table_options.stats_persistent with
  | some bool_opt =>
    db_create_options |||
      (if bool_opt then HA_OPTION_STATS_PERSISTENT else HA_OPTION_NO_STATS_PERSISTENT)
  | none => db_create_options

/-- The function `fill_share_from_dd`; `none` is the result `true`: the engine
is not known, or `prepare_default_value_buffer_and_table_share` or the
tablespace lookup fails. A table collation that does not resolve is replaced by
the default character set. -/
def fill_share_from_dd (ses : Session) (env : Server) (share : TABLE_SHARE) (tab_obj : Table) :
    Option TABLE_SHARE :=
  let tmp_plugin := ses.ha_resolve_by_name_raw tab_obj.engine
  if tmp_plugin = 0 then none
  else
    let share := { share with db_plugin := tmp_plugin, db_low_byte_first := true }
    let table_options := tab_obj.options
    let share :=
      { share with
        max_rows := table_options.max_rows.getD share.max_rows
        min_rows := table_options.min_rows.getD share.min_rows }
    let share := { share with db_create_options := table_create_options ses table_options }
    let share := { share with db_options_in_use := share.db_create_options }
    let share :=
      { share with avg_row_length := table_options.avg_row_length.getD share.avg_row_length }
    let share :=
      { share with
        table_charset :=
          match env.dd_get_mysql_charset tab_obj.collation_id with
          | some charset => some charset
          | none => some ses.default_charset_info
        db_record_offset := 1
        real_row_type := dd_get_old_row_format tab_obj.row_format
        row_type :=
          match table_options.row_type with
          | some option_value => dd_get_old_row_format (ses.row_format_of_option option_value)
          | none => .ROW_TYPE_DEFAULT
        stats_sample_pages := table_options.stats_sample_pages.getD share.stats_sample_pages
        stats_auto_recalc := table_options.stats_auto_recalc.getD share.stats_auto_recalc
        mysql_version := tab_obj.mysql_version_id
        key_block_size := table_options.key_block_size.getD share.key_block_size }
    match ses.prepare_default_value_buffer_and_table_share tab_obj share with
    | none => none
    | some share =>
      let share :=
        { share with default_storage_media := table_options.storage.getD HA_SM_DEFAULT }
      match ses.get_tablespace_name tab_obj with
      | none => none
      | some tablespace =>
        let share := { share with tablespace := tablespace }
        let share :=
          if tab_obj.comment.length ≠ 0 then { share with comment := some tab_obj.comment }
          else share
        some { share with
          connect_string :=
            if table_options.connection_string.isSome then table_options.connection_string
            else share.connect_string
          compress :=
            if table_options.compress.isSome then table_options.compress else share.compress
          encrypt_type :=
            if table_options.encrypt_type.isSome then table_options.encrypt_type
            else share.encrypt_type }

/-- The stages that `open_table_def` runs on a table definition. -/
inductive open_stage where
  | fill_share_from_dd | fill_columns_from_dd | fill_indexes_from_dd
  | fill_partitioning_from_dd | prepare_share
  deriving DecidableEq, Repr

/-- What a call of `open_table_def` leaves: the value it returns (`true` is a
failure), the share, the counter `thd->status_var.opened_shares`, and the
stage functions it has called, in the order of the calls. When a stage fails,
the share is shown as the stage before it left it: what the failing stage
wrote before it gave up is not told. -/
structure open_result where
  error : Bool
  share : TABLE_SHARE
  opened_shares : Nat
  calls : List open_stage

/-- The part of `open_table_def` that works on a table definition: the stages
are called in turn until one fails; after the last one the table category is
set and the share is counted. A stage that meets undefined behaviour gives no
result (`none`); a dereference of an empty field slot in
`fill_indexes_from_dd`, which the model of that function does not tell from
its failures, is shown as a failure. -/
def open_table_def_stages (ses : Session) (env : Server) (eng : Engine) (penv : Partition_env)
    (opened_shares : Nat) (share : TABLE_SHARE) (table_def : Table) : Option open_result :=
  let share := { share with blob_fields := 0 }
  match fill_share_from_dd ses env share table_def with
  | none =>
    some { error := true, share := share, opened_shares := opened_shares,
           calls := [.fill_share_from_dd] }
  | some share1 =>
    match fill_columns_from_dd env share1 table_def with
    | none =>
      some { error := true, share := share1, opened_shares := opened_shares,
             calls := [.fill_share_from_dd, .fill_columns_from_dd] }
    | some share2 =>
      match fill_indexes_from_dd env eng share2 table_def with
      | none =>
        some { error := true, share := share2, opened_shares := opened_shares,
               calls := [.fill_share_from_dd, .fill_columns_from_dd, .fill_indexes_from_dd] }
      | some share3 =>
        match fill_partitioning_from_dd penv share3 table_def with
        | .error .undefined_behaviour => none
        | .error .returns_true =>
          some { error := true, share := share3, opened_shares := opened_shares,
                 calls := [.fill_share_from_dd, .fill_columns_from_dd, .fill_indexes_from_dd,
                   .fill_partitioning_from_dd] }
        | .ok share4 =>
          match prepare_share eng share4 with
          | none =>
            some { error := true, share := share4, opened_shares := opened_shares,
                   calls := [.fill_share_from_dd, .fill_columns_from_dd, .fill_indexes_from_dd,
                     .fill_partitioning_from_dd, .prepare_share] }
          | some share5 =>
            some { error := false
                   share := { share5 with table_category := ses.get_table_category }
                   opened_shares := opened_shares + 1
                   calls := [.fill_share_from_dd, .fill_columns_from_dd, .fill_indexes_from_dd,
                     .fill_partitioning_from_dd, .prepare_share] }

/-- The function `open_table_def`. Without a table definition it asks the
dictionary: a missing schema, a failed call and a view that may not be opened
are failures, a view is recorded in the share, and a base table is compiled
from the definition that `acquire` gives. -/
def open_table_def (ses : Session) (env : Server) (eng : Engine) (penv : Partition_env)
    (opened_shares : Nat) (share : TABLE_SHARE) (open_view : Bool) (table_def : Option Table) :
    Option open_result :=
  let failure (share : TABLE_SHARE) : Option open_result :=
    some { error := true, share := share, opened_shares := opened_shares, calls := [] }
  match table_def with
  | some table_def => open_table_def_stages ses env eng penv opened_shares share table_def
  | none =>
    match ses.schema_exists with
    | none => failure share
    | some false => failure share
    | some true =>
      match ses.abstract_table_type with
      | none => failure share
      | some dd_table_type =>
        if dd_table_type = .USER_VIEW ∨ dd_table_type = .SYSTEM_VIEW then
          if !open_view then failure share
          else
            let share := { share with is_view := true }
            match ses.acquire_view with
            | none => failure share
            | some none => failure share
            | some (some tmp_view) =>
              some { error := false
                     share :=
                       { share with
                         view_object := some tmp_view
                         table_category := ses.get_table_category }
                     opened_shares := opened_shares + 1
                     calls := [] }
        else
          match ses.acquire_table with
          | none => failure share
          | some table_def =>
            open_table_def_stages ses env eng penv opened_shares share table_def

/-- A table whose second column has a collation id that `example_server` does
not resolve, between two columns whose collation resolves. -/
def example_bad_collation_table : Table where
  columns :=
    [ { name := "a", type := .LONG, char_length := 11, ordinal_position := 1 },
      { name := "b", type := .VARCHAR, char_length := 20, collation_id := 0,
        ordinal_position := 2 },
      { name := "c", type := .LONG, char_length := 11, ordinal_position := 3 } ]

/-- A column without a name; its collation resolves on `example_server`. -/
def example_unnamed_column : Column :=
  { name := "", type := .LONG, char_length := 11, ordinal_position := 1 }

/-- The number of `KEY_PART_INFO` slots by which one turn of the `do ... while`
loop of `fill_indexes_from_dd` moves its cursor `key_part`: the user-defined
parts of the key, and `primary_key_parts` more for a key that will be
extended. -/
def key_part_advance (use_extended_sk : Bool) (primary_key_parts : Nat) (keyinfo : KEY)
    (key_nr : Nat) : Nat :=
  keyinfo.user_defined_key_parts +
    (if use_extended_sk ∧ key_nr ≠ 0 ∧ keyinfo.flags &&& HA_NOSAME = 0 then primary_key_parts
      else 0)

/-- The cursor `key_part` of `fill_indexes_from_dd`, counted in slots from the
start of the array of key parts, after the turns of the `do ... while` loop for
the keys `0 .. keys - 1`. -/
def key_part_cursor (use_extended_sk : Bool) (primary_key_parts : Nat) (key_info : List KEY)
    (keys : Nat) : Nat :=
  ((List.range keys).map (fun key_nr =>
    key_part_advance use_extended_sk primary_key_parts (key_info.getD key_nr {}) key_nr)).sum

/-- The local `total_key_parts` of `fill_indexes_from_dd`, the number of
`KEY_PART_INFO` slots it allocates, from the share as the sizing loop leaves
it. -/
def total_key_parts (use_extended_sk : Bool) (primary_key_parts : Nat) (share : TABLE_SHARE) :
    Nat :=
  if use_extended_sk then share.key_parts + primary_key_parts * (share.keys - 1)
  else share.key_parts

/-- The number of non-hidden elements of an index: the local `key_parts` of the
sizing loop of `fill_indexes_from_dd`. -/
def listed_elements (idx_obj : Index) : Nat :=
  idx_obj.elements.countP (fun (idx_ele : Index_element) => !idx_ele.is_hidden)

/-- The parser that the non-column LIST branch of `setup_partition_from_dd`
calls for the text of a value entry accepts it: `to_int64` for a text that
starts with `-`, `to_uint64` for any other. An entry without text is not
parsed. -/
def list_entry_parses (penv : Partition_env) (part_value : Partition_value) : Prop :=
  part_value.value_utf8.isEmpty = false →
    if starts_with_minus part_value.value_utf8 then
      (penv.to_int64 part_value.value_utf8).isSome = true
    else (penv.to_uint64 part_value.value_utf8).isSome = true

/-- What the second loop of the non-column LIST branch stores in the slot
`list_val` for a value entry with a text that its parser accepts. -/
def stored_list_value (penv : Partition_env) (part_value : Partition_value)
    (list_val : part_elem_value) : part_elem_value :=
  if starts_with_minus part_value.value_utf8 then
    { list_val with
      unsigned_flag := false
      value := (penv.to_int64 part_value.value_utf8).getD 0 }
  else
    { list_val with
      unsigned_flag := true
      value := to_longlong ((penv.to_uint64 part_value.value_utf8).getD 0) }

/-- The position in `list_val_list` that the specification gives to a value
entry with a text: its list number, less one if an entry without text (a NULL
entry) has a smaller list number. -/
def list_position (values : List Partition_value) (part_value : Partition_value) : Nat :=
  if values.any (fun w => w.value_utf8.isEmpty && decide (w.list_num < part_value.list_num)) then
    part_value.list_num - 1
  else part_value.list_num

/-- A LIST partition `VALUES IN (10, NULL, -5)` of a table partitioned over an
expression: list numbers 0, 1 and 2, the NULL at list number 1. -/
def example_list_partition : Partition :=
  { name := "p0"
    values :=
      [ { list_num := 0, value_utf8 := "2000" },
        { list_num := 1, value_utf8 := "" },
        { list_num := 2, value_utf8 := "-5" } ] }

/-- An example of `partition_info` for a table partitioned by LIST over an
expression. -/
def example_list_info : partition_info :=
  { part_type := .LIST, column_list := false }

/-- The element as `setup_partition_from_dd` has filled it when it turns to the
value entries: comment, name, engine, options and tablespace name are set. -/
def named_partition_element (part_info : partition_info) (part_elem : partition_element)
    (part_obj : Partition) (tablespace_name : Option String) : partition_element :=
  { (get_partition_options
      { (if part_obj.comment.length ≠ 0 then
          { part_elem with part_comment := some part_obj.comment } else part_elem) with
        partition_name := some part_obj.name
        engine_type := part_info.default_engine_type }
      part_obj.options) with
    tablespace_name := tablespace_name }

/-- The two objects have the same engine, the same partition type and the same
`column_list`: the members of `part_info` that `setup_partition_from_dd`
reads. -/
def same_scheme (a b : partition_info) : Prop :=
  a.default_engine_type = b.default_engine_type ∧ a.part_type = b.part_type ∧
    a.column_list = b.column_list

/-- The object `a` is the object `b` up to the members that the loop of
`fill_partitioning_from_dd` over the partitions writes, `num_columns` and
`partitions`. -/
def same_but_partitions (a b : partition_info) : Prop :=
  a = { b with num_columns := a.num_columns, partitions := a.partitions }

/-- The element that `setup_partition_from_dd` builds for a `dd::Partition`, in
a new `partition_element`; a subpartition is a record of a level other than
0. -/
def compiled_partition (penv : Partition_env) (part_info : partition_info)
    (part_obj : Partition) : partition_element :=
  ((setup_partition_from_dd penv part_info penv.new_partition_element part_obj
    (decide (part_obj.level ≠ 0))).map Prod.snd).getD {}

/-- The partition tree that the specification describes for `tops`, the records
of level 0, followed by `subs`, the records of level 1, with `num_subparts`
subpartitions per partition: the partition at position `j` holds the records
at positions `j * num_subparts` to `j * num_subparts + num_subparts - 1` of
`subs`, in their order. -/
def partition_tree (penv : Partition_env) (part_info : partition_info)
    (tops subs : List Partition) (num_subparts : Nat) : List partition_node :=
  (List.range tops.length).map (fun j =>
    { elem := compiled_partition penv part_info (tops.getD j {})
      subpartitions :=
        ((subs.drop (j * num_subparts)).take num_subparts).map
          (compiled_partition penv part_info) })

/-- The two partitions of an example table partitioned by RANGE over an
expression: `p0 VALUES LESS THAN (2000)` and `p1 VALUES LESS THAN MAXVALUE`. -/
def example_top_partitions : List Partition :=
  [ { name := "p0", level := 0, number := 0, values := [ { value_utf8 := "2000" } ] },
    { name := "p1", level := 0, number := 1, values := [ { max_value := true } ] } ]

/-- Four subpartitions, two for each of the two partitions of
`example_top_partitions`, numbered from 0 in their order. -/
def example_subpartitions : List Partition :=
  [ { name := "p0sp0", level := 1, number := 0 },
    { name := "p0sp1", level := 1, number := 1 },
    { name := "p1sp0", level := 1, number := 2 },
    { name := "p1sp1", level := 1, number := 3 } ]

/-- An example table partitioned by RANGE over the expression `year`, with the
two partitions of `example_top_partitions` and no subpartitions. -/
def example_range_table : Table :=
  { partition_type := .PT_RANGE
    partition_expression := "year"
    default_partitioning := .DP_NO
    partitions := example_top_partitions }

/-- The table `example_range_table` subpartitioned by HASH over the expression
`id`, with the four subpartitions of `example_subpartitions`. -/
def example_subpartitioned_table : Table :=
  { example_range_table with
    subpartition_type := .ST_HASH
    subpartition_expression := "id"
    default_subpartitioning := .DP_NO
    partitions := example_top_partitions ++ example_subpartitions }

/-- The table `example_subpartitioned_table` with three subpartitions only:
two partitions and three subpartitions. -/
def example_nonuniform_table : Table :=
  { example_subpartitioned_table with
    partitions := example_top_partitions ++ example_subpartitions.take 3 }

/-- The table `example_subpartitioned_table` with five subpartitions numbered
0, 1, 2, 3 and 5: two partitions and five subpartitions, in sorted order. -/
def example_lopsided_table : Table :=
  { example_subpartitioned_table with
    partitions := example_top_partitions ++ example_subpartitions ++
      [ { name := "p1sp2", level := 1, number := 5 } ] }

/-- An example of the environment of the partition stage in which
`dd::eat_str` takes the text up to the next `;` as the field name and goes on
after that `;`. -/
def example_field_env : Partition_env :=
  { example_partition_env with
    eat_str := fun it =>
      some (String.mk (it.takeWhile (fun c => c != ';')),
        (it.dropWhile (fun c => c != ';')).drop 1) }

/-- An example table partitioned by KEY over the fields `a` and `b`, with one
partition. -/
def example_key_table : Table :=
  { partition_type := .PT_KEY_55
    partition_expression := "a;b"
    default_partitioning := .DP_YES
    partitions := [ { name := "p0", level := 0, number := 0 } ] }

/-- Two value entries of a LIST partition with the same list number 1, the
first without text (a NULL entry), the second with the text `7`. -/
def example_repeated_list_values : List Partition_value :=
  [ { list_num := 1, value_utf8 := "" }, { list_num := 1, value_utf8 := "7" } ]

/-- The table `example_keyed_table` with other indexes: a non-unique key on
`amount` at ordinal position 1, then the key named PRIMARY on `id` and the
nullable `name`, then a non-unique key on `name`. -/
def example_late_primary_table : Table :=
  { example_keyed_table with
    indexes :=
      [ { name := "by_amount", type := .IT_MULTIPLE, ordinal_position := 1,
          elements := [ { column := { name := "amount", type := .NEWDECIMAL, char_length := 5,
                                      numeric_scale := 2, ordinal_position := 3 },
                          length := 5 } ] },
        { name := "PRIMARY", type := .IT_PRIMARY, ordinal_position := 2,
          elements := [ { column := { name := "id", type := .LONG, char_length := 11,
                                      ordinal_position := 1 },
                          length := 4 },
                        { column := { name := "name", type := .VARCHAR, is_nullable := true,
                                      char_length := 20, ordinal_position := 2 },
                          length := 20 } ] },
        { name := "by_name", type := .IT_MULTIPLE, ordinal_position := 3,
          elements := [ { column := { name := "name", type := .VARCHAR, is_nullable := true,
                                      char_length := 20, ordinal_position := 2 },
                          length := 20 } ] } ] }

/-- The share of `example_late_primary_table` after `fill_columns_from_dd` and
`fill_indexes_from_dd`, as `prepare_share` receives it. -/
def example_late_primary_share (eng : Engine) : TABLE_SHARE :=
  (fill_indexes_from_dd example_server eng example_columns_share
    example_late_primary_table).getD {}

/-! ## The offsets of the blob fields: the end of `prepare_share` -/

/-- The loop `for (k=0, ptr= share->field ; *ptr ; ptr++, k++)` of
`prepare_share`: it walks the slots of `share->field` up to the first empty one
and appends to the array behind `save` the number `k` of every field with
`BLOB_FLAG`. The result is the list of the numbers written, in the order of
the writes. The first argument is the number of slots of `share->field` not
yet read; `none` is a walk past the last slot. -/
def blob_field_scan (field : Nat → Option Field) : Nat → Nat → List Nat → Option (List Nat)
  | 0, _, _ => none
  | slots + 1, k, save =>
    match field k with
    | none => some save
    | some f =>
      blob_field_scan field slots (k + 1)
        (if f.flags &&& BLOB_FLAG ≠ 0 then save ++ [k] else save)

/-- The block `if (share->blob_fields)` of `prepare_share`, which follows the
part of the function that `prepare_share` above models: an array of
`blob_fields` entries is allocated (a failure returns `true`) and filled by the
loop, over the `share->fields + 1` slots that `fill_columns_from_dd` has
allocated for `share->field`. A walk past the last slot and a write past the
last entry allocated have no defined behaviour. The flags that the key loop
and the auto-increment block set in the fields before (`PART_KEY_FLAG`,
`PRI_KEY_FLAG`, `AUTO_INCREMENT_FLAG`) are other bits than `BLOB_FLAG` and are
not part of the model. Entries allocated and not written are not shown. -/
def store_blob_fields (eng : Engine) (share : TABLE_SHARE) : Except stage_failure TABLE_SHARE :=
  if share.blob_fields ≠ 0 then
    if eng.alloc_root_fails then .error .returns_true
    else
      match blob_field_scan share.field (share.fields + 1) 0 [] with
      | none => .error .undefined_behaviour
      | some save =>
        if save.length ≤ share.blob_fields then .ok { share with blob_field := save }
        else .error .undefined_behaviour
  else .ok share

/-- The field in slot `k` of `share->field` has `BLOB_FLAG`. -/
def blob_flagged (share : TABLE_SHARE) (k : Nat) : Bool :=
  match share.field k with
  | some f => f.flags &&& BLOB_FLAG != 0
  | none => false

/-- An example share with three fields, the first and the third with
`BLOB_FLAG`, counted in `blob_fields`. -/
def example_blob_share : TABLE_SHARE :=
  { fields := 3
    blob_fields := 2
    field := fun k =>
      if k = 0 then some { flags := BLOB_FLAG, field_index := 0 }
      else if k = 1 then some { flags := 0, field_index := 1 }
      else if k = 2 then some { flags := BLOB_FLAG ||| NO_DEFAULT_VALUE_FLAG, field_index := 2 }
      else none }

/-- The non-hidden elements of an index, in order: the elements that
`fill_index_elements_from_dd` compiles into key parts. -/
def visible_elements (idx_obj : Index) : List Index_element :=
  idx_obj.elements.filter (fun idx_elem_obj => !idx_elem_obj.is_hidden)

/-- The key length that `fill_index_from_dd` computes for an index: the sum of
the lengths of its non-hidden elements, in `uint` arithmetic. -/
def index_key_length (idx_obj : Index) : Nat :=
  idx_obj.elements.foldl
    (fun (len : Nat) (idx_elem : Index_element) =>
      if !idx_elem.is_hidden then to_uint (len + idx_elem.length) else len) 0

/-! ## The column stage with the share it leaves on failure -/

/-- The field names that successive calls of `dd::eat_str` take from a text, in
the order of the calls, until nothing of the text is left. -/
inductive eaten_names (penv : Partition_env) : List Char → List String → Prop
  | done : eaten_names penv [] []
  | next (it it1 : List Char) (field_name : String) (names : List String) :
      it ≠ [] → penv.eat_str it = some (field_name, it1) → eaten_names penv it1 names →
      eaten_names penv it (field_name :: names)

/-- The function `dd::eat_str` of the environment splits at the character
`sep`: it takes the text up to the next `sep` as the field name and goes on
after that `sep`. -/
def eat_str_splits_at (penv : Partition_env) (sep : Char) : Prop :=
  ∀ it : List Char, penv.eat_str it =
    some (String.mk (it.takeWhile (fun c => c != sep)),
      (it.dropWhile (fun c => c != sep)).drop 1)

/-- The field names written one after the other, each followed by the
separator. -/
def names_with_separator (sep : Char) (names : List String) : List Char :=
  names.foldr (fun field_name text => field_name.toList ++ sep :: text) []

/-- Closed form of `column_preamble_bits`. -/
theorem column_preamble_bits_eq (col_obj : Column) :
    column_preamble_bits col_obj =
      (if col_obj.is_nullable then 1 else 0) +
      (if col_obj.type = enum_column_types.BIT ∧
          col_obj.options.get_treat_bit_as_char false = false
        then col_obj.char_length % 8 else 0) := by
  have hand : col_obj.char_length &&& 7 = col_obj.char_length % 8 :=
    Nat.and_pow_two_sub_one_eq_mod col_obj.char_length 3
  unfold column_preamble_bits
  rw [hand]
  cases hn : col_obj.is_nullable <;> by_cases ht : col_obj.type = enum_column_types.BIT <;>
    cases hb : col_obj.options.get_treat_bit_as_char false <;> simp [ht]

/-- A column takes at most eight preamble bits. -/
theorem column_preamble_bits_le (col_obj : Column) : column_preamble_bits col_obj ≤ 8 := by
  have hlt : col_obj.char_length % 8 < 8 := Nat.mod_lt _ (by decide)
  rw [column_preamble_bits_eq]
  split_ifs <;> omega

/-- C7: `column_preamble_bits` is 1 for a nullable column, plus
`char_length mod 8` for a BIT column whose option `treat_bit_as_char` is false;
so it never exceeds 8. -/
theorem column_preamble_bits_spec (col_obj : Column) :
    column_preamble_bits col_obj =
        (if col_obj.is_nullable then 1 else 0) +
        (if col_obj.type = enum_column_types.BIT ∧
            col_obj.options.get_treat_bit_as_char false = false
          then col_obj.char_length % 8 else 0) ∧
      column_preamble_bits col_obj ≤ 8 :=
  ⟨column_preamble_bits_eq col_obj, column_preamble_bits_le col_obj⟩

/-- Accounting for a column keeps the bit cursor below 8 and moves the
position `8 * null_pos + null_bit_pos` forward by the column's preamble bits. -/
theorem account_column_bits (col_obj : Column) (c : column_scan) (h : c.null_bit_pos ≤ 7) :
    (account_column col_obj c).null_bit_pos ≤ 7 ∧
      8 * (account_column col_obj c).null_pos + (account_column col_obj c).null_bit_pos =
        8 * c.null_pos + c.null_bit_pos + column_preamble_bits col_obj := by
  have h8 := column_preamble_bits_le col_obj
  unfold account_column
  by_cases hc : c.null_bit_pos + column_preamble_bits col_obj > 7
  · simp only [hc, if_true]
    constructor <;> omega
  · simp only [hc, if_false]
    constructor <;> omega

/-- Accounting for a column counts one field. -/
theorem account_column_field_nr (col_obj : Column) (c : column_scan) :
    (account_column col_obj c).field_nr = c.field_nr + 1 := by
  simp only [account_column]
  split_ifs <;> rfl

/-- Accounting for a column does not move the record position. -/
theorem account_column_rec_pos (col_obj : Column) (c : column_scan) :
    (account_column col_obj c).rec_pos = c.rec_pos := by
  simp only [account_column]
  split_ifs <;> rfl

/-- Accounting for a column does not touch the virtual-column marker. -/
theorem account_column_has_vgc (col_obj : Column) (c : column_scan) :
    (account_column col_obj c).has_vgc = c.has_vgc := by
  simp only [account_column]
  split_ifs <;> rfl

/-- The null cursor after accounting depends only on the null cursor before. -/
theorem account_column_null_congr (col_obj : Column) (c d : column_scan)
    (hp : c.null_pos = d.null_pos) (hb : c.null_bit_pos = d.null_bit_pos) :
    (account_column col_obj c).null_pos = (account_column col_obj d).null_pos ∧
      (account_column col_obj c).null_bit_pos = (account_column col_obj d).null_bit_pos := by
  simp only [account_column, hp, hb]
  split_ifs <;> exact ⟨rfl, rfl⟩

/-- What a successful `fill_column_from_dd` did: the collation resolved, slot
`field_nr` holds the new field, the other slots and the layout inputs of the
share are as before. -/
theorem fill_column_from_dd_some {env : Server} {share share1 : TABLE_SHARE} {col_obj : Column}
    {null_pos null_bit_pos rec_pos field_nr : Nat}
    (h : fill_column_from_dd env share col_obj null_pos null_bit_pos rec_pos field_nr =
      some share1) :
    ∃ f, is_field_of f col_obj null_pos null_bit_pos rec_pos field_nr ∧
      share1.field = (fun i => if i = field_nr then some f else share.field i) ∧
      same_layout_inputs share1 share := by
  unfold fill_column_from_dd at h
  split at h
  · exact absurd h (by simp)
  · simp only [Option.some.injEq] at h
    subst h
    exact ⟨_, ⟨rfl, rfl, rfl, rfl, rfl, rfl⟩, rfl, ⟨rfl, rfl, rfl, rfl⟩⟩

/-- The function `fill_column_from_dd` succeeds when the collation resolves. -/
theorem fill_column_from_dd_isSome (env : Server) (share : TABLE_SHARE) (col_obj : Column)
    (null_pos null_bit_pos rec_pos field_nr : Nat)
    (h : (env.dd_get_mysql_charset col_obj.collation_id).isSome = true) :
    ∃ share1, fill_column_from_dd env share col_obj null_pos null_bit_pos rec_pos field_nr =
      some share1 := by
  unfold fill_column_from_dd
  cases hc : env.dd_get_mysql_charset col_obj.collation_id with
  | none => rw [hc] at h; exact absurd h (by simp)
  | some cs => exact ⟨_, rfl⟩

/-- The first loop of `fill_columns_from_dd` compiles the stored columns and
marks the virtual ones. -/
theorem first_pass_eq (env : Server) (cols : List Column) (share : TABLE_SHARE)
    (c : column_scan) :
    fill_columns_first_pass env cols share c =
      columns_pass env (fun col_obj => !col_obj.is_virtual) true cols share c := by
  induction cols generalizing share c with
  | nil => rfl
  | cons col_obj rest ih =>
    simp only [fill_columns_first_pass, columns_pass]
    by_cases hh : col_obj.is_hidden = true
    · simp only [hh, if_true]
      exact ih share c
    · simp only [hh]
      by_cases hv : col_obj.is_virtual = true
      · simp [hv, ih]
      · simp only [Bool.not_eq_true] at hv
        simp only [hv, Bool.not_false, if_true]
        cases fill_column_from_dd env share col_obj c.null_pos c.null_bit_pos c.rec_pos c.field_nr with
        | none => rfl
        | some share1 => exact ih _ _

/-- The second loop of `fill_columns_from_dd` compiles the virtual columns. -/
theorem second_pass_eq (env : Server) (cols : List Column) (share : TABLE_SHARE)
    (c : column_scan) :
    fill_columns_second_pass env cols share c =
      columns_pass env (fun col_obj => col_obj.is_virtual) false cols share c := by
  induction cols generalizing share c with
  | nil => rfl
  | cons col_obj rest ih =>
    simp only [fill_columns_second_pass, columns_pass]
    by_cases hh : col_obj.is_hidden = true
    · simp only [hh, if_true]
      exact ih share c
    · simp only [hh]
      by_cases hv : col_obj.is_virtual = true
      · simp only [hv, if_true]
        cases fill_column_from_dd env share col_obj c.null_pos c.null_bit_pos c.rec_pos c.field_nr with
        | none => rfl
        | some share1 => exact ih _ _
      · simp [hv, ih]

/-- A hidden column is not among the visible ones. -/
theorem visible_columns_cons_hidden (col_obj : Column) (rest : List Column)
    (h : col_obj.is_hidden = true) :
    visible_columns (col_obj :: rest) = visible_columns rest := by
  simp [visible_columns, h]

/-- A non-hidden column is the first of the visible ones. -/
theorem visible_columns_cons_visible (col_obj : Column) (rest : List Column)
    (h : ¬ col_obj.is_hidden = true) :
    visible_columns (col_obj :: rest) = col_obj :: visible_columns rest := by
  simp [visible_columns, h]

/-- The null cursor of `account_column` is `null_cursor_step` of the null
cursor before. -/
theorem account_column_null_cursor (col_obj : Column) (c : column_scan) :
    ((account_column col_obj c).null_pos, (account_column col_obj c).null_bit_pos) =
      null_cursor_step (c.null_pos, c.null_bit_pos) col_obj := by
  have h := account_column_null_congr col_obj c
    { null_pos := c.null_pos, null_bit_pos := c.null_bit_pos, rec_pos := 0, field_nr := 0,
      has_vgc := false } rfl rfl
  simp only [null_cursor_step]
  rw [h.1, h.2]

/-- A pass over no columns changes nothing. -/
theorem pass_result_nil (sel : Column → Bool) (mark : Bool) (share : TABLE_SHARE)
    (c : column_scan) : pass_result sel mark [] share c share c where
  layout := ⟨rfl, rfl, rfl, rfl⟩
  field_nr := by simp [visible_columns]
  rec_pos := Nat.le_refl _
  null_cursor := by simp [visible_columns, null_cursor_after]
  has_vgc := by simp [visible_columns]
  below := fun _ _ => rfl
  above := fun _ _ => rfl
  skipped := fun _ _ _ _ => rfl
  compiled := by
    intro k col_obj hk
    simp [visible_columns] at hk

/-- A pass with a compiled column in front: the result of the rest of the pass
extends to the whole pass. -/
theorem pass_result_cons_compiled {sel : Column → Bool} {mark : Bool} {col_obj : Column}
    {rest : List Column} {share sh2 share1 : TABLE_SHARE} {c c1 : column_scan} {f : Field}
    (hh : ¬ col_obj.is_hidden = true) (hs : sel col_obj = true)
    (hf : is_field_of f col_obj c.null_pos c.null_bit_pos c.rec_pos c.field_nr)
    (hfield : sh2.field = (fun i => if i = c.field_nr then some f else share.field i))
    (hlay : same_layout_inputs sh2 share)
    (r : pass_result sel mark rest sh2
      (account_column col_obj { c with rec_pos := c.rec_pos + f.pack_length_in_rec }) share1 c1) :
    pass_result sel mark (col_obj :: rest) share c share1 c1 := by
  have hvis := visible_columns_cons_visible col_obj rest hh
  have hnr := account_column_field_nr col_obj { c with rec_pos := c.rec_pos + f.pack_length_in_rec }
  have hrp := account_column_rec_pos col_obj { c with rec_pos := c.rec_pos + f.pack_length_in_rec }
  have hvg := account_column_has_vgc col_obj { c with rec_pos := c.rec_pos + f.pack_length_in_rec }
  have hnc := account_column_null_cursor col_obj
    { c with rec_pos := c.rec_pos + f.pack_length_in_rec }
  simp only at hnr hrp hvg hnc
  have hr_nr := r.field_nr
  have hr_rp := r.rec_pos
  rw [hnr] at hr_nr
  rw [hrp] at hr_rp
  have hslot : share1.field c.field_nr = some f := by
    rw [r.below c.field_nr (by rw [hnr]; omega), hfield]
    simp
  refine
    { layout := ?_, field_nr := ?_, rec_pos := ?_, null_cursor := ?_, has_vgc := ?_,
      below := ?_, above := ?_, skipped := ?_, compiled := ?_ }
  · obtain ⟨a1, a2, a3, a4⟩ := r.layout
    obtain ⟨b1, b2, b3, b4⟩ := hlay
    exact ⟨a1.trans b1, a2.trans b2, a3.trans b3, a4.trans b4⟩
  · rw [hvis, List.length_cons]
    omega
  · omega
  · rw [hvis, r.null_cursor, hnc]
    rfl
  · rw [hvis, r.has_vgc, hvg]
    simp [hs]
  · intro i hi
    rw [r.below i (by rw [hnr]; omega), hfield]
    have : i ≠ c.field_nr := by omega
    simp [this]
  · intro i hi
    rw [r.above i hi, hfield]
    have : i ≠ c.field_nr := by omega
    simp [this]
  · intro k colk hk hsel
    rw [hvis] at hk
    cases k with
    | zero =>
      simp only [List.getElem?_cons_zero, Option.some.injEq] at hk
      subst hk
      rw [hs] at hsel
      exact absurd hsel (by simp)
    | succ k =>
      simp only [List.getElem?_cons_succ] at hk
      have h1 := r.skipped k colk hk hsel
      rw [hnr] at h1
      have e : c.field_nr + (k + 1) = c.field_nr + 1 + k := by omega
      rw [e, h1, hfield]
      have : c.field_nr + 1 + k ≠ c.field_nr := by omega
      simp [this]
  · intro k colk hk hsel
    rw [hvis] at hk
    cases k with
    | zero =>
      simp only [List.getElem?_cons_zero, Option.some.injEq] at hk
      subst hk
      refine ⟨f, by simpa using hslot, ?_, ?_, ?_⟩
      · obtain ⟨p1, p2, p3, p4, p5, p6⟩ := hf
        exact ⟨rfl, by simpa [null_cursor_after] using p2, by simpa [null_cursor_after] using p3,
          by simpa using p4, p5, p6⟩
      · exact Nat.le_of_eq hf.1.symm
      · rw [hf.1]
        exact hr_rp
    | succ k =>
      simp only [List.getElem?_cons_succ] at hk
      obtain ⟨g, hg, hgo, hlo, hhi⟩ := r.compiled k colk hk hsel
      rw [hnr] at hg hgo
      have e : c.field_nr + (k + 1) = c.field_nr + 1 + k := by omega
      refine ⟨g, by rw [e]; exact hg, ?_, ?_, hhi⟩
      · rw [hvis, e]
        simp only [List.take_succ_cons, null_cursor_after, List.foldl_cons]
        rw [← hnc]
        exact hgo
      · rw [hrp] at hlo
        omega

/-- A pass with a column in front that is only accounted for: the result of
the rest of the pass extends to the whole pass. -/
theorem pass_result_cons_skipped {sel : Column → Bool} {mark : Bool} {col_obj : Column}
    {rest : List Column} {share share1 : TABLE_SHARE} {c c1 : column_scan}
    (hh : ¬ col_obj.is_hidden = true) (hs : sel col_obj = false)
    (r : pass_result sel mark rest share
      (account_column col_obj (if mark then { c with has_vgc := true } else c)) share1 c1) :
    pass_result sel mark (col_obj :: rest) share c share1 c1 := by
  have hvis := visible_columns_cons_visible col_obj rest hh
  have hnr := account_column_field_nr col_obj (if mark then { c with has_vgc := true } else c)
  have hrp := account_column_rec_pos col_obj (if mark then { c with has_vgc := true } else c)
  have hvg := account_column_has_vgc col_obj (if mark then { c with has_vgc := true } else c)
  have hnc := account_column_null_cursor col_obj (if mark then { c with has_vgc := true } else c)
  have e1 : (if mark then { c with has_vgc := true } else c).field_nr = c.field_nr := by
    split_ifs <;> rfl
  have e2 : (if mark then { c with has_vgc := true } else c).rec_pos = c.rec_pos := by
    split_ifs <;> rfl
  have e3 : (if mark then { c with has_vgc := true } else c).null_pos = c.null_pos := by
    split_ifs <;> rfl
  have e4 : (if mark then { c with has_vgc := true } else c).null_bit_pos = c.null_bit_pos := by
    split_ifs <;> rfl
  have e5 : (if mark then { c with has_vgc := true } else c).has_vgc = (c.has_vgc || mark) := by
    cases mark <;> simp
  rw [e1] at hnr
  rw [e2] at hrp
  rw [e3, e4] at hnc
  rw [e5] at hvg
  have hr_nr := r.field_nr
  have hr_rp := r.rec_pos
  rw [hnr] at hr_nr
  rw [hrp] at hr_rp
  refine
    { layout := r.layout, field_nr := ?_, rec_pos := hr_rp, null_cursor := ?_, has_vgc := ?_,
      below := ?_, above := ?_, skipped := ?_, compiled := ?_ }
  · rw [hvis, List.length_cons]
    omega
  · rw [hvis, r.null_cursor, hnc]
    rfl
  · rw [hvis, r.has_vgc, hvg]
    cases mark <;> simp [hs]
  · intro i hi
    exact r.below i (by rw [hnr]; omega)
  · intro i hi
    exact r.above i hi
  · intro k colk hk hsel
    rw [hvis] at hk
    cases k with
    | zero => exact r.below c.field_nr (by rw [hnr]; omega)
    | succ k =>
      simp only [List.getElem?_cons_succ] at hk
      have h1 := r.skipped k colk hk hsel
      rw [hnr] at h1
      have e : c.field_nr + (k + 1) = c.field_nr + 1 + k := by omega
      rw [e, h1]
  · intro k colk hk hsel
    rw [hvis] at hk
    cases k with
    | zero =>
      simp only [List.getElem?_cons_zero, Option.some.injEq] at hk
      subst hk
      rw [hs] at hsel
      exact absurd hsel (by simp)
    | succ k =>
      simp only [List.getElem?_cons_succ] at hk
      obtain ⟨g, hg, hgo, hlo, hhi⟩ := r.compiled k colk hk hsel
      rw [hnr] at hg hgo
      have e : c.field_nr + (k + 1) = c.field_nr + 1 + k := by omega
      refine ⟨g, by rw [e]; exact hg, ?_, ?_, hhi⟩
      · rw [hvis, e]
        simp only [List.take_succ_cons, null_cursor_after, List.foldl_cons]
        rw [← hnc]
        exact hgo
      · rw [hrp] at hlo
        exact hlo

/-- What a successful pass over the columns has done. -/
theorem columns_pass_spec {env : Server} {sel : Column → Bool} {mark : Bool} :
    ∀ (cols : List Column) (share : TABLE_SHARE) (c : column_scan) (share1 : TABLE_SHARE)
      (c1 : column_scan),
      columns_pass env sel mark cols share c = some (share1, c1) →
      pass_result sel mark cols share c share1 c1 := by
  intro cols
  induction cols with
  | nil =>
    intro share c share1 c1 h
    simp only [columns_pass, Option.some.injEq, Prod.mk.injEq] at h
    obtain ⟨h1, h2⟩ := h
    subst h1
    subst h2
    exact pass_result_nil sel mark share c
  | cons col_obj rest ih =>
    intro share c share1 c1 h
    rw [columns_pass] at h
    by_cases hh : col_obj.is_hidden = true
    · simp only [hh, if_true] at h
      have r := ih share c share1 c1 h
      have hvis := visible_columns_cons_hidden col_obj rest hh
      exact
        { layout := r.layout
          field_nr := by rw [hvis]; exact r.field_nr
          rec_pos := r.rec_pos
          null_cursor := by rw [hvis]; exact r.null_cursor
          has_vgc := by rw [hvis]; exact r.has_vgc
          below := r.below
          above := r.above
          skipped := by rw [hvis]; exact r.skipped
          compiled := by rw [hvis]; exact r.compiled }
    · simp only [hh] at h
      by_cases hs : sel col_obj = true
      · simp only [hs, if_true] at h
        cases hf : fill_column_from_dd env share col_obj c.null_pos c.null_bit_pos c.rec_pos
            c.field_nr with
        | none =>
          rw [hf] at h
          exact absurd h (by simp)
        | some sh2 =>
          rw [hf] at h
          obtain ⟨f, hfo, hfield, hlay⟩ := fill_column_from_dd_some hf
          have hpl : slot_pack_length_in_rec sh2 c.field_nr = f.pack_length_in_rec := by
            simp [slot_pack_length_in_rec, hfield]
          simp only [hpl] at h
          exact pass_result_cons_compiled hh hs hfo hfield hlay (ih _ _ _ _ h)
      · simp only [Bool.not_eq_true] at hs
        simp only [hs] at h
        exact pass_result_cons_skipped hh hs (ih _ _ _ _ h)

/-- A pass over the columns succeeds when the collations of the non-hidden
columns resolve. -/
theorem columns_pass_isSome (env : Server) (sel : Column → Bool) (mark : Bool) :
    ∀ (cols : List Column) (share : TABLE_SHARE) (c : column_scan),
      collations_resolve env cols → ∃ r, columns_pass env sel mark cols share c = some r := by
  intro cols
  induction cols with
  | nil =>
    intro share c _
    exact ⟨_, rfl⟩
  | cons col_obj rest ih =>
    intro share c hcs
    have hrest : collations_resolve env rest := fun x hx hv =>
      hcs x (List.mem_cons_of_mem _ hx) hv
    rw [columns_pass]
    by_cases hh : col_obj.is_hidden = true
    · simp only [hh, if_true]
      exact ih share c hrest
    · simp only [hh]
      by_cases hs : sel col_obj = true
      · simp only [hs, if_true]
        have hcol := hcs col_obj (List.mem_cons_self _ _) (by simpa using hh)
        obtain ⟨sh2, hsh2⟩ := fill_column_from_dd_isSome env share col_obj c.null_pos
          c.null_bit_pos c.rec_pos c.field_nr hcol
        rw [hsh2]
        exact ih _ _ hrest
      · simp only [Bool.not_eq_true] at hs
        simp only [hs]
        exact ih _ _ hrest

/-- The null cursor after a list of columns: the bit position stays below 8 and
`8 * null_pos + null_bit_pos` has advanced by the preamble bits of the columns. -/
theorem null_cursor_after_bits (cols : List Column) :
    ∀ p : Nat × Nat, p.2 ≤ 7 →
      (null_cursor_after cols p).2 ≤ 7 ∧
        8 * (null_cursor_after cols p).1 + (null_cursor_after cols p).2 =
          8 * p.1 + p.2 + (cols.map column_preamble_bits).sum := by
  induction cols with
  | nil =>
    intro p hp
    simp [null_cursor_after, hp]
  | cons col_obj rest ih =>
    intro p hp
    have hstep := account_column_bits col_obj
      { null_pos := p.1, null_bit_pos := p.2, rec_pos := 0, field_nr := 0, has_vgc := false } hp
    simp only at hstep
    have hrest := ih (null_cursor_step p col_obj) (by simpa [null_cursor_step] using hstep.1)
    simp only [null_cursor_after, List.foldl_cons, List.map_cons, List.sum_cons] at hrest ⊢
    refine ⟨hrest.1, ?_⟩
    rw [hrest.2]
    have h2 := hstep.2
    simp only [null_cursor_step]
    omega

/-- The initial bit position is read from `db_create_options` alone. -/
theorem initial_null_bit_pos_congr {a b : TABLE_SHARE}
    (h : a.db_create_options = b.db_create_options) :
    initial_null_bit_pos a = initial_null_bit_pos b := by
  simp only [initial_null_bit_pos, h]

/-- The initial bit position is 0 or 1. -/
theorem initial_null_bit_pos_le (share : TABLE_SHARE) : initial_null_bit_pos share ≤ 7 := by
  unfold initial_null_bit_pos
  split_ifs <;> omega

/-- The shape of a run of `fill_columns_from_dd` whose collations resolve: the
first pass ends with some share and cursor; without a virtual column that is
the result, otherwise the second pass runs from the tightened share and the
reset cursor and gives the result. -/
theorem fill_columns_scan_cases (env : Server) (share : TABLE_SHARE) (tab_obj : Table)
    (hcs : collations_resolve env tab_obj.columns) :
    ∃ share1 c1,
      columns_pass env (fun col_obj => !col_obj.is_virtual) true tab_obj.columns
          { share with field := fun _ => none, vfields := 0 }
          (first_pass_start { share with field := fun _ => none, vfields := 0 }) =
        some (share1, c1) ∧
      ((c1.has_vgc = false ∧ fill_columns_scan env share tab_obj = some (share1, c1)) ∨
        (c1.has_vgc = true ∧ ∃ share2 share3 c3,
          same_layout_inputs
            { share2 with stored_rec_length := share1.stored_rec_length } share1 ∧
          share2.field = share1.field ∧
          share2.stored_rec_length = min share1.stored_rec_length c1.rec_pos ∧
          columns_pass env (fun col_obj => col_obj.is_virtual) false tab_obj.columns share2
            (second_pass_start share2 c1) = some (share3, c3) ∧
          fill_columns_scan env share tab_obj = some (share3, c3))) := by
  obtain ⟨⟨share1, c1⟩, h1⟩ := columns_pass_isSome env (fun col_obj => !col_obj.is_virtual) true
    tab_obj.columns { share with field := fun _ => none, vfields := 0 }
    (first_pass_start { share with field := fun _ => none, vfields := 0 }) hcs
  refine ⟨share1, c1, h1, ?_⟩
  cases hv : c1.has_vgc with
  | false =>
    left
    refine ⟨rfl, ?_⟩
    simp only [fill_columns_scan, first_pass_eq, h1, hv]
    simp
  | true =>
    right
    refine ⟨rfl, ?_⟩
    obtain ⟨⟨share3, c3⟩, h3⟩ := columns_pass_isSome env (fun col_obj => col_obj.is_virtual)
      false tab_obj.columns
      (if share1.stored_rec_length > c1.rec_pos then
        { share1 with stored_rec_length := c1.rec_pos } else share1)
      (second_pass_start
        (if share1.stored_rec_length > c1.rec_pos then
          { share1 with stored_rec_length := c1.rec_pos } else share1) c1) hcs
    refine ⟨_, share3, c3, ?_, ?_, ?_, h3, ?_⟩
    · split_ifs <;> exact ⟨rfl, rfl, rfl, rfl⟩
    · split_ifs <;> rfl
    · split_ifs with hgt
      · exact (Nat.min_eq_right (Nat.le_of_lt hgt)).symm
      · exact (Nat.min_eq_left (Nat.le_of_not_gt hgt)).symm
    · simp only [fill_columns_scan, first_pass_eq, second_pass_eq, h1, hv]
      simpa using h3

/-- The null cursor with which `fill_columns_from_dd` ends, when the collations
resolve: the cursor after all non-hidden columns, from byte 0 and the initial
bit position. -/
theorem fill_columns_scan_null_cursor (env : Server) (share : TABLE_SHARE) (tab_obj : Table)
    (hcs : collations_resolve env tab_obj.columns) :
    ∃ share1 c, fill_columns_scan env share tab_obj = some (share1, c) ∧
      (c.null_pos, c.null_bit_pos) =
        null_cursor_after (visible_columns tab_obj.columns) (0, initial_null_bit_pos share) := by
  obtain ⟨share1, c1, h1, hcase⟩ := fill_columns_scan_cases env share tab_obj hcs
  have r1 := columns_pass_spec _ _ _ _ _ h1
  rcases hcase with ⟨_, hres⟩ | ⟨_, share2, share3, c3, hlay2, _, _, h3, hres⟩
  · refine ⟨share1, c1, hres, ?_⟩
    rw [r1.null_cursor]
    rfl
  · have r3 := columns_pass_spec _ _ _ _ _ h3
    refine ⟨share3, c3, hres, ?_⟩
    rw [r3.null_cursor]
    have e : initial_null_bit_pos share2 = initial_null_bit_pos share := by
      have e1 : share2.db_create_options = share1.db_create_options := hlay2.2.1
      have e2 : share1.db_create_options = share.db_create_options := r1.layout.2.1
      exact initial_null_bit_pos_congr (e1.trans e2)
    simp only [second_pass_start, e]

/-- C8: when `fill_columns_from_dd` has scanned the columns (it does so whenever
their collations resolve), the bit cursor is at most 7, the cursor position
`8 * null_pos + null_bit_pos` is the initial bit position plus the sum of
`column_preamble_bits` over the non-hidden columns, and the number of null
bytes compared with `share->null_bytes` is that total divided by 8, rounded
up. -/
theorem fill_columns_null_bytes (env : Server) (share : TABLE_SHARE) (tab_obj : Table)
    (hcs : collations_resolve env tab_obj.columns) :
    ∃ share1 c, fill_columns_scan env share tab_obj = some (share1, c) ∧
      c.null_bit_pos ≤ 7 ∧
      8 * c.null_pos + c.null_bit_pos = total_null_bits share tab_obj.columns ∧
      scanned_null_bytes c = (total_null_bits share tab_obj.columns + 7) / 8 ∧
      total_null_bits share tab_obj.columns ≤ 8 * scanned_null_bytes c ∧
      8 * scanned_null_bytes c < total_null_bits share tab_obj.columns + 8 := by
  obtain ⟨share1, c, hres, hcur⟩ := fill_columns_scan_null_cursor env share tab_obj hcs
  have hb := null_cursor_after_bits (visible_columns tab_obj.columns)
    (0, initial_null_bit_pos share) (initial_null_bit_pos_le share)
  rw [← hcur] at hb
  simp only [Nat.mul_zero, Nat.zero_add] at hb
  have htot : 8 * c.null_pos + c.null_bit_pos = total_null_bits share tab_obj.columns := by
    rw [hb.2]
    rfl
  refine ⟨share1, c, hres, hb.1, htot, ?_, ?_, ?_⟩ <;>
    simp only [scanned_null_bytes] <;> omega

/-- C8, on the example table: the scan succeeds and the four properties hold
there. -/
theorem fill_columns_null_bytes_witness :
    collations_resolve example_server example_table.columns ∧
    ∃ share1 c, fill_columns_scan example_server example_share example_table = some (share1, c) ∧
      c.null_bit_pos ≤ 7 ∧
      8 * c.null_pos + c.null_bit_pos = total_null_bits example_share example_table.columns ∧
      scanned_null_bytes c = (total_null_bits example_share example_table.columns + 7) / 8 ∧
      total_null_bits example_share example_table.columns ≤ 8 * scanned_null_bytes c ∧
      8 * scanned_null_bytes c < total_null_bits example_share example_table.columns + 8 :=
  have h : collations_resolve example_server example_table.columns := by
    unfold collations_resolve
    decide
  ⟨h, fill_columns_null_bytes example_server example_share example_table h⟩

/-- The fields that `fill_columns_from_dd` leaves in the share, when the
collations resolve: the non-hidden column of rank `k` has its field in slot `k`,
built at the null cursor reached after the `k` columns before it; the stored
columns lie between the null bytes and the record position `R` at which the
first pass ended, the virtual ones at or after `R`. -/
theorem fill_columns_layout (env : Server) (share : TABLE_SHARE) (tab_obj : Table)
    (hcs : collations_resolve env tab_obj.columns) :
    ∃ share1 R, fill_columns_from_dd env share tab_obj = some share1 ∧
      ∀ k col_obj, (visible_columns tab_obj.columns)[k]? = some col_obj →
        ∃ f, share1.field k = some f ∧
          is_field_of f col_obj
            (null_cursor_after ((visible_columns tab_obj.columns).take k)
              (0, initial_null_bit_pos share)).1
            (null_cursor_after ((visible_columns tab_obj.columns).take k)
              (0, initial_null_bit_pos share)).2
            f.ptr k ∧
          (col_obj.is_virtual = false →
            share.null_bytes ≤ f.ptr ∧ f.ptr + f.pack_length_in_rec ≤ R) ∧
          (col_obj.is_virtual = true → R ≤ f.ptr) := by
  obtain ⟨share1, c1, h1, hcase⟩ := fill_columns_scan_cases env share tab_obj hcs
  have r1 := columns_pass_spec _ _ _ _ _ h1
  have hstored : ∀ k col_obj, (visible_columns tab_obj.columns)[k]? = some col_obj →
      col_obj.is_virtual = false →
      ∃ f, share1.field k = some f ∧
        is_field_of f col_obj
          (null_cursor_after ((visible_columns tab_obj.columns).take k)
            (0, initial_null_bit_pos share)).1
          (null_cursor_after ((visible_columns tab_obj.columns).take k)
            (0, initial_null_bit_pos share)).2
          f.ptr k ∧
        share.null_bytes ≤ f.ptr ∧ f.ptr + f.pack_length_in_rec ≤ c1.rec_pos := by
    intro k col_obj hk hv
    obtain ⟨f, hf, hfo, hlo, hhi⟩ := r1.compiled k col_obj hk (by simp [hv])
    simp only [first_pass_start, Nat.zero_add] at hf hfo hlo
    exact ⟨f, hf, hfo, hlo, hhi⟩
  rcases hcase with ⟨hvgc, hres⟩ | ⟨_, share2, share3, c3, hlay2, hfield2, _, h3, hres⟩
  · refine ⟨share1, c1.rec_pos, by simp [fill_columns_from_dd, hres], ?_⟩
    intro k col_obj hk
    have hnv : col_obj.is_virtual = false := by
      have hany := r1.has_vgc
      rw [hvgc] at hany
      simp only [first_pass_start, Bool.false_or, Bool.true_and, Bool.not_not] at hany
      cases hv : col_obj.is_virtual with
      | false => rfl
      | true =>
        have hmem : col_obj ∈ visible_columns tab_obj.columns := List.getElem?_mem hk
        have : (visible_columns tab_obj.columns).any (fun c => c.is_virtual) = true :=
          List.any_eq_true.mpr ⟨col_obj, hmem, hv⟩
        rw [this] at hany
        exact absurd hany (by simp)
    obtain ⟨f, hf, hfo, hlo, hhi⟩ := hstored k col_obj hk hnv
    exact ⟨f, hf, hfo, fun _ => ⟨hlo, hhi⟩, fun hv => absurd hv (by simp [hnv])⟩
  · have r3 := columns_pass_spec _ _ _ _ _ h3
    have e : initial_null_bit_pos share2 = initial_null_bit_pos share := by
      have e1 : share2.db_create_options = share1.db_create_options := hlay2.2.1
      have e2 : share1.db_create_options = share.db_create_options := r1.layout.2.1
      exact initial_null_bit_pos_congr (e1.trans e2)
    refine ⟨share3, c1.rec_pos, by simp [fill_columns_from_dd, hres], ?_⟩
    intro k col_obj hk
    cases hv : col_obj.is_virtual with
    | false =>
      obtain ⟨f, hf, hfo, hlo, hhi⟩ := hstored k col_obj hk hv
      have hkeep := r3.skipped k col_obj hk hv
      simp only [second_pass_start, Nat.zero_add] at hkeep
      refine ⟨f, ?_, hfo, fun _ => ⟨hlo, hhi⟩, fun h => absurd h (by simp)⟩
      rw [hkeep, hfield2]
      exact hf
    | true =>
      obtain ⟨f, hf, hfo, hlo, _⟩ := r3.compiled k col_obj hk hv
      simp only [second_pass_start, Nat.zero_add, e] at hf hfo hlo
      exact ⟨f, hf, hfo, fun h => absurd h (by simp), fun _ => hlo⟩

/-- C9, as stated, fails: with the packed-record option set the first column is
given bit 0, not bit 1, in the first pass (`example_table`) and in the second
pass (`example_table_virtual_first`); without the option it is given bit 1, not
bit 0. -/
theorem initial_null_bit_pos_counterexample :
    first_field_null_bit_pos example_server example_share_packed example_table ≠
        some (initial_null_bit_pos_as_specified example_share_packed) ∧
      first_field_null_bit_pos example_server example_share_packed example_table_virtual_first ≠
        some (initial_null_bit_pos_as_specified example_share_packed) ∧
      first_field_null_bit_pos example_server example_share example_table ≠
        some (initial_null_bit_pos_as_specified example_share) ∧
      first_field_null_bit_pos example_server example_share example_table_virtual_first ≠
        some (initial_null_bit_pos_as_specified example_share) := by
  decide

/-- C9, amended: the null bit counter starts at bit 0 if the packed-record
option is set and at bit 1 otherwise, in both passes: the first non-hidden
column, stored (compiled by the first pass) or virtual (compiled by the second
pass), gets null byte 0 and that bit position. -/
theorem initial_null_bit_pos_spec (env : Server) (share : TABLE_SHARE) (tab_obj : Table)
    (col_obj : Column) (hfirst : (visible_columns tab_obj.columns)[0]? = some col_obj)
    (hcs : collations_resolve env tab_obj.columns) :
    ∃ share1 f, fill_columns_from_dd env share tab_obj = some share1 ∧
      share1.field 0 = some f ∧ f.field_name = col_obj.name ∧ f.null_ptr = 0 ∧
      f.null_bit_pos =
        (if share.db_create_options &&& HA_OPTION_PACK_RECORD ≠ 0 then 0 else 1) := by
  obtain ⟨share1, R, hres, hall⟩ := fill_columns_layout env share tab_obj hcs
  obtain ⟨f, hf, hfo, _, _⟩ := hall 0 col_obj hfirst
  obtain ⟨_, p2, p3, _, p5, _⟩ := hfo
  refine ⟨share1, f, hres, hf, p5, ?_, ?_⟩
  · simpa [null_cursor_after] using p2
  · simpa [null_cursor_after, initial_null_bit_pos] using p3

/-- C9, amended, on two example tables with the packed-record option: the first
column of `example_table` is stored, that of `example_table_virtual_first` is
virtual, and both get bit 0 of byte 0. -/
theorem initial_null_bit_pos_spec_witness :
    (∃ share1 f,
      fill_columns_from_dd example_server example_share_packed example_table = some share1 ∧
        share1.field 0 = some f ∧ f.field_name = "a" ∧ f.null_ptr = 0 ∧
        f.null_bit_pos =
          (if example_share_packed.db_create_options &&& HA_OPTION_PACK_RECORD ≠ 0
            then 0 else 1)) ∧
    (∃ share1 f,
      fill_columns_from_dd example_server example_share_packed example_table_virtual_first =
          some share1 ∧
        share1.field 0 = some f ∧ f.field_name = "v" ∧ f.null_ptr = 0 ∧
        f.null_bit_pos =
          (if example_share_packed.db_create_options &&& HA_OPTION_PACK_RECORD ≠ 0
            then 0 else 1)) :=
  ⟨initial_null_bit_pos_spec example_server example_share_packed example_table
      { name := "a", type := .LONG, is_nullable := true, char_length := 11,
        ordinal_position := 1 }
      rfl (by unfold collations_resolve; decide),
    initial_null_bit_pos_spec example_server example_share_packed example_table_virtual_first
      { name := "v", type := .LONG, is_nullable := true, is_virtual := true,
        is_generation_expression_null := false, generation_expression := "a + 1",
        char_length := 11, ordinal_position := 1 }
      rfl (by unfold collations_resolve; decide)⟩

/-- C10, as stated, fails: in `example_table_bit` the stored BIT(3) column (slot
0) keeps no byte in the record body, so the virtual column behind it (slot 1)
gets the same offset 1, not a larger one. -/
theorem stored_before_virtual_counterexample :
    (visible_columns example_table_bit.columns).map (fun col_obj => col_obj.is_virtual) =
        [false, true] ∧
      field_offset example_server example_share example_table_bit 0 = some 1 ∧
      field_offset example_server example_share example_table_bit 1 = some 1 ∧
      ¬ (∀ a b, field_offset example_server example_share example_table_bit 0 = some a →
          field_offset example_server example_share example_table_bit 1 = some b → a < b) := by
  refine ⟨by decide, by decide, by decide, ?_⟩
  intro h
  exact absurd (h 1 1 (by decide) (by decide)) (by decide)

/-- C10, amended: `fill_columns_from_dd` (which succeeds when the collations
resolve) puts the field of the non-hidden column of rank `k` in slot `k` with
field index `k`, for stored and virtual columns alike, and every stored column
ends (offset plus `pack_length_in_rec`) at or before the offset of every
virtual column; its offset is strictly smaller when it keeps at least one byte
in the record. -/
theorem stored_before_virtual (env : Server) (share : TABLE_SHARE) (tab_obj : Table)
    (hcs : collations_resolve env tab_obj.columns) :
    ∃ share1, fill_columns_from_dd env share tab_obj = some share1 ∧
      (∀ k col_obj, (visible_columns tab_obj.columns)[k]? = some col_obj →
        ∃ f, share1.field k = some f ∧ f.field_index = k ∧ f.field_name = col_obj.name ∧
          f.maybe_null = col_obj.is_nullable) ∧
      (∀ i j ci cj fi fj, (visible_columns tab_obj.columns)[i]? = some ci →
        (visible_columns tab_obj.columns)[j]? = some cj →
        ci.is_virtual = false → cj.is_virtual = true →
        share1.field i = some fi → share1.field j = some fj →
        fi.ptr + fi.pack_length_in_rec ≤ fj.ptr ∧
          (0 < fi.pack_length_in_rec → fi.ptr < fj.ptr)) := by
  obtain ⟨share1, R, hres, hall⟩ := fill_columns_layout env share tab_obj hcs
  refine ⟨share1, hres, ?_, ?_⟩
  · intro k col_obj hk
    obtain ⟨f, hf, hfo, _, _⟩ := hall k col_obj hk
    exact ⟨f, hf, hfo.2.2.2.1, hfo.2.2.2.2.1, hfo.2.2.2.2.2⟩
  · intro i j ci cj fi fj hi hj hci hcj hfi hfj
    obtain ⟨f, hf, _, hst, _⟩ := hall i ci hi
    obtain ⟨g, hg, _, _, hvi⟩ := hall j cj hj
    rw [hfi] at hf
    rw [hfj] at hg
    simp only [Option.some.injEq] at hf hg
    subst hf
    subst hg
    have h1 := (hst hci).2
    have h2 := hvi hcj
    constructor
    · omega
    · intro hpos
      omega

/-- C10, amended, on the example table. -/
theorem stored_before_virtual_witness :
    collations_resolve example_server example_table.columns ∧
    ∃ share1, fill_columns_from_dd example_server example_share example_table = some share1 ∧
      (∀ k col_obj, (visible_columns example_table.columns)[k]? = some col_obj →
        ∃ f, share1.field k = some f ∧ f.field_index = k ∧ f.field_name = col_obj.name ∧
          f.maybe_null = col_obj.is_nullable) ∧
      (∀ i j ci cj fi fj, (visible_columns example_table.columns)[i]? = some ci →
        (visible_columns example_table.columns)[j]? = some cj →
        ci.is_virtual = false → cj.is_virtual = true →
        share1.field i = some fi → share1.field j = some fj →
        fi.ptr + fi.pack_length_in_rec ≤ fj.ptr ∧
          (0 < fi.pack_length_in_rec → fi.ptr < fj.ptr)) :=
  have h : collations_resolve example_server example_table.columns := by
    unfold collations_resolve
    decide
  ⟨h, stored_before_virtual example_server example_share example_table h⟩

/-! ## Properties of `is_suitable_for_primary_key` and of the promotion -/

/-- The promotion scan of a key: the key number when every part is suitable,
`MAX_KEY` otherwise. -/
theorem promotion_scan_eq (key : Nat) (parts : List KEY_PART_INFO) :
    promotion_scan key parts =
      if (∀ key_part ∈ parts, is_suitable_for_primary_key key_part key_part.field = true)
        then key else MAX_KEY := by
  induction parts with
  | nil => simp [promotion_scan]
  | cons key_part rest ih =>
    simp only [promotion_scan, ih, List.mem_cons, forall_eq_or_imp]
    cases hs : is_suitable_for_primary_key key_part key_part.field <;> simp

/-- The key number `k` qualifies exactly when there is a key with that number
and it qualifies. -/
theorem qualifies_at_iff (key_info : List KEY) (k : Nat) :
    qualifies_at key_info k ↔ ∃ keyinfo, key_info[k]? = some keyinfo ∧ qualifies keyinfo := by
  unfold qualifies_at
  cases key_info[k]? with
  | none => simp
  | some keyinfo => simp

/-- A known primary key is not replaced by the promotion test. -/
theorem promote_key_of_lt (primary_key key : Nat) (keyinfo : KEY) (h : primary_key < MAX_KEY) :
    promote_key primary_key key keyinfo = primary_key := by
  have : ¬ primary_key ≥ MAX_KEY := by omega
  simp [promote_key, this]

/-- Without a known primary key a qualifying key is promoted. -/
theorem promote_key_of_qualifies (primary_key key : Nat) (keyinfo : KEY)
    (h : MAX_KEY ≤ primary_key) (hq : qualifies keyinfo) :
    promote_key primary_key key keyinfo = key := by
  obtain ⟨hu, hall⟩ := hq
  have hge : primary_key ≥ MAX_KEY := h
  unfold promote_key
  rw [if_pos ⟨hge, hu⟩, promotion_scan_eq, if_pos hall]

/-- Without a known primary key a key that does not qualify leaves the primary
key unknown. -/
theorem promote_key_of_not_qualifies (primary_key key : Nat) (keyinfo : KEY)
    (h : MAX_KEY ≤ primary_key) (hq : ¬ qualifies keyinfo) :
    MAX_KEY ≤ promote_key primary_key key keyinfo := by
  unfold promote_key
  split_ifs with hc
  · rw [promotion_scan_eq]
    split_ifs with hall
    · exact absurd ⟨hc.2, hall⟩ hq
    · exact Nat.le_refl _
  · exact h

/-- One more turn of the promotion over the keys. -/
theorem promoted_key_succ (key_info : List KEY) (primary_key n : Nat) :
    promoted_key key_info primary_key (n + 1) =
      match key_info[n]? with
      | some keyinfo => promote_key (promoted_key key_info primary_key n) n keyinfo
      | none => promoted_key key_info primary_key n := by
  simp only [promoted_key, List.range_succ, List.foldl_append, List.foldl_cons, List.foldl_nil]

/-- A primary key known before the loop stays. -/
theorem promoted_key_of_lt (key_info : List KEY) (primary_key : Nat) (h : primary_key < MAX_KEY)
    (n : Nat) : promoted_key key_info primary_key n = primary_key := by
  induction n with
  | zero => rfl
  | succ n ih =>
    rw [promoted_key_succ, ih]
    cases key_info[n]? with
    | none => rfl
    | some keyinfo => exact promote_key_of_lt _ _ _ h

/-- Without a primary key known before the loop, a primary key found by the loop
is one of the keys handled so far, and that key qualifies. -/
theorem promoted_key_found (key_info : List KEY) (primary_key : Nat)
    (h : MAX_KEY ≤ primary_key) (n : Nat)
    (hlt : promoted_key key_info primary_key n < MAX_KEY) :
    promoted_key key_info primary_key n < n ∧
      qualifies_at key_info (promoted_key key_info primary_key n) := by
  induction n with
  | zero =>
    simp only [promoted_key, List.range_zero, List.foldl_nil] at hlt
    omega
  | succ n ih =>
    rw [promoted_key_succ] at hlt ⊢
    cases hk : key_info[n]? with
    | none =>
      rw [hk] at hlt
      simp only at hlt ⊢
      have := ih hlt
      exact ⟨by omega, this.2⟩
    | some keyinfo =>
      rw [hk] at hlt
      simp only at hlt ⊢
      by_cases hprev : promoted_key key_info primary_key n < MAX_KEY
      · rw [promote_key_of_lt _ _ _ hprev] at hlt ⊢
        have := ih hprev
        exact ⟨by omega, this.2⟩
      · have hge : MAX_KEY ≤ promoted_key key_info primary_key n := by omega
        by_cases hq : qualifies keyinfo
        · rw [promote_key_of_qualifies _ _ _ hge hq]
          exact ⟨by omega, (qualifies_at_iff _ _).mpr ⟨keyinfo, hk, hq⟩⟩
        · have := promote_key_of_not_qualifies _ n keyinfo hge hq
          omega

/-- Without a primary key known before the loop, the loop stops at the first key
that qualifies: before that key the primary key is unknown, from it on it is
that key. -/
theorem promoted_key_first (key_info : List KEY) (primary_key : Nat)
    (h : MAX_KEY ≤ primary_key) (k : Nat) (hk : k < MAX_KEY) (hq : qualifies_at key_info k)
    (hfirst : ∀ j, j < k → ¬ qualifies_at key_info j) (n : Nat) :
    (n ≤ k → MAX_KEY ≤ promoted_key key_info primary_key n) ∧
      (k < n → promoted_key key_info primary_key n = k) := by
  induction n with
  | zero =>
    refine ⟨fun _ => h, fun hlt => absurd hlt (by omega)⟩
  | succ n ih =>
    rw [promoted_key_succ]
    constructor
    · intro hle
      have hprev := ih.1 (by omega)
      cases hkn : key_info[n]? with
      | none => exact hprev
      | some keyinfo =>
        have hnq : ¬ qualifies keyinfo := fun hq2 =>
          hfirst n (by omega) ((qualifies_at_iff _ _).mpr ⟨keyinfo, hkn, hq2⟩)
        exact promote_key_of_not_qualifies _ n keyinfo hprev hnq
    · intro hlt
      by_cases hnk : n = k
      · subst hnk
        obtain ⟨keyinfo, hkn, hq2⟩ := (qualifies_at_iff _ _).mp hq
        rw [hkn]
        exact promote_key_of_qualifies _ _ _ (ih.1 (Nat.le_refl _)) hq2
      · have hprev := ih.2 (by omega)
        cases hkn : key_info[n]? with
        | none => exact hprev
        | some keyinfo =>
          simp only
          rw [hprev]
          exact promote_key_of_lt _ _ _ hk

/-- Without a primary key known before the loop and without a qualifying key,
the primary key stays unknown. -/
theorem promoted_key_none (key_info : List KEY) (primary_key : Nat)
    (h : MAX_KEY ≤ primary_key) (n : Nat) (hnone : ∀ j, j < n → ¬ qualifies_at key_info j) :
    MAX_KEY ≤ promoted_key key_info primary_key n := by
  by_contra hlt
  have := promoted_key_found key_info primary_key h n (by omega)
  exact hnone _ this.1 this.2

/-- The name given to a key in the loop does not matter to the promotion test. -/
theorem promote_key_name (primary_key key : Nat) (keyinfo : KEY) (name : Option String) :
    promote_key primary_key key { keyinfo with name := name } =
      promote_key primary_key key keyinfo := rfl

/-- The local `primary_key` after one turn of the loop over the keys. -/
theorem prepare_key_snd (eng : Engine) (handler_file : handler) (st : TABLE_SHARE × Nat)
    (key : Nat) :
    (prepare_key eng handler_file st key).2 =
      match st.1.key_info[key]? with
      | some keyinfo => promote_key st.2 key keyinfo
      | none => st.2 := by
  simp only [prepare_key]
  cases st.1.key_info[key]? with
  | none => rfl
  | some keyinfo => rfl

/-- One turn of the loop over the keys writes to its own key only. -/
theorem prepare_key_other (eng : Engine) (handler_file : handler) (st : TABLE_SHARE × Nat)
    (key j : Nat) (hj : key ≠ j) :
    (prepare_key eng handler_file st key).1.key_info[j]? = st.1.key_info[j]? := by
  simp only [prepare_key]
  cases hk : st.1.key_info[key]? with
  | none => rfl
  | some keyinfo => exact List.getElem?_set_ne hj

/-- One turn of the loop over the keys leaves the number of keys, their names
and the map of keys in use alone. -/
theorem prepare_key_frame (eng : Engine) (handler_file : handler) (st : TABLE_SHARE × Nat)
    (key : Nat) :
    (prepare_key eng handler_file st key).1.keys = st.1.keys ∧
      (prepare_key eng handler_file st key).1.keys_in_use = st.1.keys_in_use ∧
      (prepare_key eng handler_file st key).1.keynames = st.1.keynames := by
  simp only [prepare_key]
  cases st.1.key_info[key]? with
  | none => exact ⟨rfl, rfl, rfl⟩
  | some keyinfo => exact ⟨rfl, rfl, rfl⟩

/-- The loop over the first `n` keys: the local `primary_key` is the promoted
key computed from the keys as they were, and the keys not yet handled, the
number of keys and the map of keys in use are untouched. -/
theorem prepare_keys_upto (eng : Engine) (handler_file : handler) (share : TABLE_SHARE)
    (primary_key : Nat) (n : Nat) :
    ((List.range n).foldl (prepare_key eng handler_file) (share, primary_key)).2 =
        promoted_key share.key_info primary_key n ∧
      (∀ j, n ≤ j →
        ((List.range n).foldl (prepare_key eng handler_file) (share, primary_key)).1.key_info[j]? =
          share.key_info[j]?) ∧
      ((List.range n).foldl (prepare_key eng handler_file) (share, primary_key)).1.keys =
        share.keys ∧
      ((List.range n).foldl (prepare_key eng handler_file) (share, primary_key)).1.keys_in_use =
        share.keys_in_use := by
  induction n with
  | zero => exact ⟨rfl, fun _ _ => rfl, rfl, rfl⟩
  | succ n ih =>
    obtain ⟨ih1, ih2, ih3, ih4⟩ := ih
    simp only [List.range_succ, List.foldl_append, List.foldl_cons, List.foldl_nil]
    refine ⟨?_, ?_, ?_, ?_⟩
    · rw [prepare_key_snd, promoted_key_succ, ih1, ih2 n (Nat.le_refl _)]
    · intro j hj
      rw [prepare_key_other _ _ _ n j (by omega)]
      exact ih2 j (by omega)
    · rw [(prepare_key_frame _ _ _ n).1]
      exact ih3
    · rw [(prepare_key_frame _ _ _ n).2.1]
      exact ih4

/-- The primary key that `set_primary_key` records in the share. -/
theorem set_primary_key_primary_key (share : TABLE_SHARE) (primary_key : Nat) :
    (set_primary_key share primary_key).primary_key =
      if primary_key < MAX_KEY ∧ is_set share.keys_in_use primary_key = true then primary_key
      else MAX_KEY := by
  unfold set_primary_key
  by_cases h : primary_key < MAX_KEY ∧ is_set share.keys_in_use primary_key = true
  · rw [if_pos h, if_pos h]
    simp only
    split
    · split_ifs
      · split
        · split_ifs <;> rfl
        · rfl
      · rfl
    · rfl
  · rw [if_neg h, if_neg h]

/-- The primary key recorded by the key block of `prepare_share`: `MAX_KEY`
without keys; otherwise the key found by name or by promotion, provided it is a
key in use, and `MAX_KEY` if not. -/
theorem prepare_share_keys_primary_key (eng : Engine) (handler_file : handler)
    (share : TABLE_SHARE) :
    (prepare_share_keys eng handler_file share).primary_key =
      if share.keys = 0 then MAX_KEY
      else if promoted_key share.key_info
            (to_uint (find_type primary_key_name share.keynames - 1)) share.keys < MAX_KEY ∧
          is_set share.keys_in_use (promoted_key share.key_info
            (to_uint (find_type primary_key_name share.keynames - 1)) share.keys) = true
        then promoted_key share.key_info
          (to_uint (find_type primary_key_name share.keynames - 1)) share.keys
        else MAX_KEY := by
  unfold prepare_share_keys
  by_cases h0 : share.keys = 0
  · simp [h0]
  · have hu := prepare_keys_upto eng handler_file share
      (to_uint (find_type primary_key_name share.keynames - 1)) share.keys
    rw [if_pos h0, if_neg h0]
    simp only [set_primary_key_primary_key, prepare_keys]
    rw [hu.1, hu.2.2.2]

/-- A successful `prepare_share` returns what its key block makes of a share
with the same keys, key names and keys in use. -/
theorem prepare_share_some (eng : Engine) (share share1 : TABLE_SHARE)
    (h : prepare_share eng share = some share1) :
    ∃ handler_file share0, share1 = prepare_share_keys eng handler_file share0 ∧
      share0.keys = share.keys ∧ share0.key_info = share.key_info ∧
      share0.keynames = share.keynames ∧ share0.keys_in_use = share.keys_in_use := by
  unfold prepare_share at h
  simp only at h
  split at h
  · exact absurd h (by simp)
  · split at h
    · exact absurd h (by simp)
    · split at h
      · exact absurd h (by simp)
      · split at h
        · exact absurd h (by simp)
        · split at h
          · exact absurd h (by simp)
          · simp only [Option.some.injEq] at h
            exact ⟨_, _, h.symm, rfl, rfl, rfl, rfl⟩

/-- The primary key of the share after a successful `prepare_share`: `MAX_KEY`
without keys; otherwise the key found by name or by promotion, provided it is a
key in use, and `MAX_KEY` if not. -/
theorem prepare_share_primary_key (eng : Engine) (share share1 : TABLE_SHARE)
    (h : prepare_share eng share = some share1) :
    share1.primary_key =
      if share.keys = 0 then MAX_KEY
      else if promoted_key share.key_info
            (to_uint (find_type primary_key_name share.keynames - 1)) share.keys < MAX_KEY ∧
          is_set share.keys_in_use (promoted_key share.key_info
            (to_uint (find_type primary_key_name share.keynames - 1)) share.keys) = true
        then promoted_key share.key_info
          (to_uint (find_type primary_key_name share.keynames - 1)) share.keys
        else MAX_KEY := by
  obtain ⟨handler_file, share0, hs, e1, e2, e3, e4⟩ := prepare_share_some eng share share1 h
  rw [hs, prepare_share_keys_primary_key, e1, e2, e3, e4]

/-- The scan of `find_type` answers 0 or a position, counted from 1, among the
names it was given. -/
theorem find_type_scan_range (x : String) (names : List (Option String)) :
    ∀ pos : Nat, find_type_scan x names pos = 0 ∨
      ((pos : Int) + 1 ≤ find_type_scan x names pos ∧
        find_type_scan x names pos ≤ (pos : Int) + names.length) := by
  induction names with
  | nil =>
    intro pos
    exact Or.inl rfl
  | cons name rest ih =>
    intro pos
    cases name with
    | none => exact Or.inl rfl
    | some j =>
      simp only [find_type_scan, List.length_cons]
      split_ifs
      · right
        constructor <;> push_cast <;> omega
      · rcases ih (pos + 1) with h0 | ⟨h1, h2⟩
        · exact Or.inl h0
        · right
          push_cast at h1 h2 ⊢
          constructor <;> omega

/-- The answer of `find_type`: 0, or a position from 1 to the number of names. -/
theorem find_type_range (x : String) (typelib : TYPELIB) :
    find_type x typelib = 0 ∨
      (1 ≤ find_type x typelib ∧ find_type x typelib ≤ typelib.type_names.length) := by
  unfold find_type
  split_ifs
  · exact Or.inl rfl
  · rcases find_type_scan_range x typelib.type_names 0 with h0 | ⟨h1, h2⟩
    · exact Or.inl h0
    · right
      push_cast at h1 h2
      constructor <;> omega

/-- The key block of `prepare_share` keeps the number of keys. -/
theorem prepare_share_keys_keys (eng : Engine) (handler_file : handler) (share : TABLE_SHARE) :
    (prepare_share_keys eng handler_file share).keys = share.keys := by
  have hset : ∀ (sh : TABLE_SHARE) (pk : Nat), (set_primary_key sh pk).keys = sh.keys := by
    intro sh pk
    unfold set_primary_key
    split_ifs
    · simp only
      split
      · split_ifs
        · split
          · split_ifs <;> rfl
          · rfl
        · rfl
      · rfl
    · rfl
  unfold prepare_share_keys
  split_ifs
  · simp only [hset, prepare_keys]
    exact (prepare_keys_upto eng handler_file share _ share.keys).2.2.1
  · rfl

/-- When no key is named PRIMARY and `prepare_share` ends with the key `k` as
primary key, `k` qualifies for promotion. -/
theorem promoted_of_primary_key (eng : Engine) (share share1 : TABLE_SHARE) (k : Nat)
    (hok : prepare_share eng share = some share1)
    (hname : find_type primary_key_name share.keynames = 0) (hk : k < MAX_KEY)
    (hpk : share1.primary_key = k) :
    k < share.keys ∧ qualifies_at share.key_info k := by
  have h := prepare_share_primary_key eng share share1 hok
  rw [hname] at h
  have h0 : MAX_KEY ≤ to_uint ((0 : Int) - 1) := by decide
  by_cases hz : share.keys = 0
  · rw [if_pos hz] at h
    omega
  · rw [if_neg hz] at h
    split_ifs at h with hc
    · have hf := promoted_key_found share.key_info _ h0 share.keys hc.1
      rw [← h, hpk] at hf
      exact hf
    · omega

/-- When no key is named PRIMARY, the first key that qualifies becomes the
primary key, if it is a key in use. -/
theorem primary_key_of_first (eng : Engine) (share share1 : TABLE_SHARE) (k : Nat)
    (hok : prepare_share eng share = some share1)
    (hname : find_type primary_key_name share.keynames = 0)
    (hkeys : k < share.keys) (hmax : share.keys ≤ MAX_KEY)
    (huse : is_set share.keys_in_use k = true)
    (hq : qualifies_at share.key_info k)
    (hfirst : ∀ j, j < k → ¬ qualifies_at share.key_info j) :
    share1.primary_key = k := by
  have h := prepare_share_primary_key eng share share1 hok
  rw [hname] at h
  have h0 : MAX_KEY ≤ to_uint ((0 : Int) - 1) := by decide
  have hp := (promoted_key_first share.key_info _ h0 k (by omega) hq hfirst share.keys).2 hkeys
  rw [hp] at h
  rw [h, if_neg (by omega), if_pos ⟨by omega, huse⟩]

/-- A key part on a virtual generated column is not suitable. -/
theorem not_suitable_of_virtual (key_part : KEY_PART_INFO) (table_field : Field)
    (hv : table_field.is_virtual_gcol = true) :
    is_suitable_for_primary_key key_part table_field = false := by
  simp [is_suitable_for_primary_key, hv]

/-- A key part on a nullable column is not suitable. -/
theorem not_suitable_of_nullable (key_part : KEY_PART_INFO) (table_field : Field)
    (hn : table_field.real_maybe_null = true) :
    is_suitable_for_primary_key key_part table_field = false := by
  simp [is_suitable_for_primary_key, hn]

/-- A key part over the whole key length of a NOT NULL column that is not
virtual is suitable. -/
theorem suitable_of_full (key_part : KEY_PART_INFO) (table_field : Field)
    (hv : table_field.is_virtual_gcol = false) (hn : table_field.real_maybe_null = false)
    (hl : table_field.key_length = key_part.length) :
    is_suitable_for_primary_key key_part table_field = true := by
  simp [is_suitable_for_primary_key, hv, hn, hl]

/-- C4: `is_suitable_for_primary_key` answers false for every key part on a
virtual generated column, whatever else holds of the part and the column; so a
key with such a part among its user-defined parts is never promoted: when no
key is named PRIMARY, it is not the primary key after `prepare_share`. -/
theorem virtual_gcol_not_promoted (key_part : KEY_PART_INFO) (table_field : Field)
    (hv : table_field.is_virtual_gcol = true) :
    is_suitable_for_primary_key key_part table_field = false ∧
      ∀ (eng : Engine) (share share1 : TABLE_SHARE) (k : Nat) (keyinfo : KEY),
        prepare_share eng share = some share1 →
        find_type primary_key_name share.keynames = 0 →
        k < MAX_KEY → share.key_info[k]? = some keyinfo →
        key_part ∈ keyinfo.key_part.take keyinfo.user_defined_key_parts →
        key_part.field = table_field →
        share1.primary_key ≠ k := by
  refine ⟨not_suitable_of_virtual key_part table_field hv, ?_⟩
  intro eng share share1 k keyinfo hok hname hk hki hmem hfield hpk
  have hq := (promoted_of_primary_key eng share share1 k hok hname hk hpk).2
  obtain ⟨keyinfo2, hki2, hq2⟩ := (qualifies_at_iff _ _).mp hq
  rw [hki] at hki2
  simp only [Option.some.injEq] at hki2
  subst hki2
  have h1 := hq2.2 key_part hmem
  rw [hfield, not_suitable_of_virtual key_part table_field hv] at h1
  exact absurd h1 (by simp)

/-- C4, on the example share whose only key, a unique one, lies on a virtual
generated column. -/
theorem virtual_gcol_not_promoted_witness :
    virtual_int_field.is_virtual_gcol = true ∧
      is_suitable_for_primary_key
        { field := virtual_int_field, length := 4, store_length := 4, fieldnr := 3, offset := 9 }
        virtual_int_field = false ∧
      ∃ share1, prepare_share {} example_virtual_key_share = some share1 ∧
        share1.primary_key ≠ 0 :=
  have h := virtual_gcol_not_promoted
    { field := virtual_int_field, length := 4, store_length := 4, fieldnr := 3, offset := 9 }
    virtual_int_field rfl
  ⟨rfl, h.1, _, rfl,
    h.2 {} example_virtual_key_share _ 0 (int_key "uv" HA_NOSAME virtual_int_field) rfl
      (by decide) (by decide) rfl (by decide) rfl⟩

/-- C5: for a column that is not virtual, `is_suitable_for_primary_key` answers
true for a NOT NULL column of BLOB type when the part is as long as
`field_length`, and for a NOT NULL GEOMETRY column of sub type POINT when the
part is `MAX_LEN_GEOM_POINT_FIELD` long, whatever `key_length()` is; for every
other key part it answers true exactly when the column is NOT NULL and
`key_length()` equals the length of the part. -/
theorem is_suitable_for_primary_key_spec (key_part : KEY_PART_INFO) (table_field : Field)
    (hv : table_field.is_virtual_gcol = false) :
    (table_field.real_maybe_null = false → table_field.type = .MYSQL_TYPE_BLOB →
        table_field.field_length = key_part.length →
        is_suitable_for_primary_key key_part table_field = true) ∧
      (table_field.real_maybe_null = false → table_field.type = .MYSQL_TYPE_GEOMETRY →
        table_field.get_geometry_type = .GEOM_POINT →
        key_part.length = MAX_LEN_GEOM_POINT_FIELD →
        is_suitable_for_primary_key key_part table_field = true) ∧
      (¬ (table_field.real_maybe_null = false ∧ table_field.type = .MYSQL_TYPE_BLOB ∧
            table_field.field_length = key_part.length) →
        ¬ (table_field.real_maybe_null = false ∧ table_field.type = .MYSQL_TYPE_GEOMETRY ∧
            table_field.get_geometry_type = .GEOM_POINT ∧
            key_part.length = MAX_LEN_GEOM_POINT_FIELD) →
        (is_suitable_for_primary_key key_part table_field = true ↔
          (table_field.real_maybe_null = false ∧
            table_field.key_length = key_part.length))) := by
  refine ⟨?_, ?_, ?_⟩
  · intro hn ht hl
    simp [is_suitable_for_primary_key, hv, hn, ht, hl]
  · intro hn ht hg hl
    simp [is_suitable_for_primary_key, hv, hn, ht, hg, hl]
  · intro h1 h2
    unfold is_suitable_for_primary_key
    rw [if_neg (by simp [hv])]
    rw [if_neg (by simpa [and_assoc] using h1)]
    rw [if_neg (by simpa [and_assoc] using h2)]
    cases hn : table_field.real_maybe_null <;>
      by_cases hl : table_field.key_length = key_part.length <;> simp [hl]

/-- C5, on a NOT NULL BLOB field and a part of 65535 bytes: the part is
suitable although `key_length()` is 0. -/
theorem is_suitable_for_primary_key_spec_witness :
    blob_field.is_virtual_gcol = false ∧
      is_suitable_for_primary_key { field := blob_field, length := 65535 } blob_field = true ∧
      blob_field.key_length ≠ 65535 :=
  ⟨rfl,
    (is_suitable_for_primary_key_spec { field := blob_field, length := 65535 } blob_field rfl).1
      rfl rfl rfl,
    by decide⟩

/-- C1, as stated, fails: in `example_virtual_key_share` no key is named
PRIMARY and the only key is unique with a single part, on a NOT NULL column and
as long as the column's `key_length()`; the column is a virtual generated one,
and the key is not promoted: the share ends without a primary key. The same
happens to the share that `fill_columns_from_dd` and `fill_indexes_from_dd`
build for `example_virtual_table`. -/
theorem promotion_counterexample :
    find_type primary_key_name example_virtual_key_share.keynames = 0 ∧
      (∀ keyinfo ∈ example_virtual_key_share.key_info,
        keyinfo.flags &&& HA_NOSAME ≠ 0 ∧
        ∀ key_part ∈ keyinfo.key_part.take keyinfo.user_defined_key_parts,
          key_part.field.real_maybe_null = false ∧
            key_part.field.key_length = key_part.length) ∧
      (prepare_share {} example_virtual_key_share).map (fun share1 => share1.primary_key) =
        some MAX_KEY ∧
      (prepare_share {} example_virtual_key_share).map (fun share1 => share1.primary_key) ≠
        some 0 ∧
      ((fill_columns_from_dd example_server { fields := 1, null_bytes := 1 }
          example_virtual_table).bind
        (fun share1 => fill_indexes_from_dd example_server {} share1 example_virtual_table)).map
        (fun share2 =>
          (find_type primary_key_name share2.keynames,
            share2.key_info.map (fun keyinfo =>
              (keyinfo.flags &&& HA_NOSAME,
                (keyinfo.key_part.take keyinfo.user_defined_key_parts).map (fun key_part =>
                  (key_part.field.real_maybe_null, key_part.field.key_length,
                    key_part.length)))),
            (prepare_share {} share2).map (fun share3 => share3.primary_key))) =
        some (0, [(1, [(false, 4, 4)])], some MAX_KEY) := by
  refine ⟨by decide, by decide, by decide, by decide, by rfl⟩

/-- C1, amended: when no key is named PRIMARY, a unique key (a key in use, one
of at most `MAX_KEY` keys) all of whose user-defined key parts lie on a NOT NULL
column that is not a virtual generated column, with the length of the column's
`key_length()`, becomes `share->primary_key` if no earlier key qualified; the
same key with a part on a nullable column does not. -/
theorem promotion_of_unique_key (eng : Engine) (share share1 : TABLE_SHARE) (k : Nat)
    (keyinfo : KEY) (hok : prepare_share eng share = some share1)
    (hname : find_type primary_key_name share.keynames = 0)
    (hk : share.key_info[k]? = some keyinfo) (hkeys : k < share.keys)
    (hmax : share.keys ≤ MAX_KEY) (huse : is_set share.keys_in_use k = true)
    (huniq : keyinfo.flags &&& HA_NOSAME ≠ 0) :
    ((∀ key_part ∈ keyinfo.key_part.take keyinfo.user_defined_key_parts,
          key_part.field.real_maybe_null = false ∧ key_part.field.is_virtual_gcol = false ∧
            key_part.field.key_length = key_part.length) →
        (∀ j, j < k → ¬ qualifies_at share.key_info j) →
        share1.primary_key = k) ∧
      ((∃ key_part ∈ keyinfo.key_part.take keyinfo.user_defined_key_parts,
          key_part.field.real_maybe_null = true) →
        share1.primary_key ≠ k) := by
  constructor
  · intro hall hfirst
    have hq : qualifies_at share.key_info k :=
      (qualifies_at_iff _ _).mpr ⟨keyinfo, hk, huniq, fun key_part hmem =>
        suitable_of_full key_part key_part.field (hall key_part hmem).2.1
          (hall key_part hmem).1 (hall key_part hmem).2.2⟩
    exact primary_key_of_first eng share share1 k hok hname hkeys hmax huse hq hfirst
  · intro hex hpk
    obtain ⟨key_part, hmem, hnull⟩ := hex
    have hq := (promoted_of_primary_key eng share share1 k hok hname (by omega) hpk).2
    obtain ⟨keyinfo2, hki2, hq2⟩ := (qualifies_at_iff _ _).mp hq
    rw [hk] at hki2
    simp only [Option.some.injEq] at hki2
    subst hki2
    have h1 := hq2.2 key_part hmem
    rw [not_suitable_of_nullable key_part key_part.field hnull] at h1
    exact absurd h1 (by simp)

/-- C1, amended, on `example_key_share`: the key `u1` (number 1) is promoted, the
key `un` (number 0), the same key on a nullable column, is not. -/
theorem promotion_of_unique_key_witness :
    ∃ share1, prepare_share {} example_key_share = some share1 ∧
      share1.primary_key = 1 ∧ share1.primary_key ≠ 0 :=
  ⟨_, rfl,
    (promotion_of_unique_key {} example_key_share _ 1 (int_key "u1" HA_NOSAME int_field) rfl
      (by decide) rfl (by decide) (by decide) (by decide) (by decide)).1
      (by decide) (by decide),
    (promotion_of_unique_key {} example_key_share _ 0
      (int_key "un" HA_NOSAME nullable_int_field) rfl
      (by decide) rfl (by decide) (by decide) (by decide) (by decide)).2
      (by decide)⟩

/-- C2: when no key is named PRIMARY and two unique keys `k < m` (keys in use,
among at most `MAX_KEY` keys) both have only suitable user-defined key parts,
and `k` is the first such key, then `share->primary_key` is `k`: the later key
`m` does not replace it. -/
theorem earliest_qualifying_key_wins (eng : Engine) (share share1 : TABLE_SHARE) (k m : Nat)
    (hok : prepare_share eng share = some share1)
    (hname : find_type primary_key_name share.keynames = 0)
    (hkm : k < m) (hm : m < share.keys) (hmax : share.keys ≤ MAX_KEY)
    (huse : is_set share.keys_in_use k = true)
    (hqk : qualifies_at share.key_info k) (_hqm : qualifies_at share.key_info m)
    (hfirst : ∀ j, j < k → ¬ qualifies_at share.key_info j) :
    share1.primary_key = k ∧ share1.primary_key ≠ m := by
  have h := primary_key_of_first eng share share1 k hok hname (by omega) hmax huse hqk hfirst
  exact ⟨h, by omega⟩

/-- C2, on `example_key_share`: `u1` (number 1) and `u2` (number 2) both
qualify, and `u1` is the primary key. -/
theorem earliest_qualifying_key_wins_witness :
    qualifies_at example_key_share.key_info 1 ∧ qualifies_at example_key_share.key_info 2 ∧
      ∃ share1, prepare_share {} example_key_share = some share1 ∧
        share1.primary_key = 1 ∧ share1.primary_key ≠ 2 :=
  ⟨by decide, by decide, _, rfl,
    earliest_qualifying_key_wins {} example_key_share _ 1 2 rfl (by decide) (by decide)
      (by decide) (by decide) (by decide) (by decide) (by decide) (by decide)⟩

/-- C3: after a successful `prepare_share` on a share whose `keynames` hold at
most `share->keys` names, `share->primary_key` is `MAX_KEY` or a key number
below `share->keys`; it is `MAX_KEY` when there are no keys, and when no key is
named PRIMARY and no key qualifies for promotion. -/
theorem primary_key_range (eng : Engine) (share share1 : TABLE_SHARE)
    (hok : prepare_share eng share = some share1)
    (hnames : share.keynames.type_names.length ≤ share.keys) :
    share1.keys = share.keys ∧
      (share1.primary_key = MAX_KEY ∨ share1.primary_key < share1.keys) ∧
      (share.keys = 0 → share1.primary_key = MAX_KEY) ∧
      (find_type primary_key_name share.keynames = 0 →
        (∀ j, j < share.keys → ¬ qualifies_at share.key_info j) →
        share1.primary_key = MAX_KEY) := by
  have hkeys : share1.keys = share.keys := by
    obtain ⟨handler_file, share0, hs, e1, _, _, _⟩ := prepare_share_some eng share share1 hok
    rw [hs, prepare_share_keys_keys, e1]
  have h := prepare_share_primary_key eng share share1 hok
  refine ⟨hkeys, ?_, ?_, ?_⟩
  · rw [hkeys]
    by_cases hz : share.keys = 0
    · rw [if_pos hz] at h
      exact Or.inl h
    · rw [if_neg hz] at h
      split_ifs at h with hc
      · right
        rw [h]
        by_cases hpk : to_uint (find_type primary_key_name share.keynames - 1) < MAX_KEY
        · rw [promoted_key_of_lt _ _ hpk]
          rcases find_type_range primary_key_name share.keynames with h0 | ⟨h1, h2⟩
          · rw [h0] at hpk
            exact absurd hpk (by decide)
          · unfold to_uint
            omega
        · exact (promoted_key_found share.key_info _ (by omega) share.keys hc.1).1
      · exact Or.inl h
  · intro hz
    rw [if_pos hz] at h
    exact h
  · intro hname hnone
    rw [hname] at h
    have h0 : MAX_KEY ≤ to_uint ((0 : Int) - 1) := by decide
    have hp := promoted_key_none share.key_info _ h0 share.keys hnone
    split_ifs at h with hz hc
    · exact h
    · omega
    · exact h

/-- C3, on `example_key_share`, whose primary key becomes key number 1 of 3. -/
theorem primary_key_range_witness :
    ∃ share1, prepare_share {} example_key_share = some share1 ∧
      share1.keys = 3 ∧ (share1.primary_key = MAX_KEY ∨ share1.primary_key < share1.keys) :=
  ⟨_, rfl,
    (primary_key_range {} example_key_share _ rfl (by decide)).1,
    (primary_key_range {} example_key_share _ rfl (by decide)).2.1⟩

/-- C6, the divergence: for the unique index `example_virtual_index` on a
NOT NULL virtual generated column `dd_index_is_candidate_key` answers true, while
`is_suitable_for_primary_key` rejects the key part compiled for it, and the
share compiled from the table ends without a primary key. -/
theorem candidate_key_accepts_virtual_column :
    dd_index_is_candidate_key example_server example_virtual_index = true ∧
      compiled_parts_suitable example_server { fields := 1, null_bytes := 1 }
        example_virtual_table example_virtual_index = some [some false] ∧
      (compile_columns_and_keys example_server {} { fields := 1, null_bytes := 1 }
        example_virtual_table).map (fun share1 => (share1.keys, share1.primary_key)) =
        some (1, MAX_KEY) := by
  decide

/-! ## What `fill_indexes_from_dd` hands to `prepare_share` -/

/-- The function `fill_index_from_dd` keeps the number of keys, the keys in use
and the number of key names. -/
theorem fill_index_from_dd_maps {env : Server} {share share1 : TABLE_SHARE} {idx_obj : Index}
    {key_nr : Nat} (h : fill_index_from_dd env share idx_obj key_nr = some share1) :
    same_key_maps share1 share := by
  unfold fill_index_from_dd at h
  simp only at h
  split at h
  · exact absurd h (by simp)
  · simp only [Option.some.injEq] at h
    subst h
    refine ⟨rfl, rfl, ?_⟩
    simp only
    split_ifs
    · exact List.length_set _ _ _
    · rfl

/-- The loop of `fill_index_elements_from_dd` keeps the number of keys, the keys
in use and the key names. -/
theorem fill_index_elements_scan_maps (key_nr : Nat) (elements : List Index_element) :
    ∀ (i : Nat) (share share1 : TABLE_SHARE),
      fill_index_elements_scan key_nr elements i share = some share1 →
      same_key_maps share1 share := by
  induction elements with
  | nil =>
    intro i share share1 h
    simp only [fill_index_elements_scan, Option.some.injEq] at h
    subst h
    exact ⟨rfl, rfl, rfl⟩
  | cons idx_elem_obj rest ih =>
    intro i share share1 h
    rw [fill_index_elements_scan] at h
    split at h
    · exact ih i share share1 h
    · simp only at h
      split at h
      · exact absurd h (by simp)
      · have hm := ih _ _ _ h
        exact ⟨hm.1, hm.2.1, hm.2.2⟩

/-- One turn of the key part loop of `fill_indexes_from_dd` keeps the number of
keys, the keys in use and the key names. -/
theorem fill_key_parts_maps {use_extended_sk : Bool} {primary_key_parts : Nat}
    {index_at_pos : List Index} {share share1 : TABLE_SHARE} {key_nr : Nat}
    (h : fill_key_parts use_extended_sk primary_key_parts index_at_pos share key_nr =
      some share1) :
    same_key_maps share1 share := by
  unfold fill_key_parts at h
  simp only at h
  split at h
  · exact absurd h (by simp)
  · rename_i share2 h2
    have hm := fill_index_elements_scan_maps key_nr _ 0 _ share2 h2
    simp only [Option.some.injEq] at h
    subst h
    obtain ⟨m1, m2, m3⟩ := hm
    split_ifs <;> exact ⟨m1, m2, m3⟩

/-- The key part loop of `fill_indexes_from_dd`, over any list of key numbers,
keeps the number of keys, the keys in use and the key names. -/
theorem fill_keys_parts_maps (use_extended_sk : Bool) (primary_key_parts : Nat)
    (index_at_pos : List Index) (l : List Nat) :
    ∀ (share share1 : TABLE_SHARE),
      l.foldl
          (fun st key_nr => st.bind (fun sh =>
            fill_key_parts use_extended_sk primary_key_parts index_at_pos sh key_nr))
          (some share) = some share1 →
      same_key_maps share1 share := by
  induction l with
  | nil =>
    intro share share1 h
    simp only [List.foldl_nil, Option.some.injEq] at h
    subst h
    exact ⟨rfl, rfl, rfl⟩
  | cons key_nr rest ih =>
    intro share share1 h
    simp only [List.foldl_cons, Option.some_bind] at h
    cases hk : fill_key_parts use_extended_sk primary_key_parts index_at_pos share key_nr with
    | none =>
      rw [hk] at h
      have hnone : ∀ l : List Nat,
          l.foldl
            (fun st key_nr => st.bind (fun sh =>
              fill_key_parts use_extended_sk primary_key_parts index_at_pos sh key_nr))
            (none : Option TABLE_SHARE) = none := by
        intro l
        induction l with
        | nil => rfl
        | cons a l ihl => simpa using ihl
      rw [hnone] at h
      exact absurd h (by simp)
    | some share2 =>
      rw [hk] at h
      obtain ⟨a1, a2, a3⟩ := ih share2 share1 h
      obtain ⟨b1, b2, b3⟩ := fill_key_parts_maps hk
      exact ⟨a1.trans b1, a2.trans b2, a3.trans b3⟩

/-- The sizing loop of `fill_indexes_from_dd` adds the number of non-hidden
indexes to `share->keys` and leaves the key names alone. -/
theorem count_indexes_keys (indexes : List Index) :
    ∀ (share : TABLE_SHARE) (primary_key_parts : Nat),
      (count_indexes indexes (share, primary_key_parts)).1.keys =
          share.keys + (listed_indexes indexes).length ∧
        (count_indexes indexes (share, primary_key_parts)).1.keynames = share.keynames := by
  induction indexes with
  | nil =>
    intro share primary_key_parts
    simp [count_indexes, listed_indexes]
  | cons idx_obj rest ih =>
    intro share primary_key_parts
    rw [count_indexes]
    by_cases hh : idx_obj.is_hidden = true
    · simp only [hh, if_true]
      have := ih share primary_key_parts
      simpa [listed_indexes, hh] using this
    · have hf : idx_obj.is_hidden = false := by simpa using hh
      simp only [hf, Bool.false_eq_true, if_false]
      have hrest := ih
        { share with
          keys := share.keys + 1
          key_parts := share.key_parts +
            idx_obj.elements.countP (fun (idx_ele : Index_element) => !idx_ele.is_hidden) }
        (if idx_obj.ordinal_position = 1 then
          idx_obj.elements.countP (fun (idx_ele : Index_element) => !idx_ele.is_hidden)
          else primary_key_parts)
      have hlen : (listed_indexes (idx_obj :: rest)).length =
          (listed_indexes rest).length + 1 := by
        simp [listed_indexes, hf]
      rw [hlen]
      constructor
      · rw [hrest.1]
        simp only
        omega
      · exact hrest.2

/-- The first filling loop of `fill_indexes_from_dd` keeps the number of keys
and of key names, and sets in `keys_in_use` exactly the bits of the keys it
numbers, from `key_nr` on. -/
theorem fill_keys_scan_maps (env : Server) (indexes : List Index) :
    ∀ (key_nr : Nat) (share : TABLE_SHARE) (index_at_pos : List Index) (share1 : TABLE_SHARE)
      (at_pos1 : List Index),
      fill_keys_scan env indexes key_nr (share, index_at_pos) = some (share1, at_pos1) →
      share1.keys = share.keys ∧
        share1.keynames.type_names.length = share.keynames.type_names.length ∧
        ∀ k, share1.keys_in_use.testBit k =
          (share.keys_in_use.testBit k ||
            decide (key_nr ≤ k ∧ k < key_nr + (listed_indexes indexes).length)) := by
  induction indexes with
  | nil =>
    intro key_nr share index_at_pos share1 at_pos1 h
    simp only [fill_keys_scan, Option.some.injEq, Prod.mk.injEq] at h
    obtain ⟨h1, _⟩ := h
    subst h1
    refine ⟨rfl, rfl, ?_⟩
    intro k
    simp [listed_indexes]
  | cons idx_obj rest ih =>
    intro key_nr share index_at_pos share1 at_pos1 h
    rw [fill_keys_scan] at h
    by_cases hh : idx_obj.is_hidden = true
    · simp only [hh, if_true] at h
      have := ih key_nr share index_at_pos share1 at_pos1 h
      simpa [listed_indexes, hh] using this
    · simp only [hh] at h
      cases hf : fill_index_from_dd env share idx_obj key_nr with
      | none =>
        rw [hf] at h
        exact absurd h (by simp)
      | some share2 =>
        rw [hf] at h
        simp only at h
        obtain ⟨m1, m2, m3⟩ := fill_index_from_dd_maps hf
        obtain ⟨r1, r2, r3⟩ := ih _ _ _ _ _ h
        have hlen : (listed_indexes (idx_obj :: rest)).length =
            (listed_indexes rest).length + 1 := by
          simp only [Bool.not_eq_true] at hh
          simp [listed_indexes, hh]
        refine ⟨?_, ?_, ?_⟩
        · rw [r1]
          split_ifs <;> exact m1
        · rw [r2]
          split_ifs <;> exact m3
        · intro k
          rw [r3 k, hlen]
          have hbit : ∀ (sh : TABLE_SHARE), sh.keys_in_use = share2.keys_in_use ||| (1 <<< key_nr) →
              sh.keys_in_use.testBit k = (share.keys_in_use.testBit k || decide (key_nr = k)) := by
            intro sh hsh
            rw [hsh, Nat.testBit_or, Nat.one_shiftLeft, Nat.testBit_two_pow, m2]
          have hb : (if idx_obj.is_visible = true then
                ({ share2 with
                    keys_in_use := share2.keys_in_use ||| (1 <<< key_nr)
                    visible_indexes := share2.visible_indexes ||| (1 <<< key_nr) } : TABLE_SHARE)
              else { share2 with keys_in_use := share2.keys_in_use ||| (1 <<< key_nr) }).keys_in_use.testBit k =
              (share.keys_in_use.testBit k || decide (key_nr = k)) := by
            split_ifs <;> exact hbit _ rfl
          rw [hb]
          by_cases e1 : key_nr = k <;> by_cases e2 : key_nr + 1 ≤ k <;>
            by_cases e3 : k < key_nr + 1 + (listed_indexes rest).length <;>
            by_cases e4 : key_nr ≤ k <;>
            by_cases e5 : k < key_nr + ((listed_indexes rest).length + 1) <;>
            simp [e1, e2, e3, e4, e5] <;> omega

/-- What `fill_indexes_from_dd` hands to `prepare_share`, from a share without
keys and key names: `share->keys` is the number of non-hidden indexes, there
are at most that many key names, and every key is set in `keys_in_use`. -/
theorem fill_indexes_from_dd_ready (env : Server) (eng : Engine) (share share1 : TABLE_SHARE)
    (tab_obj : Table) (h : fill_indexes_from_dd env eng share tab_obj = some share1)
    (hkeys : share.keys = 0) (hnames : share.keynames.type_names = []) :
    share1.keys = (listed_indexes tab_obj.indexes).length ∧
      share1.keynames.type_names.length ≤ share1.keys ∧
      ∀ k, k < share1.keys → is_set share1.keys_in_use k = true := by
  have hc := count_indexes_keys tab_obj.indexes share 0
  rw [hkeys, Nat.zero_add] at hc
  unfold fill_indexes_from_dd at h
  simp only at h
  split at h
  · split at h
    · exact absurd h (by simp)
    · split at h
      · exact absurd h (by simp)
      · rename_i share2 index_at_pos hscan
        obtain ⟨s1, s2, s3⟩ := fill_keys_scan_maps env _ _ _ _ _ _ hscan
        obtain ⟨p1, p2, p3⟩ := fill_keys_parts_maps _ _ _ _ _ _ h
        simp only [List.length_replicate] at s1 s2 s3
        refine ⟨?_, ?_, ?_⟩
        · rw [p1, s1, hc.1]
        · rw [p3, p1, s2, s1]
        · intro k hk
          rw [p1, s1, hc.1] at hk
          simp only [is_set]
          rw [p2, s3 k]
          simp [hk]
  · rename_i hz
    simp only [Option.some.injEq] at h
    subst h
    simp only [ne_eq, Decidable.not_not] at hz
    refine ⟨?_, ?_, ?_⟩
    · exact hc.1
    · simp only
      rw [hc.2, hnames]
      exact Nat.zero_le _
    · intro k hk
      simp only at hk
      omega

/-! ## The two passes over the columns -/

/-- A pass over a list of columns in two parts: the second part starts from the
share and the cursor that the first part has reached. -/
theorem columns_pass_append (env : Server) (sel : Column → Bool) (mark : Bool)
    (pre rest : List Column) (share : TABLE_SHARE) (c : column_scan) :
    columns_pass env sel mark (pre ++ rest) share c =
      (columns_pass env sel mark pre share c).bind
        (fun r => columns_pass env sel mark rest r.1 r.2) := by
  induction pre generalizing share c with
  | nil => rfl
  | cons col_obj pre ih =>
    simp only [List.cons_append, columns_pass]
    by_cases hh : col_obj.is_hidden = true
    · simp only [hh, if_true]
      exact ih share c
    · simp only [hh]
      by_cases hs : sel col_obj = true
      · simp only [hs, if_true]
        cases fill_column_from_dd env share col_obj c.null_pos c.null_bit_pos c.rec_pos
            c.field_nr with
        | none => rfl
        | some share1 => exact ih _ _
      · simp only [hs]
        exact ih _ _

/-- The width of the compiled fields depends only on the slots of the selected
columns. -/
theorem compiled_width_congr (sel : Column → Bool) (a b : TABLE_SHARE) (cols : List Column) :
    ∀ n, (∀ k col_obj, cols[k]? = some col_obj → sel col_obj = true →
        a.field (n + k) = b.field (n + k)) →
      compiled_width sel a cols n = compiled_width sel b cols n := by
  induction cols with
  | nil => intro n _; rfl
  | cons col_obj rest ih =>
    intro n h
    simp only [compiled_width]
    have hrest : compiled_width sel a rest (n + 1) = compiled_width sel b rest (n + 1) := by
      apply ih
      intro k colk hk hsel
      have := h (k + 1) colk (by simpa using hk) hsel
      have e : n + 1 + k = n + (k + 1) := by omega
      rw [e]
      exact this
    rw [hrest]
    by_cases hs : sel col_obj = true
    · have h0 := h 0 col_obj (by simp) hs
      simp only [Nat.add_zero] at h0
      simp only [hs, if_true, slot_pack_length_in_rec, h0]
    · simp [hs]

/-- The record position with which a successful pass ends: the one it started
with plus the widths of the fields it has compiled. -/
theorem columns_pass_rec_pos {env : Server} {sel : Column → Bool} {mark : Bool} :
    ∀ (cols : List Column) (share : TABLE_SHARE) (c : column_scan) (share1 : TABLE_SHARE)
      (c1 : column_scan),
      columns_pass env sel mark cols share c = some (share1, c1) →
      c1.rec_pos = c.rec_pos + compiled_width sel share1 (visible_columns cols) c.field_nr := by
  intro cols
  induction cols with
  | nil =>
    intro share c share1 c1 h
    simp only [columns_pass, Option.some.injEq, Prod.mk.injEq] at h
    obtain ⟨_, h2⟩ := h
    subst h2
    simp [visible_columns, compiled_width]
  | cons col_obj rest ih =>
    intro share c share1 c1 h
    rw [columns_pass] at h
    by_cases hh : col_obj.is_hidden = true
    · simp only [hh, if_true] at h
      rw [visible_columns_cons_hidden col_obj rest hh]
      exact ih share c share1 c1 h
    · simp only [hh] at h
      rw [visible_columns_cons_visible col_obj rest hh]
      simp only [compiled_width]
      by_cases hs : sel col_obj = true
      · simp only [hs, if_true] at h ⊢
        cases hf : fill_column_from_dd env share col_obj c.null_pos c.null_bit_pos c.rec_pos
            c.field_nr with
        | none =>
          rw [hf] at h
          exact absurd h (by simp)
        | some sh2 =>
          rw [hf] at h
          simp only at h
          have r := columns_pass_spec _ _ _ _ _ h
          have hrec := ih _ _ _ _ h
          have hnr := account_column_field_nr col_obj
            { c with rec_pos := c.rec_pos + slot_pack_length_in_rec sh2 c.field_nr }
          have hrp := account_column_rec_pos col_obj
            { c with rec_pos := c.rec_pos + slot_pack_length_in_rec sh2 c.field_nr }
          simp only at hnr hrp
          rw [hnr, hrp] at hrec
          have hslot : share1.field c.field_nr = sh2.field c.field_nr :=
            r.below c.field_nr (by rw [hnr]; omega)
          have hw : slot_pack_length_in_rec share1 c.field_nr =
              slot_pack_length_in_rec sh2 c.field_nr := by
            simp only [slot_pack_length_in_rec, hslot]
          rw [hrec, hw]
          omega
      · simp only [Bool.not_eq_true] at hs
        simp only [hs] at h ⊢
        have hrec := ih _ _ _ _ h
        have hnr := account_column_field_nr col_obj (if mark then { c with has_vgc := true } else c)
        have hrp := account_column_rec_pos col_obj (if mark then { c with has_vgc := true } else c)
        have e1 : (if mark then { c with has_vgc := true } else c).field_nr = c.field_nr := by
          split_ifs <;> rfl
        have e2 : (if mark then { c with has_vgc := true } else c).rec_pos = c.rec_pos := by
          split_ifs <;> rfl
        rw [hnr, hrp, e1, e2] at hrec
        rw [hrec]
        simp

/-- The two passes of `fill_columns_from_dd` side by side, when the collations
resolve: the first pass ends with the share `sharem` and the cursor `cm`, the
function with `share1` and `c`. Both cursors have counted the non-hidden
columns; the slots from that count on stay empty; a stored column has its slot
filled by the first pass and left alone afterwards; a virtual column has its
slot still empty after the first pass and filled at the end, at the null cursor
reached after the columns before it. The first pass ends at the record offset
`null_bytes` plus the widths of the stored fields, and the stored record length
is lowered to that offset if a virtual column was seen. -/
theorem fill_columns_two_passes (env : Server) (share : TABLE_SHARE) (tab_obj : Table)
    (hcs : collations_resolve env tab_obj.columns) :
    ∃ sharem cm share1 c,
      fill_columns_first_pass env tab_obj.columns (columns_start share)
        (first_pass_start (columns_start share)) = some (sharem, cm) ∧
      fill_columns_scan env share tab_obj = some (share1, c) ∧
      cm.field_nr = (visible_columns tab_obj.columns).length ∧
      c.field_nr = (visible_columns tab_obj.columns).length ∧
      (∀ k, (visible_columns tab_obj.columns).length ≤ k → share1.field k = none) ∧
      (∀ k col_obj, (visible_columns tab_obj.columns)[k]? = some col_obj →
        col_obj.is_virtual = false →
        (sharem.field k).isSome = true ∧ share1.field k = sharem.field k) ∧
      (∀ k col_obj, (visible_columns tab_obj.columns)[k]? = some col_obj →
        col_obj.is_virtual = true →
        sharem.field k = none ∧ ∃ f, share1.field k = some f ∧
          is_field_of f col_obj
            (null_cursor_after ((visible_columns tab_obj.columns).take k)
              (0, initial_null_bit_pos share)).1
            (null_cursor_after ((visible_columns tab_obj.columns).take k)
              (0, initial_null_bit_pos share)).2
            f.ptr k) ∧
      cm.rec_pos = share.null_bytes + stored_columns_width share1 tab_obj.columns ∧
      cm.has_vgc = (visible_columns tab_obj.columns).any (fun col_obj => col_obj.is_virtual) ∧
      share1.stored_rec_length =
        (if cm.has_vgc then min share.stored_rec_length cm.rec_pos
         else share.stored_rec_length) := by
  obtain ⟨sharem, cm, h1, hcase⟩ := fill_columns_scan_cases env share tab_obj hcs
  have r1 := columns_pass_spec _ _ _ _ _ h1
  have hw1 := columns_pass_rec_pos _ _ _ _ _ h1
  have hnr1 : cm.field_nr = (visible_columns tab_obj.columns).length := by
    have := r1.field_nr
    simpa [first_pass_start] using this
  have hvgc : cm.has_vgc =
      (visible_columns tab_obj.columns).any (fun col_obj => col_obj.is_virtual) := by
    have := r1.has_vgc
    simpa [first_pass_start] using this
  have hst1 : ∀ k col_obj, (visible_columns tab_obj.columns)[k]? = some col_obj →
      col_obj.is_virtual = false → (sharem.field k).isSome = true := by
    intro k col_obj hk hv
    obtain ⟨f, hf, _⟩ := r1.compiled k col_obj hk (by simp [hv])
    simp only [first_pass_start, Nat.zero_add] at hf
    simp [hf]
  have hvi1 : ∀ k col_obj, (visible_columns tab_obj.columns)[k]? = some col_obj →
      col_obj.is_virtual = true → sharem.field k = none := by
    intro k col_obj hk hv
    have := r1.skipped k col_obj hk (by simp [hv])
    simpa [first_pass_start] using this
  have hfp : fill_columns_first_pass env tab_obj.columns (columns_start share)
      (first_pass_start (columns_start share)) = some (sharem, cm) := by
    rw [first_pass_eq]
    exact h1
  simp only [first_pass_start, Nat.zero_add] at hw1
  have hnb : ({ share with field := fun _ => none, vfields := 0 } : TABLE_SHARE).null_bytes =
      share.null_bytes := rfl
  have hsr : sharem.stored_rec_length = share.stored_rec_length := r1.layout.2.2.1
  rcases hcase with ⟨hno, hres⟩ | ⟨hyes, share2, share3, c3, hlay2, hfield2, hmin, h3, hres⟩
  · refine ⟨sharem, cm, sharem, cm, hfp, hres, hnr1, hnr1, ?_, ?_, ?_, ?_, hvgc, ?_⟩
    · intro k hk
      have := r1.above k (by rw [hnr1]; exact hk)
      simpa using this
    · intro k col_obj hk hv
      exact ⟨hst1 k col_obj hk hv, rfl⟩
    · intro k col_obj hk hv
      have hmem : col_obj ∈ visible_columns tab_obj.columns := List.getElem?_mem hk
      have : (visible_columns tab_obj.columns).any (fun c => c.is_virtual) = true :=
        List.any_eq_true.mpr ⟨col_obj, hmem, hv⟩
      rw [hvgc, this] at hno
      exact absurd hno (by simp)
    · rw [hw1]
      rfl
    · simp [hno, hsr]
  · have r3 := columns_pass_spec _ _ _ _ _ h3
    have e : initial_null_bit_pos share2 = initial_null_bit_pos share := by
      have e2 : sharem.db_create_options = share.db_create_options := r1.layout.2.1
      exact initial_null_bit_pos_congr (hlay2.2.1.trans e2)
    have hnr3 : c3.field_nr = (visible_columns tab_obj.columns).length := by
      have := r3.field_nr
      simpa [second_pass_start] using this
    have hkeep : ∀ k col_obj, (visible_columns tab_obj.columns)[k]? = some col_obj →
        col_obj.is_virtual = false → share3.field k = sharem.field k := by
      intro k col_obj hk hv
      have := r3.skipped k col_obj hk hv
      simp only [second_pass_start, Nat.zero_add] at this
      rw [this, hfield2]
    refine ⟨sharem, cm, share3, c3, hfp, hres, hnr1, hnr3, ?_, ?_, ?_, ?_, hvgc, ?_⟩
    · intro k hk
      have h3a := r3.above k (by rw [hnr3]; exact hk)
      have h1a := r1.above k (by rw [hnr1]; exact hk)
      rw [h3a, hfield2, h1a]
    · intro k col_obj hk hv
      exact ⟨hst1 k col_obj hk hv, hkeep k col_obj hk hv⟩
    · intro k col_obj hk hv
      refine ⟨hvi1 k col_obj hk hv, ?_⟩
      obtain ⟨f, hf, hfo, _, _⟩ := r3.compiled k col_obj hk hv
      simp only [second_pass_start, Nat.zero_add, e] at hf hfo
      exact ⟨f, hf, hfo⟩
    · rw [hw1]
      have : compiled_width (fun col_obj => !col_obj.is_virtual) sharem
          (visible_columns tab_obj.columns) 0 =
          compiled_width (fun col_obj => !col_obj.is_virtual) share3
            (visible_columns tab_obj.columns) 0 := by
        apply compiled_width_congr
        intro k col_obj hk hsel
        simp only [Nat.zero_add]
        exact (hkeep k col_obj hk (by simpa using hsel)).symm
      rw [this]
      rfl
    · have hs3 : share3.stored_rec_length = share2.stored_rec_length := r3.layout.2.2.1
      rw [hs3, hmin, hyes, hsr]
      simp

/-- Unmarking the virtual columns keeps the hidden ones hidden. -/
theorem visible_columns_undeferred (cols : List Column) :
    visible_columns (cols.map (fun col_obj => { col_obj with is_virtual := false })) =
      (visible_columns cols).map (fun col_obj => { col_obj with is_virtual := false }) := by
  induction cols with
  | nil => rfl
  | cons col_obj rest ih =>
    by_cases hh : col_obj.is_hidden = true
    · simp only [List.map_cons]
      rw [visible_columns_cons_hidden _ _ hh, visible_columns_cons_hidden _ _ (by simpa using hh)]
      exact ih
    · simp only [List.map_cons]
      rw [visible_columns_cons_visible _ _ hh,
        visible_columns_cons_visible _ _ (by simpa using hh), List.map_cons, ih]

/-- The null cursor does not read the virtual mark of the columns. -/
theorem null_cursor_after_undeferred (cols : List Column) :
    ∀ p, null_cursor_after
        (cols.map (fun col_obj => { col_obj with is_virtual := false })) p =
      null_cursor_after cols p := by
  induction cols with
  | nil => intro p; rfl
  | cons col_obj rest ih =>
    intro p
    simp only [List.map_cons, null_cursor_after, List.foldl_cons]
    have e : null_cursor_step p { col_obj with is_virtual := false } =
        null_cursor_step p col_obj := rfl
    rw [e]
    exact ih _

/-- The non-hidden columns of a list in two parts around a non-hidden column. -/
theorem visible_columns_split (pre post : List Column) (col_obj : Column)
    (hvis : col_obj.is_hidden = false) :
    visible_columns (pre ++ col_obj :: post) =
      visible_columns pre ++ col_obj :: visible_columns post := by
  simp [visible_columns, List.filter_append, List.filter_cons, hvis]

/-- C11: a non-hidden virtual column `col_obj` of a table whose collations
resolve. The first pass of `fill_columns_from_dd` reaches the column with some
share and cursor `cp` (the pass over the whole list continues from there) and
leaves its slot `cp.field_nr` empty; when the function returns, that slot holds
the field of the column, built with the null byte, null bit and field index of
`cp`. The slot is the rank of the column among the non-hidden columns, so no
two columns share a slot. Every slot below the final field count is filled,
the stored ones by the first pass and not touched again, the virtual ones only
after it, and the slots from the count on stay empty. The null byte, null bit
and field index of every field are the ones it gets in the same table with no
column deferred. -/
theorem virtual_column_cursor (env : Server) (share : TABLE_SHARE) (tab_obj : Table)
    (pre post : List Column) (col_obj : Column)
    (hsplit : tab_obj.columns = pre ++ col_obj :: post)
    (hvis : col_obj.is_hidden = false) (hvirt : col_obj.is_virtual = true)
    (hcs : collations_resolve env tab_obj.columns) :
    ∃ sharep cp sharem cm share1 c,
      fill_columns_first_pass env pre (columns_start share)
        (first_pass_start (columns_start share)) = some (sharep, cp) ∧
      fill_columns_first_pass env tab_obj.columns (columns_start share)
          (first_pass_start (columns_start share)) =
        fill_columns_first_pass env (col_obj :: post) sharep cp ∧
      fill_columns_first_pass env tab_obj.columns (columns_start share)
        (first_pass_start (columns_start share)) = some (sharem, cm) ∧
      fill_columns_scan env share tab_obj = some (share1, c) ∧
      sharem.field cp.field_nr = none ∧
      (∃ f, share1.field cp.field_nr = some f ∧ f.field_name = col_obj.name ∧
        f.null_ptr = cp.null_pos ∧ f.null_bit_pos = cp.null_bit_pos ∧
        f.field_index = cp.field_nr) ∧
      cp.field_nr = (visible_columns pre).length ∧
      c.field_nr = (visible_columns tab_obj.columns).length ∧
      (∀ k, k < c.field_nr → (share1.field k).isSome = true) ∧
      (∀ k, c.field_nr ≤ k → share1.field k = none) ∧
      (∀ k col_k, (visible_columns tab_obj.columns)[k]? = some col_k →
        col_k.is_virtual = false →
        (sharem.field k).isSome = true ∧ share1.field k = sharem.field k) ∧
      (∀ k col_k, (visible_columns tab_obj.columns)[k]? = some col_k →
        col_k.is_virtual = true → sharem.field k = none) ∧
      ∃ share_u, fill_columns_from_dd env share (undeferred tab_obj) = some share_u ∧
        ∀ k f, share1.field k = some f →
          ∃ g, share_u.field k = some g ∧ g.field_name = f.field_name ∧
            g.null_ptr = f.null_ptr ∧ g.null_bit_pos = f.null_bit_pos ∧
            g.field_index = f.field_index := by
  obtain ⟨sharem, cm, share1, c, hfp, hres, hnrm, hnr, habove, hstored, hvirtual, _, _, _⟩ :=
    fill_columns_two_passes env share tab_obj hcs
  -- the first pass over the columns before `col_obj`
  have hcs_pre : collations_resolve env pre := by
    intro x hx hv
    exact hcs x (by rw [hsplit]; exact List.mem_append_left _ hx) hv
  obtain ⟨⟨sharep, cp⟩, hp⟩ := columns_pass_isSome env (fun col_obj => !col_obj.is_virtual) true
    pre (columns_start share) (first_pass_start (columns_start share)) hcs_pre
  have rp := columns_pass_spec _ _ _ _ _ hp
  have hcont : fill_columns_first_pass env tab_obj.columns (columns_start share)
      (first_pass_start (columns_start share)) =
      fill_columns_first_pass env (col_obj :: post) sharep cp := by
    rw [first_pass_eq, first_pass_eq, hsplit, columns_pass_append, hp]
    rfl
  have hnrp : cp.field_nr = (visible_columns pre).length := by
    have := rp.field_nr
    simpa [first_pass_start] using this
  have hcur : (cp.null_pos, cp.null_bit_pos) =
      null_cursor_after (visible_columns pre) (0, initial_null_bit_pos share) := rp.null_cursor
  have hsp : visible_columns tab_obj.columns =
      visible_columns pre ++ col_obj :: visible_columns post := by
    rw [hsplit]
    exact visible_columns_split pre post col_obj hvis
  have hk : (visible_columns tab_obj.columns)[cp.field_nr]? = some col_obj := by
    rw [hsp, hnrp, List.getElem?_append_right (Nat.le_refl _), Nat.sub_self]
    exact List.getElem?_cons_zero
  have htake : (visible_columns tab_obj.columns).take cp.field_nr = visible_columns pre := by
    rw [hsp, hnrp]
    simp
  obtain ⟨hempty, f, hf, hfo⟩ := hvirtual cp.field_nr col_obj hk hvirt
  rw [htake, ← hcur] at hfo
  obtain ⟨_, p2, p3, p4, p5, _⟩ := hfo
  -- every slot below the count is filled
  have hfilled : ∀ k, k < c.field_nr → (share1.field k).isSome = true := by
    intro k hlt
    rw [hnr] at hlt
    have hget : (visible_columns tab_obj.columns)[k]? =
        some ((visible_columns tab_obj.columns).get ⟨k, hlt⟩) := by
      simp [List.getElem?_eq_getElem hlt]
    cases hv : ((visible_columns tab_obj.columns).get ⟨k, hlt⟩).is_virtual with
    | false =>
      obtain ⟨h1, h2⟩ := hstored k _ hget hv
      rw [h2]
      exact h1
    | true =>
      obtain ⟨_, g, hg, _⟩ := hvirtual k _ hget hv
      simp [hg]
  -- the same table with no column deferred
  have hcs_u : collations_resolve env (undeferred tab_obj).columns := by
    intro x hx hv
    simp only [undeferred, List.mem_map] at hx
    obtain ⟨y, hy, rfl⟩ := hx
    exact hcs y hy hv
  obtain ⟨share_u, _, hres_u, hall_u⟩ := fill_columns_layout env share (undeferred tab_obj) hcs_u
  obtain ⟨share1', _, hres1, hall1⟩ := fill_columns_layout env share tab_obj hcs
  have hsame : share1' = share1 := by
    simp only [fill_columns_from_dd, hres, Option.map_some', Option.some.injEq] at hres1
    exact hres1.symm
  subst hsame
  refine ⟨sharep, cp, sharem, cm, share1', c, ?_, hcont, hfp, hres, hempty,
    ⟨f, hf, p5, p2, p3, p4⟩, hnrp, hnr, hfilled, ?_, hstored, ?_, share_u, hres_u, ?_⟩
  · rw [first_pass_eq]
    exact hp
  · intro k hk2
    exact habove k (by rw [← hnr]; exact hk2)
  · intro k col_k hk2 hv
    exact (hvirtual k col_k hk2 hv).1
  · intro k f1 hf1
    by_cases hlt : k < (visible_columns tab_obj.columns).length
    · have hget : (visible_columns tab_obj.columns)[k]? =
          some ((visible_columns tab_obj.columns).get ⟨k, hlt⟩) := by
        simp [List.getElem?_eq_getElem hlt]
      obtain ⟨f2, hf2, hfo2, _, _⟩ := hall1 k _ hget
      rw [hf1] at hf2
      simp only [Option.some.injEq] at hf2
      subst hf2
      have hget_u : (visible_columns (undeferred tab_obj).columns)[k]? =
          some { (visible_columns tab_obj.columns).get ⟨k, hlt⟩ with is_virtual := false } := by
        simp only [undeferred]
        rw [visible_columns_undeferred, List.getElem?_map, hget]
        rfl
      obtain ⟨g, hg, hgo, _, _⟩ := hall_u k _ hget_u
      have htk : (visible_columns (undeferred tab_obj).columns).take k =
          ((visible_columns tab_obj.columns).take k).map
            (fun col_obj => { col_obj with is_virtual := false }) := by
        simp only [undeferred]
        rw [visible_columns_undeferred, List.map_take]
      rw [htk, null_cursor_after_undeferred] at hgo
      obtain ⟨_, a2, a3, a4, a5, _⟩ := hfo2
      obtain ⟨_, b2, b3, b4, b5, _⟩ := hgo
      exact ⟨g, hg, by rw [b5, a5], by rw [b2, a2], by rw [b3, a3], by rw [b4, a4]⟩
    · have := habove k (Nat.le_of_not_lt hlt)
      rw [this] at hf1
      exact absurd hf1 (by simp)

/-- C11, on the example table: its fourth column `v` is virtual and not hidden,
behind the stored columns `a`, `b` and the hidden column `h`. -/
theorem virtual_column_cursor_witness :
    ∃ sharep cp sharem cm share1 c,
      fill_columns_first_pass example_server (example_table.columns.take 3)
        (columns_start example_share) (first_pass_start (columns_start example_share)) =
          some (sharep, cp) ∧
      fill_columns_first_pass example_server example_table.columns (columns_start example_share)
          (first_pass_start (columns_start example_share)) =
        fill_columns_first_pass example_server
          ({ name := "v", type := .LONG, is_nullable := true, is_virtual := true,
             is_generation_expression_null := false, generation_expression := "a + 1",
             char_length := 11, ordinal_position := 4 } :: []) sharep cp ∧
      fill_columns_first_pass example_server example_table.columns (columns_start example_share)
        (first_pass_start (columns_start example_share)) = some (sharem, cm) ∧
      fill_columns_scan example_server example_share example_table = some (share1, c) ∧
      sharem.field cp.field_nr = none ∧
      (∃ f, share1.field cp.field_nr = some f ∧ f.field_name = "v" ∧
        f.null_ptr = cp.null_pos ∧ f.null_bit_pos = cp.null_bit_pos ∧
        f.field_index = cp.field_nr) ∧
      cp.field_nr = (visible_columns (example_table.columns.take 3)).length ∧
      c.field_nr = (visible_columns example_table.columns).length ∧
      (∀ k, k < c.field_nr → (share1.field k).isSome = true) ∧
      (∀ k, c.field_nr ≤ k → share1.field k = none) ∧
      (∀ k col_k, (visible_columns example_table.columns)[k]? = some col_k →
        col_k.is_virtual = false →
        (sharem.field k).isSome = true ∧ share1.field k = sharem.field k) ∧
      (∀ k col_k, (visible_columns example_table.columns)[k]? = some col_k →
        col_k.is_virtual = true → sharem.field k = none) ∧
      ∃ share_u, fill_columns_from_dd example_server example_share (undeferred example_table) =
          some share_u ∧
        ∀ k f, share1.field k = some f →
          ∃ g, share_u.field k = some g ∧ g.field_name = f.field_name ∧
            g.null_ptr = f.null_ptr ∧ g.null_bit_pos = f.null_bit_pos ∧
            g.field_index = f.field_index :=
  virtual_column_cursor example_server example_share example_table
    (example_table.columns.take 3) []
    { name := "v", type := .LONG, is_nullable := true, is_virtual := true,
      is_generation_expression_null := false, generation_expression := "a + 1",
      char_length := 11, ordinal_position := 4 }
    rfl rfl rfl (by unfold collations_resolve; decide)

/-- C12: `fill_columns_from_dd` on a share whose stored record length, as the
caller has set it, is not below the record offset at which the first pass
ends, with collations that resolve. The function succeeds and its first pass
ends at the record offset `null_bytes` plus the sum of `pack_length_in_rec` of
the stored columns. With at least one non-hidden virtual column the stored
record length afterwards is that offset; without such a column it is
unchanged. -/
theorem stored_rec_length_spec (env : Server) (share : TABLE_SHARE) (tab_obj : Table)
    (hcs : collations_resolve env tab_obj.columns)
    (hcover : ∀ offset, first_pass_offset env share tab_obj = some offset →
      offset ≤ share.stored_rec_length) :
    ∃ share1, fill_columns_from_dd env share tab_obj = some share1 ∧
      first_pass_offset env share tab_obj =
        some (share.null_bytes + stored_columns_width share1 tab_obj.columns) ∧
      ((∃ col_obj ∈ tab_obj.columns, col_obj.is_hidden = false ∧ col_obj.is_virtual = true) →
        share1.stored_rec_length =
          share.null_bytes + stored_columns_width share1 tab_obj.columns) ∧
      ((∀ col_obj ∈ tab_obj.columns, col_obj.is_hidden = false → col_obj.is_virtual = false) →
        share1.stored_rec_length = share.stored_rec_length) := by
  obtain ⟨sharem, cm, share1, c, hfp, hres, _, _, _, _, _, hrec, hvgc, hsrl⟩ :=
    fill_columns_two_passes env share tab_obj hcs
  have hoff : first_pass_offset env share tab_obj =
      some (share.null_bytes + stored_columns_width share1 tab_obj.columns) := by
    simp [first_pass_offset, hfp, hrec]
  refine ⟨share1, by simp [fill_columns_from_dd, hres], hoff, ?_, ?_⟩
  · rintro ⟨col_obj, hmem, hh, hv⟩
    have hany : (visible_columns tab_obj.columns).any (fun col_obj => col_obj.is_virtual) =
        true := by
      apply List.any_eq_true.mpr
      refine ⟨col_obj, ?_, hv⟩
      simp [visible_columns, hmem, hh]
    rw [hvgc, hany] at hsrl
    simp only [if_true] at hsrl
    rw [hrec] at hsrl
    rw [hsrl]
    exact Nat.min_eq_right (hcover _ hoff)
  · intro hnone
    have hany : (visible_columns tab_obj.columns).any (fun col_obj => col_obj.is_virtual) =
        false := by
      rw [List.any_eq_false]
      intro x hx
      simp only [visible_columns, List.mem_filter] at hx
      have := hnone x hx.1 (by simpa using hx.2)
      simp [this]
    rw [hvgc, hany] at hsrl
    simpa using hsrl

/-- C12, on the example table (a virtual column, stored record length 10
lowered to the offset 6) and on the same table with no column deferred (stored
record length unchanged). -/
theorem stored_rec_length_spec_witness :
    (∃ share1, fill_columns_from_dd example_server example_share example_table = some share1 ∧
      first_pass_offset example_server example_share example_table = some 6 ∧
      share1.stored_rec_length = 6) ∧
    (∃ share1, fill_columns_from_dd example_server example_share (undeferred example_table) =
        some share1 ∧
      share1.stored_rec_length = 10) := by
  have h : collations_resolve example_server example_table.columns := by
    unfold collations_resolve
    decide
  have hu : collations_resolve example_server (undeferred example_table).columns := by
    unfold collations_resolve
    decide
  have hoff : first_pass_offset example_server example_share example_table = some 6 := by
    decide
  have hoffu : first_pass_offset example_server example_share (undeferred example_table) =
      some 10 := by
    decide
  obtain ⟨share1, h1, h2, h3, _⟩ :=
    stored_rec_length_spec example_server example_share example_table h
      (by
        intro offset ho
        rw [hoff] at ho
        simp only [Option.some.injEq] at ho
        subst ho
        decide)
  obtain ⟨share_u, u1, _, _, u4⟩ :=
    stored_rec_length_spec example_server example_share (undeferred example_table) hu
      (by
        intro offset ho
        rw [hoffu] at ho
        simp only [Option.some.injEq] at ho
        subst ho
        decide)
  have hw : example_share.null_bytes + stored_columns_width share1 example_table.columns = 6 := by
    rw [hoff] at h2
    simpa using h2.symm
  refine ⟨⟨share1, h1, hoff, ?_⟩, ⟨share_u, u1, ?_⟩⟩
  · have hv : ∃ col_obj ∈ example_table.columns,
        col_obj.is_hidden = false ∧ col_obj.is_virtual = true := by
      decide
    rw [h3 hv, hw]
  · exact u4 (by decide)

/-! ## The key part loop of `prepare_share` -/

/-- The call `init_flags` writes to the flags of the key part only. -/
theorem init_flags_frame (key_part : KEY_PART_INFO) :
    key_part.init_flags.length = key_part.length ∧
      key_part.init_flags.store_length = key_part.store_length ∧
      key_part.init_flags.field = key_part.field := by
  unfold KEY_PART_INFO.init_flags
  simp only
  split_ifs <;> exact ⟨rfl, rfl, rfl⟩

/-- One turn of the key part loop appends the prepared part, whatever the key
and the part number. -/
theorem prepare_key_part_done (s : key_part_scan) (i : Nat) (key_part : KEY_PART_INFO) :
    (prepare_key_part s i key_part).done = s.done ++ [prepared_part key_part] := by
  rcases Classical.propComplete (key_part.field.real_maybe_null = true) with h1 | h1 <;>
  rcases Classical.propComplete (key_part.field.type = .MYSQL_TYPE_BLOB ∨
      key_part.field.real_type = .MYSQL_TYPE_VARCHAR ∨
      key_part.field.type = .MYSQL_TYPE_GEOMETRY) with h2 | h2 <;>
  rcases Classical.propComplete (key_part.field.key_length = key_part.length) with h5 | h5 <;>
  rcases Classical.propComplete (key_part.field.type = .MYSQL_TYPE_NEWDECIMAL) with h6 | h6 <;>
  simp only [prepare_key_part, prepared_part, has_length_bytes, decimal_clamp_applies,
      h1, h2, h5, h6, (init_flags_frame _).1, (init_flags_frame _).2.1, ne_eq,
      not_true_eq_false, not_false_eq_true, if_true, if_false, and_true, and_false, true_and,
      false_and, Bool.false_eq_true]

/-- One turn of the key part loop leaves the prepared key, whatever the parts
already handled. -/
theorem prepare_key_part_keyinfo (s : key_part_scan) (i : Nat) (key_part : KEY_PART_INFO) :
    (prepare_key_part s i key_part).keyinfo = prepared_key s.keyinfo i key_part := by
  rcases Classical.propComplete (key_part.field.real_maybe_null = true) with h1 | h1 <;>
  rcases Classical.propComplete (key_part.field.type = .MYSQL_TYPE_BLOB ∨
      key_part.field.real_type = .MYSQL_TYPE_VARCHAR ∨
      key_part.field.type = .MYSQL_TYPE_GEOMETRY) with h2 | h2 <;>
  rcases Classical.propComplete (i + 1 ≤ s.keyinfo.user_defined_key_parts) with h3 | h3 <;>
  rcases Classical.propComplete (key_part.field.is_virtual_gcol = true) with h4 | h4 <;>
  rcases Classical.propComplete (key_part.field.key_length = key_part.length) with h5 | h5 <;>
  rcases Classical.propComplete (key_part.field.type = .MYSQL_TYPE_NEWDECIMAL) with h6 | h6 <;>
  simp only [prepare_key_part, prepared_key, has_length_bytes, decimal_clamp_applies,
      h1, h2, h3, h4, h5, h6, (init_flags_frame _).1, (init_flags_frame _).2.1, ne_eq,
      not_true_eq_false, not_false_eq_true, if_true, if_false, and_true, and_false, true_and,
      false_and, Bool.false_eq_true]

/-- One turn of the key part loop sets the `crashed` marker exactly when the
decimal clamp applies. -/
theorem prepare_key_part_crashed (s : key_part_scan) (i : Nat) (key_part : KEY_PART_INFO) :
    (prepare_key_part s i key_part).crashed =
      if decimal_clamp_applies key_part then 1 else s.crashed := by
  rcases Classical.propComplete (key_part.field.real_maybe_null = true) with h1 | h1 <;>
  rcases Classical.propComplete (key_part.field.type = .MYSQL_TYPE_BLOB ∨
      key_part.field.real_type = .MYSQL_TYPE_VARCHAR ∨
      key_part.field.type = .MYSQL_TYPE_GEOMETRY) with h2 | h2 <;>
  rcases Classical.propComplete (key_part.field.key_length = key_part.length) with h5 | h5 <;>
  rcases Classical.propComplete (key_part.field.type = .MYSQL_TYPE_NEWDECIMAL) with h6 | h6 <;>
  simp only [prepare_key_part, decimal_clamp_applies,
      h1, h2, h5, h6, (init_flags_frame _).1, (init_flags_frame _).2.1, ne_eq,
      not_true_eq_false, not_false_eq_true, if_true, if_false, and_true, and_false, true_and,
      false_and, Bool.false_eq_true]

/-- Setting bits outside a mask does not show under the mask. -/
theorem or_and_of_disjoint (x m b : Nat) (h : m &&& b = 0) : (x ||| m) &&& b = x &&& b := by
  apply Nat.eq_of_testBit_eq
  intro j
  have hj : (m &&& b).testBit j = false := by rw [h]; exact Nat.zero_testBit j
  rw [Nat.testBit_and] at hj
  rw [Nat.testBit_and, Nat.testBit_and, Nat.testBit_or]
  cases hx : x.testBit j <;> cases hm : m.testBit j <;> cases hb : b.testBit j <;> simp_all

/-- One turn of the key part loop leaves `HA_NOSAME` in the flags of the key as
it was. -/
theorem prepared_key_nosame (keyinfo : KEY) (i : Nat) (key_part : KEY_PART_INFO) :
    (prepared_key keyinfo i key_part).flags &&& HA_NOSAME = keyinfo.flags &&& HA_NOSAME := by
  simp only [prepared_key]
  split_ifs
  · rw [or_and_of_disjoint _ _ _ (by decide), or_and_of_disjoint _ _ _ (by decide)]
  · rw [or_and_of_disjoint _ _ _ (by decide)]
  · rw [or_and_of_disjoint _ _ _ (by decide)]
  · rfl

/-- The key part loop appends the prepared parts in order. -/
theorem prepare_key_parts_done (parts : List KEY_PART_INFO) :
    ∀ (s : key_part_scan) (i : Nat),
      (prepare_key_parts s i parts).done = s.done ++ parts.map prepared_part := by
  induction parts with
  | nil => intro s i; simp [prepare_key_parts]
  | cons key_part rest ih =>
    intro s i
    simp only [prepare_key_parts]
    rw [ih, prepare_key_part_done]
    simp

/-- The key part loop sets the `crashed` marker when the decimal clamp applies
to one of the parts, and otherwise leaves it alone. -/
theorem prepare_key_parts_crashed (parts : List KEY_PART_INFO) :
    ∀ (s : key_part_scan) (i : Nat),
      (prepare_key_parts s i parts).crashed =
        if ∃ key_part ∈ parts, decimal_clamp_applies key_part then 1 else s.crashed := by
  induction parts with
  | nil => intro s i; simp [prepare_key_parts]
  | cons key_part rest ih =>
    intro s i
    simp only [prepare_key_parts]
    rw [ih, prepare_key_part_crashed]
    by_cases hr : ∃ kp ∈ rest, decimal_clamp_applies kp
    · have : ∃ kp ∈ key_part :: rest, decimal_clamp_applies kp := by
        obtain ⟨kp, hm, hc⟩ := hr
        exact ⟨kp, List.mem_cons_of_mem _ hm, hc⟩
      rw [if_pos hr, if_pos this]
    · rw [if_neg hr]
      by_cases hk : decimal_clamp_applies key_part
      · have : ∃ kp ∈ key_part :: rest, decimal_clamp_applies kp :=
          ⟨key_part, List.mem_cons_self _ _, hk⟩
        rw [if_pos hk, if_pos this]
      · have : ¬ ∃ kp ∈ key_part :: rest, decimal_clamp_applies kp := by
          rintro ⟨kp, hm, hc⟩
          rcases List.mem_cons.mp hm with rfl | hm
          · exact hk hc
          · exact hr ⟨kp, hm, hc⟩
        rw [if_neg hk, if_neg this]

/-- The key part loop writes to the flags and the length of the key only, and
leaves `HA_NOSAME` as it was. -/
theorem prepare_key_parts_frame (parts : List KEY_PART_INFO) :
    ∀ (s : key_part_scan) (i : Nat),
      (prepare_key_parts s i parts).keyinfo.user_defined_key_parts =
          s.keyinfo.user_defined_key_parts ∧
        (prepare_key_parts s i parts).keyinfo.actual_key_parts = s.keyinfo.actual_key_parts ∧
        (prepare_key_parts s i parts).keyinfo.unused_key_parts = s.keyinfo.unused_key_parts ∧
        (prepare_key_parts s i parts).keyinfo.key_part = s.keyinfo.key_part ∧
        (prepare_key_parts s i parts).keyinfo.flags &&& HA_NOSAME =
          s.keyinfo.flags &&& HA_NOSAME := by
  induction parts with
  | nil => intro s i; exact ⟨rfl, rfl, rfl, rfl, rfl⟩
  | cons key_part rest ih =>
    intro s i
    simp only [prepare_key_parts]
    obtain ⟨a1, a2, a3, a4, a5⟩ := ih (prepare_key_part s i key_part) (i + 1)
    rw [a1, a2, a3, a4, a5, prepare_key_part_keyinfo, prepared_key_nosame]
    exact ⟨rfl, rfl, rfl, rfl, rfl⟩

/-- The work of one turn of the loop over the keys on the key itself, when the
guard of `add_pk_parts_to_sk` does not hold: the user-defined parts are
prepared, the flags are copied to `actual_flags`, and nothing else changes but
the flags and the length of the key. -/
theorem prepare_key_info_plain (eng : Engine) (share : TABLE_SHARE) (primary_key key : Nat)
    (keyinfo : KEY) (h : ¬ extension_applies eng primary_key key keyinfo) :
    (prepare_key_info eng share primary_key key keyinfo).1 =
      key_after_parts share keyinfo := by
  have hfr := prepare_key_parts_frame (keyinfo.key_part.take keyinfo.user_defined_key_parts)
    { keyinfo := keyinfo, done := [], crashed := share.crashed } 0
  have hdone := prepare_key_parts_done (keyinfo.key_part.take keyinfo.user_defined_key_parts)
    { keyinfo := keyinfo, done := [], crashed := share.crashed } 0
  have hc : ¬ (eng.supports_extended_keys = true ∧ primary_key < MAX_KEY ∧ key ≠ 0 ∧
      (prepare_key_parts { keyinfo := keyinfo, done := [], crashed := share.crashed } 0
        (keyinfo.key_part.take keyinfo.user_defined_key_parts)).keyinfo.flags &&&
          HA_NOSAME = 0) := by
    rw [hfr.2.2.2.2]
    exact h
  simp only [prepare_key_info, key_after_parts]
  rw [if_neg hc, hdone]
  simp

/-- The work of one turn of the loop over the keys on the key itself, when the
guard of `add_pk_parts_to_sk` holds and the primary key is a key of the
share. -/
theorem prepare_key_info_extended (eng : Engine) (share : TABLE_SHARE) (primary_key key : Nat)
    (keyinfo pk : KEY) (h : extension_applies eng primary_key key keyinfo)
    (hpk : share.key_info[primary_key]? = some pk) :
    (prepare_key_info eng share primary_key key keyinfo).1 =
      (add_pk_parts_to_sk (key_after_parts share keyinfo) pk).1 := by
  have hfr := prepare_key_parts_frame (keyinfo.key_part.take keyinfo.user_defined_key_parts)
    { keyinfo := keyinfo, done := [], crashed := share.crashed } 0
  have hdone := prepare_key_parts_done (keyinfo.key_part.take keyinfo.user_defined_key_parts)
    { keyinfo := keyinfo, done := [], crashed := share.crashed } 0
  have hc : (eng.supports_extended_keys = true ∧ primary_key < MAX_KEY ∧ key ≠ 0 ∧
      (prepare_key_parts { keyinfo := keyinfo, done := [], crashed := share.crashed } 0
        (keyinfo.key_part.take keyinfo.user_defined_key_parts)).keyinfo.flags &&&
          HA_NOSAME = 0) := by
    rw [hfr.2.2.2.2]
    exact h
  simp only [prepare_key_info, key_after_parts]
  rw [if_pos hc, hdone, hpk]
  simp

/-- The `crashed` marker after one turn of the loop over the keys. -/
theorem prepare_key_info_crashed (eng : Engine) (share : TABLE_SHARE) (primary_key key : Nat)
    (keyinfo : KEY) :
    (prepare_key_info eng share primary_key key keyinfo).2 =
      if has_clamped_part keyinfo then 1 else share.crashed := by
  simp only [prepare_key_info, has_clamped_part]
  exact prepare_key_parts_crashed _ _ _

/-- The work of one turn of the loop over the keys on the key itself, when the
local `primary_key` is not a key of the share: nothing is appended. -/
theorem prepare_key_info_no_pk (eng : Engine) (share : TABLE_SHARE) (primary_key key : Nat)
    (keyinfo : KEY) (hpk : share.key_info[primary_key]? = none) :
    (prepare_key_info eng share primary_key key keyinfo).1 = key_after_parts share keyinfo := by
  have hdone := prepare_key_parts_done (keyinfo.key_part.take keyinfo.user_defined_key_parts)
    { keyinfo := keyinfo, done := [], crashed := share.crashed } 0
  simp only [prepare_key_info, key_after_parts]
  rw [hdone, hpk]
  split_ifs <;> simp

/-- The key after the key part loop: the number of parts, the counters and
`HA_NOSAME` are as before, and part `i` is the prepared part `i`. -/
theorem key_after_parts_frame (share : TABLE_SHARE) (keyinfo : KEY) :
    (key_after_parts share keyinfo).user_defined_key_parts = keyinfo.user_defined_key_parts ∧
      (key_after_parts share keyinfo).actual_key_parts = keyinfo.actual_key_parts ∧
      (key_after_parts share keyinfo).unused_key_parts = keyinfo.unused_key_parts ∧
      (key_after_parts share keyinfo).flags &&& HA_NOSAME = keyinfo.flags &&& HA_NOSAME ∧
      (key_after_parts share keyinfo).key_part =
        (keyinfo.key_part.take keyinfo.user_defined_key_parts).map prepared_part ++
          keyinfo.key_part.drop keyinfo.user_defined_key_parts := by
  have hfr := prepare_key_parts_frame (keyinfo.key_part.take keyinfo.user_defined_key_parts)
    { keyinfo := keyinfo, done := [], crashed := share.crashed } 0
  simp only [key_after_parts]
  exact ⟨hfr.1, hfr.2.1, hfr.2.2.1, hfr.2.2.2.2, trivial⟩

/-- Part `i` of a key after the key part loop, for a user-defined part. -/
theorem key_after_parts_part (share : TABLE_SHARE) (keyinfo : KEY) (i : Nat)
    (hi : i < keyinfo.user_defined_key_parts) :
    (key_after_parts share keyinfo).key_part[i]? =
      (keyinfo.key_part[i]?).map prepared_part := by
  rw [(key_after_parts_frame share keyinfo).2.2.2.2]
  by_cases hl : i < keyinfo.key_part.length
  · rw [List.getElem?_append_left (by simp; omega), List.getElem?_map, List.getElem?_take]
    simp [hi]
  · have hn : keyinfo.key_part[i]? = none := List.getElem?_eq_none (by omega)
    rw [hn]
    apply List.getElem?_eq_none
    simp only [List.length_append, List.length_map, List.length_take, List.length_drop]
    omega

/-- The call `add_pk_parts_to_sk` leaves the user-defined parts, their number,
the flags and the length of the key alone. -/
theorem add_pk_parts_to_sk_frame (sk pk : KEY) :
    (add_pk_parts_to_sk sk pk).1.user_defined_key_parts = sk.user_defined_key_parts ∧
      (add_pk_parts_to_sk sk pk).1.flags = sk.flags ∧
      (add_pk_parts_to_sk sk pk).1.key_length = sk.key_length ∧
      ∀ i key_part, sk.key_part[i]? = some key_part → i < sk.user_defined_key_parts →
        (add_pk_parts_to_sk sk pk).1.key_part[i]? = some key_part := by
  refine ⟨rfl, rfl, rfl, ?_⟩
  intro i key_part hk hi
  have hl : i < sk.key_part.length := by
    by_contra hn
    rw [List.getElem?_eq_none (by omega)] at hk
    exact absurd hk (by simp)
  simp only [add_pk_parts_to_sk]
  rw [List.append_assoc, List.getElem?_append_left (by simp; omega), List.getElem?_take]
  simp [hi, hk]

/-- The key that one turn of the loop over the keys leaves is the key after
the key part loop, with or without appended primary-key parts: the number of
user-defined parts, the flags, the length and the user-defined parts are those
of the key after the key part loop. -/
theorem prepare_key_info_common (eng : Engine) (share : TABLE_SHARE) (primary_key key : Nat)
    (keyinfo : KEY) :
    (prepare_key_info eng share primary_key key keyinfo).1.user_defined_key_parts =
        keyinfo.user_defined_key_parts ∧
      (prepare_key_info eng share primary_key key keyinfo).1.flags =
        (key_after_parts share keyinfo).flags ∧
      (prepare_key_info eng share primary_key key keyinfo).1.key_length =
        (key_after_parts share keyinfo).key_length ∧
      ∀ i key_part, keyinfo.key_part[i]? = some key_part →
        i < keyinfo.user_defined_key_parts →
        (prepare_key_info eng share primary_key key keyinfo).1.key_part[i]? =
          some (prepared_part key_part) := by
  have hfr := key_after_parts_frame share keyinfo
  have hpart : ∀ i key_part, keyinfo.key_part[i]? = some key_part →
      i < keyinfo.user_defined_key_parts →
      (key_after_parts share keyinfo).key_part[i]? = some (prepared_part key_part) := by
    intro i key_part hk hi
    rw [key_after_parts_part share keyinfo i hi, hk]
    rfl
  by_cases hext : extension_applies eng primary_key key keyinfo
  · cases hpk : share.key_info[primary_key]? with
    | none =>
      rw [prepare_key_info_no_pk eng share primary_key key keyinfo hpk]
      exact ⟨hfr.1, rfl, rfl, hpart⟩
    | some pk =>
      rw [prepare_key_info_extended eng share primary_key key keyinfo pk hext hpk]
      obtain ⟨a1, a2, a3, a4⟩ := add_pk_parts_to_sk_frame (key_after_parts share keyinfo) pk
      refine ⟨a1.trans hfr.1, a2, a3, ?_⟩
      intro i key_part hk hi
      exact a4 i _ (hpart i key_part hk hi) (by rw [hfr.1]; exact hi)
  · rw [prepare_key_info_plain eng share primary_key key keyinfo hext]
    exact ⟨hfr.1, rfl, rfl, hpart⟩

/-! ## The loop over the keys of `prepare_share` -/

/-- The state after one more turn of the loop over the keys. -/
theorem keys_state_succ (eng : Engine) (handler_file : handler) (share : TABLE_SHARE)
    (primary_key n : Nat) :
    keys_state eng handler_file share primary_key (n + 1) =
      prepare_key eng handler_file (keys_state eng handler_file share primary_key n) n := by
  simp [keys_state, List.range_succ]

/-- The loop over the keys leaves the key names alone, the local `primary_key`
is the promoted key, and the keys not yet handled are untouched. -/
theorem keys_state_frame (eng : Engine) (handler_file : handler) (share : TABLE_SHARE)
    (primary_key n : Nat) :
    (keys_state eng handler_file share primary_key n).1.keynames = share.keynames ∧
      (keys_state eng handler_file share primary_key n).1.keys = share.keys ∧
      (keys_state eng handler_file share primary_key n).1.keys_in_use = share.keys_in_use ∧
      (keys_state eng handler_file share primary_key n).2 =
        promoted_key share.key_info primary_key n ∧
      ∀ j, n ≤ j →
        (keys_state eng handler_file share primary_key n).1.key_info[j]? =
          share.key_info[j]? := by
  have hu := prepare_keys_upto eng handler_file share primary_key n
  refine ⟨?_, hu.2.2.1, hu.2.2.2, hu.1, hu.2.1⟩
  induction n with
  | zero => rfl
  | succ n ih =>
    rw [keys_state_succ, (prepare_key_frame _ _ _ n).2.2]
    exact ih (prepare_keys_upto eng handler_file share primary_key n)

/-- One turn of the loop over the keys, for a key of the share. -/
theorem prepare_key_some (eng : Engine) (handler_file : handler) (st : TABLE_SHARE × Nat)
    (key : Nat) (keyinfo : KEY) (hk : st.1.key_info[key]? = some keyinfo) :
    (prepare_key eng handler_file st key).1.key_info[key]? =
        some (prepare_key_info eng st.1 (promote_key st.2 key keyinfo) key
          { keyinfo with name := (st.1.keynames.type_names[key]?).join }).1 ∧
      (prepare_key eng handler_file st key).1.crashed =
        (prepare_key_info eng st.1 (promote_key st.2 key keyinfo) key
          { keyinfo with name := (st.1.keynames.type_names[key]?).join }).2 := by
  have hl : key < st.1.key_info.length := by
    by_contra hn
    rw [List.getElem?_eq_none (by omega)] at hk
    exact absurd hk (by simp)
  simp only [prepare_key, hk]
  refine ⟨?_, rfl⟩
  rw [List.getElem?_set_self hl]
  rfl

/-- A key handled by the loop over the keys is not written to again. -/
theorem keys_state_stable (eng : Engine) (handler_file : handler) (share : TABLE_SHARE)
    (primary_key k n : Nat) (hk : k < n) :
    ∀ m, n ≤ m →
      (keys_state eng handler_file share primary_key m).1.key_info[k]? =
        (keys_state eng handler_file share primary_key n).1.key_info[k]? := by
  intro m hm
  induction m with
  | zero =>
    have : n = 0 := by omega
    subst this
    rfl
  | succ m ih =>
    by_cases he : n = m + 1
    · subst he
      rfl
    · rw [keys_state_succ, prepare_key_other _ _ _ m k (by omega)]
      exact ih (by omega)

/-- The key number `k` after the loop over the keys has passed it: the key that
its own turn has made of it, from the share as it was before that turn and
with the local `primary_key` of that turn. -/
theorem keys_state_key (eng : Engine) (handler_file : handler) (share : TABLE_SHARE)
    (primary_key k n : Nat) (keyinfo : KEY) (hk : share.key_info[k]? = some keyinfo)
    (hn : k < n) :
    (keys_state eng handler_file share primary_key n).1.key_info[k]? =
      some (prepare_key_info eng (keys_state eng handler_file share primary_key k).1
        (promoted_key share.key_info primary_key (k + 1)) k
        { keyinfo with name := (share.keynames.type_names[k]?).join }).1 := by
  obtain ⟨f1, _, _, f4, f5⟩ := keys_state_frame eng handler_file share primary_key k
  have hk2 : (keys_state eng handler_file share primary_key k).1.key_info[k]? = some keyinfo := by
    rw [f5 k (Nat.le_refl _)]
    exact hk
  rw [keys_state_stable eng handler_file share primary_key k (k + 1) (by omega) n (by omega),
    keys_state_succ, (prepare_key_some eng handler_file _ k keyinfo hk2).1, f1, f4,
    promoted_key_succ, hk]

/-- The end of the key block writes to the primary key and the row id offset
only. -/
theorem set_primary_key_frame (share : TABLE_SHARE) (primary_key : Nat) :
    (set_primary_key share primary_key).key_info = share.key_info ∧
      (set_primary_key share primary_key).crashed = share.crashed ∧
      (set_primary_key share primary_key).max_key_length = share.max_key_length ∧
      (set_primary_key share primary_key).total_key_length = share.total_key_length ∧
      (set_primary_key share primary_key).max_unique_length = share.max_unique_length := by
  unfold set_primary_key
  split_ifs
  · simp only
    split
    · split_ifs
      · split
        · split_ifs <;> exact ⟨rfl, rfl, rfl, rfl, rfl⟩
        · exact ⟨rfl, rfl, rfl, rfl, rfl⟩
      · exact ⟨rfl, rfl, rfl, rfl, rfl⟩
    · exact ⟨rfl, rfl, rfl, rfl, rfl⟩
  · exact ⟨rfl, rfl, rfl, rfl, rfl⟩

/-- A successful `prepare_share` has a handler and returns what its key block
makes of the share. -/
theorem prepare_share_some_handler (eng : Engine) (share share1 : TABLE_SHARE)
    (h : prepare_share eng share = some share1) :
    ∃ handler_file, eng.get_new_handler = some handler_file ∧
      share1 = prepare_share_keys eng handler_file (keys_input handler_file share) := by
  unfold prepare_share at h
  simp only at h
  split at h
  · exact absurd h (by simp)
  · split at h
    · exact absurd h (by simp)
    · split at h
      · exact absurd h (by simp)
      · split at h
        · exact absurd h (by simp)
        · split at h
          · exact absurd h (by simp)
          · simp only [Option.some.injEq] at h
            rename_i hf hh _ _ _
            exact ⟨_, hh, h.symm⟩

/-- The key block of `prepare_share` with at least one key: the state after the
loop over all keys, with the primary key recorded. -/
theorem prepare_share_keys_eq (eng : Engine) (handler_file : handler) (share : TABLE_SHARE)
    (h0 : share.keys ≠ 0) :
    prepare_share_keys eng handler_file share =
      set_primary_key
        (keys_state eng handler_file share (named_primary_key share) share.keys).1
        (keys_state eng handler_file share (named_primary_key share) share.keys).2 := by
  unfold prepare_share_keys
  rw [if_pos h0]
  rfl

/-! ## Key parts: lengths and flags -/

/-- A value that fits in 16 bits is not changed by the conversion to `uint16`. -/
theorem to_uint16_of_lt (n : Nat) (h : n < 65536) : to_uint16 (n : Int) = n := by
  unfold to_uint16
  omega

/-- A value that fits in 32 bits is not changed by the conversion to `uint`. -/
theorem to_uint_of_lt (n : Nat) (h : n < 4294967296) : to_uint (n : Int) = n := by
  unfold to_uint
  omega

/-- The key part that `fill_index_element_from_dd` builds in an empty slot. -/
theorem fill_index_element_from_dd_some (share : TABLE_SHARE) (idx_elem_obj : Index_element)
    (key_part : KEY_PART_INFO)
    (h : fill_index_element_from_dd share idx_elem_obj {} = some key_part) :
    key_part.length = to_uint16 idx_elem_obj.length ∧
      key_part.store_length = to_uint16 idx_elem_obj.length ∧
      key_part.fieldnr = idx_elem_obj.column.ordinal_position ∧
      share.field (idx_elem_obj.column.ordinal_position - 1) = some key_part.field ∧
      key_part.offset = key_part.field.ptr ∧
      key_part.key_part_flag =
        (if idx_elem_obj.order = .ORDER_DESC then HA_REVERSE_SORT else 0) := by
  simp only [fill_index_element_from_dd] at h
  split at h
  · exact absurd h (by simp)
  · rename_i field hf
    split_ifs at h with hd
    · simp only [Option.some.injEq] at h
      subst h
      refine ⟨rfl, rfl, rfl, hf, rfl, ?_⟩
      rw [if_pos hd]
      simp
    · simp only [Option.some.injEq] at h
      subst h
      refine ⟨rfl, rfl, rfl, hf, rfl, ?_⟩
      rw [if_neg hd]

/-- The call `init_flags` leaves `HA_REVERSE_SORT` and `HA_PART_KEY_SEG` as they
were. -/
theorem init_flags_flags (key_part : KEY_PART_INFO) :
    key_part.init_flags.key_part_flag &&& HA_REVERSE_SORT =
        key_part.key_part_flag &&& HA_REVERSE_SORT ∧
      key_part.init_flags.key_part_flag &&& HA_PART_KEY_SEG =
        key_part.key_part_flag &&& HA_PART_KEY_SEG := by
  unfold KEY_PART_INFO.init_flags
  simp only
  split_ifs
  · exact ⟨or_and_of_disjoint _ _ _ (by decide), or_and_of_disjoint _ _ _ (by decide)⟩
  · exact ⟨or_and_of_disjoint _ _ _ (by decide), or_and_of_disjoint _ _ _ (by decide)⟩
  · exact ⟨or_and_of_disjoint _ _ _ (by decide), or_and_of_disjoint _ _ _ (by decide)⟩
  · exact ⟨rfl, rfl⟩

/-- The prepared part of a key part to which the decimal clamp does not apply,
when its store length leaves room for three more bytes in 16 bits: same field
and length, the store length grown by the null byte and the length bytes,
`HA_REVERSE_SORT` as before. -/
theorem prepared_part_plain (key_part : KEY_PART_INFO) (h : ¬ decimal_clamp_applies key_part)
    (hfit : key_part.store_length + HA_KEY_NULL_LENGTH + HA_KEY_BLOB_LENGTH < 65536) :
    (prepared_part key_part).field = key_part.field ∧
      (prepared_part key_part).length = key_part.length ∧
      (prepared_part key_part).store_length =
        key_part.store_length +
          (if key_part.field.real_maybe_null then HA_KEY_NULL_LENGTH else 0) +
          (if has_length_bytes key_part.field then HA_KEY_BLOB_LENGTH else 0) ∧
      (prepared_part key_part).key_part_flag &&& HA_REVERSE_SORT =
        key_part.key_part_flag &&& HA_REVERSE_SORT := by
  have hc := eq_false h
  simp only [HA_KEY_NULL_LENGTH, HA_KEY_BLOB_LENGTH] at hfit ⊢
  rcases Classical.propComplete (key_part.field.real_maybe_null = true) with h1 | h1 <;>
  rcases Classical.propComplete (has_length_bytes key_part.field) with h2 | h2 <;>
  rcases Classical.propComplete (key_part.field.key_length = key_part.length) with h5 | h5 <;>
  simp only [prepared_part, hc, h1, h2, h5, HA_KEY_NULL_LENGTH, HA_KEY_BLOB_LENGTH,
    (init_flags_frame _).1, (init_flags_frame _).2.1, (init_flags_frame _).2.2,
    (init_flags_flags _).1, or_and_of_disjoint _ HA_PART_KEY_SEG HA_REVERSE_SORT (by decide),
    ne_eq, not_true_eq_false, not_false_eq_true, if_true, if_false, true_and,
    Bool.false_eq_true, Nat.add_zero]
  all_goals
    refine ⟨?_, trivial⟩
    simp only [to_uint16, Nat.cast_ofNat]
    omega

/-- The key number `k` of the share after a successful `prepare_share`: the key
that its turn of the loop over the keys has made of it. -/
theorem prepare_share_key (eng : Engine) (share share1 : TABLE_SHARE)
    (h : prepare_share eng share = some share1) (k : Nat) (keyinfo : KEY)
    (hkey : share.key_info[k]? = some keyinfo) (hk : k < share.keys) :
    ∃ handler_file, eng.get_new_handler = some handler_file ∧
      share1.key_info[k]? =
        some (prepare_key_info eng
          (keys_state eng handler_file (keys_input handler_file share)
            (named_primary_key share) k).1
          (promoted_key share.key_info (named_primary_key share) (k + 1)) k
          { keyinfo with name := (share.keynames.type_names[k]?).join }).1 := by
  obtain ⟨handler_file, hh, hs⟩ := prepare_share_some_handler eng share share1 h
  refine ⟨handler_file, hh, ?_⟩
  have h0 : (keys_input handler_file share).keys ≠ 0 := by
    show share.keys ≠ 0
    omega
  rw [hs, prepare_share_keys_eq eng handler_file _ h0, (set_primary_key_frame _ _).1]
  exact keys_state_key eng handler_file (keys_input handler_file share)
    (named_primary_key share) k share.keys keyinfo hkey hk

/-- C13: a user-defined key part number `i` of key number `k`, built by
`fill_index_element_from_dd` from an index element whose length leaves room for
three more bytes in 16 bits, and to which the decimal clamp does not apply.
After a successful `prepare_share` the part lies on the same field, has the
length of the element, its store length is that length plus
`HA_KEY_NULL_LENGTH` if the field is nullable plus `HA_KEY_BLOB_LENGTH` if the
field has a BLOB type, a VARCHAR real type or a GEOMETRY type, and it carries
`HA_REVERSE_SORT` exactly when the order of the element is descending. -/
theorem key_part_store_length (eng : Engine) (share share1 share_f : TABLE_SHARE)
    (idx_elem_obj : Index_element) (k i : Nat) (keyinfo : KEY) (key_part : KEY_PART_INFO)
    (hfill : fill_index_element_from_dd share_f idx_elem_obj {} = some key_part)
    (hfit : idx_elem_obj.length + HA_KEY_NULL_LENGTH + HA_KEY_BLOB_LENGTH < 65536)
    (hkey : share.key_info[k]? = some keyinfo) (hk : k < share.keys)
    (hpart : keyinfo.key_part[i]? = some key_part) (hi : i < keyinfo.user_defined_key_parts)
    (hno : ¬ decimal_clamp_applies key_part)
    (h : prepare_share eng share = some share1) :
    ∃ keyinfo1 key_part1, share1.key_info[k]? = some keyinfo1 ∧
      keyinfo1.key_part[i]? = some key_part1 ∧
      key_part1.field = key_part.field ∧
      key_part1.length = idx_elem_obj.length ∧
      key_part1.store_length =
        key_part1.length +
          (if key_part1.field.real_maybe_null then HA_KEY_NULL_LENGTH else 0) +
          (if key_part1.field.type = .MYSQL_TYPE_BLOB ∨
              key_part1.field.real_type = .MYSQL_TYPE_VARCHAR ∨
              key_part1.field.type = .MYSQL_TYPE_GEOMETRY then HA_KEY_BLOB_LENGTH else 0) ∧
      (key_part1.key_part_flag &&& HA_REVERSE_SORT ≠ 0 ↔ idx_elem_obj.order = .ORDER_DESC) := by
  obtain ⟨handler_file, _, hres⟩ := prepare_share_key eng share share1 h k keyinfo hkey hk
  obtain ⟨e1, e2, _, _, _, e6⟩ := fill_index_element_from_dd_some share_f idx_elem_obj key_part hfill
  have hlen : to_uint16 (idx_elem_obj.length : Int) = idx_elem_obj.length :=
    to_uint16_of_lt _ (by omega)
  rw [hlen] at e1 e2
  obtain ⟨p1, p2, p3, p4⟩ := prepared_part_plain key_part hno (by rw [e2]; exact hfit)
  have hcommon := (prepare_key_info_common eng
    (keys_state eng handler_file (keys_input handler_file share) (named_primary_key share) k).1
    (promoted_key share.key_info (named_primary_key share) (k + 1)) k
    { keyinfo with name := (share.keynames.type_names[k]?).join }).2.2.2 i key_part hpart hi
  refine ⟨_, prepared_part key_part, hres, hcommon, p1, p2.trans e1, ?_, ?_⟩
  · rw [p3, p2, p1, e2, e1]
    rfl
  · rw [p4, e6]
    by_cases hd : idx_elem_obj.order = .ORDER_DESC
    · simp [hd, HA_REVERSE_SORT]
    · simp [hd]

/-- C13, on the key `by_name` of `example_keyed_table`: a descending part of
length 20 on a nullable VARCHAR column has store length 20 + 1 + 2 and carries
`HA_REVERSE_SORT`. -/
theorem key_part_store_length_witness :
    ∃ keyinfo1 key_part1, (example_prepared_share {}).key_info[1]? = some keyinfo1 ∧
      keyinfo1.key_part[0]? = some key_part1 ∧
      key_part1.length = 20 ∧ key_part1.store_length = 23 ∧
      key_part1.key_part_flag &&& HA_REVERSE_SORT ≠ 0 := by
  obtain ⟨keyinfo1, key_part1, h1, h2, h3, h4, h5, h6⟩ :=
    key_part_store_length {} (example_keys_share {}) (example_prepared_share {})
      example_columns_share example_name_element 1 0
      ((example_keys_share {}).key_info.getD 1 {}) (example_key_part example_name_element)
      (by rfl) (by decide) (by rfl) (by decide) (by rfl) (by decide) (by decide) (by rfl)
  have hf : key_part1.field.real_maybe_null = true := by rw [h3]; decide
  have hv : key_part1.field.real_type = .MYSQL_TYPE_VARCHAR := by rw [h3]; decide
  refine ⟨keyinfo1, key_part1, h1, h2, h4, ?_, h6.mpr rfl⟩
  rw [h5, h4, hf]
  simp [hv]
  decide

/-! ## The decimal clamp -/

/-- The prepared part of a key part to which the decimal clamp applies, built
with its store length equal to its length, on a column whose key length leaves
room for three more bytes in 16 bits: the length is the key length of the
column, the store length that length plus the null byte and the length bytes,
and `HA_PART_KEY_SEG` is as before. -/
theorem prepared_part_clamped (key_part : KEY_PART_INFO) (h : decimal_clamp_applies key_part)
    (hstore : key_part.store_length = key_part.length)
    (hkl : key_part.field.key_length + HA_KEY_NULL_LENGTH + HA_KEY_BLOB_LENGTH < 65536) :
    (prepared_part key_part).field = key_part.field ∧
      (prepared_part key_part).length = key_part.field.key_length ∧
      (prepared_part key_part).store_length =
        key_part.field.key_length +
          (if key_part.field.real_maybe_null then HA_KEY_NULL_LENGTH else 0) +
          (if has_length_bytes key_part.field then HA_KEY_BLOB_LENGTH else 0) ∧
      (prepared_part key_part).key_part_flag &&& HA_PART_KEY_SEG =
        key_part.key_part_flag &&& HA_PART_KEY_SEG := by
  have hc := eq_true h
  simp only [HA_KEY_NULL_LENGTH, HA_KEY_BLOB_LENGTH] at hkl ⊢
  rcases Classical.propComplete (key_part.field.real_maybe_null = true) with h1 | h1 <;>
  rcases Classical.propComplete (has_length_bytes key_part.field) with h2 | h2 <;>
  simp only [prepared_part, hc, h1, h2, hstore, HA_KEY_NULL_LENGTH, HA_KEY_BLOB_LENGTH,
    (init_flags_frame _).1, (init_flags_frame _).2.1, (init_flags_frame _).2.2,
    (init_flags_flags _).2, if_true, if_false, true_and, Bool.false_eq_true, Nat.add_zero]
  all_goals
    refine ⟨?_, ?_, trivial⟩
    · simp only [to_uint16]
      omega
    · simp only [to_uint16, Nat.cast_ofNat]
      omega

/-- The key after the turn of the key part loop for a part to which the decimal
clamp applies: when the key length covers the length of the part and stays
within 32 bits, it changes by the overhead of the part and by the difference
between the key length of the column and the old length of the part. -/
theorem prepared_key_clamped (keyinfo : KEY) (i : Nat) (key_part : KEY_PART_INFO)
    (h : decimal_clamp_applies key_part) (hi : i < keyinfo.user_defined_key_parts)
    (hcover : key_part.length ≤ keyinfo.key_length)
    (hfit : keyinfo.key_length + key_part.field.key_length + HA_KEY_NULL_LENGTH +
      HA_KEY_BLOB_LENGTH < 4294967296) :
    (prepared_key keyinfo i key_part).key_length + key_part.length =
      keyinfo.key_length +
        (if key_part.field.real_maybe_null then HA_KEY_NULL_LENGTH else 0) +
        (if has_length_bytes key_part.field then HA_KEY_BLOB_LENGTH else 0) +
        key_part.field.key_length := by
  have hc := eq_true h
  have hi2 := eq_true (show i + 1 ≤ keyinfo.user_defined_key_parts by omega)
  simp only [HA_KEY_NULL_LENGTH, HA_KEY_BLOB_LENGTH] at hfit ⊢
  rcases Classical.propComplete (key_part.field.real_maybe_null = true) with h1 | h1 <;>
  rcases Classical.propComplete (has_length_bytes key_part.field) with h2 | h2 <;>
  simp only [prepared_key, hc, h1, h2, hi2, HA_KEY_NULL_LENGTH, HA_KEY_BLOB_LENGTH,
    if_true, if_false, and_true, true_and, and_self, false_and, Bool.false_eq_true,
    Nat.add_zero, to_uint, Nat.cast_ofNat] <;>
  omega

/-- Once the decimal clamp has applied to a part of a key, the `crashed` marker
stays set through the rest of the loop over the keys. -/
theorem keys_state_crashed (eng : Engine) (handler_file : handler) (share : TABLE_SHARE)
    (primary_key k : Nat) (keyinfo : KEY) (hkey : share.key_info[k]? = some keyinfo)
    (hclamp : has_clamped_part keyinfo) :
    ∀ n, k < n → (keys_state eng handler_file share primary_key n).1.crashed = 1 := by
  intro n
  induction n with
  | zero => intro h; omega
  | succ n ih =>
    intro hlt
    rw [keys_state_succ]
    obtain ⟨f1, _, _, f4, f5⟩ := keys_state_frame eng handler_file share primary_key n
    cases hn : (keys_state eng handler_file share primary_key n).1.key_info[n]? with
    | none =>
      have hk2 : k < n := by
        by_contra hge
        have : k = n := by omega
        subst this
        rw [f5 k (Nat.le_refl _), hkey] at hn
        exact absurd hn (by simp)
      have : prepare_key eng handler_file (keys_state eng handler_file share primary_key n) n =
          keys_state eng handler_file share primary_key n := by
        simp only [prepare_key, hn]
      rw [this]
      exact ih hk2
    | some keyinfo_n =>
      rw [(prepare_key_some eng handler_file _ n keyinfo_n hn).2, prepare_key_info_crashed]
      by_cases hk2 : k < n
      · rw [ih hk2]
        split_ifs <;> rfl
      · have : k = n := by omega
        subst this
        rw [f5 k (Nat.le_refl _), hkey] at hn
        simp only [Option.some.injEq] at hn
        subst hn
        have : has_clamped_part
            { keyinfo with
              name := ((keys_state eng handler_file share primary_key k).1.keynames.type_names[k]?).join } :=
          hclamp
        rw [if_pos this]

/-- The loop over the keys and the end of the key block leave the field of the
auto-increment column alone. -/
theorem prepare_share_keys_found (eng : Engine) (handler_file : handler) (share : TABLE_SHARE) :
    (prepare_share_keys eng handler_file share).found_next_number_field =
      share.found_next_number_field := by
  have hloop : ∀ n, (keys_state eng handler_file share (named_primary_key share) n).1.found_next_number_field =
      share.found_next_number_field := by
    intro n
    induction n with
    | zero => rfl
    | succ n ih =>
      rw [keys_state_succ]
      simp only [prepare_key]
      cases (keys_state eng handler_file share (named_primary_key share) n).1.key_info[n]? with
      | none => exact ih
      | some keyinfo => exact ih
  have hset : ∀ (sh : TABLE_SHARE) (pk : Nat),
      (set_primary_key sh pk).found_next_number_field = sh.found_next_number_field := by
    intro sh pk
    unfold set_primary_key
    split_ifs
    · simp only
      split
      · split_ifs
        · split
          · split_ifs <;> rfl
          · rfl
        · rfl
      · rfl
    · rfl
  by_cases h0 : share.keys = 0
  · simp [prepare_share_keys, h0]
  · rw [prepare_share_keys_eq eng handler_file share h0, hset]
    exact hloop share.keys

/-- When `prepare_share` succeeds: the name hash can be built, the handler is
there and takes the share, `find_ref_key` finds a key for the auto-increment
field in the keys as the key loop has left them, and the allocations succeed.
The key loop itself has no failing exit. -/
theorem prepare_share_isSome_iff (eng : Engine) (share : TABLE_SHARE) :
    (prepare_share eng share).isSome = true ↔
      ¬ (MAX_FIELDS_BEFORE_HASH ≤ share.fields ∧ 0 < share.fields ∧
          eng.my_hash_insert_fails = true) ∧
        (∃ handler_file, eng.get_new_handler = some handler_file ∧
          handler_file.set_ha_share_ref_fails = false ∧
          ¬ ((prepare_share_keys eng handler_file
                (keys_input handler_file share)).found_next_number_field.isSome = true ∧
            eng.find_ref_key
                (prepare_share_keys eng handler_file (keys_input handler_file share)).key_info
                (prepare_share_keys eng handler_file (keys_input handler_file share)).keys
                ((prepare_share_keys eng handler_file
                  (keys_input handler_file share)).found_next_number_field.bind
                  (prepare_share_keys eng handler_file (keys_input handler_file share)).field) <
              0)) ∧
        eng.alloc_root_fails = false := by
  unfold prepare_share
  simp only
  by_cases h1 : MAX_FIELDS_BEFORE_HASH ≤ share.fields ∧ 0 < share.fields ∧
      eng.my_hash_insert_fails = true
  · simp [h1]
  · have h1' : ¬ (decide (share.fields ≥ MAX_FIELDS_BEFORE_HASH) = true ∧ 0 < share.fields ∧
        eng.my_hash_insert_fails = true) := by simpa using h1
    rw [if_neg h1']
    cases hh : eng.get_new_handler with
    | none => simp [h1]
    | some handler_file =>
      simp only
      by_cases h2 : handler_file.set_ha_share_ref_fails = true
      · simp [h2]
      · rw [if_neg h2]
        simp only [Bool.not_eq_true] at h2
        by_cases h3 : (prepare_share_keys eng handler_file
              (keys_input handler_file share)).found_next_number_field.isSome = true ∧
            eng.find_ref_key
                (prepare_share_keys eng handler_file (keys_input handler_file share)).key_info
                (prepare_share_keys eng handler_file (keys_input handler_file share)).keys
                ((prepare_share_keys eng handler_file
                  (keys_input handler_file share)).found_next_number_field.bind
                  (prepare_share_keys eng handler_file (keys_input handler_file share)).field) <
              0
        · have h3' := h3
          unfold keys_input at h3'
          rw [if_pos h3']
          simp [h3]
        · have h3' := h3
          unfold keys_input at h3'
          rw [if_neg h3']
          by_cases h4 : eng.alloc_root_fails = true
          · simp [h4]
          · simp only [Bool.not_eq_true] at h4
            rw [if_neg (by simp [h4])]
            simp only [Option.isSome_some, true_iff]
            exact ⟨h1, ⟨handler_file, rfl, h2, h3⟩, h4⟩

/-- C14: the key part on the DECIMAL column of `example_short_decimal_table`
has the recorded length 3, which differs from the column's key length 5, so the
branch that the source describes as "reducing the key length" is taken. Before
`prepare_share` the key length, the part length and the store length are 3;
after it they are 5: the unsigned subtraction of `length - key_length()` has
made the store length and the key length larger. -/
theorem decimal_clamp_counterexample :
    decimal_clamp_applies
        (((example_short_decimal_share.key_info.getD 1 {}).key_part).getD 0 {}) ∧
      key_lengths example_short_decimal_share 1 = some (3, 3, 3) ∧
      (prepare_share {} example_short_decimal_share).map (fun share1 => key_lengths share1 1) =
        some (some (5, 5, 5)) := by
  refine ⟨by decide, by decide, by decide⟩

/-- The decimal clamp of `prepare_share` on a user-defined key part number `i`
of key number `k`, built by `fill_index_element_from_dd`, on a NEWDECIMAL column
whose `key_length()` differs from the length of the part (and leaves room for
three more bytes in 16 bits). After a successful `prepare_share` the `crashed`
marker is 1, the length of the part is the column's `key_length()`, its store
length is that length plus the null byte and the length bytes, which is the
store length before the clamp changed by `key_length()` minus the old length,
and the part does not carry `HA_PART_KEY_SEG`. In the turn of the key part
loop, a key whose length covers the part has its length changed by the same
difference. Both are reductions when the old length is the larger one and
increases otherwise. -/
theorem decimal_clamp_spec (eng : Engine) (share share1 share_f : TABLE_SHARE)
    (idx_elem_obj : Index_element) (k i : Nat) (keyinfo : KEY) (key_part : KEY_PART_INFO)
    (hfill : fill_index_element_from_dd share_f idx_elem_obj {} = some key_part)
    (hclamp : key_part.field.type = .MYSQL_TYPE_NEWDECIMAL ∧
      key_part.field.key_length ≠ key_part.length)
    (hkl : key_part.field.key_length + HA_KEY_NULL_LENGTH + HA_KEY_BLOB_LENGTH < 65536)
    (hkey : share.key_info[k]? = some keyinfo) (hk : k < share.keys)
    (hpart : keyinfo.key_part[i]? = some key_part) (hi : i < keyinfo.user_defined_key_parts)
    (h : prepare_share eng share = some share1) :
    share1.crashed = 1 ∧
      (∃ keyinfo1 key_part1, share1.key_info[k]? = some keyinfo1 ∧
        keyinfo1.key_part[i]? = some key_part1 ∧
        key_part1.length = key_part.field.key_length ∧
        key_part1.store_length =
          key_part1.length +
            (if key_part.field.real_maybe_null then HA_KEY_NULL_LENGTH else 0) +
            (if has_length_bytes key_part.field then HA_KEY_BLOB_LENGTH else 0) ∧
        key_part1.store_length + key_part.length =
          key_part.store_length +
            (if key_part.field.real_maybe_null then HA_KEY_NULL_LENGTH else 0) +
            (if has_length_bytes key_part.field then HA_KEY_BLOB_LENGTH else 0) +
            key_part.field.key_length ∧
        key_part1.key_part_flag &&& HA_PART_KEY_SEG = 0) ∧
      (∀ s : key_part_scan, i < s.keyinfo.user_defined_key_parts →
        key_part.length ≤ s.keyinfo.key_length →
        s.keyinfo.key_length + key_part.field.key_length + HA_KEY_NULL_LENGTH +
          HA_KEY_BLOB_LENGTH < 4294967296 →
        (prepare_key_part s i key_part).crashed = 1 ∧
          (prepare_key_part s i key_part).keyinfo.key_length + key_part.length =
            s.keyinfo.key_length +
              (if key_part.field.real_maybe_null then HA_KEY_NULL_LENGTH else 0) +
              (if has_length_bytes key_part.field then HA_KEY_BLOB_LENGTH else 0) +
              key_part.field.key_length) := by
  have hc : decimal_clamp_applies key_part := ⟨hclamp.2, hclamp.1⟩
  obtain ⟨handler_file, _, hres⟩ := prepare_share_key eng share share1 h k keyinfo hkey hk
  obtain ⟨e1, e2, _, _, _, e6⟩ := fill_index_element_from_dd_some share_f idx_elem_obj key_part hfill
  obtain ⟨p1, p2, p3, p4⟩ := prepared_part_clamped key_part hc (e2.trans e1.symm) hkl
  have hcommon := (prepare_key_info_common eng
    (keys_state eng handler_file (keys_input handler_file share) (named_primary_key share) k).1
    (promoted_key share.key_info (named_primary_key share) (k + 1)) k
    { keyinfo with name := (share.keynames.type_names[k]?).join }).2.2.2 i key_part hpart hi
  refine ⟨?_, ⟨_, prepared_part key_part, hres, hcommon, p2, ?_, ?_, ?_⟩, ?_⟩
  · obtain ⟨handler_file2, _, hs⟩ := prepare_share_some_handler eng share share1 h
    have h0 : (keys_input handler_file2 share).keys ≠ 0 := by
      show share.keys ≠ 0
      omega
    rw [hs, prepare_share_keys_eq eng handler_file2 _ h0, (set_primary_key_frame _ _).2.1]
    have hcl : has_clamped_part keyinfo := by
      refine ⟨key_part, ?_, hc⟩
      have hl : i < keyinfo.key_part.length := by
        by_contra hn
        rw [List.getElem?_eq_none (by omega)] at hpart
        exact absurd hpart (by simp)
      rw [List.mem_iff_getElem?]
      exact ⟨i, by rw [List.getElem?_take]; simp [hi, hpart]⟩
    exact keys_state_crashed eng handler_file2 (keys_input handler_file2 share)
      (named_primary_key share) k keyinfo hkey hcl share.keys hk
  · rw [p3, p2]
  · rw [p3, e2.trans e1.symm]
    omega
  · rw [p4, e6]
    split_ifs <;> decide
  · intro s his hcover hfit
    rw [prepare_key_part_crashed, if_pos hc, prepare_key_part_keyinfo]
    exact ⟨rfl, prepared_key_clamped s.keyinfo i key_part hc his hcover hfit⟩

/-- The decimal clamp on the key `by_amount` of `example_keyed_table`, whose
recorded length 7 exceeds the key length 5 of the column: the part ends with
length 5 and store length 5, two less than before, the marker is set, and
`prepare_share` succeeds. -/
theorem decimal_clamp_spec_witness :
    (prepare_share {} (example_keys_share {})).isSome = true ∧
      (example_prepared_share {}).crashed = 1 ∧
      ∃ keyinfo1 key_part1, (example_prepared_share {}).key_info[2]? = some keyinfo1 ∧
        keyinfo1.key_part[0]? = some key_part1 ∧ key_part1.length = 5 ∧
        key_part1.store_length + 7 = 7 + 5 ∧
        key_part1.key_part_flag &&& HA_PART_KEY_SEG = 0 := by
  obtain ⟨hcr, ⟨keyinfo1, key_part1, h1, h2, h3, _, h5, h6⟩, _⟩ :=
    decimal_clamp_spec {} (example_keys_share {}) (example_prepared_share {})
      example_columns_share example_amount_element 2 0
      ((example_keys_share {}).key_info.getD 2 {}) (example_key_part example_amount_element)
      (by rfl) (by decide) (by decide) (by rfl) (by decide) (by rfl) (by decide) (by rfl)
  refine ⟨by rfl, hcr, keyinfo1, key_part1, h1, h2, ?_, ?_, h6⟩
  · rw [h3]
    decide
  · have e : (example_key_part example_amount_element).length = 7 := by decide
    have e2 : (example_key_part example_amount_element).store_length = 7 := by decide
    have e3 : (example_key_part example_amount_element).field.key_length = 5 := by decide
    have e4 : (example_key_part example_amount_element).field.real_maybe_null = false := by decide
    have e5 : ¬ has_length_bytes (example_key_part example_amount_element).field := by decide
    rw [e, e2, e3, e4, if_neg e5] at h5
    simpa using h5

/-! ## The part counters that `fill_indexes_from_dd` hands to `prepare_share` -/

/-- The loop of `fill_index_elements_from_dd` for key `key_nr` writes to that
key only. -/
theorem fill_index_elements_scan_other (key_nr : Nat) (elements : List Index_element) :
    ∀ (i : Nat) (share share1 : TABLE_SHARE),
      fill_index_elements_scan key_nr elements i share = some share1 →
      ∀ j, j ≠ key_nr → share1.key_info[j]? = share.key_info[j]? := by
  induction elements with
  | nil =>
    intro i share share1 h j _
    simp only [fill_index_elements_scan, Option.some.injEq] at h
    subst h
    rfl
  | cons idx_elem_obj rest ih =>
    intro i share share1 h j hj
    rw [fill_index_elements_scan] at h
    split at h
    · exact ih i share share1 h j hj
    · simp only at h
      split at h
      · exact absurd h (by simp)
      · rw [ih _ _ _ h j hj]
        exact List.getElem?_set_ne (Ne.symm hj)

/-- One turn of the key part loop of `fill_indexes_from_dd` writes to its own
key only, and leaves it with `actual_key_parts` equal to
`user_defined_key_parts`. -/
theorem fill_key_parts_counters {use_extended_sk : Bool} {primary_key_parts : Nat}
    {index_at_pos : List Index} {share share1 : TABLE_SHARE} {key_nr : Nat}
    (h : fill_key_parts use_extended_sk primary_key_parts index_at_pos share key_nr =
      some share1) :
    (∀ j, j ≠ key_nr → share1.key_info[j]? = share.key_info[j]?) ∧
      ∀ keyinfo, share1.key_info[key_nr]? = some keyinfo →
        keyinfo.actual_key_parts = keyinfo.user_defined_key_parts := by
  unfold fill_key_parts at h
  simp only at h
  split at h
  · exact absurd h (by simp)
  · rename_i share2 h2
    have ho := fill_index_elements_scan_other key_nr _ 0 _ share2 h2
    simp only [Option.some.injEq] at h
    subst h
    constructor
    · intro j hj
      have e := ho j hj
      rw [List.getElem?_set_ne (Ne.symm hj)] at e
      split_ifs
      · simp only
        rw [List.getElem?_set_ne (Ne.symm hj)]
        exact e
      · simp only
        rw [List.getElem?_set_ne (Ne.symm hj)]
        exact e
    · intro keyinfo hk
      by_cases hl : key_nr < share2.key_info.length
      · split_ifs at hk
        · simp only at hk
          rw [List.getElem?_set_self hl] at hk
          simp only [Option.some.injEq] at hk
          subst hk
          rfl
        · simp only at hk
          rw [List.getElem?_set_self hl] at hk
          simp only [Option.some.injEq] at hk
          subst hk
          rfl
      · split_ifs at hk
        · simp only at hk
          rw [List.getElem?_eq_none (by simp; omega)] at hk
          exact absurd hk (by simp)
        · simp only at hk
          rw [List.getElem?_eq_none (by simp; omega)] at hk
          exact absurd hk (by simp)

/-- The key part loop of `fill_indexes_from_dd`, over any list of key numbers:
the keys outside the list are untouched, those in the list end with
`actual_key_parts` equal to `user_defined_key_parts`. -/
theorem fill_keys_parts_counters (use_extended_sk : Bool) (primary_key_parts : Nat)
    (index_at_pos : List Index) (l : List Nat) :
    ∀ (share share1 : TABLE_SHARE),
      l.foldl
          (fun st key_nr => st.bind (fun sh =>
            fill_key_parts use_extended_sk primary_key_parts index_at_pos sh key_nr))
          (some share) = some share1 →
      (∀ j, j ∉ l → share1.key_info[j]? = share.key_info[j]?) ∧
        ∀ k ∈ l, ∀ keyinfo, share1.key_info[k]? = some keyinfo →
          keyinfo.actual_key_parts = keyinfo.user_defined_key_parts := by
  induction l with
  | nil =>
    intro share share1 h
    simp only [List.foldl_nil, Option.some.injEq] at h
    subst h
    exact ⟨fun _ _ => rfl, fun k hk => absurd hk (by simp)⟩
  | cons key_nr rest ih =>
    intro share share1 h
    simp only [List.foldl_cons, Option.some_bind] at h
    cases hk : fill_key_parts use_extended_sk primary_key_parts index_at_pos share key_nr with
    | none =>
      rw [hk] at h
      have hnone : ∀ l : List Nat,
          l.foldl
            (fun st key_nr => st.bind (fun sh =>
              fill_key_parts use_extended_sk primary_key_parts index_at_pos sh key_nr))
            (none : Option TABLE_SHARE) = none := by
        intro l
        induction l with
        | nil => rfl
        | cons a l ihl => simpa using ihl
      rw [hnone] at h
      exact absurd h (by simp)
    | some share2 =>
      rw [hk] at h
      obtain ⟨a1, a2⟩ := ih share2 share1 h
      obtain ⟨b1, b2⟩ := fill_key_parts_counters hk
      constructor
      · intro j hj
        simp only [List.mem_cons, not_or] at hj
        rw [a1 j hj.2, b1 j hj.1]
      · intro k hmem keyinfo hki
        by_cases hr : k ∈ rest
        · exact a2 k hr keyinfo hki
        · have hkk : k = key_nr := by
            rcases List.mem_cons.mp hmem with e | e
            · exact e
            · exact absurd e hr
          subst hkk
          rw [a1 k hr] at hki
          exact b2 keyinfo hki

/-- Every key that `fill_indexes_from_dd` hands to `prepare_share` has
`actual_key_parts` equal to `user_defined_key_parts`. -/
theorem fill_indexes_from_dd_counters (env : Server) (eng : Engine) (share share1 : TABLE_SHARE)
    (tab_obj : Table) (h : fill_indexes_from_dd env eng share tab_obj = some share1)
    (hkeys : share.keys = 0) :
    ∀ k keyinfo, k < share1.keys → share1.key_info[k]? = some keyinfo →
      keyinfo.actual_key_parts = keyinfo.user_defined_key_parts := by
  intro k keyinfo hk hki
  have hc := count_indexes_keys tab_obj.indexes share 0
  rw [hkeys, Nat.zero_add] at hc
  unfold fill_indexes_from_dd at h
  simp only at h
  split at h
  · split at h
    · exact absurd h (by simp)
    · split at h
      · exact absurd h (by simp)
      · rename_i share2 index_at_pos hscan
        obtain ⟨p1, _, _⟩ := fill_keys_parts_maps _ _ _ _ _ _ h
        obtain ⟨_, q2⟩ := fill_keys_parts_counters _ _ _ _ _ _ h
        exact q2 k (by rw [List.mem_range, ← p1]; exact hk) keyinfo hki
  · rename_i hz
    simp only [Option.some.injEq] at h
    subst h
    simp only [ne_eq, Decidable.not_not] at hz
    simp only at hk
    omega

/-! ## Appended primary-key parts -/

/-- A primary key known after some turns of the promotion stays. -/
theorem promoted_key_stable (key_info : List KEY) (primary_key n : Nat)
    (h : promoted_key key_info primary_key n < MAX_KEY) :
    ∀ m, n ≤ m → promoted_key key_info primary_key m = promoted_key key_info primary_key n := by
  intro m hm
  induction m with
  | zero =>
    have : n = 0 := by omega
    subst this
    rfl
  | succ m ih =>
    by_cases he : n = m + 1
    · subst he
      rfl
    · have hprev := ih (by omega)
      rw [promoted_key_succ, hprev]
      cases key_info[m]? with
      | none => rfl
      | some keyinfo => exact promote_key_of_lt _ _ _ h

/-- When the promotion ends with key 0 as the primary key, key 0 is the primary
key from the first turn on. -/
theorem promoted_key_zero (key_info : List KEY) (primary_key n : Nat)
    (h : promoted_key key_info primary_key n = 0) :
    ∀ m, 1 ≤ m → m ≤ n → promoted_key key_info primary_key m = 0 := by
  intro m hm1 hmn
  by_cases hlt : primary_key < MAX_KEY
  · rw [promoted_key_of_lt key_info primary_key hlt] at h ⊢
    exact h
  · have hge : MAX_KEY ≤ primary_key := by omega
    have hfound := promoted_key_found key_info primary_key hge n (by rw [h]; decide)
    rw [h] at hfound
    exact (promoted_key_first key_info primary_key hge 0 (by decide) hfound.2
      (fun j hj => absurd hj (by omega)) m).2 (by omega)

/-- The loop over the keys keeps the number of entries of `key_info`. -/
theorem keys_state_length (eng : Engine) (handler_file : handler) (share : TABLE_SHARE)
    (primary_key n : Nat) :
    (keys_state eng handler_file share primary_key n).1.key_info.length =
      share.key_info.length := by
  induction n with
  | zero => rfl
  | succ n ih =>
    rw [keys_state_succ]
    simp only [prepare_key]
    cases (keys_state eng handler_file share primary_key n).1.key_info[n]? with
    | none => exact ih
    | some keyinfo =>
      simp only [List.length_set]
      exact ih

/-- A key of the share after a successful `prepare_share` comes from the key
with the same number before it, through that key's turn of the loop. -/
theorem prepare_share_key_origin (eng : Engine) (share share1 : TABLE_SHARE)
    (h : prepare_share eng share = some share1) (k : Nat) (keyinfo1 : KEY)
    (hk : k < share.keys) (hkey1 : share1.key_info[k]? = some keyinfo1) :
    ∃ handler_file keyinfo, eng.get_new_handler = some handler_file ∧
      share.key_info[k]? = some keyinfo ∧
      keyinfo1 =
        (prepare_key_info eng
          (keys_state eng handler_file (keys_input handler_file share)
            (named_primary_key share) k).1
          (promoted_key share.key_info (named_primary_key share) (k + 1)) k
          { keyinfo with name := (share.keynames.type_names[k]?).join }).1 := by
  obtain ⟨handler_file, hh, hs⟩ := prepare_share_some_handler eng share share1 h
  have h0 : (keys_input handler_file share).keys ≠ 0 := by
    show share.keys ≠ 0
    omega
  have hlen : share1.key_info.length = share.key_info.length := by
    rw [hs, prepare_share_keys_eq eng handler_file _ h0, (set_primary_key_frame _ _).1]
    exact keys_state_length eng handler_file (keys_input handler_file share) _ _
  have hl : k < share.key_info.length := by
    by_contra hn
    rw [List.getElem?_eq_none (by omega)] at hkey1
    exact absurd hkey1 (by simp)
  obtain ⟨hf2, hh2, hres⟩ := prepare_share_key eng share share1 h k (share.key_info.get ⟨k, hl⟩)
    (by simp [List.getElem?_eq_getElem hl]) hk
  have hsame : hf2 = handler_file := by
    rw [hh] at hh2
    simp only [Option.some.injEq] at hh2
    exact hh2.symm
  subst hsame
  refine ⟨hf2, share.key_info.get ⟨k, hl⟩, hh, by simp [List.getElem?_eq_getElem hl], ?_⟩
  rw [hkey1] at hres
  simpa using hres

/-- C16: a key number `k` of the share that is flagged `HA_NOSAME`, or in whose
turn of the loop over the keys the local `primary_key` is still at least
`MAX_KEY`, or any key when the engine lacks the extended-keys capability. In a
successful `prepare_share` the guard of the call of `add_pk_parts_to_sk` is
false for it (`promoted_key` is the local `primary_key` after the promotion
test of that turn), so the key is returned as the key part loop left it: no
part is appended, `actual_key_parts`, `unused_key_parts` and
`user_defined_key_parts` are as before; and when the share comes from
`fill_indexes_from_dd`, `actual_key_parts` equals `user_defined_key_parts`. -/
theorem primary_key_parts_not_appended (eng : Engine) (share share1 : TABLE_SHARE) (k : Nat)
    (keyinfo : KEY) (h : prepare_share eng share = some share1)
    (hkey : share.key_info[k]? = some keyinfo) (hk : k < share.keys)
    (hcond : keyinfo.flags &&& HA_NOSAME ≠ 0 ∨
      MAX_KEY ≤ promoted_key share.key_info (named_primary_key share) (k + 1) ∨
      eng.supports_extended_keys = false) :
    ¬ extension_applies eng (promoted_key share.key_info (named_primary_key share) (k + 1)) k
        keyinfo ∧
      ∃ handler_file keyinfo1, eng.get_new_handler = some handler_file ∧
        (keys_state eng handler_file (keys_input handler_file share) (named_primary_key share)
            (k + 1)).2 =
          promoted_key share.key_info (named_primary_key share) (k + 1) ∧
        share1.key_info[k]? = some keyinfo1 ∧
        keyinfo1 =
          key_after_parts
            (keys_state eng handler_file (keys_input handler_file share)
              (named_primary_key share) k).1
            { keyinfo with name := (share.keynames.type_names[k]?).join } ∧
        keyinfo1.key_part.length = keyinfo.key_part.length ∧
        keyinfo1.actual_key_parts = keyinfo.actual_key_parts ∧
        keyinfo1.unused_key_parts = keyinfo.unused_key_parts ∧
        keyinfo1.user_defined_key_parts = keyinfo.user_defined_key_parts ∧
        (∀ env share0 tab_obj, share0.keys = 0 →
          fill_indexes_from_dd env eng share0 tab_obj = some share →
          keyinfo1.actual_key_parts = keyinfo1.user_defined_key_parts) := by
  have hnot : ¬ extension_applies eng
      (promoted_key share.key_info (named_primary_key share) (k + 1)) k keyinfo := by
    rintro ⟨e1, e2, _, e4⟩
    rcases hcond with c | c | c
    · exact c e4
    · omega
    · rw [c] at e1
      exact absurd e1 (by simp)
  refine ⟨hnot, ?_⟩
  obtain ⟨handler_file, hh, hres⟩ := prepare_share_key eng share share1 h k keyinfo hkey hk
  have hnot2 : ¬ extension_applies eng
      (promoted_key share.key_info (named_primary_key share) (k + 1)) k
      { keyinfo with name := (share.keynames.type_names[k]?).join } := hnot
  rw [prepare_key_info_plain eng _ _ k _ hnot2] at hres
  obtain ⟨f1, f2, f3, _, f5⟩ := key_after_parts_frame
    (keys_state eng handler_file (keys_input handler_file share) (named_primary_key share) k).1
    { keyinfo with name := (share.keynames.type_names[k]?).join }
  refine ⟨handler_file, _, hh,
    (keys_state_frame eng handler_file (keys_input handler_file share) (named_primary_key share)
      (k + 1)).2.2.2.1, hres, rfl, ?_, f2, f3, f1, ?_⟩
  · rw [f5]
    simp only [List.length_append, List.length_map, List.length_take, List.length_drop]
    omega
  · intro env share0 tab_obj h0 hfill
    rw [f2, f1]
    exact fill_indexes_from_dd_counters env eng share0 share tab_obj hfill h0 k keyinfo hk hkey

/-- C16, on `example_keyed_table` with an engine that has the extended-keys
capability: the unique key `PRIMARY` (key 0) gets no appended part. -/
theorem primary_key_parts_not_appended_witness :
    ∃ keyinfo1, (example_prepared_share extended_engine).key_info[0]? = some keyinfo1 ∧
      keyinfo1.key_part.length = 1 ∧ keyinfo1.actual_key_parts = 1 ∧
      keyinfo1.user_defined_key_parts = 1 := by
  obtain ⟨_, _, keyinfo1, _, _, h1, _, h3, h4, _, h6, _⟩ :=
    primary_key_parts_not_appended extended_engine (example_keys_share extended_engine)
      (example_prepared_share extended_engine) 0
      ((example_keys_share extended_engine).key_info.getD 0 {})
      (by rfl) (by rfl) (by decide) (Or.inl (by decide))
  exact ⟨keyinfo1, h1, h3.trans (by decide), h4.trans (by decide), h6.trans (by decide)⟩

/-- Extended keys when the primary key is key 0, as `fill_indexes_from_dd`
expects it: a share built by `fill_indexes_from_dd` and passed through a
successful `prepare_share`. With the extended-keys capability and key 0 as the
primary key, every key other than key 0 that is not flagged `HA_NOSAME` has
`actual_key_parts` equal to `user_defined_key_parts` plus the number of
user-defined parts of the primary key (all of which are in its part list).
Without the capability every key has `actual_key_parts` equal to
`user_defined_key_parts`. -/
theorem extended_keys_actual_parts (env : Server) (eng : Engine)
    (share0 share share1 : TABLE_SHARE) (tab_obj : Table) (hk0 : share0.keys = 0)
    (hfill : fill_indexes_from_dd env eng share0 tab_obj = some share)
    (h : prepare_share eng share = some share1) :
    (eng.supports_extended_keys = true → share1.primary_key = 0 →
      ∀ pk, share.key_info[0]? = some pk → pk.user_defined_key_parts ≤ pk.key_part.length →
      ∀ k keyinfo1, k < share.keys → k ≠ 0 → share1.key_info[k]? = some keyinfo1 →
        keyinfo1.flags &&& HA_NOSAME = 0 →
        keyinfo1.actual_key_parts =
          keyinfo1.user_defined_key_parts + pk.user_defined_key_parts) ∧
      (eng.supports_extended_keys = false →
        ∀ k keyinfo1, k < share.keys → share1.key_info[k]? = some keyinfo1 →
          keyinfo1.actual_key_parts = keyinfo1.user_defined_key_parts) := by
  constructor
  · intro hext hpk0 pk hpk hpkparts k keyinfo1 hk hkn hkey1 hnu
    obtain ⟨handler_file, keyinfo, hh, hkey, hres⟩ :=
      prepare_share_key_origin eng share share1 h k keyinfo1 hk hkey1
    have hcount := fill_indexes_from_dd_counters env eng share0 share tab_obj hfill hk0 k keyinfo
      hk hkey
    -- the local primary key in the turn of key `k` is key 0
    have hfinal : promoted_key share.key_info (named_primary_key share) share.keys = 0 := by
      have hp := prepare_share_primary_key eng share share1 h
      rw [hpk0] at hp
      have hne : share.keys ≠ 0 := by omega
      rw [if_neg hne] at hp
      split_ifs at hp with hc
      · exact hp.symm
      · exact absurd hp (by decide)
    have hlocal : promoted_key share.key_info (named_primary_key share) (k + 1) = 0 :=
      promoted_key_zero _ _ _ hfinal (k + 1) (by omega) (by omega)
    -- key 0 as it is when key `k` has its turn
    have hpk' := keys_state_key eng handler_file (keys_input handler_file share)
      (named_primary_key share) 0 k pk hpk (by omega)
    obtain ⟨c1, _, _, c4⟩ := prepare_key_info_common eng
      (keys_state eng handler_file (keys_input handler_file share) (named_primary_key share) 0).1
      (promoted_key (keys_input handler_file share).key_info (named_primary_key share) (0 + 1)) 0
      { pk with name := ((keys_input handler_file share).keynames.type_names[0]?).join }
    have hfr := key_after_parts_frame
      (keys_state eng handler_file (keys_input handler_file share) (named_primary_key share) k).1
      { keyinfo with name := (share.keynames.type_names[k]?).join }
    -- the guard of the call holds
    have hflags : keyinfo.flags &&& HA_NOSAME = 0 := by
      have hc := (prepare_key_info_common eng
        (keys_state eng handler_file (keys_input handler_file share)
          (named_primary_key share) k).1
        (promoted_key share.key_info (named_primary_key share) (k + 1)) k
        { keyinfo with name := (share.keynames.type_names[k]?).join }).2.1
      rw [← hres] at hc
      rw [hc, hfr.2.2.2.1] at hnu
      exact hnu
    have hguard : extension_applies eng
        (promoted_key share.key_info (named_primary_key share) (k + 1)) k
        { keyinfo with name := (share.keynames.type_names[k]?).join } :=
      ⟨hext, by rw [hlocal]; decide, hkn, hflags⟩
    rw [hlocal] at hres hguard
    rw [prepare_key_info_extended eng _ 0 k _ _ hguard hpk'] at hres
    -- the parts of the primary key are all there
    have hlen : pk.user_defined_key_parts ≤
        (prepare_key_info eng
          (keys_state eng handler_file (keys_input handler_file share)
            (named_primary_key share) 0).1
          (promoted_key (keys_input handler_file share).key_info (named_primary_key share)
            (0 + 1)) 0
          { pk with name := ((keys_input handler_file share).keynames.type_names[0]?).join
            }).1.key_part.length := by
      by_cases hz : pk.user_defined_key_parts = 0
      · omega
      · have hl : pk.user_defined_key_parts - 1 < pk.key_part.length := by omega
        have hsome := c4 (pk.user_defined_key_parts - 1)
          (pk.key_part.get ⟨pk.user_defined_key_parts - 1, hl⟩)
          (by simp [List.getElem?_eq_getElem hl])
          (by show pk.user_defined_key_parts - 1 < pk.user_defined_key_parts; omega)
        by_contra hn
        rw [List.getElem?_eq_none (by omega)] at hsome
        exact absurd hsome (by simp)
    rw [hres]
    simp only [add_pk_parts_to_sk, List.length_take]
    rw [c1, hfr.2.1, hfr.1]
    show keyinfo.actual_key_parts + _ = keyinfo.user_defined_key_parts + _
    rw [hcount, Nat.min_eq_left hlen]
  · intro hext k keyinfo1 hk hkey1
    obtain ⟨handler_file, keyinfo, hh, hkey, hres⟩ :=
      prepare_share_key_origin eng share share1 h k keyinfo1 hk hkey1
    have hcount := fill_indexes_from_dd_counters env eng share0 share tab_obj hfill hk0 k keyinfo
      hk hkey
    have hnot : ¬ extension_applies eng
        (promoted_key share.key_info (named_primary_key share) (k + 1)) k
        { keyinfo with name := (share.keynames.type_names[k]?).join } := by
      rintro ⟨e1, _⟩
      rw [hext] at e1
      exact absurd e1 (by simp)
    rw [prepare_key_info_plain eng _ _ k _ hnot] at hres
    have hfr := key_after_parts_frame
      (keys_state eng handler_file (keys_input handler_file share) (named_primary_key share) k).1
      { keyinfo with name := (share.keynames.type_names[k]?).join }
    rw [hres, hfr.2.1, hfr.1]
    exact hcount

/-- Extended keys on `example_keyed_table`, whose primary key is key 0: with
the extended-keys capability the two non-unique keys end with 1 + 1 actual
parts, without it with 1. -/
theorem extended_keys_actual_parts_witness :
    (∀ k keyinfo1, k < 3 → k ≠ 0 →
      (example_prepared_share extended_engine).key_info[k]? = some keyinfo1 →
      keyinfo1.flags &&& HA_NOSAME = 0 →
      keyinfo1.actual_key_parts = keyinfo1.user_defined_key_parts + 1) ∧
    (∀ k keyinfo1, k < 3 → (example_prepared_share {}).key_info[k]? = some keyinfo1 →
      keyinfo1.actual_key_parts = keyinfo1.user_defined_key_parts) :=
  ⟨(extended_keys_actual_parts example_server extended_engine example_columns_share
      (example_keys_share extended_engine) (example_prepared_share extended_engine)
      example_keyed_table (by decide) (by rfl) (by rfl)).1 (by rfl) (by decide)
      ((example_keys_share extended_engine).key_info.getD 0 {}) (by rfl) (by decide),
    (extended_keys_actual_parts example_server {} example_columns_share
      (example_keys_share {}) (example_prepared_share {})
      example_keyed_table (by decide) (by rfl) (by rfl)).2 (by rfl)⟩

/-- A running maximum is at least its start and at least every number met. -/
theorem foldl_max_ge (f : Partition_value → Nat) (values : List Partition_value) :
    ∀ m, m ≤ values.foldl (fun m part_value => max m (f part_value)) m ∧
      ∀ part_value ∈ values, f part_value ≤ values.foldl (fun m part_value => max m (f part_value)) m := by
  induction values with
  | nil => intro m; exact ⟨Nat.le_refl _, fun _ h => absurd h (by simp)⟩
  | cons v rest ih =>
    intro m
    simp only [List.foldl_cons]
    obtain ⟨h1, h2⟩ := ih (max m (f v))
    refine ⟨by omega, ?_⟩
    intro pv hpv
    rcases List.mem_cons.mp hpv with rfl | hmem
    · omega
    · exact h2 pv hmem

/-- Every value entry has its column number and its list number within the
maxima of its partition. -/
theorem value_within_maxima (part_obj : Partition) (part_value : Partition_value)
    (h : part_value ∈ part_obj.values) :
    part_value.column_num ≤ max_column_num part_obj ∧
      part_value.list_num ≤ max_list_num part_obj :=
  ⟨(foldl_max_ge (fun v => v.column_num) part_obj.values 0).2 part_value h,
    (foldl_max_ge (fun v => v.list_num) part_obj.values 0).2 part_value h⟩

/-- The body of the second loop of `get_part_column_values` in terms of
`write_cell`. -/
theorem store_column_value_eq (p_elem_values : List part_elem_value)
    (part_value : Partition_value) :
    store_column_value p_elem_values part_value =
      p_elem_values.set part_value.list_num
        { p_elem_values.getD part_value.list_num {} with
          col_val_array := (p_elem_values.getD part_value.list_num {}).col_val_array.set
            part_value.column_num
            (write_cell ((p_elem_values.getD part_value.list_num {}).col_val_array.getD
              part_value.column_num {}) part_value) } := rfl

/-- Storing a value entry keeps the shape of the matrix. -/
theorem store_column_value_shape (rows columns : Nat) (p_elem_values : List part_elem_value)
    (part_value : Partition_value) (hs : matrix_shape rows columns p_elem_values) :
    matrix_shape rows columns (store_column_value p_elem_values part_value) := by
  obtain ⟨h1, h2⟩ := hs
  rw [store_column_value_eq]
  by_cases hl : part_value.list_num < p_elem_values.length
  · refine ⟨by rw [List.length_set]; exact h1, ?_⟩
    intro p_val hp
    rcases List.mem_or_eq_of_mem_set hp with hm | he
    · exact h2 p_val hm
    · rw [he]
      simp only [List.length_set]
      rw [List.getD_eq_getElem _ _ hl]
      exact h2 _ (List.getElem_mem _)
  · rw [List.set_eq_of_length_le (by omega)]
    exact ⟨h1, h2⟩

/-- Reading the entry of a list that was just written. -/
theorem getD_set_self {α : Type} (l : List α) (n : Nat) (a d : α) (h : n < l.length) :
    (l.set n a).getD n d = a := by
  rw [List.getD_eq_getElem?_getD, List.getElem?_set_self h]
  rfl

/-- Reading another entry of a list than the one that was just written. -/
theorem getD_set_ne {α : Type} (l : List α) (n m : Nat) (a d : α) (h : n ≠ m) :
    (l.set n a).getD m d = l.getD m d := by
  rw [List.getD_eq_getElem?_getD, List.getElem?_set_ne h, ← List.getD_eq_getElem?_getD]

/-- Storing a value entry that lies within the matrix writes to the cell it
addresses and to no other. -/
theorem store_column_value_cell (rows columns : Nat) (p_elem_values : List part_elem_value)
    (part_value : Partition_value) (hs : matrix_shape rows columns p_elem_values)
    (hl : part_value.list_num < rows) (hc : part_value.column_num < columns) (i c : Nat) :
    cell_at (store_column_value p_elem_values part_value) i c =
      if part_value.list_num = i ∧ part_value.column_num = c then
        write_cell (cell_at p_elem_values i c) part_value
      else cell_at p_elem_values i c := by
  obtain ⟨h1, h2⟩ := hs
  have hl2 : part_value.list_num < p_elem_values.length := by omega
  have hrow : (p_elem_values.getD part_value.list_num {}).col_val_array.length = columns := by
    rw [List.getD_eq_getElem _ _ hl2]
    exact h2 _ (List.getElem_mem _)
  rw [store_column_value_eq]
  unfold cell_at
  by_cases hi : part_value.list_num = i
  · subst hi
    rw [getD_set_self _ _ _ _ hl2]
    by_cases hcc : part_value.column_num = c
    · subst hcc
      rw [if_pos ⟨rfl, rfl⟩]
      exact getD_set_self _ _ _ _ (by rw [hrow]; exact hc)
    · rw [if_neg (fun h => hcc h.2)]
      exact getD_set_ne _ _ _ _ _ hcc
  · rw [if_neg (fun h => hi h.1), getD_set_ne _ _ _ _ _ hi]

/-- The second loop of `get_part_column_values` over value entries that lie
within the matrix: the shape is kept, and every cell is what the entries that
address it make of it. -/
theorem store_column_values_cells (rows columns : Nat) (values : List Partition_value) :
    ∀ p_elem_values, matrix_shape rows columns p_elem_values →
      (∀ part_value ∈ values, part_value.list_num < rows ∧ part_value.column_num < columns) →
      matrix_shape rows columns (values.foldl store_column_value p_elem_values) ∧
        ∀ i c, cell_at (values.foldl store_column_value p_elem_values) i c =
          (entries_of_cell values i c).foldl write_cell (cell_at p_elem_values i c) := by
  induction values with
  | nil =>
    intro M hs _
    exact ⟨hs, fun _ _ => rfl⟩
  | cons v rest ih =>
    intro M hs hin
    have hv := hin v (List.mem_cons_self _ _)
    have hs2 := store_column_value_shape rows columns M v hs
    obtain ⟨r1, r2⟩ := ih (store_column_value M v) hs2
      (fun pv hpv => hin pv (List.mem_cons_of_mem _ hpv))
    simp only [List.foldl_cons]
    refine ⟨r1, ?_⟩
    intro i c
    rw [r2 i c, store_column_value_cell rows columns M v hs hv.1 hv.2 i c]
    simp only [entries_of_cell, List.filter_cons]
    by_cases hm : v.list_num = i ∧ v.column_num = c
    · simp [hm]
    · simp [hm]

/-- The count check of `get_part_column_values`, when the number of entries and
the product fit in 32 bits: the function goes on exactly when the number of
value entries is the product, and then, unless an allocation fails, returns the
partition information with `num_columns` set and the element with the rows of
the matrix appended. -/
theorem get_part_column_values_eq (penv : Partition_env) (part_info : partition_info)
    (part_elem : partition_element) (part_obj : Partition)
    (hlen : part_obj.values.length < 4294967296)
    (hfit : (max_column_num part_obj + 1) * (max_list_num part_obj + 1) < 4294967296) :
    get_part_column_values penv part_info part_elem part_obj =
      if part_obj.values.length ≠ (max_column_num part_obj + 1) * (max_list_num part_obj + 1)
      then none
      else if penv.alloc_root_fails then none
      else if penv.push_back_fails then none
      else
        some ({ part_info with num_columns := max_column_num part_obj + 1 },
          { part_elem with
            list_val_list := part_elem.list_val_list ++
              part_obj.values.foldl store_column_value
                (List.replicate (max_list_num part_obj + 1)
                  { added_items := 1,
                    col_val_array := List.replicate (max_column_num part_obj + 1) {} }) }) := by
  have hpos : 0 < max_list_num part_obj + 1 := by omega
  have hm : max_column_num part_obj + 1 < 4294967296 :=
    Nat.lt_of_le_of_lt (Nat.le_mul_of_pos_right _ hpos) hfit
  have hl : max_list_num part_obj + 1 < 4294967296 :=
    Nat.lt_of_le_of_lt (Nat.le_mul_of_pos_left _ (by omega)) hfit
  have e1 : to_uint ((max_column_num part_obj : Int) + 1) = max_column_num part_obj + 1 := by
    have := to_uint_of_lt (max_column_num part_obj + 1) hm
    simpa using this
  have e2 : to_uint ((max_list_num part_obj : Int) + 1) = max_list_num part_obj + 1 := by
    have := to_uint_of_lt (max_list_num part_obj + 1) hl
    simpa using this
  have e3 : to_uint (((max_column_num part_obj + 1 : Nat) : Int) *
      ((max_list_num part_obj + 1 : Nat) : Int)) =
      (max_column_num part_obj + 1) * (max_list_num part_obj + 1) := by
    have := to_uint_of_lt ((max_column_num part_obj + 1) * (max_list_num part_obj + 1)) hfit
    rw [Nat.cast_mul] at this
    exact this
  have e4 : to_uint (part_obj.values.length : Int) = part_obj.values.length :=
    to_uint_of_lt _ hlen
  simp only [get_part_column_values]
  rw [← max_column_num, ← max_list_num] at *
  simp only [e1, e2, e3, e4]

/-- C18: a partition whose number of value entries and whose product
`(max column_num + 1) * (max list_num + 1)` fit in 32 bits. The function
`get_part_column_values` returns `true` (here `none`) whenever the number of
entries differs from that product: with no entries at all, and, with the
largest column number 1 and the largest list number 2, for every number of
entries other than 6. With the right number of entries it succeeds unless an
allocation fails. On success `num_columns` is `max column_num + 1` and the
element's `list_val_list` has received `max list_num + 1` rows of `num_columns`
cells, row `i` holding the cells of list index `i` as the value entries that
address them have written them. -/
theorem part_column_values_count (penv : Partition_env) (part_info : partition_info)
    (part_elem : partition_element) (part_obj : Partition)
    (hlen : part_obj.values.length < 4294967296)
    (hfit : (max_column_num part_obj + 1) * (max_list_num part_obj + 1) < 4294967296) :
    (part_obj.values.length ≠ (max_column_num part_obj + 1) * (max_list_num part_obj + 1) →
      get_part_column_values penv part_info part_elem part_obj = none) ∧
    (part_obj.values = [] → get_part_column_values penv part_info part_elem part_obj = none) ∧
    (max_column_num part_obj = 1 → max_list_num part_obj = 2 →
      part_obj.values.length ≠ 6 →
      get_part_column_values penv part_info part_elem part_obj = none) ∧
    (part_obj.values.length = (max_column_num part_obj + 1) * (max_list_num part_obj + 1) →
      penv.alloc_root_fails = false → penv.push_back_fails = false →
      (get_part_column_values penv part_info part_elem part_obj).isSome = true) ∧
    (∀ part_info1 part_elem1,
      get_part_column_values penv part_info part_elem part_obj = some (part_info1, part_elem1) →
      part_info1.num_columns = max_column_num part_obj + 1 ∧
      ∃ rows, part_elem1.list_val_list = part_elem.list_val_list ++ rows ∧
        rows.length = max_list_num part_obj + 1 ∧
        (∀ p_val ∈ rows, p_val.col_val_array.length = part_info1.num_columns) ∧
        ∀ i c, i ≤ max_list_num part_obj → c ≤ max_column_num part_obj →
          cell_at rows i c = written_cell part_obj.values i c) := by
  have heq := get_part_column_values_eq penv part_info part_elem part_obj hlen hfit
  have hnone : part_obj.values.length ≠
      (max_column_num part_obj + 1) * (max_list_num part_obj + 1) →
      get_part_column_values penv part_info part_elem part_obj = none := by
    intro hne
    rw [heq, if_pos hne]
  refine ⟨hnone, ?_, ?_, ?_, ?_⟩
  · intro hnil
    apply hnone
    rw [hnil]
    simp [max_column_num, max_list_num, hnil]
  · intro hc hl hne
    apply hnone
    rw [hc, hl]
    exact hne
  · intro hcount ha hp
    rw [heq, if_neg (by simpa using hcount), ha, hp]
    rfl
  · intro part_info1 part_elem1 hres
    rw [heq] at hres
    split_ifs at hres with h1 h2 h3
    simp only [Option.some.injEq, Prod.mk.injEq] at hres
    obtain ⟨r1, r2⟩ := hres
    subst r1
    subst r2
    have hshape0 : matrix_shape (max_list_num part_obj + 1) (max_column_num part_obj + 1)
        (List.replicate (max_list_num part_obj + 1)
          ({ added_items := 1,
             col_val_array := List.replicate (max_column_num part_obj + 1) {} } :
            part_elem_value)) := by
      refine ⟨List.length_replicate _ _, ?_⟩
      intro p_val hp
      rw [List.eq_of_mem_replicate hp]
      exact List.length_replicate _ _
    have hin : ∀ part_value ∈ part_obj.values,
        part_value.list_num < max_list_num part_obj + 1 ∧
          part_value.column_num < max_column_num part_obj + 1 := by
      intro pv hpv
      have := value_within_maxima part_obj pv hpv
      omega
    obtain ⟨hsh, hcells⟩ := store_column_values_cells _ _ part_obj.values _ hshape0 hin
    refine ⟨rfl, _, rfl, hsh.1, hsh.2, ?_⟩
    intro i c hi hc
    rw [hcells i c]
    have hzero : cell_at
        (List.replicate (max_list_num part_obj + 1)
          ({ added_items := 1,
             col_val_array := List.replicate (max_column_num part_obj + 1) {} } :
            part_elem_value)) i c = {} := by
      have hi2 : i < max_list_num part_obj + 1 := by omega
      have hc2 : c < max_column_num part_obj + 1 := by omega
      simp [cell_at, List.getD_eq_getElem?_getD, List.getElem?_replicate, hi2, hc2]
    rw [hzero]
    rfl

/-- C18, on the example partitions: the six entries of the 3 by 2 matrix are
accepted, with two columns and three rows in list-index order; five of them are
rejected. -/
theorem part_column_values_count_witness :
    get_part_column_values {} example_list_columns_info {} example_short_partition = none ∧
      ∃ part_info1 part_elem1,
        get_part_column_values {} example_list_columns_info {} example_matrix_partition =
          some (part_info1, part_elem1) ∧
        part_info1.num_columns = 2 ∧ part_elem1.list_val_list.length = 3 ∧
        cell_at part_elem1.list_val_list 2 1 =
          { null_value := false, max_value := true, value_str := none } := by
  have hshort := (part_column_values_count {} example_list_columns_info {}
    example_short_partition (by decide) (by decide)).2.2.1 (by decide) (by decide) (by decide)
  obtain ⟨_, _, _, hsome, hacc⟩ := part_column_values_count {} example_list_columns_info {}
    example_matrix_partition (by decide) (by decide)
  obtain ⟨⟨part_info1, part_elem1⟩, hres⟩ :=
    Option.isSome_iff_exists.mp (hsome (by decide) rfl rfl)
  obtain ⟨hn, rows, hrows, hlen, _, hcell⟩ := hacc part_info1 part_elem1 hres
  have hl : part_elem1.list_val_list = rows := by
    rw [hrows]
    rfl
  refine ⟨hshort, part_info1, part_elem1, hres, hn.trans (by decide), ?_, ?_⟩
  · rw [hl, hlen]
    decide
  · rw [hl, hcell 2 1 (by decide) (by decide)]
    decide

/-! ## Partition values -/

/-- C19: `get_part_column_values`, and with it `setup_partition_from_dd` for a
partition of a LIST COLUMNS table, accepts the two value entries of
`example_duplicate_partition`, which both address the cell `(0, 1)`: the count
check passes (2 entries, 2 columns, 1 row), the function returns `false` (here
`some`), and the cell `(0, 0)` of the row it has appended is neither flagged
null, nor flagged max-value, nor holds a string. -/
theorem part_column_values_missing_cell :
    (∃ part_info1 part_elem1,
      get_part_column_values {} example_list_columns_info {} example_duplicate_partition =
        some (part_info1, part_elem1) ∧
      part_info1.num_columns = 2 ∧ part_elem1.list_val_list.length = 1 ∧
      cell_present (cell_at part_elem1.list_val_list 0 1) = true ∧
      cell_present (cell_at part_elem1.list_val_list 0 0) = false) ∧
    (∃ part_info1 part_elem1,
      setup_partition_from_dd example_partition_env example_list_columns_info {}
        example_duplicate_partition false = some (part_info1, part_elem1) ∧
      cell_present (cell_at part_elem1.list_val_list 0 0) = false) := by
  refine ⟨⟨_, _, rfl, ?_, ?_, ?_, ?_⟩, ⟨_, _, rfl, ?_⟩⟩ <;> decide

/-- C20: a partition of a table partitioned by RANGE over an expression, with a
single value entry, when the allocations and the tablespace lookup succeed.
If the entry is the max-value sentinel, `setup_partition_from_dd` succeeds with
`max_value` set and the range value and the sign flag untouched. Otherwise, if
the text starts with `-` it is handed to `to_int64`, and if not to `to_uint64`;
when the parser fails the function fails, and when the parser gives a number
the function succeeds with that number (its 64 bits) in `range_value` and with
`signed_flag` true in the first case and false in the second. -/
theorem range_partition_value (penv : Partition_env) (part_info : partition_info)
    (part_elem : partition_element) (part_obj : Partition) (part_value : Partition_value)
    (tablespace_name : Option String)
    (htype : part_info.part_type = .RANGE) (hcol : part_info.column_list = false)
    (hvalues : part_obj.values = [part_value])
    (halloc : penv.alloc_root_fails = false)
    (hts : penv.get_tablespace_name part_obj = some tablespace_name) :
    (part_value.max_value = true →
      ∃ part_elem1, setup_partition_from_dd penv part_info part_elem part_obj false =
          some (part_info, part_elem1) ∧
        part_elem1.max_value = true ∧ part_elem1.range_value = part_elem.range_value ∧
        part_elem1.signed_flag = part_elem.signed_flag) ∧
    (part_value.max_value = false → starts_with_minus part_value.value_utf8 = true →
      (penv.to_int64 part_value.value_utf8 = none →
        setup_partition_from_dd penv part_info part_elem part_obj false = none) ∧
      ∀ v, penv.to_int64 part_value.value_utf8 = some v →
        ∃ part_elem1, setup_partition_from_dd penv part_info part_elem part_obj false =
            some (part_info, part_elem1) ∧
          part_elem1.signed_flag = true ∧ part_elem1.range_value = v ∧
          part_elem1.max_value = part_elem.max_value) ∧
    (part_value.max_value = false → starts_with_minus part_value.value_utf8 = false →
      (penv.to_uint64 part_value.value_utf8 = none →
        setup_partition_from_dd penv part_info part_elem part_obj false = none) ∧
      ∀ u, penv.to_uint64 part_value.value_utf8 = some u →
        ∃ part_elem1, setup_partition_from_dd penv part_info part_elem part_obj false =
            some (part_info, part_elem1) ∧
          part_elem1.signed_flag = false ∧ part_elem1.range_value = to_longlong u ∧
          part_elem1.max_value = part_elem.max_value) := by
  have hbase : ∀ (is_max : Bool), part_value.max_value = is_max →
      setup_partition_from_dd penv part_info part_elem part_obj false =
        (if is_max then
          some (part_info,
            { (get_partition_options
                { (if part_obj.comment.length ≠ 0 then
                    { part_elem with part_comment := some part_obj.comment } else part_elem) with
                  partition_name := some part_obj.name
                  engine_type := part_info.default_engine_type }
                part_obj.options) with
              tablespace_name := tablespace_name, max_value := true })
        else if starts_with_minus part_value.value_utf8 then
          match penv.to_int64 part_value.value_utf8 with
          | none => none
          | some v =>
            some (part_info,
              { (get_partition_options
                  { (if part_obj.comment.length ≠ 0 then
                      { part_elem with part_comment := some part_obj.comment }
                      else part_elem) with
                    partition_name := some part_obj.name
                    engine_type := part_info.default_engine_type }
                  part_obj.options) with
                tablespace_name := tablespace_name, signed_flag := true, range_value := v })
        else
          match penv.to_uint64 part_value.value_utf8 with
          | none => none
          | some u =>
            some (part_info,
              { (get_partition_options
                  { (if part_obj.comment.length ≠ 0 then
                      { part_elem with part_comment := some part_obj.comment }
                      else part_elem) with
                    partition_name := some part_obj.name
                    engine_type := part_info.default_engine_type }
                  part_obj.options) with
                tablespace_name := tablespace_name, signed_flag := false,
                range_value := to_longlong u })) := by
    intro is_max hm
    simp only [setup_partition_from_dd, halloc, hts, htype, hcol, hvalues, hm]
    simp
  have hcomment : (if part_obj.comment.length ≠ 0 then
      { part_elem with part_comment := some part_obj.comment } else part_elem).range_value =
        part_elem.range_value ∧
      (if part_obj.comment.length ≠ 0 then
        { part_elem with part_comment := some part_obj.comment } else part_elem).signed_flag =
        part_elem.signed_flag ∧
      (if part_obj.comment.length ≠ 0 then
        { part_elem with part_comment := some part_obj.comment } else part_elem).max_value =
        part_elem.max_value := by
    split_ifs <;> exact ⟨rfl, rfl, rfl⟩
  refine ⟨?_, ?_, ?_⟩
  · intro hm
    rw [hbase true hm]
    exact ⟨_, rfl, rfl, hcomment.1, hcomment.2.1⟩
  · intro hm hs
    rw [hbase false hm]
    simp only [Bool.false_eq_true, if_false, hs, if_true]
    constructor
    · intro hn
      rw [hn]
    · intro v hv
      rw [hv]
      exact ⟨_, rfl, rfl, rfl, hcomment.2.2⟩
  · intro hm hs
    rw [hbase false hm]
    simp only [Bool.false_eq_true, if_false, hs]
    constructor
    · intro hn
      rw [hn]
    · intro u hu
      rw [hu]
      exact ⟨_, rfl, rfl, rfl, hcomment.2.2⟩

/-- C20, on the example partitions: `MAXVALUE` sets `max_value`; "2000" is
parsed unsigned, "-5" signed; "abc" is an error. -/
theorem range_partition_value_witness :
    (∃ part_elem1, setup_partition_from_dd example_partition_env example_range_info {}
        example_maxvalue_partition false = some (example_range_info, part_elem1) ∧
      part_elem1.max_value = true) ∧
    (∃ part_elem1, setup_partition_from_dd example_partition_env example_range_info {}
        example_range_partition false = some (example_range_info, part_elem1) ∧
      part_elem1.signed_flag = false ∧ part_elem1.range_value = 2000 ∧
      part_elem1.max_value = false) ∧
    (∃ part_elem1, setup_partition_from_dd example_partition_env example_range_info {}
        example_negative_partition false = some (example_range_info, part_elem1) ∧
      part_elem1.signed_flag = true ∧ part_elem1.range_value = -5 ∧
      part_elem1.max_value = false) ∧
    setup_partition_from_dd example_partition_env example_range_info {}
      example_bad_range_partition false = none := by
  have h1 := (range_partition_value example_partition_env example_range_info {}
    example_maxvalue_partition { max_value := true } none rfl rfl rfl rfl rfl).1 rfl
  have h2 := ((range_partition_value example_partition_env example_range_info {}
    example_range_partition { value_utf8 := "2000" } none rfl rfl rfl rfl rfl).2.2 rfl
      (by decide)).2 2000 (by decide)
  have h3 := ((range_partition_value example_partition_env example_range_info {}
    example_negative_partition { value_utf8 := "-5" } none rfl rfl rfl rfl rfl).2.1 rfl
      (by decide)).2 (-5) (by decide)
  have h4 := ((range_partition_value example_partition_env example_range_info {}
    example_bad_range_partition { value_utf8 := "abc" } none rfl rfl rfl rfl rfl).2.2 rfl
      (by decide)).1 (by decide)
  obtain ⟨e1, a1, a2, _, _⟩ := h1
  obtain ⟨e2, b1, b2, b3, b4⟩ := h2
  obtain ⟨e3, c1, c2, c3, c4⟩ := h3
  exact ⟨⟨e1, a1, a2⟩, ⟨e2, b1, b2, b3.trans (by decide), b4⟩, ⟨e3, c1, c2, c3, c4⟩, h4⟩

/-! ## Columns whose collation does not resolve -/

/-- C29: `fill_column_from_dd` does not fail on `example_unnamed_column`, whose
name is empty: it returns `false` (here `some`) and stores in slot 0 a field
whose name is the empty string; `fill_columns_from_dd` compiles a table made of
this column. The only test of the name in the source is a `DBUG_ASSERT`, which
is compiled into debug builds only. -/
theorem empty_column_name_accepted :
    example_unnamed_column.name = "" ∧
    (∃ share1 f,
      fill_column_from_dd example_server { fields := 1, null_bytes := 1 } example_unnamed_column
        0 1 1 0 = some share1 ∧
      share1.field 0 = some f ∧ f.field_name = "") ∧
    (fill_columns_from_dd example_server { fields := 1, null_bytes := 1 }
      { columns := [example_unnamed_column] }).isSome = true :=
  ⟨rfl, ⟨_, _, rfl, rfl, rfl⟩, rfl⟩

/-! ## The key part slots of `fill_indexes_from_dd` -/

/-- The sizing loop of `fill_indexes_from_dd` adds to `share->key_parts` the
number of non-hidden elements of the non-hidden indexes. -/
theorem count_indexes_key_parts (indexes : List Index) :
    ∀ (share : TABLE_SHARE) (primary_key_parts : Nat),
      (count_indexes indexes (share, primary_key_parts)).1.key_parts =
        share.key_parts + ((listed_indexes indexes).map listed_elements).sum := by
  induction indexes with
  | nil =>
    intro share primary_key_parts
    simp [count_indexes, listed_indexes]
  | cons idx_obj rest ih =>
    intro share primary_key_parts
    rw [count_indexes]
    by_cases hh : idx_obj.is_hidden = true
    · simp only [hh, if_true]
      rw [ih share primary_key_parts]
      simp [listed_indexes, hh]
    · have hf : idx_obj.is_hidden = false := by simpa using hh
      simp only [hf, Bool.false_eq_true, if_false]
      rw [ih]
      simp only [listed_indexes, List.filter_cons, hf, Bool.not_false, if_true, List.map_cons,
        List.sum_cons, listed_elements]
      omega

/-- What `fill_index_from_dd` does to the keys: key `key_nr` gets its number of
user-defined parts, the other keys and the number of keys stay. -/
theorem fill_index_from_dd_key {env : Server} {share share1 : TABLE_SHARE} {idx_obj : Index}
    {key_nr : Nat} (h : fill_index_from_dd env share idx_obj key_nr = some share1) :
    share1.key_info.length = share.key_info.length ∧
      (∀ j, j ≠ key_nr → share1.key_info[j]? = share.key_info[j]?) ∧
      ∀ keyinfo, share1.key_info[key_nr]? = some keyinfo →
        keyinfo.user_defined_key_parts = listed_elements idx_obj := by
  unfold fill_index_from_dd at h
  simp only at h
  split at h
  · exact absurd h (by simp)
  · simp only [Option.some.injEq] at h
    subst h
    refine ⟨List.length_set _ _ _, fun j hj => List.getElem?_set_ne (Ne.symm hj), ?_⟩
    intro keyinfo hk
    simp only at hk
    by_cases hl : key_nr < share.key_info.length
    · rw [List.getElem?_set_self hl] at hk
      simp only [Option.some.injEq] at hk
      subst hk
      rfl
    · rw [List.getElem?_eq_none (by simp; omega)] at hk
      exact absurd hk (by simp)

/-- The first filling loop of `fill_indexes_from_dd`, numbering the keys from
`key_nr`: the list `index_at_pos` grows by the non-hidden indexes, the keys
below `key_nr` stay, and the key of every index it numbers gets the number of
non-hidden elements of that index. -/
theorem fill_keys_scan_keys (env : Server) (indexes : List Index) :
    ∀ (key_nr : Nat) (share : TABLE_SHARE) (index_at_pos : List Index) (share1 : TABLE_SHARE)
      (at_pos1 : List Index),
      fill_keys_scan env indexes key_nr (share, index_at_pos) = some (share1, at_pos1) →
      at_pos1 = index_at_pos ++ listed_indexes indexes ∧
        share1.key_info.length = share.key_info.length ∧
        (∀ j, j < key_nr → share1.key_info[j]? = share.key_info[j]?) ∧
        ∀ k idx_obj keyinfo, (listed_indexes indexes)[k]? = some idx_obj →
          share1.key_info[key_nr + k]? = some keyinfo →
          keyinfo.user_defined_key_parts = listed_elements idx_obj := by
  induction indexes with
  | nil =>
    intro key_nr share index_at_pos share1 at_pos1 h
    simp only [fill_keys_scan, Option.some.injEq, Prod.mk.injEq] at h
    obtain ⟨h1, h2⟩ := h
    subst h1
    subst h2
    refine ⟨by simp [listed_indexes], rfl, fun _ _ => rfl, ?_⟩
    intro k idx_obj keyinfo hk
    simp [listed_indexes] at hk
  | cons idx_obj rest ih =>
    intro key_nr share index_at_pos share1 at_pos1 h
    rw [fill_keys_scan] at h
    by_cases hh : idx_obj.is_hidden = true
    · simp only [hh, if_true] at h
      have := ih key_nr share index_at_pos share1 at_pos1 h
      simpa [listed_indexes, hh] using this
    · have hf : idx_obj.is_hidden = false := by simpa using hh
      simp only [hf, Bool.false_eq_true, if_false] at h
      cases hfi : fill_index_from_dd env share idx_obj key_nr with
      | none =>
        rw [hfi] at h
        exact absurd h (by simp)
      | some share2 =>
        rw [hfi] at h
        simp only at h
        obtain ⟨m1, m2, m3⟩ := fill_index_from_dd_key hfi
        have hki : ∀ (sh : TABLE_SHARE), sh.key_info = share2.key_info →
            fill_keys_scan env rest (key_nr + 1) (sh, index_at_pos ++ [idx_obj]) =
              some (share1, at_pos1) →
            at_pos1 = index_at_pos ++ listed_indexes (idx_obj :: rest) ∧
              share1.key_info.length = share.key_info.length ∧
              (∀ j, j < key_nr → share1.key_info[j]? = share.key_info[j]?) ∧
              ∀ k idx_obj1 keyinfo, (listed_indexes (idx_obj :: rest))[k]? = some idx_obj1 →
                share1.key_info[key_nr + k]? = some keyinfo →
                keyinfo.user_defined_key_parts = listed_elements idx_obj1 := by
          intro sh hsh hscan
          obtain ⟨r1, r2, r3, r4⟩ := ih _ _ _ _ _ hscan
          have hlist : listed_indexes (idx_obj :: rest) = idx_obj :: listed_indexes rest := by
            simp [listed_indexes, hf]
          refine ⟨?_, ?_, ?_, ?_⟩
          · rw [r1, hlist]
            simp
          · rw [r2, hsh, m1]
          · intro j hj
            rw [r3 j (by omega), hsh, m2 j (by omega)]
          · intro k idx_obj1 keyinfo hk hki
            rw [hlist] at hk
            cases k with
            | zero =>
              simp only [List.getElem?_cons_zero, Option.some.injEq] at hk
              subst hk
              rw [Nat.add_zero, r3 key_nr (by omega), hsh] at hki
              exact m3 keyinfo hki
            | succ k =>
              simp only [List.getElem?_cons_succ] at hk
              have e : key_nr + (k + 1) = key_nr + 1 + k := by omega
              rw [e] at hki
              exact r4 k idx_obj1 keyinfo hk hki
        split_ifs at h
        · exact hki { share2 with
            keys_in_use := share2.keys_in_use ||| (1 <<< key_nr)
            visible_indexes := share2.visible_indexes ||| (1 <<< key_nr) } rfl h
        · exact hki { share2 with keys_in_use := share2.keys_in_use ||| (1 <<< key_nr) } rfl h
/-- The loop of `fill_index_elements_from_dd` for key `key_nr` keeps the number
of user-defined parts, the flags and the number of slots of that key. -/
theorem fill_index_elements_scan_key (key_nr : Nat) (elements : List Index_element) :
    ∀ (i : Nat) (share share1 : TABLE_SHARE),
      fill_index_elements_scan key_nr elements i share = some share1 →
      ∀ keyinfo1, share1.key_info[key_nr]? = some keyinfo1 →
        ∃ keyinfo, share.key_info[key_nr]? = some keyinfo ∧
          keyinfo1.user_defined_key_parts = keyinfo.user_defined_key_parts ∧
          keyinfo1.flags = keyinfo.flags ∧
          keyinfo1.key_part.length = keyinfo.key_part.length := by
  induction elements with
  | nil =>
    intro i share share1 h keyinfo1 hk
    simp only [fill_index_elements_scan, Option.some.injEq] at h
    subst h
    exact ⟨keyinfo1, hk, rfl, rfl, rfl⟩
  | cons idx_elem_obj rest ih =>
    intro i share share1 h keyinfo1 hk
    rw [fill_index_elements_scan] at h
    split at h
    · exact ih i share share1 h keyinfo1 hk
    · simp only at h
      split at h
      · exact absurd h (by simp)
      · rename_i keypart _
        obtain ⟨keyinfo2, h2, e1, e2, e3⟩ := ih _ _ _ h keyinfo1 hk
        simp only at h2
        by_cases hl : key_nr < share.key_info.length
        · rw [List.getElem?_set_self hl] at h2
          simp only [Option.some.injEq] at h2
          subst h2
          refine ⟨share.key_info[key_nr], List.getElem?_eq_getElem hl, ?_, ?_, ?_⟩
          · rw [e1]
            simp [List.getD_eq_getElem?_getD, List.getElem?_eq_getElem hl]
          · rw [e2]
            simp [List.getD_eq_getElem?_getD, List.getElem?_eq_getElem hl]
          · rw [e3]
            simp [List.getD_eq_getElem?_getD, List.getElem?_eq_getElem hl]
        · rw [List.getElem?_eq_none (by simp; omega)] at h2
          exact absurd h2 (by simp)

/-- One turn of the `do ... while` loop of `fill_indexes_from_dd`: every key
keeps its number of user-defined parts and its flags; key `key_nr` gets as many
slots as the cursor moves in this turn, the other keys keep theirs. -/
theorem fill_key_parts_key {use_extended_sk : Bool} {primary_key_parts : Nat}
    {index_at_pos : List Index} {share share1 : TABLE_SHARE} {key_nr : Nat}
    (h : fill_key_parts use_extended_sk primary_key_parts index_at_pos share key_nr =
      some share1) :
    ∀ j keyinfo1, share1.key_info[j]? = some keyinfo1 →
      ∃ keyinfo, share.key_info[j]? = some keyinfo ∧
        keyinfo1.user_defined_key_parts = keyinfo.user_defined_key_parts ∧
        keyinfo1.flags = keyinfo.flags ∧
        (j = key_nr → keyinfo1.key_part.length =
          key_part_advance use_extended_sk primary_key_parts keyinfo1 key_nr) ∧
        (j ≠ key_nr → keyinfo1.key_part.length = keyinfo.key_part.length) := by
  intro j keyinfo1 hk
  have hother := (fill_key_parts_counters h).1
  by_cases hj : j = key_nr
  · subst hj
    unfold fill_key_parts at h
    simp only at h
    split at h
    · exact absurd h (by simp)
    · rename_i share2 h2
      simp only [Option.some.injEq] at h
      have hk2 : ∃ keyinfo2, share2.key_info[j]? = some keyinfo2 ∧
          keyinfo1.user_defined_key_parts = keyinfo2.user_defined_key_parts ∧
          keyinfo1.flags = keyinfo2.flags ∧
          keyinfo1.key_part.length = keyinfo2.key_part.length := by
        subst h
        by_cases hl : j < share2.key_info.length
        · refine ⟨share2.key_info[j], List.getElem?_eq_getElem hl, ?_⟩
          split_ifs at hk
          · simp only at hk
            rw [List.getElem?_set_self hl] at hk
            simp only [Option.some.injEq] at hk
            subst hk
            simp [List.getD_eq_getElem?_getD, List.getElem?_eq_getElem hl]
          · simp only at hk
            rw [List.getElem?_set_self hl] at hk
            simp only [Option.some.injEq] at hk
            subst hk
            simp [List.getD_eq_getElem?_getD, List.getElem?_eq_getElem hl]
        · split_ifs at hk
          · simp only at hk
            rw [List.getElem?_eq_none (by simp; omega)] at hk
            exact absurd hk (by simp)
          · simp only at hk
            rw [List.getElem?_eq_none (by simp; omega)] at hk
            exact absurd hk (by simp)
      obtain ⟨keyinfo2, hk2, e1, e2, e3⟩ := hk2
      obtain ⟨keyinfo3, hk3, f1, f2, f3⟩ :=
        fill_index_elements_scan_key j _ 0 _ share2 h2 keyinfo2 hk2
      simp only at hk3
      by_cases hl : j < share.key_info.length
      · rw [List.getElem?_set_self hl] at hk3
        simp only [Option.some.injEq] at hk3
        subst hk3
        simp only [List.length_replicate] at f1 f2 f3
        have g : (share.key_info.getD j {}) = share.key_info[j] := by
          simp [List.getD_eq_getElem?_getD, List.getElem?_eq_getElem hl]
        rw [g] at f1 f2 f3
        refine ⟨share.key_info[j], List.getElem?_eq_getElem hl, e1.trans f1, e2.trans f2, ?_,
          fun hne => absurd rfl hne⟩
        intro _
        rw [e3, f3]
        simp only [key_part_advance, e1, f1, e2, f2]
      · rw [List.getElem?_eq_none (by simp; omega)] at hk3
        exact absurd hk3 (by simp)
  · rw [hother j hj] at hk
    exact ⟨keyinfo1, hk, rfl, rfl, fun e => absurd e hj, fun _ => rfl⟩

/-- The `do ... while` loop of `fill_indexes_from_dd`, over any list of distinct
key numbers: every key keeps its number of user-defined parts and its flags, a
key of the list ends with as many slots as the cursor moves in its turn. -/
theorem fill_keys_parts_keys (use_extended_sk : Bool) (primary_key_parts : Nat)
    (index_at_pos : List Index) (l : List Nat) :
    ∀ (share share1 : TABLE_SHARE),
      l.foldl
          (fun st key_nr => st.bind (fun sh =>
            fill_key_parts use_extended_sk primary_key_parts index_at_pos sh key_nr))
          (some share) = some share1 →
      ∀ j keyinfo1, share1.key_info[j]? = some keyinfo1 →
        ∃ keyinfo, share.key_info[j]? = some keyinfo ∧
          keyinfo1.user_defined_key_parts = keyinfo.user_defined_key_parts ∧
          keyinfo1.flags = keyinfo.flags ∧
          (j ∈ l → keyinfo1.key_part.length =
            key_part_advance use_extended_sk primary_key_parts keyinfo1 j) := by
  induction l with
  | nil =>
    intro share share1 h j keyinfo1 hk
    simp only [List.foldl_nil, Option.some.injEq] at h
    subst h
    exact ⟨keyinfo1, hk, rfl, rfl, fun hm => absurd hm (by simp)⟩
  | cons key_nr rest ih =>
    intro share share1 h j keyinfo1 hk
    simp only [List.foldl_cons, Option.some_bind] at h
    cases hkp : fill_key_parts use_extended_sk primary_key_parts index_at_pos share key_nr with
    | none =>
      rw [hkp] at h
      have hnone : ∀ l : List Nat,
          l.foldl
            (fun st key_nr => st.bind (fun sh =>
              fill_key_parts use_extended_sk primary_key_parts index_at_pos sh key_nr))
            (none : Option TABLE_SHARE) = none := by
        intro l
        induction l with
        | nil => rfl
        | cons a l ihl => simpa using ihl
      rw [hnone] at h
      exact absurd h (by simp)
    | some share2 =>
      rw [hkp] at h
      obtain ⟨keyinfo2, hk2, a1, a2, a3⟩ := ih share2 share1 h j keyinfo1 hk
      obtain ⟨keyinfo, hk0, b1, b2, b3, b4⟩ := fill_key_parts_key hkp j keyinfo2 hk2
      refine ⟨keyinfo, hk0, a1.trans b1, a2.trans b2, ?_⟩
      intro hm
      by_cases hr : j ∈ rest
      · exact a3 hr
      · have hjk : j = key_nr := by
          rcases List.mem_cons.mp hm with e | e
          · exact e
          · exact absurd e hr
        have hsame := (fill_keys_parts_counters use_extended_sk primary_key_parts index_at_pos
          rest share2 share1 h).1 j hr
        rw [hk, hk2] at hsame
        simp only [Option.some.injEq] at hsame
        subst hsame
        subst hjk
        exact b3 rfl
/-- The loop of `fill_index_elements_from_dd` keeps the number of `KEY`
objects. -/
theorem fill_index_elements_scan_length (key_nr : Nat) (elements : List Index_element) :
    ∀ (i : Nat) (share share1 : TABLE_SHARE),
      fill_index_elements_scan key_nr elements i share = some share1 →
      share1.key_info.length = share.key_info.length := by
  induction elements with
  | nil =>
    intro i share share1 h
    simp only [fill_index_elements_scan, Option.some.injEq] at h
    subst h
    rfl
  | cons idx_elem_obj rest ih =>
    intro i share share1 h
    rw [fill_index_elements_scan] at h
    split at h
    · exact ih i share share1 h
    · simp only at h
      split at h
      · exact absurd h (by simp)
      · rw [ih _ _ _ h]
        exact List.length_set _ _ _

/-- One turn of the `do ... while` loop of `fill_indexes_from_dd` keeps the
number of `KEY` objects. -/
theorem fill_key_parts_length {use_extended_sk : Bool} {primary_key_parts : Nat}
    {index_at_pos : List Index} {share share1 : TABLE_SHARE} {key_nr : Nat}
    (h : fill_key_parts use_extended_sk primary_key_parts index_at_pos share key_nr =
      some share1) :
    share1.key_info.length = share.key_info.length := by
  unfold fill_key_parts at h
  simp only at h
  split at h
  · exact absurd h (by simp)
  · rename_i share2 h2
    have hl := fill_index_elements_scan_length key_nr _ 0 _ share2 h2
    simp only [List.length_set] at hl
    simp only [Option.some.injEq] at h
    subst h
    split_ifs <;> simp only [List.length_set] <;> exact hl

/-- The `do ... while` loop of `fill_indexes_from_dd` keeps the number of `KEY`
objects. -/
theorem fill_keys_parts_length (use_extended_sk : Bool) (primary_key_parts : Nat)
    (index_at_pos : List Index) (l : List Nat) :
    ∀ (share share1 : TABLE_SHARE),
      l.foldl
          (fun st key_nr => st.bind (fun sh =>
            fill_key_parts use_extended_sk primary_key_parts index_at_pos sh key_nr))
          (some share) = some share1 →
      share1.key_info.length = share.key_info.length := by
  induction l with
  | nil =>
    intro share share1 h
    simp only [List.foldl_nil, Option.some.injEq] at h
    subst h
    rfl
  | cons key_nr rest ih =>
    intro share share1 h
    simp only [List.foldl_cons, Option.some_bind] at h
    cases hkp : fill_key_parts use_extended_sk primary_key_parts index_at_pos share key_nr with
    | none =>
      rw [hkp] at h
      have hnone : ∀ l : List Nat,
          l.foldl
            (fun st key_nr => st.bind (fun sh =>
              fill_key_parts use_extended_sk primary_key_parts index_at_pos sh key_nr))
            (none : Option TABLE_SHARE) = none := by
        intro l
        induction l with
        | nil => rfl
        | cons a l ihl => simpa using ihl
      rw [hnone] at h
      exact absurd h (by simp)
    | some share2 =>
      rw [hkp] at h
      rw [ih share2 share1 h, fill_key_parts_length hkp]

/-- A sum over the positions of a list is the sum over its elements. -/
theorem sum_range_getD {α : Type} (l : List α) (d : α) (g : α → Nat) :
    ((List.range l.length).map (fun k => g (l.getD k d))).sum = (l.map g).sum := by
  have e : (List.range l.length).map (fun k => l.getD k d) = l := by
    apply List.ext_getElem
    · simp
    · intro i h1 h2
      simp [List.getD_eq_getElem?_getD, List.getElem?_eq_getElem h2]
  have e2 : (List.range l.length).map (fun k => g (l.getD k d)) =
      ((List.range l.length).map (fun k => l.getD k d)).map g := by
    simp [List.map_map, Function.comp_def]
  rw [e2, e]

/-- A sum of `n` terms, each at most `a k`, and after the first `a k + p`. -/
theorem sum_range_le_room (f a : Nat → Nat) (p : Nat) :
    ∀ n, (∀ k, k < n → f k ≤ a k + (if k = 0 then 0 else p)) →
      ((List.range n).map f).sum ≤ ((List.range n).map a).sum + p * (n - 1) := by
  intro n
  induction n with
  | zero => intro _; simp
  | succ n ih =>
    intro h
    have hn := ih (fun k hk => h k (by omega))
    have hlast := h n (by omega)
    simp only [List.range_succ, List.map_append, List.sum_append, List.map_cons, List.map_nil,
      List.sum_cons, List.sum_nil, Nat.add_zero]
    by_cases h0 : n = 0
    · subst h0
      simp at hlast ⊢
      exact hlast
    · simp only [h0, if_false] at hlast
      have e : p * (n + 1 - 1) = p * (n - 1) + p := by
        have : n + 1 - 1 = (n - 1) + 1 := by omega
        rw [this, Nat.mul_succ]
      rw [e]
      omega

/-- C30: `fill_indexes_from_dd` on a share without keys and key parts. The
sizing loop sets `share->keys` to the number of non-hidden indexes and
`share->key_parts` to the number of non-hidden elements of those indexes.
When the function succeeds, the number of keys is that count, every key has as
many key part slots as the cursor `key_part` moves in its turn of the
`do ... while` loop (its user-defined parts, and `primary_key_parts` more if
extended keys are supported, the key is not key 0 and it is not unique), and
the cursor ends at or before the number of slots allocated,
`key_parts + primary_key_parts * (keys - 1)` with extended keys and `key_parts`
without. -/
theorem key_part_cursor_within_total (env : Server) (eng : Engine) (share : TABLE_SHARE)
    (tab_obj : Table) (hkeys : share.keys = 0) (hparts : share.key_parts = 0) :
    (count_indexes tab_obj.indexes (share, 0)).1.keys = (listed_indexes tab_obj.indexes).length ∧
    (count_indexes tab_obj.indexes (share, 0)).1.key_parts =
      ((listed_indexes tab_obj.indexes).map listed_elements).sum ∧
    ∀ share1, fill_indexes_from_dd env eng share tab_obj = some share1 →
      share1.keys = (listed_indexes tab_obj.indexes).length ∧
      (∀ key_nr keyinfo, key_nr < share1.keys → share1.key_info[key_nr]? = some keyinfo →
        keyinfo.key_part.length =
          key_part_advance eng.supports_extended_keys (count_indexes tab_obj.indexes (share, 0)).2
            keyinfo key_nr) ∧
      key_part_cursor eng.supports_extended_keys (count_indexes tab_obj.indexes (share, 0)).2
          share1.key_info share1.keys ≤
        total_key_parts eng.supports_extended_keys (count_indexes tab_obj.indexes (share, 0)).2
          (count_indexes tab_obj.indexes (share, 0)).1 := by
  have hc := count_indexes_keys tab_obj.indexes share 0
  rw [hkeys, Nat.zero_add] at hc
  have hp := count_indexes_key_parts tab_obj.indexes share 0
  rw [hparts, Nat.zero_add] at hp
  refine ⟨hc.1, hp, ?_⟩
  intro share1 h
  unfold fill_indexes_from_dd at h
  simp only at h
  split at h
  · split at h
    · exact absurd h (by simp)
    · split at h
      · exact absurd h (by simp)
      · rename_i share2 index_at_pos hscan
        obtain ⟨s1, _, _⟩ := fill_keys_scan_maps env _ _ _ _ _ _ hscan
        obtain ⟨k1, k2, _, k4⟩ := fill_keys_scan_keys env _ _ _ _ _ _ hscan
        obtain ⟨p1, _, _⟩ := fill_keys_parts_maps _ _ _ _ _ _ h
        have hlen := fill_keys_parts_length _ _ _ _ _ _ h
        have hkeysfact := fill_keys_parts_keys _ _ _ _ _ _ h
        simp only [List.length_replicate] at s1 k2
        have hn : share1.keys = (listed_indexes tab_obj.indexes).length := by
          rw [p1, s1, hc.1]
        have hlen1 : share1.key_info.length = (listed_indexes tab_obj.indexes).length := by
          rw [hlen, k2, hc.1]
        have hadv : ∀ key_nr keyinfo, key_nr < share1.keys →
            share1.key_info[key_nr]? = some keyinfo →
            keyinfo.key_part.length =
              key_part_advance eng.supports_extended_keys
                (count_indexes tab_obj.indexes (share, 0)).2 keyinfo key_nr := by
          intro key_nr keyinfo hk hki
          obtain ⟨_, _, _, _, a⟩ := hkeysfact key_nr keyinfo hki
          exact a (by rw [List.mem_range, ← p1]; exact hk)
        refine ⟨hn, hadv, ?_⟩
        have hbound : ∀ k, k < share1.keys →
            key_part_advance eng.supports_extended_keys
                (count_indexes tab_obj.indexes (share, 0)).2 (share1.key_info.getD k {}) k ≤
              listed_elements ((listed_indexes tab_obj.indexes).getD k {}) +
                (if k = 0 then 0
                  else (if eng.supports_extended_keys then
                    (count_indexes tab_obj.indexes (share, 0)).2 else 0)) := by
          intro k hk
          have hk1 : k < share1.key_info.length := by rw [hlen1, ← hn]; exact hk
          have hk2 : k < (listed_indexes tab_obj.indexes).length := by rw [← hn]; exact hk
          have g1 : share1.key_info.getD k {} = share1.key_info[k] := by
            simp [List.getD_eq_getElem?_getD, List.getElem?_eq_getElem hk1]
          have g2 : (listed_indexes tab_obj.indexes).getD k {} =
              (listed_indexes tab_obj.indexes)[k] := by
            simp [List.getD_eq_getElem?_getD, List.getElem?_eq_getElem hk2]
          rw [g1, g2]
          obtain ⟨keyinfo2, hki2, e1, _, _⟩ :=
            hkeysfact k share1.key_info[k] (List.getElem?_eq_getElem hk1)
          have hud := k4 k _ keyinfo2 (List.getElem?_eq_getElem hk2)
            (by rw [Nat.zero_add]; exact hki2)
          simp only [key_part_advance]
          rw [e1, hud]
          by_cases h0 : k = 0
          · simp [h0]
          · rw [if_neg h0]
            split_ifs with a b
            · exact Nat.le_refl _
            · exact absurd a.1 b
            · omega
            · omega
        have hsum := sum_range_le_room
          (fun k => key_part_advance eng.supports_extended_keys
            (count_indexes tab_obj.indexes (share, 0)).2 (share1.key_info.getD k {}) k)
          (fun k => listed_elements ((listed_indexes tab_obj.indexes).getD k {}))
          (if eng.supports_extended_keys then (count_indexes tab_obj.indexes (share, 0)).2 else 0)
          share1.keys hbound
        have hsum2 := sum_range_getD (listed_indexes tab_obj.indexes) {} listed_elements
        rw [← hn] at hsum2
        rw [hsum2] at hsum
        simp only [key_part_cursor, total_key_parts]
        rw [hp, hc.1, ← hn]
        cases hext : eng.supports_extended_keys
        · rw [hext] at hsum
          simpa using hsum
        · rw [hext] at hsum
          simpa using hsum
  · rename_i hz
    simp only [Option.some.injEq] at h
    subst h
    simp only [ne_eq, Decidable.not_not] at hz
    refine ⟨hc.1, ?_, ?_⟩
    · intro key_nr keyinfo hk
      simp only at hk
      omega
    · simp only [key_part_cursor, hz, List.range_zero, List.map_nil, List.sum_nil]
      exact Nat.zero_le _
/-- C30, on `example_keyed_table` with an engine that supports extended keys:
three keys with one part each, `primary_key_parts` is 1, five slots are
allocated, and the cursor ends at slot 5, after one slot for the primary key
and two for each of the two non-unique keys. -/
theorem key_part_cursor_within_total_witness :
    (count_indexes example_keyed_table.indexes (example_columns_share, 0)).1.keys = 3 ∧
    (count_indexes example_keyed_table.indexes (example_columns_share, 0)).1.key_parts = 3 ∧
    (count_indexes example_keyed_table.indexes (example_columns_share, 0)).2 = 1 ∧
    total_key_parts true 1
      (count_indexes example_keyed_table.indexes (example_columns_share, 0)).1 = 5 ∧
    key_part_cursor true 1 (example_keys_share extended_engine).key_info 3 = 5 ∧
    key_part_cursor true 1 (example_keys_share extended_engine).key_info 3 ≤
      total_key_parts true 1
        (count_indexes example_keyed_table.indexes (example_columns_share, 0)).1 := by
  have h := (key_part_cursor_within_total example_server extended_engine example_columns_share
    example_keyed_table rfl rfl).2.2 (example_keys_share extended_engine) rfl
  refine ⟨by decide, by decide, by decide, by decide, by decide, ?_⟩
  have h3 := h.2.2
  have e1 : (example_keys_share extended_engine).keys = 3 := by decide
  have e2 : (count_indexes example_keyed_table.indexes (example_columns_share, 0)).2 = 1 := by
    decide
  rw [e1, e2] at h3
  exact h3

/-! ## The values of a LIST partition -/

/-- A running maximum stays within a bound that holds for its start and for
every number met. -/
theorem foldl_max_le (f : Partition_value → Nat) (values : List Partition_value) (b : Nat) :
    ∀ m, m ≤ b → (∀ part_value ∈ values, f part_value ≤ b) →
      values.foldl (fun m part_value => max m (f part_value)) m ≤ b := by
  induction values with
  | nil => intro m hm _; exact hm
  | cons v rest ih =>
    intro m hm hall
    simp only [List.foldl_cons]
    apply ih
    · have := hall v (List.mem_cons_self _ _)
      omega
    · intro pv hpv
      exact hall pv (List.mem_cons_of_mem _ hpv)

/-- The first loop of the non-column LIST branch, from any state with a count
below `2^32`: the largest list number, the count of the entries modulo `2^32`,
whether an entry without text was met, and the list number of the last such
entry. -/
theorem list_scan_fold (values : List Partition_value) :
    ∀ st : Nat × Nat × Bool × Nat,
      (values.foldl
        (fun (st : Nat × Nat × Bool × Nat) (part_value : Partition_value) =>
          if part_value.value_utf8.isEmpty then
            (max st.1 part_value.list_num, to_uint (st.2.1 + 1), true, part_value.list_num)
          else (max st.1 part_value.list_num, to_uint (st.2.1 + 1), st.2.2.1, st.2.2.2))
        st).1 = values.foldl (fun m part_value => max m part_value.list_num) st.1 ∧
      (values.foldl
        (fun (st : Nat × Nat × Bool × Nat) (part_value : Partition_value) =>
          if part_value.value_utf8.isEmpty then
            (max st.1 part_value.list_num, to_uint (st.2.1 + 1), true, part_value.list_num)
          else (max st.1 part_value.list_num, to_uint (st.2.1 + 1), st.2.2.1, st.2.2.2))
        st).2.1 % 4294967296 = (st.2.1 + values.length) % 4294967296 ∧
      (values.foldl
        (fun (st : Nat × Nat × Bool × Nat) (part_value : Partition_value) =>
          if part_value.value_utf8.isEmpty then
            (max st.1 part_value.list_num, to_uint (st.2.1 + 1), true, part_value.list_num)
          else (max st.1 part_value.list_num, to_uint (st.2.1 + 1), st.2.2.1, st.2.2.2))
        st).2.2.1 = (st.2.2.1 || values.any (fun v => v.value_utf8.isEmpty)) ∧
      (values.foldl
        (fun (st : Nat × Nat × Bool × Nat) (part_value : Partition_value) =>
          if part_value.value_utf8.isEmpty then
            (max st.1 part_value.list_num, to_uint (st.2.1 + 1), true, part_value.list_num)
          else (max st.1 part_value.list_num, to_uint (st.2.1 + 1), st.2.2.1, st.2.2.2))
        st).2.2.2 =
          (((values.filter (fun v => v.value_utf8.isEmpty)).getLast?).map
            (fun v => v.list_num)).getD st.2.2.2 := by
  induction values with
  | nil => intro st; simp
  | cons v rest ih =>
    intro st
    simp only [List.foldl_cons]
    by_cases he : v.value_utf8.isEmpty = true
    · simp only [he, if_true]
      obtain ⟨h1, h2, h3, h4⟩ := ih (max st.1 v.list_num, to_uint (st.2.1 + 1), true, v.list_num)
      refine ⟨h1, ?_, ?_, ?_⟩
      · rw [h2]
        simp only [to_uint, List.length_cons]
        omega
      · rw [h3]
        simp [he]
      · rw [h4]
        simp only [List.filter_cons, he, if_true]
        cases hr : rest.filter (fun v => v.value_utf8.isEmpty) with
        | nil => simp
        | cons a l =>
          obtain ⟨x, hx⟩ : ∃ x, (a :: l).getLast? = some x :=
            ⟨_, List.getLast?_eq_getLast _ (by simp)⟩
          simp [List.getLast?_cons_cons, hx]
    · have hf : v.value_utf8.isEmpty = false := by simpa using he
      simp only [hf, Bool.false_eq_true, if_false]
      obtain ⟨h1, h2, h3, h4⟩ :=
        ih (max st.1 v.list_num, to_uint (st.2.1 + 1), st.2.2.1, st.2.2.2)
      refine ⟨h1, ?_, ?_, ?_⟩
      · rw [h2]
        simp only [to_uint, List.length_cons]
        omega
      · rw [h3]
        simp [hf]
      · rw [h4]
        simp [List.filter_cons, hf]

/-- The result of the first loop of the non-column LIST branch. -/
theorem list_scan_eq (values : List Partition_value) (has_null_value : Bool) :
    (list_scan values has_null_value).1 =
        values.foldl (fun m part_value => max m part_value.list_num) 0 ∧
      (list_scan values has_null_value).2.1 % 4294967296 = values.length % 4294967296 ∧
      (list_scan values has_null_value).2.2.1 =
        (has_null_value || values.any (fun v => v.value_utf8.isEmpty)) ∧
      (list_scan values has_null_value).2.2.2 =
        (((values.filter (fun v => v.value_utf8.isEmpty)).getLast?).map
          (fun v => v.list_num)).getD 0 := by
  have h := list_scan_fold values (0, 0, has_null_value, 0)
  simp only [Nat.zero_add] at h
  exact h

/-- The count of the first loop of the non-column LIST branch is a `uint`. -/
theorem list_scan_entries_lt (values : List Partition_value) (has_null_value : Bool) :
    (list_scan values has_null_value).2.1 < 4294967296 := by
  unfold list_scan
  induction values using List.reverseRecOn with
  | nil => simp
  | append_singleton l a _ =>
    simp only [List.foldl_append, List.foldl_cons, List.foldl_nil]
    split_ifs <;> simp only [to_uint] <;> omega
/-- The second loop of the non-column LIST branch, when every text is accepted
by its parser and the entries with a text address distinct slots that lie in
the array: the loop succeeds, the array keeps its size, a slot that no entry
addresses is untouched, and the slot of an entry holds what the loop stores
for it. -/
theorem list_store_spec (penv : Partition_env) (has_null_value : Bool) (null_entry : Nat) :
    ∀ (values : List Partition_value) (list_val_array : List part_elem_value),
      (∀ v ∈ values, list_entry_parses penv v) →
      ((values.filter (fun v => !v.value_utf8.isEmpty)).map
        (fun v => list_value_index has_null_value null_entry v.list_num)).Nodup →
      (∀ v ∈ values, v.value_utf8.isEmpty = false →
        list_value_index has_null_value null_entry v.list_num < list_val_array.length) →
      ∃ stored, list_store penv has_null_value null_entry values list_val_array = some stored ∧
        stored.length = list_val_array.length ∧
        (∀ i, (∀ v ∈ values, v.value_utf8.isEmpty = false →
            list_value_index has_null_value null_entry v.list_num ≠ i) →
          stored.getD i {} = list_val_array.getD i {}) ∧
        ∀ v ∈ values, v.value_utf8.isEmpty = false →
          stored.getD (list_value_index has_null_value null_entry v.list_num) {} =
            stored_list_value penv v
              (list_val_array.getD (list_value_index has_null_value null_entry v.list_num) {}) := by
  intro values
  induction values with
  | nil =>
    intro list_val_array _ _ _
    exact ⟨list_val_array, rfl, rfl, fun _ _ => rfl, fun v hv => absurd hv (by simp)⟩
  | cons v rest ih =>
    intro list_val_array hparse hnodup hbound
    have hparse1 : ∀ u ∈ rest, list_entry_parses penv u := fun u hu =>
      hparse u (List.mem_cons_of_mem _ hu)
    by_cases he : v.value_utf8.isEmpty = true
    · have hnodup1 : ((rest.filter (fun v => !v.value_utf8.isEmpty)).map
          (fun v => list_value_index has_null_value null_entry v.list_num)).Nodup := by
        simpa [List.filter_cons, he] using hnodup
      obtain ⟨stored, h1, h2, h3, h4⟩ := ih list_val_array hparse1 hnodup1
        (fun u hu => hbound u (List.mem_cons_of_mem _ hu))
      refine ⟨stored, ?_, h2, ?_, ?_⟩
      · rw [list_store]
        simp only [he, if_true]
        exact h1
      · intro i hi
        exact h3 i (fun u hu => hi u (List.mem_cons_of_mem _ hu))
      · intro u hu hue
        rcases List.mem_cons.mp hu with e | e
        · subst e
          rw [he] at hue
          exact absurd hue (by simp)
        · exact h4 u e hue
    · have hf : v.value_utf8.isEmpty = false := by simpa using he
      have hnd : (list_value_index has_null_value null_entry v.list_num ∉
            (rest.filter (fun v => !v.value_utf8.isEmpty)).map
              (fun v => list_value_index has_null_value null_entry v.list_num)) ∧
          ((rest.filter (fun v => !v.value_utf8.isEmpty)).map
            (fun v => list_value_index has_null_value null_entry v.list_num)).Nodup := by
        simpa [List.filter_cons, hf] using hnodup
      have hne : ∀ u ∈ rest, u.value_utf8.isEmpty = false →
          list_value_index has_null_value null_entry u.list_num ≠
            list_value_index has_null_value null_entry v.list_num := by
        intro u hu hue heq
        apply hnd.1
        rw [← heq]
        exact List.mem_map.mpr ⟨u, List.mem_filter.mpr ⟨hu, by simp [hue]⟩, rfl⟩
      have hvb := hbound v (List.mem_cons_self _ _) hf
      have hstep : ∃ stored1,
          list_store penv has_null_value null_entry (v :: rest) list_val_array =
            list_store penv has_null_value null_entry rest stored1 ∧
          stored1 = list_val_array.set (list_value_index has_null_value null_entry v.list_num)
            (stored_list_value penv v
              (list_val_array.getD (list_value_index has_null_value null_entry v.list_num) {})) := by
        have hp := hparse v (List.mem_cons_self _ _) hf
        rw [list_store]
        simp only [hf, Bool.false_eq_true, if_false]
        by_cases hm : starts_with_minus v.value_utf8 = true
        · simp only [hm, if_true] at hp ⊢
          obtain ⟨x, hx⟩ := Option.isSome_iff_exists.mp hp
          simp only [hx]
          exact ⟨_, rfl, by simp [stored_list_value, hm, hx]⟩
        · have hm' : starts_with_minus v.value_utf8 = false := by simpa using hm
          simp only [hm', Bool.false_eq_true, if_false] at hp ⊢
          obtain ⟨x, hx⟩ := Option.isSome_iff_exists.mp hp
          simp only [hx]
          exact ⟨_, rfl, by simp [stored_list_value, hm', hx]⟩
      obtain ⟨stored1, hs1, hs2⟩ := hstep
      have hlen1 : stored1.length = list_val_array.length := by
        rw [hs2]
        exact List.length_set _ _ _
      obtain ⟨stored, h1, h2, h3, h4⟩ := ih stored1 hparse1 hnd.2
        (fun u hu hue => by rw [hlen1]; exact hbound u (List.mem_cons_of_mem _ hu) hue)
      refine ⟨stored, hs1.trans h1, h2.trans hlen1, ?_, ?_⟩
      · intro i hi
        rw [h3 i (fun u hu => hi u (List.mem_cons_of_mem _ hu)), hs2]
        exact getD_set_ne _ _ _ _ _ (hi v (List.mem_cons_self _ _) hf)
      · intro u hu hue
        by_cases hidx : list_value_index has_null_value null_entry u.list_num =
            list_value_index has_null_value null_entry v.list_num
        · have hnot : u ∉ rest := fun hur => hne u hur hue hidx
          have huv : u = v := by
            rcases List.mem_cons.mp hu with e | e
            · exact e
            · exact absurd e hnot
          subst huv
          rw [h3 _ (fun w hw hwe => hne w hw hwe), hs2]
          exact getD_set_self _ _ _ _ hvb
        · have hur : u ∈ rest := by
            rcases List.mem_cons.mp hu with e | e
            · subst e
              exact absurd rfl hidx
            · exact e
          rw [h4 u hur hue, hs2, getD_set_ne _ _ _ _ _ (Ne.symm hidx)]
/-- The non-column LIST branch of `setup_partition_from_dd`, when the
allocations and the tablespace lookup succeed. -/
theorem setup_partition_from_dd_list (penv : Partition_env) (part_info : partition_info)
    (part_elem : partition_element) (part_obj : Partition) (tablespace_name : Option String)
    (htype : part_info.part_type = .LIST) (hcol : part_info.column_list = false)
    (halloc : penv.alloc_root_fails = false)
    (hts : penv.get_tablespace_name part_obj = some tablespace_name) :
    setup_partition_from_dd penv part_info part_elem part_obj false =
      (if (list_scan part_obj.values part_elem.has_null_value).2.1 ≠
          to_uint ((list_scan part_obj.values part_elem.has_null_value).1 + 1) then none
      else
        match list_store penv (list_scan part_obj.values part_elem.has_null_value).2.2.1
            (list_scan part_obj.values part_elem.has_null_value).2.2.2 part_obj.values
            (List.replicate
              (if (list_scan part_obj.values part_elem.has_null_value).2.2.1 then
                to_uint (((list_scan part_obj.values part_elem.has_null_value).2.1 : Int) - 1)
              else (list_scan part_obj.values part_elem.has_null_value).2.1) {}) with
        | none => none
        | some list_val_array =>
          if (if (list_scan part_obj.values part_elem.has_null_value).2.2.1 then
                to_uint (((list_scan part_obj.values part_elem.has_null_value).2.1 : Int) - 1)
              else (list_scan part_obj.values part_elem.has_null_value).2.1) ≠ 0 ∧
              penv.push_back_fails then none
          else
            some (part_info,
              { named_partition_element part_info part_elem part_obj tablespace_name with
                has_null_value := (list_scan part_obj.values part_elem.has_null_value).2.2.1
                list_val_list := part_elem.list_val_list ++ list_val_array })) := by
  have hb1 : (if part_obj.comment.length ≠ 0 then
      { part_elem with part_comment := some part_obj.comment } else part_elem).has_null_value =
        part_elem.has_null_value := by
    split_ifs <;> rfl
  have hb2 : (if part_obj.comment.length ≠ 0 then
      { part_elem with part_comment := some part_obj.comment } else part_elem).list_val_list =
        part_elem.list_val_list := by
    split_ifs <;> rfl
  simp only [setup_partition_from_dd, halloc, hts, htype, hcol, Bool.false_eq_true, and_false,
    if_false, if_true, reduceCtorEq, named_partition_element, get_partition_options, hb1, hb2]
/-- What the second loop of the non-column LIST branch stores has
`unsigned_flag` false exactly for a text that starts with `-`. -/
theorem stored_list_value_flag (penv : Partition_env) (part_value : Partition_value)
    (list_val : part_elem_value) :
    (stored_list_value penv part_value list_val).unsigned_flag = false ↔
      starts_with_minus part_value.value_utf8 = true := by
  unfold stored_list_value
  split_ifs with h
  · simp [h]
  · simp [h]

/-- The entry without text that the first loop of the non-column LIST branch
remembers, when there is one: `null_entry` is its list number, and with at most
one such entry it is the list number of every entry without text. -/
theorem list_scan_null_entry (values : List Partition_value) (has_null_value : Bool)
    (hone : (values.filter (fun v => v.value_utf8.isEmpty)).length ≤ 1)
    (w : Partition_value) (hw : w ∈ values) (hwe : w.value_utf8.isEmpty = true) :
    (list_scan values has_null_value).2.2.2 = w.list_num := by
  rw [(list_scan_eq values has_null_value).2.2.2]
  have hmem : w ∈ values.filter (fun v => v.value_utf8.isEmpty) :=
    List.mem_filter.mpr ⟨hw, hwe⟩
  cases hf : values.filter (fun v => v.value_utf8.isEmpty) with
  | nil =>
    rw [hf] at hmem
    exact absurd hmem (by simp)
  | cons a l =>
    rw [hf] at hmem hone
    have hl : l = [] := by
      cases l with
      | nil => rfl
      | cons b l' =>
        simp only [List.length_cons] at hone
        omega
    subst hl
    simp only [List.mem_singleton] at hmem
    subst hmem
    simp

/-- C21: a partition of a table partitioned by LIST over an expression, compiled
into an element that has no NULL flag and no list values yet, when the
allocations, the appending to the list and the tablespace lookup succeed and
the counters fit in 32 bits. If the number of value entries differs from the
largest list number plus one, `setup_partition_from_dd` fails. If the list
numbers of the entries are the numbers `0 .. m`, each once, at most one entry
has no text, and every text is accepted by its parser, the function succeeds:
`has_null_value` is set exactly when some entry has no text; `list_val_list`
has `m` entries with such an entry and `m + 1` without; and an entry with a
text is stored at the position of its list number, less one if the entry
without text has a smaller list number, as the value its parser gives, with
`unsigned_flag` false exactly when the text starts with `-`. -/
theorem list_partition_values (penv : Partition_env) (part_info : partition_info)
    (part_elem : partition_element) (part_obj : Partition) (tablespace_name : Option String)
    (m : Nat)
    (htype : part_info.part_type = .LIST) (hcol : part_info.column_list = false)
    (halloc : penv.alloc_root_fails = false) (hpush : penv.push_back_fails = false)
    (hts : penv.get_tablespace_name part_obj = some tablespace_name)
    (hnull : part_elem.has_null_value = false) (hlist : part_elem.list_val_list = [])
    (hnum : ∀ v ∈ part_obj.values, v.list_num < 4294967296)
    (hlen : part_obj.values.length < 4294967296) :
    (part_obj.values.length ≠ max_list_num part_obj + 1 →
      setup_partition_from_dd penv part_info part_elem part_obj false = none) ∧
    ((part_obj.values.map (fun v => v.list_num)).Perm (List.range (m + 1)) →
      (part_obj.values.filter (fun v => v.value_utf8.isEmpty)).length ≤ 1 →
      (∀ v ∈ part_obj.values, list_entry_parses penv v) →
      ∃ part_elem1,
        setup_partition_from_dd penv part_info part_elem part_obj false =
          some (part_info, part_elem1) ∧
        (part_elem1.has_null_value = true ↔
          ∃ v ∈ part_obj.values, v.value_utf8.isEmpty = true) ∧
        part_elem1.list_val_list.length = (if part_elem1.has_null_value then m else m + 1) ∧
        ∀ v ∈ part_obj.values, v.value_utf8.isEmpty = false →
          ∃ list_val,
            part_elem1.list_val_list[list_position part_obj.values v]? = some list_val ∧
            list_val = stored_list_value penv v {} ∧
            (list_val.unsigned_flag = false ↔ starts_with_minus v.value_utf8 = true)) := by
  have heq := setup_partition_from_dd_list penv part_info part_elem part_obj tablespace_name
    htype hcol halloc hts
  obtain ⟨s1, s2, s3, s4⟩ := list_scan_eq part_obj.values part_elem.has_null_value
  have slt := list_scan_entries_lt part_obj.values part_elem.has_null_value
  have hentries : (list_scan part_obj.values part_elem.has_null_value).2.1 =
      part_obj.values.length := by omega
  have hmax : (list_scan part_obj.values part_elem.has_null_value).1 = max_list_num part_obj := s1
  have hmaxlt : max_list_num part_obj < 4294967296 := by
    have h := foldl_max_le (fun v => v.list_num) part_obj.values 4294967295 0 (by omega)
      (fun v hv => Nat.le_of_lt_succ (hnum v hv))
    unfold max_list_num
    exact Nat.lt_succ_of_le h
  constructor
  · intro hne
    rw [heq, if_pos]
    rw [hentries, hmax]
    intro hcontra
    apply hne
    by_cases hz : max_list_num part_obj + 1 < 4294967296
    · rw [hcontra]
      unfold to_uint
      omega
    · have hm : max_list_num part_obj = 4294967295 := by omega
      have hzero : part_obj.values.length = 0 := by
        rw [hcontra, hm]
        decide
      have hnil : part_obj.values = [] := List.length_eq_zero.mp hzero
      have : max_list_num part_obj = 0 := by
        unfold max_list_num
        rw [hnil]
        rfl
      omega
  · intro hperm hone hparse
    have hnodup : (part_obj.values.map (fun v => v.list_num)).Nodup :=
      hperm.nodup_iff.mpr (List.nodup_range _)
    have hlength : part_obj.values.length = m + 1 := by
      have := hperm.length_eq
      simpa using this
    have hle : ∀ v ∈ part_obj.values, v.list_num ≤ m := by
      intro v hv
      have : v.list_num ∈ List.range (m + 1) :=
        hperm.subset (List.mem_map.mpr ⟨v, hv, rfl⟩)
      have := List.mem_range.mp this
      omega
    have hmm : max_list_num part_obj = m := by
      have h1 := foldl_max_le (fun v => v.list_num) part_obj.values m 0 (Nat.zero_le _) hle
      have hmem : m ∈ part_obj.values.map (fun v => v.list_num) :=
        hperm.symm.subset (List.mem_range.mpr (Nat.lt_succ_self m))
      obtain ⟨v, hv, hvm⟩ := List.mem_map.mp hmem
      have h2 := (foldl_max_ge (fun v => v.list_num) part_obj.values 0).2 v hv
      unfold max_list_num
      simp only at hvm h1 h2
      omega
    have hinj : ∀ x ∈ part_obj.values, ∀ y ∈ part_obj.values, x.list_num = y.list_num → x = y :=
      fun x hx y hy hxy => List.inj_on_of_nodup_map hnodup hx hy hxy
    have hcheck : ¬ ((list_scan part_obj.values part_elem.has_null_value).2.1 ≠
        to_uint ((list_scan part_obj.values part_elem.has_null_value).1 + 1)) := by
      rw [hentries, hmax, hmm, hlength]
      unfold to_uint
      omega
    rw [heq, if_neg hcheck]
    have s3 : (list_scan part_obj.values part_elem.has_null_value).2.2.1 =
        part_obj.values.any (fun v => v.value_utf8.isEmpty) := by
      rw [s3]
      simp [hnull]
    -- the array and the indexes
    have hnullcase : (list_scan part_obj.values part_elem.has_null_value).2.2.1 = true →
        ∃ w ∈ part_obj.values, w.value_utf8.isEmpty = true ∧
          (list_scan part_obj.values part_elem.has_null_value).2.2.2 = w.list_num := by
      intro hn
      rw [s3] at hn
      obtain ⟨w, hw, hwe⟩ := List.any_eq_true.mp hn
      exact ⟨w, hw, hwe, list_scan_null_entry _ _ hone w hw hwe⟩
    have hsize : (if (list_scan part_obj.values part_elem.has_null_value).2.2.1 then
          to_uint (((list_scan part_obj.values part_elem.has_null_value).2.1 : Int) - 1)
        else (list_scan part_obj.values part_elem.has_null_value).2.1) =
        (if (list_scan part_obj.values part_elem.has_null_value).2.2.1 then m else m + 1) := by
      rw [hentries, hlength]
      split_ifs
      · unfold to_uint
        omega
      · rfl
    have hidx : ∀ v ∈ part_obj.values, v.value_utf8.isEmpty = false →
        list_value_index (list_scan part_obj.values part_elem.has_null_value).2.2.1
            (list_scan part_obj.values part_elem.has_null_value).2.2.2 v.list_num =
          list_position part_obj.values v ∧
        list_position part_obj.values v <
          (if (list_scan part_obj.values part_elem.has_null_value).2.2.1 then m else m + 1) ∧
        ((list_scan part_obj.values part_elem.has_null_value).2.2.1 = true →
          v.list_num ≠ (list_scan part_obj.values part_elem.has_null_value).2.2.2) ∧
        ((list_position part_obj.values v = v.list_num ∧
            ¬ ((list_scan part_obj.values part_elem.has_null_value).2.2.1 = true ∧
              (list_scan part_obj.values part_elem.has_null_value).2.2.2 < v.list_num)) ∨
          ((list_scan part_obj.values part_elem.has_null_value).2.2.1 = true ∧
            (list_scan part_obj.values part_elem.has_null_value).2.2.2 < v.list_num ∧
            list_position part_obj.values v = v.list_num - 1)) := by
      intro v hv hve
      have hvm := hle v hv
      by_cases hn : (list_scan part_obj.values part_elem.has_null_value).2.2.1 = true
      · obtain ⟨w, hw, hwe, hwn⟩ := hnullcase hn
        have hvw : v.list_num ≠ w.list_num := by
          intro hc
          have := hinj v hv w hw hc
          subst this
          rw [hwe] at hve
          exact absurd hve (by simp)
        have hwm := hle w hw
        have hany : part_obj.values.any
            (fun u => u.value_utf8.isEmpty && decide (u.list_num < v.list_num)) =
            decide (w.list_num < v.list_num) := by
          by_cases hlt : w.list_num < v.list_num
          · rw [decide_eq_true hlt, List.any_eq_true]
            exact ⟨w, hw, by simp [hwe, hlt]⟩
          · rw [decide_eq_false hlt, List.any_eq_false]
            intro u hu
            by_cases hue : u.value_utf8.isEmpty = true
            · have e := list_scan_null_entry _ part_elem.has_null_value hone u hu hue
              rw [hwn] at e
              simp only [hue, Bool.true_and, decide_eq_true_eq]
              omega
            · simp [hue]
        have epos : list_position part_obj.values v =
            if w.list_num < v.list_num then v.list_num - 1 else v.list_num := by
          unfold list_position
          rw [hany]
          by_cases hlt : w.list_num < v.list_num
          · rw [decide_eq_true hlt, if_pos rfl, if_pos hlt]
          · rw [decide_eq_false hlt, if_neg (by simp), if_neg hlt]
        have eidx : list_value_index (list_scan part_obj.values part_elem.has_null_value).2.2.1
            (list_scan part_obj.values part_elem.has_null_value).2.2.2 v.list_num =
            if w.list_num < v.list_num then v.list_num - 1 else v.list_num := by
          unfold list_value_index
          rw [hn, hwn]
          by_cases hlt : w.list_num < v.list_num
          · rw [if_pos ⟨rfl, hlt⟩, if_pos hlt]
            unfold to_uint
            omega
          · rw [if_neg (fun h => hlt h.2), if_neg hlt]
        rw [eidx, epos, hwn, if_pos hn]
        by_cases hlt : w.list_num < v.list_num
        · rw [if_pos hlt]
          exact ⟨rfl, by omega, fun _ => hvw, Or.inr ⟨hn, hlt, rfl⟩⟩
        · rw [if_neg hlt]
          exact ⟨rfl, by omega, fun _ => hvw, Or.inl ⟨rfl, fun h => hlt h.2⟩⟩
      · have hany : part_obj.values.any
            (fun w => w.value_utf8.isEmpty && decide (w.list_num < v.list_num)) = false := by
          rw [List.any_eq_false]
          intro w hw
          have hwne : w.value_utf8.isEmpty = false := by
            have hn2 : (list_scan part_obj.values part_elem.has_null_value).2.2.1 = false := by
              simpa using hn
            rw [hn2] at s3
            have := List.any_eq_false.mp s3.symm w hw
            simpa using this
          simp [hwne]
        have epos : list_position part_obj.values v = v.list_num := by
          unfold list_position
          rw [hany, if_neg (by simp)]
        have eidx : list_value_index (list_scan part_obj.values part_elem.has_null_value).2.2.1
            (list_scan part_obj.values part_elem.has_null_value).2.2.2 v.list_num =
            v.list_num := by
          unfold list_value_index
          rw [if_neg (fun h => hn h.1)]
        rw [eidx, epos, if_neg hn]
        exact ⟨rfl, by omega, fun h => absurd h hn, Or.inl ⟨rfl, fun h => hn h.1⟩⟩
    have hnodup2 : ((part_obj.values.filter (fun v => !v.value_utf8.isEmpty)).map
        (fun v => list_value_index (list_scan part_obj.values part_elem.has_null_value).2.2.1
          (list_scan part_obj.values part_elem.has_null_value).2.2.2 v.list_num)).Nodup := by
      have hvn : part_obj.values.Nodup := List.Nodup.of_map _ hnodup
      apply List.Nodup.map_on _ (hvn.filter _)
      intro x hx y hy hxy
      obtain ⟨hx1, hx2⟩ := List.mem_filter.mp hx
      obtain ⟨hy1, hy2⟩ := List.mem_filter.mp hy
      have hxe : x.value_utf8.isEmpty = false := by simpa using hx2
      have hye : y.value_utf8.isEmpty = false := by simpa using hy2
      obtain ⟨a1, _, a3, a4⟩ := hidx x hx1 hxe
      obtain ⟨b1, _, b3, b4⟩ := hidx y hy1 hye
      rw [a1, b1] at hxy
      apply hinj x hx1 y hy1
      rcases a4 with ⟨a4, a5⟩ | ⟨an, a5, a6⟩ <;> rcases b4 with ⟨b4, b5⟩ | ⟨bn, b5, b6⟩
      · omega
      · have h1 := a3 bn
        have h2 : ¬ (list_scan part_obj.values part_elem.has_null_value).2.2.2 < x.list_num :=
          fun h => a5 ⟨bn, h⟩
        omega
      · have h1 := b3 an
        have h2 : ¬ (list_scan part_obj.values part_elem.has_null_value).2.2.2 < y.list_num :=
          fun h => b5 ⟨an, h⟩
        omega
      · omega
    obtain ⟨stored, h1, h2, _, h4⟩ := list_store_spec penv
      (list_scan part_obj.values part_elem.has_null_value).2.2.1
      (list_scan part_obj.values part_elem.has_null_value).2.2.2 part_obj.values
      (List.replicate
        (if (list_scan part_obj.values part_elem.has_null_value).2.2.1 then
          to_uint (((list_scan part_obj.values part_elem.has_null_value).2.1 : Int) - 1)
        else (list_scan part_obj.values part_elem.has_null_value).2.1) {})
      hparse hnodup2
      (by
        intro v hv hve
        rw [List.length_replicate, hsize, (hidx v hv hve).1]
        exact (hidx v hv hve).2.1)
    rw [h1]
    simp only [hpush, Bool.false_eq_true, and_false, if_false]
    rw [List.length_replicate, hsize] at h2
    refine ⟨_, rfl, ?_, ?_, ?_⟩
    · simp only
      rw [s3, List.any_eq_true]
    · simp only [hlist, List.nil_append]
      exact h2
    · intro v hv hve
      obtain ⟨a1, a2, _, _⟩ := hidx v hv hve
      have hst := h4 v hv hve
      rw [a1] at hst
      have hrep : ∀ n i : Nat, (List.replicate n ({} : part_elem_value)).getD i {} = {} := by
        intro n i
        rw [List.getD_eq_getElem?_getD, List.getElem?_replicate]
        split_ifs <;> rfl
      rw [hrep] at hst
      have hlt : list_position part_obj.values v < stored.length := by
        rw [h2]
        exact a2
      refine ⟨stored_list_value penv v {}, ?_, rfl, stored_list_value_flag penv v {}⟩
      simp only [hlist, List.nil_append]
      rw [← hst, List.getD_eq_getElem?_getD, List.getElem?_eq_getElem hlt]
      rfl
/-- C21, on `example_list_partition`, the values `(2000, NULL, -5)` with list
numbers 0, 1 and 2: the NULL is flagged, the list has two entries, 2000
(unsigned) at position 0 and -5 (signed) at position 1. -/
theorem list_partition_values_witness :
    ∃ part_elem1,
      setup_partition_from_dd example_partition_env example_list_info {} example_list_partition
        false = some (example_list_info, part_elem1) ∧
      part_elem1.has_null_value = true ∧ part_elem1.list_val_list.length = 2 ∧
      part_elem1.list_val_list[0]? = some { value := 2000, unsigned_flag := true } ∧
      part_elem1.list_val_list[1]? = some { value := -5, unsigned_flag := false } := by
  have hparse : ∀ v ∈ example_list_partition.values, list_entry_parses example_partition_env v := by
    simp only [list_entry_parses]
    decide
  obtain ⟨part_elem1, h1, h2, h3, h4⟩ :=
    (list_partition_values example_partition_env example_list_info {} example_list_partition none
      2 rfl rfl rfl rfl rfl rfl rfl (by decide) (by decide)).2 (by decide) (by decide) hparse
  have hn : part_elem1.has_null_value = true :=
    h2.mpr ⟨{ list_num := 1, value_utf8 := "" }, by decide, rfl⟩
  rw [hn] at h3
  obtain ⟨v0, a1, a2, _⟩ := h4 { list_num := 0, value_utf8 := "2000" } (by decide) rfl
  obtain ⟨v2, b1, b2, _⟩ := h4 { list_num := 2, value_utf8 := "-5" } (by decide) rfl
  have p0 : list_position example_list_partition.values { list_num := 0, value_utf8 := "2000" } =
      0 := by decide
  have p2 : list_position example_list_partition.values { list_num := 2, value_utf8 := "-5" } =
      1 := by decide
  rw [p0] at a1
  rw [p2] at b1
  refine ⟨part_elem1, h1, hn, h3, ?_, ?_⟩
  · rw [a1, a2]
    rfl
  · rw [b1, b2]
    rfl

/-! ## The partition tree of `fill_partitioning_from_dd` -/

/-- The function `get_part_column_values` reads nothing from `part_info`: two
objects give the same element. -/
theorem get_part_column_values_congr (penv : Partition_env) (part_info part_info1 : partition_info)
    (part_elem : partition_element) (part_obj : Partition) :
    (get_part_column_values penv part_info1 part_elem part_obj).map Prod.snd =
      (get_part_column_values penv part_info part_elem part_obj).map Prod.snd := by
  unfold get_part_column_values
  simp only
  split_ifs <;> rfl

/-- The function `get_part_column_values` writes to `num_columns` only. -/
theorem get_part_column_values_info {penv : Partition_env} {part_info part_info1 : partition_info}
    {part_elem part_elem1 : partition_element} {part_obj : Partition}
    (h : get_part_column_values penv part_info part_elem part_obj =
      some (part_info1, part_elem1)) :
    part_info1 = { part_info with num_columns := part_info1.num_columns } := by
  unfold get_part_column_values at h
  simp only at h
  split_ifs at h
  simp only [Option.some.injEq, Prod.mk.injEq] at h
  obtain ⟨h1, _⟩ := h
  subst h1
  rfl

/-- The function `setup_partition_from_dd` reads from `part_info` the engine,
the partition type and `column_list` only: with another object that agrees on
the three members it succeeds or fails alike and builds the same element. -/
theorem setup_partition_from_dd_congr (penv : Partition_env) (part_info part_info1 : partition_info)
    (part_elem : partition_element) (part_obj : Partition) ( is_subpart : Bool)
    (h1 : part_info1.default_engine_type = part_info.default_engine_type)
    (h2 : part_info1.part_type = part_info.part_type)
    (h3 : part_info1.column_list = part_info.column_list) :
    (setup_partition_from_dd penv part_info1 part_elem part_obj is_subpart).map Prod.snd =
      (setup_partition_from_dd penv part_info part_elem part_obj is_subpart).map Prod.snd := by
  cases ha : penv.alloc_root_fails with
  | true => simp [setup_partition_from_dd, ha]
  | false =>
    cases hts : penv.get_tablespace_name part_obj with
    | none => simp [setup_partition_from_dd, ha, hts]
    | some tablespace_name =>
      cases is_subpart with
      | true => simp [setup_partition_from_dd, ha, hts, h1]
      | false =>
        cases hcl : part_info.column_list with
        | true =>
          cases hpt : part_info.part_type with
          | NONE => simp [setup_partition_from_dd, ha, hts, h1, h2, h3, hpt, hcl]
          | HASH => simp [setup_partition_from_dd, ha, hts, h1, h2, h3, hpt, hcl]
          | RANGE =>
            simp only [setup_partition_from_dd, ha, hts, h1, h2, h3, hpt, hcl, Bool.false_eq_true,
              and_false, if_false, if_true]
            exact get_part_column_values_congr penv _ _ _ _
          | LIST =>
            simp only [setup_partition_from_dd, ha, hts, h1, h2, h3, hpt, hcl, Bool.false_eq_true,
              and_false, if_false, if_true, reduceCtorEq]
            exact get_part_column_values_congr penv _ _ _ _
        | false =>
          cases hpt : part_info.part_type with
          | NONE => simp [setup_partition_from_dd, ha, hts, h1, h2, h3, hpt, hcl]
          | HASH => simp [setup_partition_from_dd, ha, hts, h1, h2, h3, hpt, hcl]
          | RANGE =>
            cases hv : part_obj.values with
            | nil => simp [setup_partition_from_dd, ha, hts, h1, h2, h3, hpt, hcl, hv]
            | cons part_value rest =>
              by_cases hm : part_value.max_value = true
              · simp [setup_partition_from_dd, ha, hts, h1, h2, h3, hpt, hcl, hv, hm]
              · by_cases hs : starts_with_minus part_value.value_utf8 = true
                · cases hp : penv.to_int64 part_value.value_utf8 <;>
                    simp [setup_partition_from_dd, ha, hts, h1, h2, h3, hpt, hcl, hv, hm, hs, hp]
                · cases hp : penv.to_uint64 part_value.value_utf8 <;>
                    simp [setup_partition_from_dd, ha, hts, h1, h2, h3, hpt, hcl, hv, hm, hs, hp]
          | LIST =>
            rw [setup_partition_from_dd_list penv part_info1 part_elem part_obj tablespace_name
                (h2.trans hpt) (h3.trans hcl) ha hts,
              setup_partition_from_dd_list penv part_info part_elem part_obj tablespace_name
                hpt hcl ha hts]
            generalize list_store penv _ _ _ _ = stored
            cases stored with
            | none => split_ifs <;> rfl
            | some arr =>
              simp only
              split_ifs <;> first | rfl | simp [named_partition_element, h1]

/-- The function `setup_partition_from_dd` writes to the member `num_columns`
of `part_info` only. -/
theorem setup_partition_from_dd_info {penv : Partition_env} {part_info part_info1 : partition_info}
    {part_elem part_elem1 : partition_element} {part_obj : Partition} { is_subpart : Bool}
    (h : setup_partition_from_dd penv part_info part_elem part_obj is_subpart =
      some (part_info1, part_elem1)) :
    part_info1 = { part_info with num_columns := part_info1.num_columns } := by
  have hfin : ∀ (x : partition_element), some (part_info, x) = some (part_info1, part_elem1) →
      part_info1 = { part_info with num_columns := part_info1.num_columns } := by
    intro x hx
    simp only [Option.some.injEq, Prod.mk.injEq] at hx
    obtain ⟨e, _⟩ := hx
    subst e
    rfl
  have hgp : ∀ (x : partition_element),
      get_part_column_values penv part_info x part_obj = some (part_info1, part_elem1) →
      part_info1 = { part_info with num_columns := part_info1.num_columns } :=
    fun x hx => get_part_column_values_info hx
  generalize ({ part_info with num_columns := part_info1.num_columns } : partition_info) =
    target at hfin hgp ⊢
  cases ha : penv.alloc_root_fails with
  | true =>
    simp [setup_partition_from_dd, ha] at h
  | false =>
    cases hts : penv.get_tablespace_name part_obj with
    | none => simp [setup_partition_from_dd, ha, hts] at h
    | some tablespace_name =>
      cases hs : is_subpart with
      | true =>
        simp only [setup_partition_from_dd, ha, hts, hs, Bool.false_eq_true, and_false, if_false,
          if_true] at h
        exact hfin _ h
      | false =>
        cases hcl : part_info.column_list with
        | true =>
          cases hpt : part_info.part_type with
          | NONE =>
            simp only [setup_partition_from_dd, ha, hts, hs, hpt, hcl, Bool.false_eq_true, and_false,
              if_false, if_true, reduceCtorEq] at h
            exact hfin _ h
          | HASH =>
            simp only [setup_partition_from_dd, ha, hts, hs, hpt, hcl, Bool.false_eq_true, and_false,
              if_false, if_true, reduceCtorEq] at h
            exact hfin _ h
          | RANGE =>
            simp only [setup_partition_from_dd, ha, hts, hs, hpt, hcl, Bool.false_eq_true, and_false,
              if_false, if_true] at h
            exact hgp _ h
          | LIST =>
            simp only [setup_partition_from_dd, ha, hts, hs, hpt, hcl, Bool.false_eq_true, and_false,
              if_false, if_true, reduceCtorEq] at h
            exact hgp _ h
        | false =>
          cases hpt : part_info.part_type with
          | NONE =>
            simp only [setup_partition_from_dd, ha, hts, hs, hpt, hcl, Bool.false_eq_true, and_false,
              if_false, if_true, reduceCtorEq] at h
            exact hfin _ h
          | HASH =>
            simp only [setup_partition_from_dd, ha, hts, hs, hpt, hcl, Bool.false_eq_true, and_false,
              if_false, if_true, reduceCtorEq] at h
            exact hfin _ h
          | RANGE =>
            simp only [setup_partition_from_dd, ha, hts, hs, hpt, hcl, Bool.false_eq_true, and_false,
              if_false, if_true] at h
            cases hv : part_obj.values with
            | nil =>
              rw [hv] at h
              exact absurd h (by simp)
            | cons part_value rest =>
              rw [hv] at h
              simp only at h
              by_cases hm : part_value.max_value = true
              · rw [if_pos hm] at h
                exact hfin _ h
              · rw [if_neg hm] at h
                by_cases hsm : starts_with_minus part_value.value_utf8 = true
                · rw [if_pos hsm] at h
                  cases hp : penv.to_int64 part_value.value_utf8 with
                  | none => rw [hp] at h; exact absurd h (by simp)
                  | some v => rw [hp] at h; exact hfin _ h
                · rw [if_neg hsm] at h
                  cases hp : penv.to_uint64 part_value.value_utf8 with
                  | none => rw [hp] at h; exact absurd h (by simp)
                  | some v => rw [hp] at h; exact hfin _ h
          | LIST =>
            subst hs
            rw [setup_partition_from_dd_list penv part_info part_elem part_obj tablespace_name
                hpt hcl ha hts] at h
            generalize list_store penv _ _ _ _ = stored at h
            cases stored with
            | none =>
              split_ifs at h
            | some arr =>
              simp only at h
              split_ifs at h <;> exact hfin _ h
/-- What `setup_partition_from_dd` gives for a record in the loop of
`fill_partitioning_from_dd`, when it succeeds on the record with an object of
the same scheme: the element of the record, and the object at hand with at
most `num_columns` changed. -/
theorem setup_in_loop (penv : Partition_env) (part_info0 part_info : partition_info)
    (part_obj : Partition)
    (hscheme : same_scheme part_info part_info0)
    (hsetup : (setup_partition_from_dd penv part_info0 penv.new_partition_element part_obj
      (decide (part_obj.level ≠ 0))).isSome = true) :
    ∃ part_info1,
      setup_partition_from_dd penv part_info penv.new_partition_element part_obj
          (decide (part_obj.level ≠ 0)) =
        some (part_info1, compiled_partition penv part_info0 part_obj) ∧
      part_info1 = { part_info with num_columns := part_info1.num_columns } := by
  have hc := setup_partition_from_dd_congr penv part_info0 part_info penv.new_partition_element
    part_obj (decide (part_obj.level ≠ 0)) hscheme.1 hscheme.2.1 hscheme.2.2
  cases h0 : setup_partition_from_dd penv part_info0 penv.new_partition_element part_obj
      (decide (part_obj.level ≠ 0)) with
  | none =>
    rw [h0] at hsetup
    exact absurd hsetup (by simp)
  | some r0 =>
    cases h1 : setup_partition_from_dd penv part_info penv.new_partition_element part_obj
        (decide (part_obj.level ≠ 0)) with
    | none =>
      rw [h0, h1] at hc
      exact absurd hc (by simp)
    | some r1 =>
      obtain ⟨part_info1, part_elem1⟩ := r1
      rw [h0, h1] at hc
      simp only [Option.map_some', Option.some.injEq] at hc
      have he : compiled_partition penv part_info0 part_obj = part_elem1 := by
        simp only [compiled_partition, h0, Option.map_some', Option.getD_some]
        exact hc.symm
      rw [he]
      exact ⟨part_info1, rfl, setup_partition_from_dd_info h1⟩

/-- The relation `same_but_partitions` keeps the scheme. -/
theorem same_scheme_of_same_but_partitions {a b c : partition_info}
    (h : same_but_partitions a b) (hs : same_scheme b c) : same_scheme a c := by
  unfold same_but_partitions at h
  unfold same_scheme at hs ⊢
  rw [h]
  exact hs

/-- One turn of the loop of `fill_partitioning_from_dd` for a record of level 0:
its element is appended to the list of partitions, the locals stay. -/
theorem add_partition_level0 (penv : Partition_env) (size : Nat) (part_info0 : partition_info)
    (s : partition_scan) (part_obj : Partition)
    (halloc : penv.alloc_root_fails = false) (hpush : penv.push_back_fails = false)
    (hlevel : part_obj.level = 0)
    (hscheme : same_scheme s.part_info part_info0)
    (hsetup : (setup_partition_from_dd penv part_info0 penv.new_partition_element part_obj
      (decide (part_obj.level ≠ 0))).isSome = true) :
    ∃ s1, add_partition penv size s part_obj = .ok s1 ∧
      s1.part_info.partitions =
        s.part_info.partitions ++ [{ elem := compiled_partition penv part_info0 part_obj }] ∧
      s1.curr_part = s.curr_part ∧ s1.part_elem_it = s.part_elem_it ∧
      s1.num_subparts = s.num_subparts ∧ same_but_partitions s1.part_info s.part_info := by
  obtain ⟨part_info1, h1, h2⟩ := setup_in_loop penv part_info0 s.part_info part_obj hscheme hsetup
  have hd : decide (part_obj.level ≠ 0) = false := by simp [hlevel]
  rw [hd] at h1
  refine ⟨{ s with
    part_info :=
      { part_info1 with
        partitions := part_info1.partitions ++
          [{ elem := compiled_partition penv part_info0 part_obj }] } }, ?_, ?_, rfl, rfl, rfl, ?_⟩
  · simp only [add_partition, halloc, hpush, hd, h1, Bool.false_eq_true, if_false, Bool.not_false,
      if_true]
  · simp only
    rw [h2]
  · unfold same_but_partitions
    simp only
    rw [h2]

/-- The records of level 0 at the head of the list of partitions: the loop of
`fill_partitioning_from_dd` appends their elements to the list of partitions, in
order, and goes on with the rest. -/
theorem add_partitions_level0 (penv : Partition_env) (size : Nat) (part_info0 : partition_info)
    (halloc : penv.alloc_root_fails = false) (hpush : penv.push_back_fails = false) :
    ∀ (tops rest : List Partition) (s : partition_scan),
      (∀ p ∈ tops, p.level = 0) →
      (∀ p ∈ tops, (setup_partition_from_dd penv part_info0 penv.new_partition_element p
        (decide (p.level ≠ 0))).isSome = true) →
      same_scheme s.part_info part_info0 →
      ∃ s1, add_partitions penv size (tops ++ rest) s = add_partitions penv size rest s1 ∧
        s1.part_info.partitions =
          s.part_info.partitions ++
            tops.map (fun p => { elem := compiled_partition penv part_info0 p }) ∧
        s1.curr_part = s.curr_part ∧ s1.part_elem_it = s.part_elem_it ∧
        s1.num_subparts = s.num_subparts ∧ same_but_partitions s1.part_info s.part_info := by
  intro tops
  induction tops with
  | nil =>
    intro rest s _ _ _
    refine ⟨s, rfl, by simp, rfl, rfl, rfl, ?_⟩
    unfold same_but_partitions
    rfl
  | cons p tops ih =>
    intro rest s hlev hset hscheme
    obtain ⟨s1, a1, a2, a3, a4, a5, a6⟩ := add_partition_level0 penv size part_info0 s p halloc
      hpush (hlev p (List.mem_cons_self _ _)) hscheme (hset p (List.mem_cons_self _ _))
    obtain ⟨s2, b1, b2, b3, b4, b5, b6⟩ := ih rest s1
      (fun q hq => hlev q (List.mem_cons_of_mem _ hq))
      (fun q hq => hset q (List.mem_cons_of_mem _ hq))
      (same_scheme_of_same_but_partitions a6 hscheme)
    refine ⟨s2, ?_, ?_, b3.trans a3, b4.trans a4, b5.trans a5, ?_⟩
    · simp only [List.cons_append, add_partitions, a1]
      exact b1
    · rw [b2, a2]
      simp
    · unfold same_but_partitions at a6 b6 ⊢
      rw [b6, a6]
/-- One turn of the loop of `fill_partitioning_from_dd` for a record of another
level than 0, when no division by zero and no NULL pointer is met: the element
of the record is appended to the subpartitions of the partition that
`curr_part` points to after the turn. -/
theorem add_partition_level1 (penv : Partition_env) (size : Nat) (part_info0 : partition_info)
    (s : partition_scan) (part_obj : Partition) (num_subparts part_elem_it i : Nat)
    (halloc : penv.alloc_root_fails = false) (hpush : penv.push_back_fails = false)
    (hlevel : part_obj.level ≠ 0)
    (hscheme : same_scheme s.part_info part_info0)
    (hsetup : (setup_partition_from_dd penv part_info0 penv.new_partition_element part_obj
      (decide (part_obj.level ≠ 0))).isSome = true)
    (hparts : s.curr_part.isNone = true → s.part_info.partitions.length ≠ 0)
    (hit : part_elem_it = if s.curr_part.isNone then 0 else s.part_elem_it)
    (hnum : num_subparts =
      if s.curr_part.isNone then
        to_uint (((size - s.part_info.partitions.length) / s.part_info.partitions.length : Nat) : Int)
      else s.num_subparts)
    (hnz : num_subparts ≠ 0)
    (hcur : (if part_obj.number % num_subparts = 0 then
        (if part_elem_it < s.part_info.partitions.length then some part_elem_it else none)
      else s.curr_part) = some i) :
    ∃ s1, add_partition penv size s part_obj = .ok s1 ∧
      s1.part_info.partitions =
        push_subpartition s.part_info.partitions i (compiled_partition penv part_info0 part_obj) ∧
      s1.curr_part = some i ∧
      s1.part_elem_it =
        (if part_obj.number % num_subparts = 0 then part_elem_it + 1 else part_elem_it) ∧
      s1.num_subparts = num_subparts ∧ same_but_partitions s1.part_info s.part_info := by
  obtain ⟨part_info1, h1, h2⟩ := setup_in_loop penv part_info0 s.part_info part_obj hscheme hsetup
  have hd : decide (part_obj.level ≠ 0) = true := by simp [hlevel]
  rw [hd] at h1
  have hp : part_info1.partitions = s.part_info.partitions := by rw [h2]
  have hundef : ¬ (s.curr_part.isNone = true ∧ part_info1.partitions.length = 0) := by
    rw [hp]
    exact fun h => hparts h.1 h.2
  refine ⟨{ part_info :=
              { part_info1 with
                partitions := push_subpartition part_info1.partitions i
                  (compiled_partition penv part_info0 part_obj) }
            curr_part := some i
            part_elem_it :=
              if part_obj.number % num_subparts = 0 then part_elem_it + 1 else part_elem_it
            num_subparts := num_subparts }, ?_, ?_, rfl, rfl, rfl, ?_⟩
  · rw [hp] at hundef
    simp only [add_partition, halloc, hpush, hd, h1, Bool.false_eq_true, if_false, Bool.not_true,
      hp, hundef, ← hnum, ← hit, hnz, decide_eq_true_eq, hcur]
  · simp only
    rw [hp]
  · unfold same_but_partitions
    simp only
    rw [h2]
/-- A window of width `S` over a list, at the position where the list ends:
appending an element appends it to the window. -/
theorem window_append_at {α : Type} (A : List α) (x : α) (j S : Nat)
    (h1 : j * S ≤ A.length) (h2 : A.length < (j + 1) * S) :
    ((A ++ [x]).drop (j * S)).take S = ((A.drop (j * S)).take S) ++ [x] := by
  have e : (j + 1) * S = j * S + S := Nat.succ_mul j S
  rw [List.drop_append_of_le_length h1]
  rw [List.take_of_length_le (by simp; omega), List.take_of_length_le (by simp; omega)]

/-- A window of width `S` over a list, at another position than the one where
the list ends: appending an element does not change the window. -/
theorem window_append_other {α : Type} (A : List α) (x : α) (i j S : Nat)
    (h1 : j * S ≤ A.length) (h2 : A.length < (j + 1) * S) (hij : i ≠ j) :
    ((A ++ [x]).drop (i * S)).take S = (A.drop (i * S)).take S := by
  have e : (j + 1) * S = j * S + S := Nat.succ_mul j S
  rcases Nat.lt_or_gt_of_ne hij with hlt | hgt
  · have h3 : (i + 1) * S ≤ j * S := Nat.mul_le_mul_right S hlt
    have e2 : (i + 1) * S = i * S + S := Nat.succ_mul i S
    rw [List.drop_append_of_le_length (by omega)]
    rw [List.take_append_of_le_length (by simp; omega)]
  · have h3 : (j + 1) * S ≤ i * S := Nat.mul_le_mul_right S hgt
    rw [List.drop_of_length_le (by simp; omega), List.drop_of_length_le (by omega)]

/-- A multiple of `S` above `c * S` and at most `(c + 1) * S` is `(c + 1) * S`. -/
theorem multiple_in_window (n c S : Nat) (hmod : n % S = 0) (h1 : c * S < n)
    (h2 : n ≤ (c + 1) * S) : n = (c + 1) * S := by
  obtain ⟨k, hk⟩ := Nat.dvd_of_mod_eq_zero hmod
  have hS : 0 < S := by
    rcases Nat.eq_zero_or_pos S with h | h
    · subst h
      simp at h2
      omega
    · exact h
  have hck : c < k := by
    by_contra h
    have h3 : k ≤ c := Nat.le_of_not_lt h
    have h4 : S * k ≤ S * c := Nat.mul_le_mul_left S h3
    rw [Nat.mul_comm c S] at h1
    omega
  have hkc : k ≤ c + 1 := by
    by_contra h
    have h3 : c + 2 ≤ k := by omega
    have h4 : S * (c + 2) ≤ S * k := Nat.mul_le_mul_left S h3
    have e : S * (c + 2) = (c + 1) * S + S := by
      rw [Nat.mul_comm S (c + 2), Nat.succ_mul (c + 1) S]
    omega
  have : k = c + 1 := by omega
  rw [hk, this, Nat.mul_comm]

/-- The tree after one more subpartition: the element of the record at position
`n` of `subs` is appended to the subpartitions of the partition `j` whose
window holds position `n`. -/
theorem push_partition_tree (penv : Partition_env) (part_info : partition_info)
    (tops subs : List Partition) (S n j : Nat) (hn : n < subs.length) (hj : j < tops.length)
    (h1 : j * S ≤ n) (h2 : n < (j + 1) * S) :
    push_subpartition (partition_tree penv part_info tops (subs.take n) S) j
        (compiled_partition penv part_info (subs.get ⟨n, hn⟩)) =
      partition_tree penv part_info tops (subs.take (n + 1)) S := by
  have hlenA : (subs.take n).length = n := by
    rw [List.length_take]
    omega
  have htake : subs.take (n + 1) = subs.take n ++ [subs.get ⟨n, hn⟩] := by
    rw [List.take_succ, List.getElem?_eq_getElem hn]
    rfl
  have hget : (partition_tree penv part_info tops (subs.take n) S)[j]? =
      some { elem := compiled_partition penv part_info (tops.getD j {})
             subpartitions :=
               (((subs.take n).drop (j * S)).take S).map (compiled_partition penv part_info) } := by
    simp [partition_tree, List.getElem?_map, List.getElem?_range hj]
  unfold push_subpartition
  rw [hget]
  simp only
  apply List.ext_getElem
  · simp [partition_tree]
  · intro i hi1 hi2
    have hi : i < tops.length := by simpa [partition_tree] using hi2
    by_cases hij : i = j
    · subst hij
      rw [List.getElem_set_self]
      simp only [partition_tree, List.getElem_map, List.getElem_range, htake]
      rw [window_append_at _ _ i S (by omega) (by omega)]
      simp
    · rw [List.getElem_set_ne (Ne.symm hij)]
      simp only [partition_tree, List.getElem_map, List.getElem_range, htake]
      rw [window_append_other _ _ i j S (by omega) (by omega) hij]
/-- The records of level 1 from position `n` of `subs` on, when the first `n`
(at least one) are in the tree, `curr_part` points to the partition `c` whose
window holds position `n - 1`, and the iterator stands behind it: the loop of
`fill_partitioning_from_dd` succeeds and leaves the tree of all the records. -/
theorem add_partitions_level1 (penv : Partition_env) (size : Nat) (part_info0 : partition_info)
    (tops subs : List Partition) (S : Nat)
    (halloc : penv.alloc_root_fails = false) (hpush : penv.push_back_fails = false)
    (hS : 1 ≤ S) (hcount : subs.length = tops.length * S)
    (hlev : ∀ p ∈ subs, p.level ≠ 0)
    (hset : ∀ p ∈ subs, (setup_partition_from_dd penv part_info0 penv.new_partition_element p
      (decide (p.level ≠ 0))).isSome = true)
    (hnumber : ∀ n (h : n < subs.length), (subs.get ⟨n, h⟩).number = n) :
    ∀ (k n c : Nat) (s : partition_scan), n + k = subs.length → 1 ≤ n →
      s.part_info.partitions = partition_tree penv part_info0 tops (subs.take n) S →
      s.curr_part = some c → s.part_elem_it = c + 1 → s.num_subparts = S →
      c * S < n → n ≤ (c + 1) * S → same_scheme s.part_info part_info0 →
      ∃ s1 c1, add_partitions penv size (subs.drop n) s = .ok s1 ∧
        s1.part_info.partitions = partition_tree penv part_info0 tops subs S ∧
        s1.curr_part = some c1 ∧ c1 * S < subs.length ∧ subs.length ≤ (c1 + 1) * S ∧
        s1.num_subparts = S ∧ same_but_partitions s1.part_info s.part_info := by
  intro k
  induction k with
  | zero =>
    intro n c s hnk hn htree hcurr hit hnum hc1 hc2 hscheme
    have hnl : n = subs.length := by omega
    subst hnl
    refine ⟨s, c, ?_, ?_, hcurr, hc1, hc2, hnum, ?_⟩
    · rw [List.drop_length]
      rfl
    · rw [htree, List.take_length]
    · unfold same_but_partitions
      rfl
  | succ k ih =>
    intro n c s hnk hn htree hcurr hit hnum hc1 hc2 hscheme
    have hnl : n < subs.length := by omega
    have hdrop : subs.drop n = subs.get ⟨n, hnl⟩ :: subs.drop (n + 1) := by
      rw [List.get_eq_getElem]
      exact List.drop_eq_getElem_cons hnl
    have hmem : subs.get ⟨n, hnl⟩ ∈ subs := List.get_mem subs n hnl
    have hlen : s.part_info.partitions.length = tops.length := by
      rw [htree]
      simp [partition_tree]
    have hsucc : (c + 1) * S = c * S + S := Nat.succ_mul c S
    have hcP : c < tops.length := by
      by_contra h
      have h3 : tops.length ≤ c := Nat.le_of_not_lt h
      have h4 : tops.length * S ≤ c * S := Nat.mul_le_mul_right S h3
      omega
    have hnone : s.curr_part.isNone = false := by rw [hcurr]; rfl
    have hstep := add_partition_level1 penv size part_info0 s (subs.get ⟨n, hnl⟩) S (c + 1)
      (if n % S = 0 then c + 1 else c) halloc hpush (hlev _ hmem) hscheme (hset _ hmem)
      (by rw [hnone]; intro h; exact absurd h (by simp))
      (by rw [hnone, hit]; simp)
      (by rw [hnone, hnum]; simp)
      (by omega)
      (by
        rw [hnumber n hnl, hlen, hcurr]
        by_cases hm : n % S = 0
        · have hn2 := multiple_in_window n c S hm hc1 hc2
          have hlt : c + 1 < tops.length := by
            by_contra h
            have h3 : tops.length ≤ c + 1 := Nat.le_of_not_lt h
            have h4 : tops.length * S ≤ (c + 1) * S := Nat.mul_le_mul_right S h3
            omega
          rw [if_pos hm, if_pos hlt, if_pos hm]
        · rw [if_neg hm, if_neg hm])
    obtain ⟨s1, a1, a2, a3, a4, a5, a6⟩ := hstep
    have hwin : (if n % S = 0 then c + 1 else c) * S ≤ n ∧
        n < ((if n % S = 0 then c + 1 else c) + 1) * S ∧
        (if n % S = 0 then c + 1 else c) < tops.length := by
      by_cases hm : n % S = 0
      · have hn2 := multiple_in_window n c S hm hc1 hc2
        have e2 : (c + 1 + 1) * S = (c + 1) * S + S := Nat.succ_mul (c + 1) S
        have hlt : c + 1 < tops.length := by
          by_contra h
          have h3 : tops.length ≤ c + 1 := Nat.le_of_not_lt h
          have h4 : tops.length * S ≤ (c + 1) * S := Nat.mul_le_mul_right S h3
          omega
        rw [if_pos hm]
        exact ⟨by omega, by omega, hlt⟩
      · rw [if_neg hm]
        have hne : n ≠ (c + 1) * S := by
          intro h
          apply hm
          rw [h]
          exact Nat.mul_mod_left _ _
        exact ⟨by omega, by omega, hcP⟩
    have htree1 : s1.part_info.partitions =
        partition_tree penv part_info0 tops (subs.take (n + 1)) S := by
      rw [a2, htree]
      exact push_partition_tree penv part_info0 tops subs S n _ hnl hwin.2.2 hwin.1 hwin.2.1
    have hit1 : s1.part_elem_it = (if n % S = 0 then c + 1 else c) + 1 := by
      rw [a4, hnumber n hnl]
      by_cases hm : n % S = 0
      · rw [if_pos hm, if_pos hm]
      · have hn2 : n ≠ (c + 1) * S := by
          intro h
          apply hm
          rw [h]
          exact Nat.mul_mod_left _ _
        rw [if_neg hm, if_neg hm]
    obtain ⟨s2, c2, b1, b2, b3, b4, b5, b6, b7⟩ := ih (n + 1) (if n % S = 0 then c + 1 else c) s1
      (by omega) (by omega) htree1 a3 hit1 a5 (by omega) (by omega)
      (same_scheme_of_same_but_partitions a6 hscheme)
    refine ⟨s2, c2, ?_, b2, b3, b4, b5, b6, ?_⟩
    · rw [hdrop]
      simp only [add_partitions, a1]
      exact b1
    · unfold same_but_partitions at a6 b7 ⊢
      rw [b7, a6]
/-- One turn of the loop of `fill_partitioning_from_dd` writes to the members
`num_columns` and `partitions` of `part_info` only. -/
theorem add_partition_frame {penv : Partition_env} {size : Nat} {s s1 : partition_scan}
    {part_obj : Partition} (h : add_partition penv size s part_obj = .ok s1) :
    same_but_partitions s1.part_info s.part_info := by
  cases hs : setup_partition_from_dd penv s.part_info penv.new_partition_element part_obj
      (decide (part_obj.level ≠ 0)) with
  | none =>
    simp only [add_partition, hs] at h
    split_ifs at h
  | some r =>
    obtain ⟨part_info1, part_elem1⟩ := r
    have hinfo := setup_partition_from_dd_info hs
    have fin : ∀ (l : List partition_node) (a : Option Nat) (b c : Nat),
        (Except.ok
          { part_info := { part_info1 with partitions := l }, curr_part := a, part_elem_it := b,
            num_subparts := c } : Except stage_failure partition_scan) = .ok s1 →
        same_but_partitions s1.part_info s.part_info := by
      intro l a b c hx
      simp only [Except.ok.injEq] at hx
      subst hx
      unfold same_but_partitions
      simp only
      rw [hinfo]
    simp only [add_partition, hs] at h
    split_ifs at h <;> (try split at h) <;>
      first | exact fin _ _ _ _ h | exact absurd h (by simp)

/-- The loop of `fill_partitioning_from_dd` over the partitions writes to the
members `num_columns` and `partitions` of `part_info` only. -/
theorem add_partitions_frame (penv : Partition_env) (size : Nat) :
    ∀ (partitions : List Partition) (s s1 : partition_scan),
      add_partitions penv size partitions s = .ok s1 →
      same_but_partitions s1.part_info s.part_info := by
  intro partitions
  induction partitions with
  | nil =>
    intro s s1 h
    simp only [add_partitions, Except.ok.injEq] at h
    subst h
    unfold same_but_partitions
    rfl
  | cons p rest ih =>
    intro s s1 h
    rw [add_partitions] at h
    cases hp : add_partition penv size s p with
    | error e =>
      rw [hp] at h
      exact absurd h (by simp)
    | ok s2 =>
      rw [hp] at h
      have a := add_partition_frame hp
      have b := ih s2 s1 h
      unfold same_but_partitions at a b ⊢
      rw [b, a]

/-- What a successful `partition_info_from_dd` has done: the allocation
succeeded, the engine is known, and the two switches and the storing of the
expressions succeeded in turn, from the new object with its engine set. -/
theorem partition_info_from_dd_ok {penv : Partition_env} {tab_obj : Table}
    {part_info : partition_info} (h : partition_info_from_dd penv tab_obj = .ok part_info) :
    penv.alloc_root_fails = false ∧ penv.plugin_data tab_obj.engine ≠ 0 ∧
    ∃ typed subtyped,
      set_partition_type
          { penv.new_partition_info with
            default_engine_type := penv.plugin_data tab_obj.engine }
          tab_obj.partition_type = some typed ∧
      set_subpartition_type typed tab_obj.subpartition_type = some subtyped ∧
      set_partition_expressions penv tab_obj subtyped = some part_info := by
  unfold partition_info_from_dd at h
  simp only at h
  split_ifs at h with ha h0
  split at h
  · exact absurd h (by simp)
  · rename_i typed ht
    split at h
    · exact absurd h (by simp)
    · rename_i subtyped hst
      split at h
      · exact absurd h (by simp)
      · rename_i pi hex
        simp only [Except.ok.injEq] at h
        subst h
        exact ⟨by simpa using ha, h0, typed, subtyped, ht, hst, hex⟩

/-- The switch on the partition type leaves the list of partitions alone. -/
theorem set_partition_type_partitions {part_info typed : partition_info}
    {t : enum_partition_type} (h : set_partition_type part_info t = some typed) :
    typed.partitions = part_info.partitions ∧
      typed.default_engine_type = part_info.default_engine_type := by
  cases t <;> simp only [set_partition_type, Option.some.injEq] at h <;>
    first | (subst h; exact ⟨rfl, rfl⟩) | exact absurd h (by simp)

/-- The switch on the subpartition type leaves the list of partitions, the
engine, the partition type and `column_list` alone. -/
theorem set_subpartition_type_partitions {part_info subtyped : partition_info}
    {t : enum_subpartition_type} (h : set_subpartition_type part_info t = some subtyped) :
    subtyped.partitions = part_info.partitions ∧ same_scheme subtyped part_info ∧
      subtyped.list_of_part_fields = part_info.list_of_part_fields ∧
      subtyped.part_field_list = part_info.part_field_list := by
  cases t <;> simp only [set_subpartition_type, Option.some.injEq] at h <;>
    first | (subst h; exact ⟨rfl, ⟨rfl, rfl, rfl⟩, rfl, rfl⟩) | exact absurd h (by simp)

/-- The storing of the expressions leaves the list of partitions, the engine,
the partition type, `column_list` and `linear_hash_ind` alone. -/
theorem set_partition_expressions_partitions {penv : Partition_env} {tab_obj : Table}
    {part_info part_info1 : partition_info}
    (h : set_partition_expressions penv tab_obj part_info = some part_info1) :
    part_info1.partitions = part_info.partitions ∧ same_scheme part_info1 part_info ∧
      part_info1.linear_hash_ind = part_info.linear_hash_ind := by
  unfold set_partition_expressions at h
  simp only at h
  split at h
  · exact absurd h (by simp)
  · rename_i filled hf
    have hfilled : filled.partitions = part_info.partitions ∧ same_scheme filled part_info ∧
        filled.linear_hash_ind = part_info.linear_hash_ind := by
      split_ifs at hf
      · split at hf
        · exact absurd hf (by simp)
        · simp only [Option.some.injEq] at hf
          subst hf
          exact ⟨rfl, ⟨rfl, rfl, rfl⟩, rfl⟩
      · simp only [Option.some.injEq] at hf
        subst hf
        exact ⟨rfl, ⟨rfl, rfl, rfl⟩, rfl⟩
    split_ifs at h
    · split at h
      · exact absurd h (by simp)
      · simp only [Option.some.injEq] at h
        subst h
        exact hfilled
    · simp only [Option.some.injEq] at h
      subst h
      exact hfilled
    · simp only [Option.some.injEq] at h
      subst h
      exact hfilled

/-- The list of partitions that `partition_info_from_dd` hands to the loop is
the one of the new object. -/
theorem partition_info_from_dd_partitions {penv : Partition_env} {tab_obj : Table}
    {part_info : partition_info} (h : partition_info_from_dd penv tab_obj = .ok part_info) :
    part_info.partitions = penv.new_partition_info.partitions := by
  obtain ⟨_, _, typed, subtyped, h1, h2, h3⟩ := partition_info_from_dd_ok h
  rw [(set_partition_expressions_partitions h3).1, (set_subpartition_type_partitions h2).1,
    (set_partition_type_partitions h1).1]

/-- The two switches on the default partitioning leave the tree and the counts
alone. -/
theorem set_default_partitioning_frame (part_info : partition_info)
    (dp dsp : enum_default_partitioning) :
    (set_default_subpartitioning (set_default_partitioning part_info dp) dsp).partitions =
        part_info.partitions ∧
      (set_default_subpartitioning (set_default_partitioning part_info dp) dsp).num_parts =
        part_info.num_parts ∧
      (set_default_subpartitioning (set_default_partitioning part_info dp) dsp).num_subparts =
        part_info.num_subparts := by
  cases dp <;> cases dsp <;> exact ⟨rfl, rfl, rfl⟩

/-- A list is the list of its elements by position. -/
theorem map_range_getD {α β : Type} (l : List α) (d : α) (f : α → β) :
    (List.range l.length).map (fun k => f (l.getD k d)) = l.map f := by
  apply List.ext_getElem
  · simp
  · intro i h1 h2
    have hi : i < l.length := by simpa using h2
    simp [List.getD_eq_getElem?_getD, List.getElem?_eq_getElem hi]
/-- The function `fill_partitioning_from_dd` on a partitioned table, when its
head, the loop over the partitions and `generate_partition_syntax` succeed: it
succeeds, and the share gets the `partition_info` that the loop has built, with
the counts and the default flags set. -/
theorem fill_partitioning_from_dd_ok (penv : Partition_env) (share : TABLE_SHARE)
    (tab_obj : Table) (part_info : partition_info) (scan : partition_scan)
    (htype : tab_obj.partition_type ≠ .PT_NONE)
    (hinfo : partition_info_from_dd penv tab_obj = .ok part_info)
    (hscan : add_partitions penv tab_obj.partitions.length tab_obj.partitions
      { part_info := part_info } = .ok scan)
    (hgenerated : ∀ x, (penv.generate_partition_syntax x).isSome = true) :
    ∃ share1, fill_partitioning_from_dd penv share tab_obj = .ok share1 ∧
      share1.m_part_info =
        some (set_default_subpartitioning
          (set_default_partitioning (set_partition_counts scan) tab_obj.default_partitioning)
          tab_obj.default_subpartitioning) := by
  have ha := (partition_info_from_dd_ok hinfo).1
  obtain ⟨buf, hbuf⟩ := Option.isSome_iff_exists.mp (hgenerated
    (set_default_subpartitioning
      (set_default_partitioning (set_partition_counts scan) tab_obj.default_partitioning)
      tab_obj.default_subpartitioning))
  refine ⟨{ (if tab_obj.partition_type = .PT_AUTO ∨ tab_obj.partition_type = .PT_AUTO_LINEAR then
        { share with auto_partitioned := true } else share) with
      partition_info_str := some buf
      partition_info_str_len := buf.utf8ByteSize
      m_part_info := some (set_default_subpartitioning
        (set_default_partitioning (set_partition_counts scan) tab_obj.default_partitioning)
        tab_obj.default_subpartitioning) }, ?_, rfl⟩
  simp only [fill_partitioning_from_dd, htype, hinfo, hscan, hbuf, ha, Bool.false_eq_true,
    if_false]

/-- The tree of the specification has one node per record of level 0. -/
theorem partition_tree_length (penv : Partition_env) (part_info : partition_info)
    (tops subs : List Partition) (S : Nat) :
    (partition_tree penv part_info tops subs S).length = tops.length := by
  simp [partition_tree]

/-- The node at position `j` of the tree of the specification. -/
theorem partition_tree_node (penv : Partition_env) (part_info : partition_info)
    (tops subs : List Partition) (S j : Nat) (hj : j < tops.length) :
    (partition_tree penv part_info tops subs S)[j]? =
      some { elem := compiled_partition penv part_info (tops.getD j {})
             subpartitions :=
               ((subs.drop (j * S)).take S).map (compiled_partition penv part_info) } := by
  simp [partition_tree, List.getElem?_map, List.getElem?_range hj]

/-- With `S` records of level 1 for each record of level 0, every node of the
tree of the specification has `S` subpartitions. -/
theorem partition_tree_sub_length (penv : Partition_env) (part_info : partition_info)
    (tops subs : List Partition) (S : Nat) (hcount : subs.length = tops.length * S) :
    ∀ node ∈ partition_tree penv part_info tops subs S, node.subpartitions.length = S := by
  intro node hnode
  obtain ⟨j, hj, hget⟩ := List.getElem_of_mem hnode
  have hjt : j < tops.length := by
    rw [partition_tree_length] at hj
    exact hj
  have h1 := partition_tree_node penv part_info tops subs S j hjt
  rw [List.getElem?_eq_getElem hj, hget] at h1
  simp only [Option.some.injEq] at h1
  rw [h1]
  simp only [List.length_map, List.length_take, List.length_drop]
  have h3 : (j + 1) * S ≤ tops.length * S := Nat.mul_le_mul_right S hjt
  have e : (j + 1) * S = j * S + S := Nat.succ_mul j S
  omega

/-- With `S` records of level 1 for each record of level 0, the record at
position `n` of the records of level 1 is subpartition `n mod S` of the node at
position `n div S` of the tree of the specification. -/
theorem partition_tree_record (penv : Partition_env) (part_info : partition_info)
    (tops subs : List Partition) (S : Nat) (hcount : subs.length = tops.length * S)
    (n : Nat) (hn : n < subs.length) :
    ∃ node, (partition_tree penv part_info tops subs S)[n / S]? = some node ∧
      node.subpartitions[n % S]? = some (compiled_partition penv part_info (subs.get ⟨n, hn⟩)) := by
  have hS : 0 < S := by
    rcases Nat.eq_zero_or_pos S with h | h
    · rw [h, Nat.mul_zero] at hcount
      omega
    · exact h
  have hj : n / S < tops.length := by
    have h2 : n < S * tops.length := by
      have := Nat.mul_comm S tops.length
      omega
    exact Nat.div_lt_of_lt_mul h2
  refine ⟨_, partition_tree_node penv part_info tops subs S (n / S) hj, ?_⟩
  have hmod : n % S < S := Nat.mod_lt n hS
  have hsum : n / S * S + n % S = n := Nat.div_add_mod' n S
  simp only [List.getElem?_map]
  rw [List.getElem?_take_of_lt hmod, List.getElem?_drop, hsum, List.getElem?_eq_getElem hn]
  rfl

/-- C22: `fill_partitioning_from_dd` on a partitioned table whose partitions
are the records `tops` of level 0 (at least one) followed by the records
`subs` of another level, `S` for each record of level 0 and numbered from 0 in
their order, when the head of the function has succeeded with an empty list of
partitions, appending to a list and `generate_partition_syntax` succeed,
`setup_partition_from_dd` accepts every record, and the number of records fits
in 32 bits. The loop over the partitions succeeds, and with at least one
subpartition its local `num_subparts` ends as `S`. The function succeeds, and
the partition tree in the share is the one of the specification: `num_parts`
is the number of records of level 0, `num_subparts` is `S`, every partition
has `S` subpartitions (none when there is no record of another level), and the
record at position `n` of `subs` is subpartition `n mod S` of the partition at
position `n div S`. -/
theorem subpartitions_attached (penv : Partition_env) (share : TABLE_SHARE) (tab_obj : Table)
    (part_info : partition_info) (tops subs : List Partition) (S : Nat)
    (htype : tab_obj.partition_type ≠ .PT_NONE)
    (hinfo : partition_info_from_dd penv tab_obj = .ok part_info)
    (hnew : penv.new_partition_info.partitions = [])
    (hpush : penv.push_back_fails = false)
    (hgenerated : ∀ x, (penv.generate_partition_syntax x).isSome = true)
    (hparts : tab_obj.partitions = tops ++ subs)
    (htops : ∀ p ∈ tops, p.level = 0) (hsubs : ∀ p ∈ subs, p.level ≠ 0)
    (hP : 1 ≤ tops.length) (hcount : subs.length = tops.length * S)
    (hnumber : ∀ n (h : n < subs.length), (subs.get ⟨n, h⟩).number = n)
    (hfit : tab_obj.partitions.length < 4294967296)
    (hsetup : ∀ p ∈ tab_obj.partitions,
      (setup_partition_from_dd penv part_info penv.new_partition_element p
        (decide (p.level ≠ 0))).isSome = true) :
    ∃ scan share1 part_info1,
      add_partitions penv tab_obj.partitions.length tab_obj.partitions
        { part_info := part_info } = .ok scan ∧
      (subs ≠ [] → scan.num_subparts = S) ∧
      fill_partitioning_from_dd penv share tab_obj = .ok share1 ∧
      share1.m_part_info = some part_info1 ∧
      part_info1.partitions = partition_tree penv part_info tops subs S ∧
      part_info1.num_parts = tops.length ∧ part_info1.num_subparts = S ∧
      (∀ node ∈ part_info1.partitions, node.subpartitions.length = S) ∧
      ∀ n (h : n < subs.length), ∃ node,
        part_info1.partitions[n / S]? = some node ∧
        node.subpartitions[n % S]? =
          some (compiled_partition penv part_info (subs.get ⟨n, h⟩)) := by
  have halloc := (partition_info_from_dd_ok hinfo).1
  have hempty : part_info.partitions = [] := by
    rw [partition_info_from_dd_partitions hinfo, hnew]
  have hsize : tab_obj.partitions.length = tops.length + subs.length := by
    rw [hparts, List.length_append]
  have hscheme0 : same_scheme part_info part_info := ⟨rfl, rfl, rfl⟩
  -- the records of level 0
  obtain ⟨s1, a1, a2, a3, a4, a5, a6⟩ := add_partitions_level0 penv tab_obj.partitions.length
    part_info halloc hpush tops subs { part_info := part_info } htops
    (fun p hp => hsetup p (by rw [hparts]; exact List.mem_append_left _ hp)) hscheme0
  simp only [hempty, List.nil_append] at a2 a3 a4 a5
  have htree0 : s1.part_info.partitions = partition_tree penv part_info tops (subs.take 0) S := by
    rw [a2]
    simp only [partition_tree, List.take_zero, List.drop_nil, List.take_nil, List.map_nil]
    exact (map_range_getD tops {} (fun p =>
      ({ elem := compiled_partition penv part_info p } : partition_node))).symm
  -- the loop as a whole
  have hloop : ∃ scan, add_partitions penv tab_obj.partitions.length tab_obj.partitions
        { part_info := part_info } = .ok scan ∧
      (subs ≠ [] → scan.num_subparts = S) ∧
      scan.part_info.partitions = partition_tree penv part_info tops subs S ∧
      (set_partition_counts scan).num_subparts = S := by
    rw [← hparts] at a1
    rw [a1]
    cases hsub : subs with
    | nil =>
      have hS0 : S = 0 := by
        rw [hsub] at hcount
        simp only [List.length_nil] at hcount
        rcases Nat.eq_zero_or_pos S with h | h
        · exact h
        · have : 0 < tops.length * S := Nat.mul_pos (by omega) h
          omega
      refine ⟨s1, rfl, fun h => absurd rfl h, ?_, ?_⟩
      · rw [htree0, hsub]
        rfl
      · simp only [set_partition_counts, a3]
        exact hS0.symm
    | cons p0 rest0 =>
      have hlen0 : 0 < subs.length := by rw [hsub]; simp
      have hS : 1 ≤ S := by
        rcases Nat.eq_zero_or_pos S with h | h
        · rw [h, Nat.mul_zero] at hcount
          omega
        · exact h
      have hp0 : subs.get ⟨0, hlen0⟩ = p0 := by
        simp [hsub]
      have hmem0 : p0 ∈ subs := by rw [hsub]; exact List.mem_cons_self _ _
      have hlen1 : s1.part_info.partitions.length = tops.length := by
        rw [a2]
        simp
      have hSle : S ≤ tops.length * S := Nat.le_mul_of_pos_left S (by omega)
      have hdiv : (tab_obj.partitions.length - tops.length) / tops.length = S := by
        rw [hsize, Nat.add_sub_cancel_left, hcount]
        exact Nat.mul_div_cancel_left S (by omega)
      have hnone : s1.curr_part.isNone = true := by rw [a3]; rfl
      have hstep := add_partition_level1 penv tab_obj.partitions.length part_info s1 p0 S 0 0
        halloc hpush (hsubs p0 hmem0) (same_scheme_of_same_but_partitions a6 hscheme0)
        (hsetup p0 (by rw [hparts]; exact List.mem_append_right _ hmem0))
        (by intro _; rw [hlen1]; omega)
        (by rw [hnone]; rfl)
        (by
          rw [hnone, hlen1, hdiv]
          simp only [if_true]
          exact (to_uint_of_lt S (by omega)).symm)
        (by omega)
        (by
          have h0 := hnumber 0 hlen0
          rw [hp0] at h0
          rw [h0, hlen1, Nat.zero_mod, if_pos rfl, if_pos (by omega)])
      obtain ⟨s2, b1, b2, b3, b4, b5, b6⟩ := hstep
      have htree1 : s2.part_info.partitions =
          partition_tree penv part_info tops (subs.take 1) S := by
        rw [b2, htree0, ← hp0]
        exact push_partition_tree penv part_info tops subs S 0 0 hlen0 (by omega) (by omega)
          (by omega)
      have hit2 : s2.part_elem_it = 0 + 1 := by
        have h0 := hnumber 0 hlen0
        rw [hp0] at h0
        rw [b4, h0, Nat.zero_mod, if_pos rfl]
      obtain ⟨s3, c1, d1, d2, d3, d4, d5, d6, d7⟩ := add_partitions_level1 penv
        tab_obj.partitions.length part_info tops subs S halloc hpush hS hcount hsubs
        (fun p hp => hsetup p (by rw [hparts]; exact List.mem_append_right _ hp)) hnumber
        (subs.length - 1) 1 0 s2 (by omega) (by omega) htree1 b3 hit2 b5 (by omega) (by omega)
        (same_scheme_of_same_but_partitions b6
          (same_scheme_of_same_but_partitions a6 hscheme0))
      have hdrop1 : subs.drop 1 = rest0 := by rw [hsub]; rfl
      rw [hdrop1] at d1
      refine ⟨s3, ?_, fun _ => d6, ?_, ?_⟩
      · simp only [add_partitions, b1]
        exact d1
      · rw [d2, hsub]
      · have hc1 : c1 < tops.length := by
          by_contra h
          have h3 : tops.length ≤ c1 := Nat.le_of_not_lt h
          have h4 : tops.length * S ≤ c1 * S := Nat.mul_le_mul_right S h3
          omega
        have hnode := partition_tree_node penv part_info tops subs S c1 hc1
        have hmemn : (partition_tree penv part_info tops subs S).getD c1 {} ∈
            partition_tree penv part_info tops subs S := by
          rw [List.getD_eq_getElem?_getD, hnode]
          exact List.getElem?_mem hnode
        simp only [set_partition_counts, d3, d2]
        exact partition_tree_sub_length penv part_info tops subs S hcount _ hmemn
  obtain ⟨scan, e1, e2, e3, e4⟩ := hloop
  obtain ⟨share1, f1, f2⟩ := fill_partitioning_from_dd_ok penv share tab_obj part_info scan htype
    hinfo e1 hgenerated
  have hfr := set_default_partitioning_frame (set_partition_counts scan)
    tab_obj.default_partitioning tab_obj.default_subpartitioning
  have hcp : (set_partition_counts scan).partitions = scan.part_info.partitions := by
    unfold set_partition_counts
    cases scan.curr_part <;> rfl
  have hcn : (set_partition_counts scan).num_parts = scan.part_info.partitions.length := by
    unfold set_partition_counts
    cases scan.curr_part <;> rfl
  refine ⟨scan, share1, _, e1, e2, f1, f2, ?_, ?_, ?_, ?_, ?_⟩
  · rw [hfr.1, hcp, e3]
  · rw [hfr.2.1, hcn, e3, partition_tree_length]
  · rw [hfr.2.2, e4]
  · rw [hfr.1, hcp, e3]
    exact partition_tree_sub_length penv part_info tops subs S hcount
  · intro n hn
    rw [hfr.1, hcp, e3]
    exact partition_tree_record penv part_info tops subs S hcount n hn
/-- C22, on `example_subpartitioned_table`, two partitions followed by four
subpartitions numbered 0 to 3: the partition tree has two partitions with two
subpartitions each, the first two records under `p0` and the last two under
`p1`. -/
theorem subpartitions_attached_witness :
    ∃ share1 part_info1,
      fill_partitioning_from_dd example_partition_env {} example_subpartitioned_table =
        .ok share1 ∧
      share1.m_part_info = some part_info1 ∧
      part_info1.num_parts = 2 ∧ part_info1.num_subparts = 2 ∧
      part_info1.partitions.map (fun node => node.elem.partition_name) =
        [some "p0", some "p1"] ∧
      part_info1.partitions.map
          (fun node => node.subpartitions.map (fun sub => sub.partition_name)) =
        [[some "p0sp0", some "p0sp1"], [some "p1sp0", some "p1sp1"]] := by
  have hnumber : ∀ n (h : n < example_subpartitions.length),
      (example_subpartitions.get ⟨n, h⟩).number = n := by
    intro n h
    have h4 : n < 4 := h
    interval_cases n <;> rfl
  obtain ⟨scan, share1, part_info1, _, _, f1, f2, g1, g2, g3, _, _⟩ :=
    subpartitions_attached example_partition_env {} example_subpartitioned_table _
      example_top_partitions example_subpartitions 2 (by decide) rfl rfl rfl (fun _ => rfl) rfl
      (by decide) (by decide) (by decide) (by decide) hnumber (by decide) (by decide)
  refine ⟨share1, part_info1, f1, f2, g2, g3, ?_, ?_⟩
  · rw [g1]
    rfl
  · rw [g1]
    rfl


/-! ## Tables whose subpartitions are not spread evenly -/

/-- C23: `fill_partitioning_from_dd` has no test for non-uniform
subpartitioning.  On `example_nonuniform_table` (two partitions, three
subpartitions numbered 0, 1, 2) the number of subpartitions per partition is
computed as `(5 - 2) / 2 = 1`, every subpartition advances the partition
iterator, and the third one is attached through the null pointer the
exhausted iterator returns: the function does not return true.  On
`example_lopsided_table` (two partitions, five subpartitions numbered 0, 1,
2, 3, 5) it returns success with two subpartitions under the first partition
and three under the second. -/
theorem nonuniform_subpartitioning_not_rejected :
    fill_partitioning_from_dd example_partition_env {} example_nonuniform_table =
      .error .undefined_behaviour ∧
    fill_partitioning_from_dd example_partition_env {} example_nonuniform_table ≠
      .error .returns_true ∧
    example_nonuniform_table.partitions.map (fun p => p.level) = [0, 0, 1, 1, 1] ∧
    ∃ share1 part_info1,
      fill_partitioning_from_dd example_partition_env {} example_lopsided_table = .ok share1 ∧
      share1.m_part_info = some part_info1 ∧
      part_info1.partitions.map (fun node => node.subpartitions.length) = [2, 3] ∧
      part_info1.num_parts = 2 ∧ part_info1.num_subparts = 3 := by
  have h : fill_partitioning_from_dd example_partition_env {} example_nonuniform_table =
      .error .undefined_behaviour := by rfl
  refine ⟨h, ?_, rfl, ?_⟩
  · rw [h]
    simp
  · refine ⟨(match fill_partitioning_from_dd example_partition_env {} example_lopsided_table with
      | .ok share1 => share1
      | .error _ => {}), ((match fill_partitioning_from_dd example_partition_env {}
          example_lopsided_table with
      | .ok share1 => share1
      | .error _ => {}).m_part_info.getD {}), ?_, ?_, ?_, ?_, ?_⟩ <;> rfl


/-! ## The scheme and the expressions of fill_partitioning_from_dd -/

/-- What a successful `fill_partitioning_from_dd` has done on a partitioned
table: its head and the loop over the partitions succeeded, and the share
holds what the loop built, with the counts and the default flags set. -/
theorem fill_partitioning_from_dd_inv {penv : Partition_env} {share share1 : TABLE_SHARE}
    {tab_obj : Table} (htype : tab_obj.partition_type ≠ .PT_NONE)
    (h : fill_partitioning_from_dd penv share tab_obj = .ok share1) :
    ∃ part_info scan, partition_info_from_dd penv tab_obj = .ok part_info ∧
      add_partitions penv tab_obj.partitions.length tab_obj.partitions
        { part_info := part_info } = .ok scan ∧
      share1.m_part_info =
        some (set_default_subpartitioning
          (set_default_partitioning (set_partition_counts scan) tab_obj.default_partitioning)
          tab_obj.default_subpartitioning) := by
  cases hinfo : partition_info_from_dd penv tab_obj with
  | error e =>
    simp only [fill_partitioning_from_dd, htype, hinfo, if_false] at h
    exact absurd h (by simp)
  | ok part_info =>
    cases hscan : add_partitions penv tab_obj.partitions.length tab_obj.partitions
        { part_info := part_info } with
    | error e =>
      simp only [fill_partitioning_from_dd, htype, hinfo, hscan, if_false] at h
      exact absurd h (by simp)
    | ok scan =>
      refine ⟨part_info, scan, rfl, hscan, ?_⟩
      simp only [fill_partitioning_from_dd, htype, hinfo, hscan, if_false] at h
      split at h
      · exact absurd h (by simp)
      · split_ifs at h <;>
          (simp only [Except.ok.injEq] at h
           subst h
           rfl)

/-- The members of `part_info` that describe the scheme and the partition
expression are, at the end of `fill_partitioning_from_dd`, as its head left
them. -/
theorem final_partition_info_frame (part_info : partition_info) (scan : partition_scan)
    (dp dsp : enum_default_partitioning)
    (h : same_but_partitions scan.part_info part_info) :
    (set_default_subpartitioning (set_default_partitioning (set_partition_counts scan) dp)
        dsp).part_type = part_info.part_type ∧
    (set_default_subpartitioning (set_default_partitioning (set_partition_counts scan) dp)
        dsp).column_list = part_info.column_list ∧
    (set_default_subpartitioning (set_default_partitioning (set_partition_counts scan) dp)
        dsp).linear_hash_ind = part_info.linear_hash_ind ∧
    (set_default_subpartitioning (set_default_partitioning (set_partition_counts scan) dp)
        dsp).part_field_list = part_info.part_field_list ∧
    (set_default_subpartitioning (set_default_partitioning (set_partition_counts scan) dp)
        dsp).part_func_string = part_info.part_func_string ∧
    (set_default_subpartitioning (set_default_partitioning (set_partition_counts scan) dp)
        dsp).part_func_len = part_info.part_func_len := by
  unfold same_but_partitions at h
  have hc : (set_partition_counts scan).part_type = part_info.part_type ∧
      (set_partition_counts scan).column_list = part_info.column_list ∧
      (set_partition_counts scan).linear_hash_ind = part_info.linear_hash_ind ∧
      (set_partition_counts scan).part_field_list = part_info.part_field_list ∧
      (set_partition_counts scan).part_func_string = part_info.part_func_string ∧
      (set_partition_counts scan).part_func_len = part_info.part_func_len := by
    unfold set_partition_counts
    cases scan.curr_part <;> (simp only; rw [h]; exact ⟨rfl, rfl, rfl, rfl, rfl, rfl⟩)
  cases dp <;> cases dsp <;> exact hc

/-- The loop of a successful `fill_partitioning_from_dd` started from the
result of its head: the members of `part_info` that describe the scheme and the
partition expression are those of the head. -/
theorem fill_partitioning_from_dd_scheme {penv : Partition_env} {share share1 : TABLE_SHARE}
    {tab_obj : Table} (htype : tab_obj.partition_type ≠ .PT_NONE)
    (h : fill_partitioning_from_dd penv share tab_obj = .ok share1) :
    ∃ part_info part_info1, partition_info_from_dd penv tab_obj = .ok part_info ∧
      share1.m_part_info = some part_info1 ∧
      part_info1.part_type = part_info.part_type ∧
      part_info1.column_list = part_info.column_list ∧
      part_info1.linear_hash_ind = part_info.linear_hash_ind ∧
      part_info1.part_field_list = part_info.part_field_list ∧
      part_info1.part_func_string = part_info.part_func_string ∧
      part_info1.part_func_len = part_info.part_func_len := by
  obtain ⟨part_info, scan, hinfo, hscan, hshare⟩ := fill_partitioning_from_dd_inv htype h
  have hframe := add_partitions_frame penv _ _ _ _ hscan
  exact ⟨part_info, _, hinfo, hshare,
    final_partition_info_frame part_info scan _ _ hframe⟩

/-- The switch on the subpartition type, for a table without subpartitioning,
leaves `linear_hash_ind` alone. -/
theorem set_subpartition_type_none {part_info subtyped : partition_info}
    (h : set_subpartition_type part_info .ST_NONE = some subtyped) :
    subtyped.linear_hash_ind = part_info.linear_hash_ind := by
  simp only [set_subpartition_type, Option.some.injEq] at h
  subst h
  rfl

/-- The partition expression as `set_partition_expressions` stores it: a list
of field names when `list_of_part_fields` is set, the text otherwise. -/
theorem set_partition_expressions_part {penv : Partition_env} {tab_obj : Table}
    {part_info part_info1 : partition_info}
    (h : set_partition_expressions penv tab_obj part_info = some part_info1) :
    (part_info.list_of_part_fields = true →
      set_field_list penv tab_obj.partition_expression part_info.part_field_list =
        some part_info1.part_field_list ∧
      part_info1.part_func_string = none ∧ part_info1.part_func_len = 0) ∧
    (part_info.list_of_part_fields = false →
      part_info1.part_field_list = part_info.part_field_list ∧
      part_info1.part_func_string = strdup_root penv tab_obj.partition_expression ∧
      part_info1.part_func_len = tab_obj.partition_expression.utf8ByteSize) := by
  unfold set_partition_expressions at h
  simp only at h
  split at h
  · exact absurd h (by simp)
  · rename_i filled hf
    have hfilled : (part_info.list_of_part_fields = true →
          set_field_list penv tab_obj.partition_expression part_info.part_field_list =
            some filled.part_field_list ∧
          filled.part_func_string = none ∧ filled.part_func_len = 0) ∧
        (part_info.list_of_part_fields = false →
          filled.part_field_list = part_info.part_field_list ∧
          filled.part_func_string = strdup_root penv tab_obj.partition_expression ∧
          filled.part_func_len = tab_obj.partition_expression.utf8ByteSize) := by
      split_ifs at hf with hl
      · split at hf
        · exact absurd hf (by simp)
        · rename_i fields hfields
          simp only [Option.some.injEq] at hf
          subst hf
          exact ⟨fun _ => ⟨hfields, rfl, rfl⟩, fun hn => absurd hl (by simp [hn])⟩
      · simp only [Option.some.injEq] at hf
        subst hf
        exact ⟨fun hn => absurd hn hl, fun _ => ⟨rfl, rfl, rfl⟩⟩
    split_ifs at h
    · split at h
      · exact absurd h (by simp)
      · simp only [Option.some.injEq] at h
        subst h
        exact hfilled
    · simp only [Option.some.injEq] at h
      subst h
      exact hfilled
    · simp only [Option.some.injEq] at h
      subst h
      exact hfilled

/-- C24: `fill_partitioning_from_dd` succeeds and leaves the share as it is for
the scheme NONE; when it succeeds for another scheme, the `partition_info` it
stores has method RANGE for RANGE and RANGE_COLUMNS, method LIST for LIST and
LIST_COLUMNS, method HASH for HASH, KEY_51, KEY_55, AUTO and their LINEAR
variants; `column_list` is set exactly for RANGE_COLUMNS and LIST_COLUMNS; and
for a table without subpartitioning `linear_hash_ind` is set exactly for
LINEAR_HASH, LINEAR_KEY_51, LINEAR_KEY_55 and AUTO_LINEAR. The object that
`new partition_info` builds has both flags clear. -/
theorem partition_scheme_mapped (penv : Partition_env) (share : TABLE_SHARE) (tab_obj : Table)
    (hcolumn : penv.new_partition_info.column_list = false)
    (hlinear : penv.new_partition_info.linear_hash_ind = false) :
    (tab_obj.partition_type = .PT_NONE →
      fill_partitioning_from_dd penv share tab_obj = .ok share) ∧
    ∀ share1, tab_obj.partition_type ≠ .PT_NONE →
      fill_partitioning_from_dd penv share tab_obj = .ok share1 →
      ∃ part_info1, share1.m_part_info = some part_info1 ∧
        (tab_obj.partition_type = .PT_RANGE ∨ tab_obj.partition_type = .PT_RANGE_COLUMNS →
          part_info1.part_type = .RANGE) ∧
        (tab_obj.partition_type = .PT_LIST ∨ tab_obj.partition_type = .PT_LIST_COLUMNS →
          part_info1.part_type = .LIST) ∧
        (tab_obj.partition_type = .PT_HASH ∨ tab_obj.partition_type = .PT_KEY_51 ∨
            tab_obj.partition_type = .PT_KEY_55 ∨ tab_obj.partition_type = .PT_AUTO ∨
            tab_obj.partition_type = .PT_LINEAR_HASH ∨
            tab_obj.partition_type = .PT_LINEAR_KEY_51 ∨
            tab_obj.partition_type = .PT_LINEAR_KEY_55 ∨
            tab_obj.partition_type = .PT_AUTO_LINEAR →
          part_info1.part_type = .HASH) ∧
        (part_info1.column_list = true ↔
          tab_obj.partition_type = .PT_RANGE_COLUMNS ∨
            tab_obj.partition_type = .PT_LIST_COLUMNS) ∧
        (tab_obj.subpartition_type = .ST_NONE →
          (part_info1.linear_hash_ind = true ↔
            tab_obj.partition_type = .PT_LINEAR_HASH ∨
              tab_obj.partition_type = .PT_LINEAR_KEY_51 ∨
              tab_obj.partition_type = .PT_LINEAR_KEY_55 ∨
              tab_obj.partition_type = .PT_AUTO_LINEAR)) := by
  constructor
  · intro h
    simp only [fill_partitioning_from_dd, h, if_true]
  · intro share1 htype h
    obtain ⟨part_info, part_info1, hinfo, hshare, f1, f2, f3, _, _, _⟩ :=
      fill_partitioning_from_dd_scheme htype h
    obtain ⟨_, _, typed, subtyped, h1, h2, h3⟩ := partition_info_from_dd_ok hinfo
    obtain ⟨_, ⟨_, e1, e2⟩, e3⟩ := set_partition_expressions_partitions h3
    obtain ⟨_, ⟨_, s1, s2⟩, _, _⟩ := set_subpartition_type_partitions h2
    have g1 : part_info1.part_type = typed.part_type := by rw [f1, e1, s1]
    have g2 : part_info1.column_list = typed.column_list := by rw [f2, e2, s2]
    have g3 : tab_obj.subpartition_type = .ST_NONE →
        part_info1.linear_hash_ind = typed.linear_hash_ind := by
      intro hn
      rw [hn] at h2
      rw [f3, e3, set_subpartition_type_none h2]
    refine ⟨part_info1, hshare, ?_⟩
    cases ht : tab_obj.partition_type <;> rw [ht] at h1 <;>
      simp only [set_partition_type, Option.some.injEq, reduceCtorEq] at h1 <;>
      subst h1 <;>
      simp only [hcolumn, hlinear] at g1 g2 g3 <;>
      refine ⟨?_, ?_, ?_, ?_, ?_⟩ <;>
      first
      | (intro hx; simp only [reduceCtorEq, or_self, or_false, false_or] at hx; done)
      | (intro _; exact g1)
      | (rw [g2]; simp)
      | (intro hn; rw [g3 hn]; simp)

/-- C24, on `example_range_table`: the scheme RANGE gives the method RANGE with
both `column_list` and `linear_hash_ind` clear. -/
theorem partition_scheme_mapped_witness :
    ∃ share1 part_info1,
      fill_partitioning_from_dd example_partition_env {} example_range_table = .ok share1 ∧
      share1.m_part_info = some part_info1 ∧ part_info1.part_type = .RANGE ∧
      part_info1.column_list = false ∧ part_info1.linear_hash_ind = false := by
  have hfill : fill_partitioning_from_dd example_partition_env {} example_range_table =
      .ok (match fill_partitioning_from_dd example_partition_env {} example_range_table with
        | .ok share1 => share1
        | .error _ => {}) := by rfl
  obtain ⟨part_info1, hs, a, _, _, d, e⟩ :=
    (partition_scheme_mapped example_partition_env {} example_range_table rfl rfl).2 _
      (by decide) hfill
  refine ⟨_, part_info1, hfill, hs, a (Or.inl rfl), ?_, ?_⟩
  · cases hc : part_info1.column_list
    · rfl
    · exact absurd (d.mp hc) (by decide)
  · cases hc : part_info1.linear_hash_ind
    · rfl
    · exact absurd ((e rfl).mp hc) (by decide)


/-- The loop of `set_field_list`: when it succeeds, the list has grown by the
field names that the successive calls of `dd::eat_str` have taken from the
text, in the order of the calls, and nothing of the text is left. -/
theorem set_field_list_loop_names (penv : Partition_env) :
    ∀ (fuel : Nat) (it : List Char) (field_list out : List String),
      set_field_list_loop penv fuel it field_list = some out →
      ∃ names, out = field_list ++ names ∧ eaten_names penv it names := by
  intro fuel
  induction fuel with
  | zero =>
    intro it field_list out h
    cases it with
    | nil =>
      simp only [set_field_list_loop, List.isEmpty_nil, if_true, Option.some.injEq] at h
      exact ⟨[], by rw [← h, List.append_nil], eaten_names.done⟩
    | cons a rest =>
      simp [set_field_list_loop] at h
  | succ fuel ih =>
    intro it field_list out h
    cases it with
    | nil =>
      simp only [set_field_list_loop, List.isEmpty_nil, if_true, Option.some.injEq] at h
      exact ⟨[], by rw [← h, List.append_nil], eaten_names.done⟩
    | cons a rest =>
      rw [set_field_list_loop] at h
      simp only [List.isEmpty_cons, Bool.false_eq_true, if_false] at h
      cases heat : penv.eat_str (a :: rest) with
      | none =>
        rw [heat] at h
        exact absurd h (by simp)
      | some r =>
        obtain ⟨field_name, it1⟩ := r
        rw [heat] at h
        simp only at h
        by_cases h1 : penv.alloc_root_fails = true
        · rw [if_pos h1] at h
          exact absurd h (by simp)
        · rw [if_neg h1] at h
          by_cases h2 : penv.push_back_fails = true
          · rw [if_pos h2] at h
            exact absurd h (by simp)
          · rw [if_neg h2] at h
            obtain ⟨names, e1, e2⟩ := ih it1 _ out h
            refine ⟨field_name :: names, ?_, ?_⟩
            · rw [e1, List.append_assoc]
              rfl
            · exact eaten_names.next _ it1 field_name names (by simp) heat e2

/-- With a `dd::eat_str` that splits at the separator, the field names taken
from a text do not contain the separator, and written one after the other,
each followed by the separator, they give back the text (with a separator
added at its end if it does not end with one). -/
theorem eaten_names_split (penv : Partition_env) (sep : Char)
    (hsplit : eat_str_splits_at penv sep) (it : List Char) (names : List String)
    (h : eaten_names penv it names) :
    (∀ field_name ∈ names, sep ∉ field_name.toList) ∧
      (names_with_separator sep names = it ∨
        names_with_separator sep names = it ++ [sep]) := by
  induction h with
  | done =>
    exact ⟨fun _ hn => absurd hn (by simp), Or.inl rfl⟩
  | next it it1 field_name names hne heat hrest ih =>
    rw [hsplit it] at heat
    simp only [Option.some.injEq, Prod.mk.injEq] at heat
    obtain ⟨hname, hit1⟩ := heat
    have hsum : it.takeWhile (fun c => c != sep) ++ it.dropWhile (fun c => c != sep) = it :=
      List.takeWhile_append_dropWhile _ _
    have htl : field_name.toList = it.takeWhile (fun c => c != sep) := by
      rw [← hname]
      rfl
    constructor
    · intro n hn
      rcases List.mem_cons.mp hn with e | e
      · subst e
        rw [htl]
        intro hmem
        have := List.mem_takeWhile_imp hmem
        simp at this
      · exact ih.1 n e
    · show field_name.toList ++ sep :: names_with_separator sep names = it ∨
        field_name.toList ++ sep :: names_with_separator sep names = it ++ [sep]
      rw [htl]
      cases hd : it.dropWhile (fun c => c != sep) with
      | nil =>
        rw [hd] at hsum hit1
        simp only [List.drop_nil] at hit1
        subst hit1
        have hnil : names = [] := by
          cases hrest with
          | done => rfl
          | next _ _ _ _ hne1 _ _ => exact absurd rfl hne1
        rw [List.append_nil] at hsum
        right
        rw [hsum, hnil]
        rfl
      | cons c rest =>
        have hc : c = sep := by
          have hhead := List.head_dropWhile_not (fun c => c != sep) it (by rw [hd]; simp)
          simp only [hd, List.head_cons] at hhead
          simpa using hhead
        subst hc
        rw [hd] at hsum hit1
        simp only [List.drop_succ_cons, List.drop_zero] at hit1
        subst hit1
        rcases ih.2 with e | e
        · left
          rw [e]
          exact hsum
        · right
          have h2 : (it.takeWhile (fun x => x != c) ++ c :: rest) ++ [c] = it ++ [c] := by
            rw [hsum]
          rw [e, ← h2]
          simp

/-- C25: when `fill_partitioning_from_dd` succeeds on a partitioned table, the
partition expression is stored as follows. For RANGE_COLUMNS, LIST_COLUMNS, the
KEY schemes and the AUTO schemes, `part_field_list` is the list that
`set_field_list` builds from the text: the field names that the successive
calls of `dd::eat_str` take from it, in that order, until the text is used up
(so that, with a `dd::eat_str` that splits at a separator, the names are free of
the separator and, written one after the other with the separator, give back
the text); `part_func_string` is NULL and `part_func_len` is 0. For every other
scheme `part_field_list` is empty, `part_func_string` is the text and
`part_func_len` is its length in bytes. The object that `new partition_info`
builds has an empty field list and `list_of_part_fields` clear. -/
theorem partition_expression_stored (penv : Partition_env) (share share1 : TABLE_SHARE)
    (tab_obj : Table)
    (hfields : penv.new_partition_info.list_of_part_fields = false)
    (hempty : penv.new_partition_info.part_field_list = [])
    (htype : tab_obj.partition_type ≠ .PT_NONE)
    (h : fill_partitioning_from_dd penv share tab_obj = .ok share1) :
    ∃ part_info1, share1.m_part_info = some part_info1 ∧
      (tab_obj.partition_type ∈
          [.PT_RANGE_COLUMNS, .PT_LIST_COLUMNS, .PT_KEY_51, .PT_KEY_55, .PT_LINEAR_KEY_51,
            .PT_LINEAR_KEY_55, .PT_AUTO, .PT_AUTO_LINEAR] →
        set_field_list penv tab_obj.partition_expression [] =
          some part_info1.part_field_list ∧
        eaten_names penv tab_obj.partition_expression.toList part_info1.part_field_list ∧
        (∀ sep, eat_str_splits_at penv sep →
          (∀ field_name ∈ part_info1.part_field_list, sep ∉ field_name.toList) ∧
          (names_with_separator sep part_info1.part_field_list =
              tab_obj.partition_expression.toList ∨
            names_with_separator sep part_info1.part_field_list =
              tab_obj.partition_expression.toList ++ [sep])) ∧
        part_info1.part_func_string = none ∧ part_info1.part_func_len = 0) ∧
      (tab_obj.partition_type ∉
          [.PT_RANGE_COLUMNS, .PT_LIST_COLUMNS, .PT_KEY_51, .PT_KEY_55, .PT_LINEAR_KEY_51,
            .PT_LINEAR_KEY_55, .PT_AUTO, .PT_AUTO_LINEAR] →
        part_info1.part_field_list = [] ∧
        part_info1.part_func_string = some tab_obj.partition_expression ∧
        part_info1.part_func_len = tab_obj.partition_expression.utf8ByteSize) := by
  obtain ⟨part_info, part_info1, hinfo, hshare, _, _, _, f4, f5, f6⟩ :=
    fill_partitioning_from_dd_scheme htype h
  obtain ⟨halloc, _, typed, subtyped, h1, h2, h3⟩ := partition_info_from_dd_ok hinfo
  obtain ⟨_, _, s3, s4⟩ := set_subpartition_type_partitions h2
  obtain ⟨e1, e2⟩ := set_partition_expressions_part h3
  rw [s3, s4] at e1 e2
  rw [← f4, ← f5, ← f6] at e1 e2
  have hdup : strdup_root penv tab_obj.partition_expression =
      some tab_obj.partition_expression := by
    simp only [strdup_root, halloc, Bool.false_eq_true, if_false]
  rw [hdup] at e2
  have hlist : ∀ field_list,
      set_field_list penv tab_obj.partition_expression [] = some field_list →
      eaten_names penv tab_obj.partition_expression.toList field_list ∧
      ∀ sep, eat_str_splits_at penv sep →
        (∀ field_name ∈ field_list, sep ∉ field_name.toList) ∧
        (names_with_separator sep field_list = tab_obj.partition_expression.toList ∨
          names_with_separator sep field_list =
            tab_obj.partition_expression.toList ++ [sep]) := by
    intro field_list hs
    unfold set_field_list at hs
    obtain ⟨names, n1, n2⟩ := set_field_list_loop_names penv _ _ _ _ hs
    rw [List.nil_append] at n1
    subst n1
    exact ⟨n2, fun sep hsep => eaten_names_split penv sep hsep _ _ n2⟩
  refine ⟨part_info1, hshare, ?_⟩
  cases ht : tab_obj.partition_type <;> rw [ht] at h1 <;>
    simp only [set_partition_type, Option.some.injEq, reduceCtorEq] at h1 <;>
    subst h1 <;>
    refine ⟨?_, ?_⟩ <;>
    first
    | (intro hx; exact absurd hx (by decide))
    | (intro _
       have hset : set_field_list penv tab_obj.partition_expression [] =
           some part_info1.part_field_list := by
         rw [← hempty]
         exact (e1 rfl).1
       exact ⟨hset, (hlist _ hset).1, (hlist _ hset).2, (e1 rfl).2⟩)
    | (intro _; exact ⟨(e2 hfields).1.trans hempty, (e2 hfields).2⟩)

/-- C25, on `example_key_table`, partitioned by KEY over the text `a;b`, with
`dd::eat_str` splitting at `;`: the field list is `a`, `b`, and no expression
text is kept. -/
theorem partition_expression_stored_witness :
    ∃ share1 part_info1,
      fill_partitioning_from_dd example_field_env {} example_key_table = .ok share1 ∧
      share1.m_part_info = some part_info1 ∧
      part_info1.part_field_list = ["a", "b"] ∧
      part_info1.part_func_string = none ∧ part_info1.part_func_len = 0 := by
  have hfill : fill_partitioning_from_dd example_field_env {} example_key_table =
      .ok (match fill_partitioning_from_dd example_field_env {} example_key_table with
        | .ok share1 => share1
        | .error _ => {}) := by rfl
  obtain ⟨part_info1, hs, a, _⟩ :=
    partition_expression_stored example_field_env _ _ example_key_table rfl rfl (by decide) hfill
  obtain ⟨a1, _, _, a2, a3⟩ := a (by decide)
  have hlist : set_field_list example_field_env example_key_table.partition_expression [] =
      some ["a", "b"] := by rfl
  rw [hlist] at a1
  exact ⟨_, part_info1, hfill, hs, (Option.some.inj a1).symm, a2, a3⟩


/-! ## A table partitioned by RANGE with two partitions -/

/-- The storing of the expressions succeeds when neither expression is a list
of fields and the allocations succeed. -/
theorem set_partition_expressions_plain (penv : Partition_env) (tab_obj : Table)
    (part_info : partition_info)
    (hpf : part_info.list_of_part_fields = false)
    (hsf : part_info.list_of_subpart_fields = false) :
    (set_partition_expressions penv tab_obj part_info).isSome = true := by
  unfold set_partition_expressions
  simp only [hpf, hsf, Bool.false_eq_true, if_false]
  split_ifs <;> rfl

/-- The head of `fill_partitioning_from_dd` for a table partitioned by RANGE
without subpartitioning: it succeeds when the allocation succeeds and the
engine is known, with the method RANGE. -/
theorem partition_info_from_dd_range (penv : Partition_env) (tab_obj : Table)
    (halloc : penv.alloc_root_fails = false)
    (hengine : penv.plugin_data tab_obj.engine ≠ 0)
    (htype : tab_obj.partition_type = .PT_RANGE)
    (hsub : tab_obj.subpartition_type = .ST_NONE)
    (hpf : penv.new_partition_info.list_of_part_fields = false)
    (hsf : penv.new_partition_info.list_of_subpart_fields = false) :
    ∃ part_info, partition_info_from_dd penv tab_obj = .ok part_info ∧
      part_info.part_type = .RANGE ∧
      part_info.column_list = penv.new_partition_info.column_list := by
  have hexpr := set_partition_expressions_plain penv tab_obj
    { penv.new_partition_info with
      default_engine_type := penv.plugin_data tab_obj.engine
      part_type := .RANGE
      subpart_type := .NONE } hpf hsf
  obtain ⟨part_info, hp⟩ := Option.isSome_iff_exists.mp hexpr
  have hinfo : partition_info_from_dd penv tab_obj = .ok part_info := by
    simp only [partition_info_from_dd, halloc, hengine, htype, hsub, set_partition_type,
      set_subpartition_type, hp, Bool.false_eq_true, if_false]
  obtain ⟨_, ⟨_, e1, e2⟩, _⟩ := set_partition_expressions_partitions hp
  exact ⟨part_info, hinfo, e1, e2⟩

/-- The element that `setup_partition_from_dd` builds for a partition of a table
partitioned by RANGE over an expression, from the first value entry of the
partition: `max_value` is set for an entry flagged so; for another entry whose
text does not start with a minus sign, the number that `to_uint64` reads is
stored with `signed_flag` clear. -/
theorem compiled_partition_range (penv : Partition_env) (part_info : partition_info)
    (part_obj : Partition) (part_value : Partition_value) (rest : List Partition_value)
    (halloc : penv.alloc_root_fails = false)
    (hts : (penv.get_tablespace_name part_obj).isSome = true)
    (htype : part_info.part_type = .RANGE) (hcol : part_info.column_list = false)
    (hlevel : part_obj.level = 0)
    (hvalues : part_obj.values = part_value :: rest) :
    (part_value.max_value = true →
      (setup_partition_from_dd penv part_info penv.new_partition_element part_obj
        (decide (part_obj.level ≠ 0))).isSome = true ∧
      (compiled_partition penv part_info part_obj).partition_name = some part_obj.name ∧
      (compiled_partition penv part_info part_obj).max_value = true) ∧
    (part_value.max_value = false → starts_with_minus part_value.value_utf8 = false →
      ∀ u, penv.to_uint64 part_value.value_utf8 = some u →
      (setup_partition_from_dd penv part_info penv.new_partition_element part_obj
        (decide (part_obj.level ≠ 0))).isSome = true ∧
      (compiled_partition penv part_info part_obj).partition_name = some part_obj.name ∧
      (compiled_partition penv part_info part_obj).range_value = to_longlong u ∧
      (compiled_partition penv part_info part_obj).signed_flag = false ∧
      (compiled_partition penv part_info part_obj).max_value =
        penv.new_partition_element.max_value) := by
  obtain ⟨tablespace_name, hts1⟩ := Option.isSome_iff_exists.mp hts
  have hd : decide (part_obj.level ≠ 0) = false := by simp [hlevel]
  constructor
  · intro hm
    by_cases hc : part_obj.comment.length ≠ 0 <;>
      simp [compiled_partition, hd, setup_partition_from_dd, halloc, hts1, htype, hcol, hvalues,
        hm, hc, get_partition_options]
  · intro hm hs u hu
    by_cases hc : part_obj.comment.length ≠ 0 <;>
      simp [compiled_partition, hd, setup_partition_from_dd, halloc, hts1, htype, hcol, hvalues,
        hm, hs, hu, hc, get_partition_options]

/-- C26: for a table partitioned by RANGE over an expression, without
subpartitioning, whose partition records are `p0` and `p1`, both of level 0,
`p0` with the single value entry "2000" and `p1` with a single value entry
flagged as the maximal value, `fill_partitioning_from_dd` succeeds when the
allocations succeed and the engine is known, and the `partition_info` it
stores has exactly two partitions, in that order, with the names of `p0` and
`p1`: the first with the range value 2000, unsigned and not maximal, the
second maximal; neither has subpartitions, `num_parts` is 2 and `num_subparts`
is 0. -/
theorem range_example_tree (penv : Partition_env) (share : TABLE_SHARE) (tab_obj : Table)
    (p0 p1 : Partition) (v0 v1 : Partition_value)
    (halloc : penv.alloc_root_fails = false) (hpush : penv.push_back_fails = false)
    (hengine : penv.plugin_data tab_obj.engine ≠ 0)
    (hts : ∀ p, (penv.get_tablespace_name p).isSome = true)
    (hparse : penv.to_uint64 "2000" = some 2000)
    (hgenerated : ∀ x, (penv.generate_partition_syntax x).isSome = true)
    (hnew : penv.new_partition_info.partitions = [])
    (hcolumn : penv.new_partition_info.column_list = false)
    (hpf : penv.new_partition_info.list_of_part_fields = false)
    (hsf : penv.new_partition_info.list_of_subpart_fields = false)
    (helem : penv.new_partition_element.max_value = false)
    (htype : tab_obj.partition_type = .PT_RANGE)
    (hsub : tab_obj.subpartition_type = .ST_NONE)
    (hparts : tab_obj.partitions = [p0, p1])
    (hl0 : p0.level = 0) (hl1 : p1.level = 0)
    (hv0 : p0.values = [v0]) (hv1 : p1.values = [v1])
    (h0 : v0.value_utf8 = "2000") (h0m : v0.max_value = false) (h1m : v1.max_value = true) :
    ∃ share1 part_info1 n0 n1,
      fill_partitioning_from_dd penv share tab_obj = .ok share1 ∧
      share1.m_part_info = some part_info1 ∧
      part_info1.partitions = [n0, n1] ∧
      n0.elem.partition_name = some p0.name ∧ n0.elem.range_value = 2000 ∧
      n0.elem.max_value = false ∧ n0.elem.signed_flag = false ∧
      n1.elem.partition_name = some p1.name ∧ n1.elem.max_value = true ∧
      n0.subpartitions = [] ∧ n1.subpartitions = [] ∧
      part_info1.num_parts = 2 ∧ part_info1.num_subparts = 0 := by
  obtain ⟨part_info, hinfo, htp, hcl⟩ :=
    partition_info_from_dd_range penv tab_obj halloc hengine htype hsub hpf hsf
  rw [hcolumn] at hcl
  have hpn := partition_info_from_dd_partitions hinfo
  rw [hnew] at hpn
  have hminus : starts_with_minus v0.value_utf8 = false := by
    rw [h0]
    rfl
  have hu : penv.to_uint64 v0.value_utf8 = some 2000 := by
    rw [h0]
    exact hparse
  obtain ⟨a0, a1, a2, a3, a4⟩ :=
    (compiled_partition_range penv part_info p0 v0 [] halloc (hts p0) htp hcl hl0 hv0).2
      h0m hminus 2000 hu
  obtain ⟨b0, b1, b2⟩ :=
    (compiled_partition_range penv part_info p1 v1 [] halloc (hts p1) htp hcl hl1 hv1).1 h1m
  have hlev : ∀ p ∈ [p0, p1], p.level = 0 := by
    intro p hp
    simp only [List.mem_cons, List.mem_singleton, List.not_mem_nil, or_false] at hp
    rcases hp with rfl | rfl
    · exact hl0
    · exact hl1
  have hset : ∀ p ∈ [p0, p1],
      (setup_partition_from_dd penv part_info penv.new_partition_element p
        (decide (p.level ≠ 0))).isSome = true := by
    intro p hp
    simp only [List.mem_cons, List.mem_singleton, List.not_mem_nil, or_false] at hp
    rcases hp with rfl | rfl
    · exact a0
    · exact b0
  obtain ⟨scan, c1, c2, c3, _, _, _⟩ :=
    add_partitions_level0 penv tab_obj.partitions.length part_info halloc hpush [p0, p1] []
      { part_info := part_info } hlev hset ⟨rfl, rfl, rfl⟩
  rw [List.append_nil, ← hparts] at c1
  simp only [add_partitions] at c1
  have htype1 : tab_obj.partition_type ≠ .PT_NONE := by
    rw [htype]
    decide
  obtain ⟨share1, d1, d2⟩ :=
    fill_partitioning_from_dd_ok penv share tab_obj part_info scan htype1 hinfo c1 hgenerated
  obtain ⟨e1, e2, e3⟩ := set_default_partitioning_frame (set_partition_counts scan)
    tab_obj.default_partitioning tab_obj.default_subpartitioning
  have hcur : scan.curr_part = none := c3
  have hlist : scan.part_info.partitions =
      [{ elem := compiled_partition penv part_info p0 },
        { elem := compiled_partition penv part_info p1 }] := by
    rw [c2, hpn]
    rfl
  have hcounts : (set_partition_counts scan).partitions = scan.part_info.partitions ∧
      (set_partition_counts scan).num_parts = scan.part_info.partitions.length ∧
      (set_partition_counts scan).num_subparts = 0 := by
    simp [set_partition_counts, hcur]
  refine ⟨share1, _, { elem := compiled_partition penv part_info p0 },
    { elem := compiled_partition penv part_info p1 }, d1, d2, ?_, a1, ?_, ?_, a3, b1, b2,
    rfl, rfl, ?_, ?_⟩
  · rw [e1, hcounts.1, hlist]
  · rw [a2]
    rfl
  · rw [a4, helem]
  · rw [e2, hcounts.2.1, hlist]
    rfl
  · rw [e3, hcounts.2.2]

/-- C26, on `example_range_table`, the table of the example
`p0 VALUES LESS THAN (2000)`, `p1 VALUES LESS THAN MAXVALUE`. -/
theorem range_example_tree_witness :
    ∃ share1 part_info1 n0 n1,
      fill_partitioning_from_dd example_partition_env {} example_range_table = .ok share1 ∧
      share1.m_part_info = some part_info1 ∧
      part_info1.partitions = [n0, n1] ∧
      n0.elem.partition_name = some "p0" ∧ n0.elem.range_value = 2000 ∧
      n0.elem.max_value = false ∧ n0.elem.signed_flag = false ∧
      n1.elem.partition_name = some "p1" ∧ n1.elem.max_value = true ∧
      n0.subpartitions = [] ∧ n1.subpartitions = [] ∧
      part_info1.num_parts = 2 ∧ part_info1.num_subparts = 0 :=
  range_example_tree example_partition_env {} example_range_table
    { name := "p0", level := 0, number := 0, values := [ { value_utf8 := "2000" } ] }
    { name := "p1", level := 0, number := 1, values := [ { max_value := true } ] }
    { value_utf8 := "2000" } { max_value := true }
    rfl rfl (by decide) (fun _ => rfl) rfl (fun _ => rfl) rfl rfl rfl rfl rfl rfl rfl rfl rfl rfl
    rfl rfl rfl rfl rfl


/-! ## The stages of open_table_def -/

/-- The function `fill_share_from_dd` writes to `share->table_category` only
through `prepare_default_value_buffer_and_table_share`. -/
theorem fill_share_from_dd_category {ses : Session} {env : Server} {share share1 : TABLE_SHARE}
    {tab_obj : Table}
    (hcat : ∀ t s s1, ses.prepare_default_value_buffer_and_table_share t s = some s1 →
      s1.table_category = s.table_category)
    (h : fill_share_from_dd ses env share tab_obj = some share1) :
    share1.table_category = share.table_category := by
  unfold fill_share_from_dd at h
  simp only at h
  by_cases h0 : ses.ha_resolve_by_name_raw tab_obj.engine = 0
  · rw [if_pos h0] at h
    exact absurd h (by simp)
  · rw [if_neg h0] at h
    split at h
    · exact absurd h (by simp)
    · rename_i share2 hp
      have h2 := hcat _ _ _ hp
      simp only at h2
      split at h
      · exact absurd h (by simp)
      · simp only [Option.some.injEq] at h
        subst h
        simp only
        split_ifs <;> exact h2

/-- The function `fill_column_from_dd` leaves `share->table_category` alone. -/
theorem fill_column_from_dd_category {env : Server} {share share1 : TABLE_SHARE}
    {col_obj : Column} {null_pos null_bit_pos rec_pos field_nr : Nat}
    (h : fill_column_from_dd env share col_obj null_pos null_bit_pos rec_pos field_nr =
      some share1) :
    share1.table_category = share.table_category := by
  unfold fill_column_from_dd at h
  simp only at h
  split at h
  · exact absurd h (by simp)
  · simp only [Option.some.injEq] at h
    subst h
    rfl

/-- The first loop of `fill_columns_from_dd` leaves `share->table_category`
alone. -/
theorem fill_columns_first_pass_category (env : Server) (columns : List Column) :
    ∀ (share : TABLE_SHARE) (c : column_scan) (r : TABLE_SHARE × column_scan),
      fill_columns_first_pass env columns share c = some r →
      r.1.table_category = share.table_category := by
  induction columns with
  | nil =>
    intro share c r h
    simp only [fill_columns_first_pass, Option.some.injEq] at h
    subst h
    rfl
  | cons col_obj rest ih =>
    intro share c r h
    rw [fill_columns_first_pass] at h
    split_ifs at h
    · exact ih _ _ _ h
    · split at h
      · exact absurd h (by simp)
      · rename_i share2 h2
        rw [ih _ _ _ h, fill_column_from_dd_category h2]
    · exact ih _ _ _ h

/-- The second loop of `fill_columns_from_dd` leaves `share->table_category`
alone. -/
theorem fill_columns_second_pass_category (env : Server) (columns : List Column) :
    ∀ (share : TABLE_SHARE) (c : column_scan) (r : TABLE_SHARE × column_scan),
      fill_columns_second_pass env columns share c = some r →
      r.1.table_category = share.table_category := by
  induction columns with
  | nil =>
    intro share c r h
    simp only [fill_columns_second_pass, Option.some.injEq] at h
    subst h
    rfl
  | cons col_obj rest ih =>
    intro share c r h
    rw [fill_columns_second_pass] at h
    split_ifs at h
    · exact ih _ _ _ h
    · split at h
      · exact absurd h (by simp)
      · rename_i share2 h2
        rw [ih _ _ _ h, fill_column_from_dd_category h2]
    · exact ih _ _ _ h

/-- The function `fill_columns_from_dd` leaves `share->table_category` alone. -/
theorem fill_columns_from_dd_category {env : Server} {share share1 : TABLE_SHARE}
    {tab_obj : Table} (h : fill_columns_from_dd env share tab_obj = some share1) :
    share1.table_category = share.table_category := by
  unfold fill_columns_from_dd at h
  cases hs : fill_columns_scan env share tab_obj with
  | none =>
    rw [hs] at h
    exact absurd h (by simp)
  | some r =>
    rw [hs] at h
    simp only [Option.map_some', Option.some.injEq] at h
    subst h
    unfold fill_columns_scan at hs
    simp only at hs
    split at hs
    · exact absurd hs (by simp)
    · rename_i share2 c1 h1
      have e1 := fill_columns_first_pass_category env _ _ _ _ h1
      simp only at e1
      split_ifs at hs
      · rw [fill_columns_second_pass_category env _ _ _ _ hs]
        exact e1
      · rw [fill_columns_second_pass_category env _ _ _ _ hs]
        exact e1
      · simp only [Option.some.injEq] at hs
        subst hs
        exact e1

/-- The sizing loop of `fill_indexes_from_dd` leaves `share->table_category`
alone. -/
theorem count_indexes_category (indexes : List Index) :
    ∀ (share : TABLE_SHARE) (primary_key_parts : Nat),
      (count_indexes indexes (share, primary_key_parts)).1.table_category =
        share.table_category := by
  induction indexes with
  | nil =>
    intro share primary_key_parts
    rfl
  | cons idx_obj rest ih =>
    intro share primary_key_parts
    rw [count_indexes]
    by_cases hh : idx_obj.is_hidden = true
    · simp only [hh, if_true]
      exact ih _ _
    · have hf : idx_obj.is_hidden = false := by simpa using hh
      simp only [hf, Bool.false_eq_true, if_false]
      rw [ih]

/-- The function `fill_index_from_dd` leaves `share->table_category` alone. -/
theorem fill_index_from_dd_category {env : Server} {share share1 : TABLE_SHARE}
    {idx_obj : Index} {key_nr : Nat}
    (h : fill_index_from_dd env share idx_obj key_nr = some share1) :
    share1.table_category = share.table_category := by
  unfold fill_index_from_dd at h
  simp only at h
  split at h
  · exact absurd h (by simp)
  · simp only [Option.some.injEq] at h
    subst h
    rfl

/-- The first filling loop of `fill_indexes_from_dd` leaves
`share->table_category` alone. -/
theorem fill_keys_scan_category (env : Server) (indexes : List Index) :
    ∀ (key_nr : Nat) (share : TABLE_SHARE) (index_at_pos : List Index)
      (r : TABLE_SHARE × List Index),
      fill_keys_scan env indexes key_nr (share, index_at_pos) = some r →
      r.1.table_category = share.table_category := by
  induction indexes with
  | nil =>
    intro key_nr share index_at_pos r h
    simp only [fill_keys_scan, Option.some.injEq] at h
    subst h
    rfl
  | cons idx_obj rest ih =>
    intro key_nr share index_at_pos r h
    rw [fill_keys_scan] at h
    by_cases hh : idx_obj.is_hidden = true
    · simp only [hh, if_true] at h
      exact ih _ _ _ _ h
    · have hf : idx_obj.is_hidden = false := by simpa using hh
      simp only [hf, Bool.false_eq_true, if_false] at h
      cases hfi : fill_index_from_dd env share idx_obj key_nr with
      | none =>
        rw [hfi] at h
        exact absurd h (by simp)
      | some share2 =>
        rw [hfi] at h
        simp only at h
        rw [ih _ _ _ _ h]
        have e := fill_index_from_dd_category hfi
        split_ifs <;> exact e

/-- The loop of `fill_index_elements_from_dd` leaves `share->table_category`
alone. -/
theorem fill_index_elements_scan_category (key_nr : Nat) (elements : List Index_element) :
    ∀ (i : Nat) (share share1 : TABLE_SHARE),
      fill_index_elements_scan key_nr elements i share = some share1 →
      share1.table_category = share.table_category := by
  induction elements with
  | nil =>
    intro i share share1 h
    simp only [fill_index_elements_scan, Option.some.injEq] at h
    subst h
    rfl
  | cons idx_elem_obj rest ih =>
    intro i share share1 h
    rw [fill_index_elements_scan] at h
    split at h
    · exact ih _ _ _ h
    · simp only at h
      split at h
      · exact absurd h (by simp)
      · rw [ih _ _ _ h]

/-- One turn of the `do ... while` loop of `fill_indexes_from_dd` leaves
`share->table_category` alone. -/
theorem fill_key_parts_category {use_extended_sk : Bool} {primary_key_parts : Nat}
    {index_at_pos : List Index} {share share1 : TABLE_SHARE} {key_nr : Nat}
    (h : fill_key_parts use_extended_sk primary_key_parts index_at_pos share key_nr =
      some share1) :
    share1.table_category = share.table_category := by
  unfold fill_key_parts at h
  simp only at h
  split at h
  · exact absurd h (by simp)
  · rename_i share2 h2
    have e := fill_index_elements_scan_category _ _ _ _ _ h2
    simp only [Option.some.injEq] at h
    subst h
    split_ifs <;> exact e

/-- A loop that stops at the first failure keeps what each of its turns
keeps. -/
theorem foldl_bind_frame {α β γ : Type} (g : α → γ) (step : α → β → Option α)
    (hstep : ∀ a b a1, step a b = some a1 → g a1 = g a) :
    ∀ (l : List β) (a a1 : α),
      l.foldl (fun st b => st.bind (fun x => step x b)) (some a) = some a1 → g a1 = g a := by
  have hnone : ∀ (l : List β),
      l.foldl (fun st b => st.bind (fun x => step x b)) (none : Option α) = none := by
    intro l
    induction l with
    | nil => rfl
    | cons b l ih => simpa using ih
  intro l
  induction l with
  | nil =>
    intro a a1 h
    simp only [List.foldl_nil, Option.some.injEq] at h
    subst h
    rfl
  | cons b l ih =>
    intro a a1 h
    simp only [List.foldl_cons, Option.some_bind] at h
    cases hs : step a b with
    | none =>
      rw [hs, hnone] at h
      exact absurd h (by simp)
    | some a2 =>
      rw [hs] at h
      rw [ih a2 a1 h, hstep a b a2 hs]

/-- The function `fill_indexes_from_dd` leaves `share->table_category` alone. -/
theorem fill_indexes_from_dd_category {env : Server} {eng : Engine} {share share1 : TABLE_SHARE}
    {tab_obj : Table} (h : fill_indexes_from_dd env eng share tab_obj = some share1) :
    share1.table_category = share.table_category := by
  have hc := count_indexes_category tab_obj.indexes share 0
  unfold fill_indexes_from_dd at h
  simp only at h
  split_ifs at h
  · split at h
    · exact absurd h (by simp)
    · rename_i share2 index_at_pos h2
      have e2 := fill_keys_scan_category env _ _ _ _ _ h2
      simp only at e2
      unfold fill_keys_parts at h
      rw [foldl_bind_frame (fun (s : TABLE_SHARE) => s.table_category) _
        (fun a b a1 hs => fill_key_parts_category hs) _ _ _ h, e2, hc]
  · simp only [Option.some.injEq] at h
    subst h
    exact hc

/-- The function `fill_partitioning_from_dd` leaves `share->table_category`
alone. -/
theorem fill_partitioning_from_dd_category {penv : Partition_env} {share share1 : TABLE_SHARE}
    {tab_obj : Table} (h : fill_partitioning_from_dd penv share tab_obj = .ok share1) :
    share1.table_category = share.table_category := by
  by_cases h0 : tab_obj.partition_type = .PT_NONE
  · simp only [fill_partitioning_from_dd, h0, if_true, Except.ok.injEq] at h
    subst h
    rfl
  · cases hinfo : partition_info_from_dd penv tab_obj with
    | error e =>
      simp only [fill_partitioning_from_dd, h0, hinfo, if_false] at h
      exact absurd h (by simp)
    | ok part_info =>
      cases hscan : add_partitions penv tab_obj.partitions.length tab_obj.partitions
          { part_info := part_info } with
      | error e =>
        simp only [fill_partitioning_from_dd, h0, hinfo, hscan, if_false] at h
        exact absurd h (by simp)
      | ok scan =>
        simp only [fill_partitioning_from_dd, h0, hinfo, hscan, if_false] at h
        split at h
        · exact absurd h (by simp)
        · split_ifs at h <;>
            (simp only [Except.ok.injEq] at h
             subst h
             rfl)

/-- C27: `open_table_def` on a table definition. With `share0` the share after
`share->blob_fields= 0`, the stages are called in the order
`fill_share_from_dd`, `fill_columns_from_dd`, `fill_indexes_from_dd`,
`fill_partitioning_from_dd`, `prepare_share`, each on the share that the stage
before it left. When a stage fails, the function returns `true`, the stages
called are those up to the failing one, and the counter of opened shares and
the table category are as they were; when all five succeed, it returns `false`,
the counter is one more and the table category is set. A
`fill_partitioning_from_dd` that meets undefined behaviour gives no result.
The function `prepare_default_value_buffer_and_table_share` does not write the
table category. -/
theorem open_table_def_stage_order (ses : Session) (env : Server) (eng : Engine)
    (penv : Partition_env) (opened_shares : Nat) (share : TABLE_SHARE) (open_view : Bool)
    (table_def : Table)
    (hcat : ∀ t s s1, ses.prepare_default_value_buffer_and_table_share t s = some s1 →
      s1.table_category = s.table_category) :
    (fill_share_from_dd ses env { share with blob_fields := 0 } table_def = none →
      ∃ r, open_table_def ses env eng penv opened_shares share open_view (some table_def) =
          some r ∧
        r.error = true ∧ r.calls = [.fill_share_from_dd] ∧
        r.opened_shares = opened_shares ∧ r.share.table_category = share.table_category) ∧
    ∀ share1, fill_share_from_dd ses env { share with blob_fields := 0 } table_def =
        some share1 →
      (fill_columns_from_dd env share1 table_def = none →
        ∃ r, open_table_def ses env eng penv opened_shares share open_view (some table_def) =
            some r ∧
          r.error = true ∧ r.calls = [.fill_share_from_dd, .fill_columns_from_dd] ∧
          r.opened_shares = opened_shares ∧
          r.share.table_category = share.table_category) ∧
      ∀ share2, fill_columns_from_dd env share1 table_def = some share2 →
        (fill_indexes_from_dd env eng share2 table_def = none →
          ∃ r, open_table_def ses env eng penv opened_shares share open_view (some table_def) =
              some r ∧
            r.error = true ∧
            r.calls = [.fill_share_from_dd, .fill_columns_from_dd, .fill_indexes_from_dd] ∧
            r.opened_shares = opened_shares ∧
            r.share.table_category = share.table_category) ∧
        ∀ share3, fill_indexes_from_dd env eng share2 table_def = some share3 →
          (fill_partitioning_from_dd penv share3 table_def = .error .returns_true →
            ∃ r, open_table_def ses env eng penv opened_shares share open_view
                (some table_def) = some r ∧
              r.error = true ∧
              r.calls = [.fill_share_from_dd, .fill_columns_from_dd, .fill_indexes_from_dd,
                .fill_partitioning_from_dd] ∧
              r.opened_shares = opened_shares ∧
              r.share.table_category = share.table_category) ∧
          (fill_partitioning_from_dd penv share3 table_def = .error .undefined_behaviour →
            open_table_def ses env eng penv opened_shares share open_view (some table_def) =
              none) ∧
          ∀ share4, fill_partitioning_from_dd penv share3 table_def = .ok share4 →
            (prepare_share eng share4 = none →
              ∃ r, open_table_def ses env eng penv opened_shares share open_view
                  (some table_def) = some r ∧
                r.error = true ∧
                r.calls = [.fill_share_from_dd, .fill_columns_from_dd, .fill_indexes_from_dd,
                  .fill_partitioning_from_dd, .prepare_share] ∧
                r.opened_shares = opened_shares ∧
                r.share.table_category = share.table_category) ∧
            ∀ share5, prepare_share eng share4 = some share5 →
              ∃ r, open_table_def ses env eng penv opened_shares share open_view
                  (some table_def) = some r ∧
                r.error = false ∧
                r.calls = [.fill_share_from_dd, .fill_columns_from_dd, .fill_indexes_from_dd,
                  .fill_partitioning_from_dd, .prepare_share] ∧
                r.opened_shares = opened_shares + 1 ∧
                r.share = { share5 with table_category := ses.get_table_category } := by
  refine ⟨?_, ?_⟩
  · intro h1
    refine ⟨⟨true, { share with blob_fields := 0 }, opened_shares,
      [.fill_share_from_dd]⟩, ?_, rfl, rfl, rfl, rfl⟩
    simp only [open_table_def, open_table_def_stages, h1]
  · intro share1 h1
    have c1 : share1.table_category = share.table_category :=
      @fill_share_from_dd_category ses env { share with blob_fields := 0 } share1 table_def
        hcat h1
    refine ⟨?_, ?_⟩
    · intro h2
      refine ⟨⟨true, share1, opened_shares,
      [.fill_share_from_dd, .fill_columns_from_dd]⟩, ?_, rfl, rfl, rfl, c1⟩
      simp only [open_table_def, open_table_def_stages, h1, h2]
    · intro share2 h2
      have c2 : share2.table_category = share.table_category :=
        (fill_columns_from_dd_category h2).trans c1
      refine ⟨?_, ?_⟩
      · intro h3
        refine ⟨⟨true, share2, opened_shares,
      [.fill_share_from_dd, .fill_columns_from_dd, .fill_indexes_from_dd]⟩, ?_, rfl, rfl, rfl, c2⟩
        simp only [open_table_def, open_table_def_stages, h1, h2, h3]
      · intro share3 h3
        have c3 : share3.table_category = share.table_category :=
          (fill_indexes_from_dd_category h3).trans c2
        refine ⟨?_, ?_, ?_⟩
        · intro h4
          refine ⟨⟨true, share3, opened_shares,
      [.fill_share_from_dd, .fill_columns_from_dd, .fill_indexes_from_dd, .fill_partitioning_from_dd]⟩, ?_, rfl, rfl, rfl, c3⟩
          simp only [open_table_def, open_table_def_stages, h1, h2, h3, h4]
        · intro h4
          simp only [open_table_def, open_table_def_stages, h1, h2, h3, h4]
        · intro share4 h4
          have c4 : share4.table_category = share.table_category :=
            (fill_partitioning_from_dd_category h4).trans c3
          refine ⟨?_, ?_⟩
          · intro h5
            refine ⟨⟨true, share4, opened_shares,
      [.fill_share_from_dd, .fill_columns_from_dd, .fill_indexes_from_dd, .fill_partitioning_from_dd, .prepare_share]⟩, ?_, rfl, rfl, rfl, c4⟩
            simp only [open_table_def, open_table_def_stages, h1, h2, h3, h4, h5]
          · intro share5 h5
            refine ⟨⟨false, { share5 with table_category := ses.get_table_category }, opened_shares + 1,
      [.fill_share_from_dd, .fill_columns_from_dd, .fill_indexes_from_dd, .fill_partitioning_from_dd, .prepare_share]⟩, ?_, rfl, rfl, rfl, rfl⟩
            simp only [open_table_def, open_table_def_stages, h1, h2, h3, h4, h5]

/-- C27, on `example_bad_collation_table`, whose second column has a collation
that does not resolve: `fill_share_from_dd` and `fill_columns_from_dd` are
called, the second fails, `open_table_def` returns `true`, and the counter of
opened shares and the table category stay. -/
theorem open_table_def_stage_order_witness :
    ∃ r, open_table_def {} example_server {} {} 7 {} false (some example_bad_collation_table) =
        some r ∧
      r.error = true ∧ r.calls = [.fill_share_from_dd, .fill_columns_from_dd] ∧
      r.opened_shares = 7 ∧ r.share.table_category = 0 :=
  ((open_table_def_stage_order {} example_server {} {} 7 {} false example_bad_collation_table
    (fun _ _ _ h => by
      simp only [Option.some.injEq] at h
      rw [← h])).2
    ((fill_share_from_dd {} example_server { ({} : TABLE_SHARE) with blob_fields := 0 }
      example_bad_collation_table).getD {}) (by rfl)).1 (by rfl)


/-! ## The table options of fill_share_from_dd -/

/-- What a successful `fill_share_from_dd` has done: the engine is known, and
the members written before the call of
`prepare_default_value_buffer_and_table_share`, which that function leaves
alone, hold the option bits, the row type and the character set of the
table. -/
theorem fill_share_from_dd_written {ses : Session} {env : Server} {share share1 : TABLE_SHARE}
    {tab_obj : Table}
    (hkeep : ∀ t s s1, ses.prepare_default_value_buffer_and_table_share t s = some s1 →
      s1.db_create_options = s.db_create_options ∧
      s1.db_options_in_use = s.db_options_in_use ∧ s1.row_type = s.row_type ∧
      s1.table_charset = s.table_charset)
    (h : fill_share_from_dd ses env share tab_obj = some share1) :
    ses.ha_resolve_by_name_raw tab_obj.engine ≠ 0 ∧
    share1.db_create_options = table_create_options ses tab_obj.options ∧
    share1.db_options_in_use = table_create_options ses tab_obj.options ∧
    share1.row_type =
      (match tab_obj.options.row_type with
      | some option_value => dd_get_old_row_format (ses.row_format_of_option option_value)
      | none => .ROW_TYPE_DEFAULT) ∧
    share1.table_charset =
      (match env.dd_get_mysql_charset tab_obj.collation_id with
      | some charset => some charset
      | none => some ses.default_charset_info) := by
  unfold fill_share_from_dd at h
  simp only at h
  by_cases h0 : ses.ha_resolve_by_name_raw tab_obj.engine = 0
  · rw [if_pos h0] at h
    exact absurd h (by simp)
  · rw [if_neg h0] at h
    split at h
    · exact absurd h (by simp)
    · rename_i share2 hp
      obtain ⟨k1, k2, k3, k4⟩ := hkeep _ _ _ hp
      simp only at k1 k2 k3 k4
      split at h
      · exact absurd h (by simp)
      · simp only [Option.some.injEq] at h
        subst h
        simp only
        refine ⟨h0, ?_, ?_, ?_, ?_⟩
        · split_ifs <;> exact k1
        · split_ifs <;> exact k2
        · split_ifs <;> exact k3
        · split_ifs <;> exact k4

/-- The function `dd_get_old_row_format` never answers `ROW_TYPE_DEFAULT`. -/
theorem dd_get_old_row_format_ne_default (row_format : enum_row_format) :
    dd_get_old_row_format row_format ≠ .ROW_TYPE_DEFAULT := by
  cases row_format <;> simp [dd_get_old_row_format]

/-- The bits of `table_create_options`, one by one. -/
theorem table_create_options_bits (ses : Session) (table_options : Table_options) :
    table_create_options ses table_options =
      (if table_options.pack_record.getD ses.bool_opt then HA_OPTION_PACK_RECORD else 0) +
      (match table_options.pack_keys with
        | some true => HA_OPTION_PACK_KEYS
        | some false => HA_OPTION_NO_PACK_KEYS
        | none => 0) +
      (if table_options.checksum = some true then HA_OPTION_CHECKSUM else 0) +
      (if table_options.delay_key_write = some true then HA_OPTION_DELAY_KEY_WRITE else 0) +
      (match table_options.stats_persistent with
        | some true => HA_OPTION_STATS_PERSISTENT
        | some false => HA_OPTION_NO_STATS_PERSISTENT
        | none => 0) := by
  unfold table_create_options
  cases table_options.pack_record.getD ses.bool_opt <;>
    rcases table_options.pack_keys with _ | _ | _ <;>
    rcases table_options.checksum with _ | _ | _ <;>
    rcases table_options.delay_key_write with _ | _ | _ <;>
    rcases table_options.stats_persistent with _ | _ | _ <;>
    decide

/-- The bits of `table_create_options`: no other bit than the seven option
bits, and each of them as its option tells. -/
theorem table_create_options_spec (ses : Session) (table_options : Table_options) :
    table_create_options ses table_options |||
        (HA_OPTION_PACK_RECORD ||| HA_OPTION_PACK_KEYS ||| HA_OPTION_NO_PACK_KEYS |||
          HA_OPTION_CHECKSUM ||| HA_OPTION_DELAY_KEY_WRITE ||| HA_OPTION_STATS_PERSISTENT |||
          HA_OPTION_NO_STATS_PERSISTENT) =
      HA_OPTION_PACK_RECORD ||| HA_OPTION_PACK_KEYS ||| HA_OPTION_NO_PACK_KEYS |||
        HA_OPTION_CHECKSUM ||| HA_OPTION_DELAY_KEY_WRITE ||| HA_OPTION_STATS_PERSISTENT |||
        HA_OPTION_NO_STATS_PERSISTENT ∧
    (table_create_options ses table_options &&& HA_OPTION_PACK_RECORD ≠ 0 ↔
      table_options.pack_record.getD ses.bool_opt = true) ∧
    (table_create_options ses table_options &&& HA_OPTION_PACK_KEYS ≠ 0 ↔
      table_options.pack_keys = some true) ∧
    (table_create_options ses table_options &&& HA_OPTION_NO_PACK_KEYS ≠ 0 ↔
      table_options.pack_keys = some false) ∧
    (table_create_options ses table_options &&& HA_OPTION_CHECKSUM ≠ 0 ↔
      table_options.checksum = some true) ∧
    (table_create_options ses table_options &&& HA_OPTION_DELAY_KEY_WRITE ≠ 0 ↔
      table_options.delay_key_write = some true) ∧
    (table_create_options ses table_options &&& HA_OPTION_STATS_PERSISTENT ≠ 0 ↔
      table_options.stats_persistent = some true) ∧
    (table_create_options ses table_options &&& HA_OPTION_NO_STATS_PERSISTENT ≠ 0 ↔
      table_options.stats_persistent = some false) := by
  rw [table_create_options_bits]
  cases table_options.pack_record.getD ses.bool_opt <;>
    rcases table_options.pack_keys with _ | _ | _ <;>
    rcases table_options.checksum with _ | _ | _ <;>
    rcases table_options.delay_key_write with _ | _ | _ <;>
    rcases table_options.stats_persistent with _ | _ | _ <;>
    decide

/-- C39: after a successful `fill_share_from_dd`, `share->db_create_options`
has no other bit than `HA_OPTION_PACK_RECORD`, `HA_OPTION_PACK_KEYS`,
`HA_OPTION_NO_PACK_KEYS`, `HA_OPTION_CHECKSUM`, `HA_OPTION_DELAY_KEY_WRITE`,
`HA_OPTION_STATS_PERSISTENT` and `HA_OPTION_NO_STATS_PERSISTENT`, each set as
its option tells (`pack_record` is read without a test that it exists, so for
an absent `pack_record` the bit follows the local `bool_opt`);
`HA_OPTION_PACK_KEYS` and `HA_OPTION_NO_PACK_KEYS` are never both set, and one
of them is set exactly when the option `pack_keys` exists; likewise for
`stats_persistent`; `db_options_in_use` equals `db_create_options`; and
`row_type` is `ROW_TYPE_DEFAULT` exactly when the option `row_type` is absent.
The function `prepare_default_value_buffer_and_table_share` leaves these
members alone. -/
theorem create_options_from_table_options (ses : Session) (env : Server)
    (share share1 : TABLE_SHARE) (tab_obj : Table)
    (hkeep : ∀ t s s1, ses.prepare_default_value_buffer_and_table_share t s = some s1 →
      s1.db_create_options = s.db_create_options ∧
      s1.db_options_in_use = s.db_options_in_use ∧ s1.row_type = s.row_type ∧
      s1.table_charset = s.table_charset)
    (h : fill_share_from_dd ses env share tab_obj = some share1) :
    share1.db_create_options |||
        (HA_OPTION_PACK_RECORD ||| HA_OPTION_PACK_KEYS ||| HA_OPTION_NO_PACK_KEYS |||
          HA_OPTION_CHECKSUM ||| HA_OPTION_DELAY_KEY_WRITE ||| HA_OPTION_STATS_PERSISTENT |||
          HA_OPTION_NO_STATS_PERSISTENT) =
      HA_OPTION_PACK_RECORD ||| HA_OPTION_PACK_KEYS ||| HA_OPTION_NO_PACK_KEYS |||
        HA_OPTION_CHECKSUM ||| HA_OPTION_DELAY_KEY_WRITE ||| HA_OPTION_STATS_PERSISTENT |||
        HA_OPTION_NO_STATS_PERSISTENT ∧
    (share1.db_create_options &&& HA_OPTION_PACK_RECORD ≠ 0 ↔
      tab_obj.options.pack_record.getD ses.bool_opt = true) ∧
    (share1.db_create_options &&& HA_OPTION_PACK_KEYS ≠ 0 ↔
      tab_obj.options.pack_keys = some true) ∧
    (share1.db_create_options &&& HA_OPTION_NO_PACK_KEYS ≠ 0 ↔
      tab_obj.options.pack_keys = some false) ∧
    (share1.db_create_options &&& HA_OPTION_CHECKSUM ≠ 0 ↔
      tab_obj.options.checksum = some true) ∧
    (share1.db_create_options &&& HA_OPTION_DELAY_KEY_WRITE ≠ 0 ↔
      tab_obj.options.delay_key_write = some true) ∧
    (share1.db_create_options &&& HA_OPTION_STATS_PERSISTENT ≠ 0 ↔
      tab_obj.options.stats_persistent = some true) ∧
    (share1.db_create_options &&& HA_OPTION_NO_STATS_PERSISTENT ≠ 0 ↔
      tab_obj.options.stats_persistent = some false) ∧
    ¬ (share1.db_create_options &&& HA_OPTION_PACK_KEYS ≠ 0 ∧
        share1.db_create_options &&& HA_OPTION_NO_PACK_KEYS ≠ 0) ∧
    ((share1.db_create_options &&& HA_OPTION_PACK_KEYS ≠ 0 ∨
        share1.db_create_options &&& HA_OPTION_NO_PACK_KEYS ≠ 0) ↔
      tab_obj.options.pack_keys.isSome = true) ∧
    ¬ (share1.db_create_options &&& HA_OPTION_STATS_PERSISTENT ≠ 0 ∧
        share1.db_create_options &&& HA_OPTION_NO_STATS_PERSISTENT ≠ 0) ∧
    ((share1.db_create_options &&& HA_OPTION_STATS_PERSISTENT ≠ 0 ∨
        share1.db_create_options &&& HA_OPTION_NO_STATS_PERSISTENT ≠ 0) ↔
      tab_obj.options.stats_persistent.isSome = true) ∧
    share1.db_options_in_use = share1.db_create_options ∧
    (share1.row_type = .ROW_TYPE_DEFAULT ↔ tab_obj.options.row_type = none) := by
  obtain ⟨_, e1, e2, e3, _⟩ := fill_share_from_dd_written hkeep h
  obtain ⟨b0, b1, b2, b3, b4, b5, b6, b7⟩ := table_create_options_spec ses tab_obj.options
  rw [← e1] at b0 b1 b2 b3 b4 b5 b6 b7
  refine ⟨b0, b1, b2, b3, b4, b5, b6, b7, ?_, ?_, ?_, ?_, e2.trans e1.symm, ?_⟩
  · rw [b2, b3]
    intro hb
    rw [hb.1] at hb
    exact absurd hb.2 (by simp)
  · rw [b2, b3]
    rcases tab_obj.options.pack_keys with _ | _ | _ <;> simp
  · rw [b6, b7]
    intro hb
    rw [hb.1] at hb
    exact absurd hb.2 (by simp)
  · rw [b6, b7]
    rcases tab_obj.options.stats_persistent with _ | _ | _ <;> simp
  · rw [e3]
    cases tab_obj.options.row_type with
    | none => simp
    | some option_value =>
      simp only [reduceCtorEq, iff_false]
      exact dd_get_old_row_format_ne_default _

/-- C39, on a table with the options `pack_record` false, `pack_keys` true and
`stats_persistent` false, and no option `row_type`: the bits are
`HA_OPTION_PACK_KEYS` and `HA_OPTION_NO_STATS_PERSISTENT`, and the row type is
`ROW_TYPE_DEFAULT`. -/
theorem create_options_from_table_options_witness :
    ∃ share1,
      fill_share_from_dd {} example_server {}
        { options := { pack_record := some false, pack_keys := some true,
                       stats_persistent := some false } } = some share1 ∧
      share1.db_create_options = HA_OPTION_PACK_KEYS ||| HA_OPTION_NO_STATS_PERSISTENT ∧
      share1.db_options_in_use = share1.db_create_options ∧
      share1.row_type = .ROW_TYPE_DEFAULT := by
  have hfill : fill_share_from_dd {} example_server {}
      { options := { pack_record := some false, pack_keys := some true,
                     stats_persistent := some false } } =
      some ((fill_share_from_dd {} example_server {}
        { options := { pack_record := some false, pack_keys := some true,
                       stats_persistent := some false } }).getD {}) := by rfl
  have hspec := create_options_from_table_options {} example_server {} _
    { options := { pack_record := some false, pack_keys := some true,
                   stats_persistent := some false } }
    (fun _ _ _ hs => by
      simp only [Option.some.injEq] at hs
      rw [← hs]
      exact ⟨rfl, rfl, rfl, rfl⟩) hfill
  exact ⟨_, hfill, by rfl, hspec.2.2.2.2.2.2.2.2.2.2.2.2.1, hspec.2.2.2.2.2.2.2.2.2.2.2.2.2.mpr rfl⟩


/-! ## The linear flag and the key algorithm of fill_partitioning_from_dd -/

/-- The storing of the expressions leaves `key_algorithm` alone. -/
theorem set_partition_expressions_algorithm {penv : Partition_env} {tab_obj : Table}
    {part_info part_info1 : partition_info}
    (h : set_partition_expressions penv tab_obj part_info = some part_info1) :
    part_info1.key_algorithm = part_info.key_algorithm := by
  unfold set_partition_expressions at h
  simp only at h
  split at h
  · exact absurd h (by simp)
  · rename_i filled hf
    have hfilled : filled.key_algorithm = part_info.key_algorithm := by
      split_ifs at hf with hl
      · split at hf
        · exact absurd hf (by simp)
        · simp only [Option.some.injEq] at hf
          subst hf
          rfl
      · simp only [Option.some.injEq] at hf
        subst hf
        rfl
    split_ifs at h
    · split at h
      · exact absurd h (by simp)
      · simp only [Option.some.injEq] at h
        subst h
        exact hfilled
    · simp only [Option.some.injEq] at h
      subst h
      exact hfilled
    · simp only [Option.some.injEq] at h
      subst h
      exact hfilled

/-- The loop over the partitions and the code after it leave `key_algorithm`
alone. -/
theorem final_partition_info_algorithm (part_info : partition_info) (scan : partition_scan)
    (dp dsp : enum_default_partitioning)
    (h : same_but_partitions scan.part_info part_info) :
    (set_default_subpartitioning (set_default_partitioning (set_partition_counts scan) dp)
        dsp).key_algorithm = part_info.key_algorithm := by
  unfold same_but_partitions at h
  have hc : (set_partition_counts scan).key_algorithm = part_info.key_algorithm := by
    unfold set_partition_counts
    cases scan.curr_part <;> (simp only; rw [h])
  cases dp <;> cases dsp <;> exact hc

/-- C37: when `fill_partitioning_from_dd` succeeds on a partitioned table,
`linear_hash_ind` is set exactly when the partition scheme is LINEAR_HASH,
LINEAR_KEY_51, LINEAR_KEY_55 or AUTO_LINEAR, or the subpartition scheme is
LINEAR_HASH, LINEAR_KEY_51 or LINEAR_KEY_55; with a KEY subpartition scheme
`key_algorithm` is the algorithm of that scheme, whatever the partition scheme
has set; with another subpartition scheme it is what the partition scheme has
set. The object that `new partition_info` builds has the flag clear. -/
theorem linear_flag_and_key_algorithm (penv : Partition_env) (share share1 : TABLE_SHARE)
    (tab_obj : Table)
    (hlinear : penv.new_partition_info.linear_hash_ind = false)
    (htype : tab_obj.partition_type ≠ .PT_NONE)
    (h : fill_partitioning_from_dd penv share tab_obj = .ok share1) :
    ∃ part_info1, share1.m_part_info = some part_info1 ∧
      (part_info1.linear_hash_ind = true ↔
        tab_obj.partition_type ∈
            [.PT_LINEAR_HASH, .PT_LINEAR_KEY_51, .PT_LINEAR_KEY_55, .PT_AUTO_LINEAR] ∨
          tab_obj.subpartition_type ∈
            [.ST_LINEAR_HASH, .ST_LINEAR_KEY_51, .ST_LINEAR_KEY_55]) ∧
      (tab_obj.subpartition_type ∈ [.ST_KEY_51, .ST_LINEAR_KEY_51] →
        part_info1.key_algorithm = .KEY_ALGORITHM_51) ∧
      (tab_obj.subpartition_type ∈ [.ST_KEY_55, .ST_LINEAR_KEY_55] →
        part_info1.key_algorithm = .KEY_ALGORITHM_55) ∧
      (tab_obj.subpartition_type ∈ [.ST_NONE, .ST_HASH, .ST_LINEAR_HASH] →
        (tab_obj.partition_type ∈ [.PT_KEY_51, .PT_LINEAR_KEY_51] →
          part_info1.key_algorithm = .KEY_ALGORITHM_51) ∧
        (tab_obj.partition_type ∈ [.PT_KEY_55, .PT_LINEAR_KEY_55, .PT_AUTO, .PT_AUTO_LINEAR] →
          part_info1.key_algorithm = .KEY_ALGORITHM_55) ∧
        (tab_obj.partition_type ∈
            [.PT_RANGE, .PT_RANGE_COLUMNS, .PT_LIST, .PT_LIST_COLUMNS, .PT_HASH,
              .PT_LINEAR_HASH] →
          part_info1.key_algorithm = penv.new_partition_info.key_algorithm)) := by
  obtain ⟨part_info, scan, hinfo, hscan, hshare⟩ := fill_partitioning_from_dd_inv htype h
  have hframe := add_partitions_frame penv _ _ _ _ hscan
  obtain ⟨_, _, f3, _, _, _⟩ := final_partition_info_frame part_info scan
    tab_obj.default_partitioning tab_obj.default_subpartitioning hframe
  have f7 := final_partition_info_algorithm part_info scan
    tab_obj.default_partitioning tab_obj.default_subpartitioning hframe
  obtain ⟨_, _, typed, subtyped, h1, h2, h3⟩ := partition_info_from_dd_ok hinfo
  obtain ⟨_, _, e3⟩ := set_partition_expressions_partitions h3
  have e7 := set_partition_expressions_algorithm h3
  rw [e3] at f3
  rw [e7] at f7
  refine ⟨_, hshare, ?_⟩
  rw [f3, f7]
  cases ht : tab_obj.partition_type <;> rw [ht] at h1 <;>
    simp only [set_partition_type, Option.some.injEq, reduceCtorEq] at h1 <;>
    subst h1 <;>
    cases hst : tab_obj.subpartition_type <;> rw [hst] at h2 <;>
    simp only [set_subpartition_type, Option.some.injEq, reduceCtorEq] at h2 <;>
    subst h2 <;>
    simp [hlinear]

/-- C37, on the table `example_key_table` given the subpartition scheme
LINEAR_KEY_51: the partition scheme KEY_55 is not linear and sets the algorithm
55, the subpartition scheme sets the linear flag and the algorithm 51. -/
theorem linear_flag_and_key_algorithm_witness :
    ∃ share1 part_info1,
      fill_partitioning_from_dd example_field_env {}
        { example_key_table with
          subpartition_type := .ST_LINEAR_KEY_51, subpartition_expression := "c" } =
        .ok share1 ∧
      share1.m_part_info = some part_info1 ∧ part_info1.linear_hash_ind = true ∧
      part_info1.key_algorithm = .KEY_ALGORITHM_51 := by
  have hfill : fill_partitioning_from_dd example_field_env {}
      { example_key_table with
        subpartition_type := .ST_LINEAR_KEY_51, subpartition_expression := "c" } =
      .ok (match fill_partitioning_from_dd example_field_env {}
        { example_key_table with
          subpartition_type := .ST_LINEAR_KEY_51, subpartition_expression := "c" } with
        | .ok share1 => share1
        | .error _ => {}) := by rfl
  obtain ⟨part_info1, hs, a, b, _⟩ :=
    linear_flag_and_key_algorithm example_field_env _ _ _ rfl (by decide) hfill
  exact ⟨_, part_info1, hfill, hs, a.mpr (Or.inr (by decide)), b (by decide)⟩


/-! ## The divisors and the iterator of the partition loop -/

/-- The call `push_back` on the subpartitions of a partition keeps the number of
partitions. -/
theorem push_subpartition_length (partitions : List partition_node) (i : Nat)
    (curr_part_elem : partition_element) :
    (push_subpartition partitions i curr_part_elem).length = partitions.length := by
  unfold push_subpartition
  split
  · exact List.length_set _ _ _
  · rfl

/-- One turn of the loop of `fill_partitioning_from_dd` for a record of level 0
divides nothing and moves no iterator: it returns `true`, or it appends one
partition and leaves the locals. -/
theorem add_partition_top_defined (penv : Partition_env) (size : Nat) (s : partition_scan)
    (part_obj : Partition) (hlevel : part_obj.level = 0) :
    add_partition penv size s part_obj = .error .returns_true ∨
    ∃ s1, add_partition penv size s part_obj = .ok s1 ∧
      s1.part_info.partitions.length = s.part_info.partitions.length + 1 ∧
      s1.curr_part = s.curr_part ∧ s1.part_elem_it = s.part_elem_it ∧
      s1.num_subparts = s.num_subparts := by
  have hd : decide (part_obj.level ≠ 0) = false := by simp [hlevel]
  by_cases ha : penv.alloc_root_fails = true
  · left
    simp only [add_partition, ha, if_true]
  · have haf : penv.alloc_root_fails = false := by simpa using ha
    cases hs : setup_partition_from_dd penv s.part_info penv.new_partition_element part_obj
        false with
    | none =>
      left
      simp only [add_partition, haf, hd, hs, Bool.false_eq_true, if_false]
    | some r =>
      obtain ⟨part_info1, part_elem1⟩ := r
      have hinfo := setup_partition_from_dd_info hs
      have hp : part_info1.partitions = s.part_info.partitions := by rw [hinfo]
      by_cases hpush : penv.push_back_fails = true
      · left
        simp only [add_partition, haf, hd, hs, hpush, Bool.false_eq_true, if_false,
          Bool.not_false, if_true]
      · have hpf : penv.push_back_fails = false := by simpa using hpush
        right
        refine ⟨{ s with
          part_info :=
            { part_info1 with
              partitions := part_info1.partitions ++ [{ elem := part_elem1 }] } }, ?_, ?_,
          rfl, rfl, rfl⟩
        · simp only [add_partition, haf, hd, hs, hpf, Bool.false_eq_true, if_false,
            Bool.not_false, if_true]
        · simp only [List.length_append, List.length_singleton, hp]

/-- One turn of the loop of `fill_partitioning_from_dd` for a record of another
level than 0, with at least one partition in the list, a number of
subpartitions per partition other than 0 and an iterator that gives a
partition when it is asked: the turn returns `true`, or it succeeds and the
locals are as the source computes them. -/
theorem add_partition_sub_defined (penv : Partition_env) (size : Nat) (s : partition_scan)
    (part_obj : Partition) (num_subparts part_elem_it i : Nat)
    (hlevel : part_obj.level ≠ 0)
    (hparts : s.curr_part.isNone = true → s.part_info.partitions.length ≠ 0)
    (hit : part_elem_it = if s.curr_part.isNone then 0 else s.part_elem_it)
    (hnum : num_subparts =
      if s.curr_part.isNone then
        to_uint (((size - s.part_info.partitions.length) / s.part_info.partitions.length : Nat) : Int)
      else s.num_subparts)
    (hnz : num_subparts ≠ 0)
    (hcur : (if part_obj.number % num_subparts = 0 then
        (if part_elem_it < s.part_info.partitions.length then some part_elem_it else none)
      else s.curr_part) = some i) :
    add_partition penv size s part_obj = .error .returns_true ∨
    ∃ s1, add_partition penv size s part_obj = .ok s1 ∧
      s1.part_info.partitions.length = s.part_info.partitions.length ∧
      s1.curr_part = some i ∧
      s1.part_elem_it =
        (if part_obj.number % num_subparts = 0 then part_elem_it + 1 else part_elem_it) ∧
      s1.num_subparts = num_subparts := by
  have hd : decide (part_obj.level ≠ 0) = true := by simp [hlevel]
  by_cases ha : penv.alloc_root_fails = true
  · left
    simp only [add_partition, ha, if_true]
  · have haf : penv.alloc_root_fails = false := by simpa using ha
    cases hs : setup_partition_from_dd penv s.part_info penv.new_partition_element part_obj
        true with
    | none =>
      left
      simp only [add_partition, haf, hd, hs, Bool.false_eq_true, if_false]
    | some r =>
      obtain ⟨part_info1, part_elem1⟩ := r
      have hinfo := setup_partition_from_dd_info hs
      have hp : part_info1.partitions = s.part_info.partitions := by rw [hinfo]
      have hundef : ¬ (s.curr_part.isNone = true ∧ s.part_info.partitions.length = 0) :=
        fun h => hparts h.1 h.2
      by_cases hpush : penv.push_back_fails = true
      · left
        simp only [add_partition, haf, hd, hs, hpush, Bool.false_eq_true, if_false,
          Bool.not_true, hp, hundef, ← hnum, ← hit, hnz, decide_eq_true_eq, hcur, if_true]
      · have hpf : penv.push_back_fails = false := by simpa using hpush
        right
        refine ⟨{ part_info :=
                    { part_info1 with
                      partitions := push_subpartition part_info1.partitions i part_elem1 }
                  curr_part := some i
                  part_elem_it :=
                    if part_obj.number % num_subparts = 0 then part_elem_it + 1
                    else part_elem_it
                  num_subparts := num_subparts }, ?_, ?_, rfl, rfl, rfl⟩
        · simp only [add_partition, haf, hd, hs, hpf, Bool.false_eq_true, if_false,
            Bool.not_true, hp, hundef, ← hnum, ← hit, hnz, decide_eq_true_eq, hcur]
        · simp only [push_subpartition_length, hp]

/-- The records of level 0 at the head of the list of partitions: the loop of
`fill_partitioning_from_dd` returns `true` on one of them, or it goes on with
the rest, the list of partitions longer by their number and the locals as they
were. -/
theorem add_partitions_tops_defined (penv : Partition_env) (size : Nat) :
    ∀ (tops rest : List Partition) (s : partition_scan), (∀ p ∈ tops, p.level = 0) →
      add_partitions penv size (tops ++ rest) s = .error .returns_true ∨
      ∃ s1, add_partitions penv size (tops ++ rest) s = add_partitions penv size rest s1 ∧
        s1.part_info.partitions.length = s.part_info.partitions.length + tops.length ∧
        s1.curr_part = s.curr_part ∧ s1.part_elem_it = s.part_elem_it ∧
        s1.num_subparts = s.num_subparts := by
  intro tops
  induction tops with
  | nil =>
    intro rest s _
    exact Or.inr ⟨s, rfl, rfl, rfl, rfl, rfl⟩
  | cons p tops ih =>
    intro rest s hlev
    rcases add_partition_top_defined penv size s p (hlev p (List.mem_cons_self _ _)) with
      h | ⟨s1, a1, a2, a3, a4, a5⟩
    · left
      simp only [List.cons_append, add_partitions, h]
    · rcases ih rest s1 (fun q hq => hlev q (List.mem_cons_of_mem _ hq)) with
        h | ⟨s2, b1, b2, b3, b4, b5⟩
      · left
        simp only [List.cons_append, add_partitions, a1]
        exact h
      · right
        refine ⟨s2, ?_, ?_, b3.trans a3, b4.trans a4, b5.trans a5⟩
        · simp only [List.cons_append, add_partitions, a1]
          exact b1
        · rw [b2, a2, List.length_cons]
          omega

/-- The records of another level than 0, `S` for each of the `P` partitions and
numbered from 0, from the record number `n` on: the loop of
`fill_partitioning_from_dd` returns `true` on one of them, or it ends with
`curr_part` at the last partition, the iterator behind it, and `S` as the
number of subpartitions per partition. -/
theorem add_partitions_subs_defined (penv : Partition_env) (size P S : Nat)
    (subs : List Partition) (hP : 1 ≤ P) (hS : 1 ≤ S) (hcount : subs.length = P * S)
    (hlev : ∀ p ∈ subs, p.level ≠ 0)
    (hnumber : ∀ n (h : n < subs.length), (subs.get ⟨n, h⟩).number = n)
    (hsize : to_uint (((size - P) / P : Nat) : Int) = S) :
    ∀ (k n : Nat) (s : partition_scan), n + k = subs.length →
      s.part_info.partitions.length = P →
      (n = 0 → s.curr_part = none) →
      (1 ≤ n → ∃ c, s.curr_part = some c ∧ s.part_elem_it = c + 1 ∧ s.num_subparts = S ∧
        c * S < n ∧ n ≤ (c + 1) * S) →
      add_partitions penv size (subs.drop n) s = .error .returns_true ∨
      ∃ s1 c1, add_partitions penv size (subs.drop n) s = .ok s1 ∧
        s1.part_info.partitions.length = P ∧ s1.curr_part = some c1 ∧
        s1.part_elem_it = c1 + 1 ∧ s1.num_subparts = S ∧
        c1 * S < subs.length ∧ subs.length ≤ (c1 + 1) * S := by
  have hlen1 : 1 ≤ subs.length := by
    rw [hcount]
    exact Nat.mul_pos hP hS
  intro k
  induction k with
  | zero =>
    intro n s hnk hlen h0 h1
    have hnl : n = subs.length := by omega
    subst hnl
    obtain ⟨c, c1, c2, c3, c4, c5⟩ := h1 hlen1
    right
    refine ⟨s, c, ?_, hlen, c1, c2, c3, c4, c5⟩
    rw [List.drop_length]
    rfl
  | succ k ih =>
    intro n s hnk hlen h0 h1
    have hnl : n < subs.length := by omega
    have hdrop : subs.drop n = subs.get ⟨n, hnl⟩ :: subs.drop (n + 1) := by
      rw [List.get_eq_getElem]
      exact List.drop_eq_getElem_cons hnl
    have hmem : subs.get ⟨n, hnl⟩ ∈ subs := List.get_mem subs n hnl
    have hstep : ∃ c1 : Nat,
        (add_partition penv size s (subs.get ⟨n, hnl⟩) = .error .returns_true ∨
        ∃ s1, add_partition penv size s (subs.get ⟨n, hnl⟩) = .ok s1 ∧
          s1.part_info.partitions.length = P ∧ s1.curr_part = some c1 ∧
          s1.part_elem_it = c1 + 1 ∧ s1.num_subparts = S) ∧
        c1 * S < n + 1 ∧ n + 1 ≤ (c1 + 1) * S := by
      by_cases hn0 : n = 0
      · have hcurr := h0 hn0
        have hnone : s.curr_part.isNone = true := by rw [hcurr]; rfl
        refine ⟨0, ?_, by omega, by omega⟩
        have hb := add_partition_sub_defined penv size s (subs.get ⟨n, hnl⟩) S 0 0
          (hlev _ hmem)
          (by intro _; omega)
          (by rw [hnone]; rfl)
          (by rw [hnone, hlen, if_pos rfl, hsize])
          (by omega)
          (by
            rw [hnumber n hnl, hlen, hn0, Nat.zero_mod, if_pos rfl, if_pos (by omega)])
        rcases hb with hb | ⟨s1, b1, b2, b3, b4, b5⟩
        · exact Or.inl hb
        · refine Or.inr ⟨s1, b1, b2.trans hlen, b3, ?_, b5⟩
          rw [b4, hnumber n hnl, hn0, Nat.zero_mod, if_pos rfl]
      · obtain ⟨c, hcurr, hit, hnum, hc1, hc2⟩ := h1 (by omega)
        have hnone : s.curr_part.isNone = false := by rw [hcurr]; rfl
        have hsucc : (c + 1) * S = c * S + S := Nat.succ_mul c S
        have hcP : c < P := by
          by_contra h
          have h3 : P ≤ c := Nat.le_of_not_lt h
          have h4 : P * S ≤ c * S := Nat.mul_le_mul_right S h3
          omega
        have hwin : (if n % S = 0 then c + 1 else c) * S < n + 1 ∧
            n + 1 ≤ ((if n % S = 0 then c + 1 else c) + 1) * S ∧
            (if n % S = 0 then c + 1 else c) < P := by
          by_cases hm : n % S = 0
          · have hn2 := multiple_in_window n c S hm hc1 hc2
            have e2 : (c + 1 + 1) * S = (c + 1) * S + S := Nat.succ_mul (c + 1) S
            have hlt : c + 1 < P := by
              by_contra h
              have h3 : P ≤ c + 1 := Nat.le_of_not_lt h
              have h4 : P * S ≤ (c + 1) * S := Nat.mul_le_mul_right S h3
              omega
            rw [if_pos hm]
            exact ⟨by omega, by omega, hlt⟩
          · rw [if_neg hm]
            have hne : n ≠ (c + 1) * S := by
              intro h
              apply hm
              rw [h]
              exact Nat.mul_mod_left _ _
            exact ⟨by omega, by omega, hcP⟩
        refine ⟨if n % S = 0 then c + 1 else c, ?_, hwin.1, hwin.2.1⟩
        have hb := add_partition_sub_defined penv size s (subs.get ⟨n, hnl⟩) S (c + 1)
          (if n % S = 0 then c + 1 else c) (hlev _ hmem)
          (by rw [hnone]; intro h; exact absurd h (by simp))
          (by rw [hnone, hit]; simp)
          (by rw [hnone, hnum]; simp)
          (by omega)
          (by
            rw [hnumber n hnl, hlen, hcurr]
            by_cases hm : n % S = 0
            · have hlt : c + 1 < P := by
                have := hwin.2.2
                rw [if_pos hm] at this
                exact this
              rw [if_pos hm, if_pos hlt, if_pos hm]
            · rw [if_neg hm, if_neg hm])
        rcases hb with hb | ⟨s1, b1, b2, b3, b4, b5⟩
        · exact Or.inl hb
        · refine Or.inr ⟨s1, b1, b2.trans hlen, b3, ?_, b5⟩
          rw [b4, hnumber n hnl]
          by_cases hm : n % S = 0
          · rw [if_pos hm, if_pos hm]
          · rw [if_neg hm, if_neg hm]
    obtain ⟨c1, hstep1, hw1, hw2⟩ := hstep
    rcases hstep1 with hb | ⟨s1, b1, b2, b3, b4, b5⟩
    · left
      rw [hdrop]
      simp only [add_partitions, hb]
    · rcases ih (n + 1) s1 (by omega) b2 (by omega)
          (fun _ => ⟨c1, b3, b4, b5, hw1, hw2⟩) with h | ⟨s2, c2, d1, d2, d3, d4, d5, d6, d7⟩
      · left
        rw [hdrop]
        simp only [add_partitions, b1]
        exact h
      · right
        refine ⟨s2, c2, ?_, d2, d3, d4, d5, d6, d7⟩
        rw [hdrop]
        simp only [add_partitions, b1]
        exact d1

/-- The first record of another level than 0, when the number of subpartitions
per partition computed for it is 0: the turn returns `true` before it comes
to the remainder, or it takes the remainder by zero; it does not succeed. -/
theorem add_partition_sub_undefined (penv : Partition_env) (size : Nat) (s : partition_scan)
    (part_obj : Partition) (hlevel : part_obj.level ≠ 0) (hcurr : s.curr_part = none)
    (hparts : s.part_info.partitions.length ≠ 0)
    (hzero : to_uint (((size - s.part_info.partitions.length) /
      s.part_info.partitions.length : Nat) : Int) = 0) :
    add_partition penv size s part_obj = .error .returns_true ∨
    add_partition penv size s part_obj = .error .undefined_behaviour := by
  have hd : decide (part_obj.level ≠ 0) = true := by simp [hlevel]
  by_cases ha : penv.alloc_root_fails = true
  · left
    simp only [add_partition, ha, if_true]
  · have haf : penv.alloc_root_fails = false := by simpa using ha
    cases hs : setup_partition_from_dd penv s.part_info penv.new_partition_element part_obj
        true with
    | none =>
      left
      simp only [add_partition, haf, hd, hs, Bool.false_eq_true, if_false]
    | some r =>
      obtain ⟨part_info1, part_elem1⟩ := r
      have hinfo := setup_partition_from_dd_info hs
      have hp : part_info1.partitions = s.part_info.partitions := by rw [hinfo]
      right
      simp only [add_partition, haf, hd, hs, hcurr, hp, hparts, hzero, Bool.false_eq_true,
        if_false, Bool.not_true, Option.isNone_none, and_false, if_true]

/-- C35: the loop of `fill_partitioning_from_dd` over `P >= 1` records of
level 0 followed by `P * S` records of another level (`S >= 1`) numbered from
0, started with an empty list of partitions. The number of subpartitions per
partition computed at the first subpartition is `S`; with any allocator and
any outcome of `setup_partition_from_dd` the loop meets no division by zero,
no remainder by zero and no iterator that gives NULL; and when it succeeds,
`P` is the number of partitions by which it has divided, `S` the number whose
remainders it has taken, and the iterator has been advanced `P` times, to the
last partition. With at least one but fewer than `P` records of another level
the number computed is 0, and the loop does not succeed: it returns `true`
before the first subpartition is placed or takes a remainder by zero. -/
theorem partition_loop_divisors (penv : Partition_env) (part_info : partition_info)
    (tops subs : List Partition) (S : Nat)
    (hempty : part_info.partitions = [])
    (htops : ∀ p ∈ tops, p.level = 0) (hsubs : ∀ p ∈ subs, p.level ≠ 0)
    (hP : 1 ≤ tops.length) (hS : 1 ≤ S) (hcount : subs.length = tops.length * S)
    (hnumber : ∀ n (h : n < subs.length), (subs.get ⟨n, h⟩).number = n)
    (hfit : (tops ++ subs).length < 4294967296) :
    to_uint ((((tops ++ subs).length - tops.length) / tops.length : Nat) : Int) = S ∧
    add_partitions penv (tops ++ subs).length (tops ++ subs) { part_info := part_info } ≠
      .error .undefined_behaviour ∧
    (∀ scan,
      add_partitions penv (tops ++ subs).length (tops ++ subs) { part_info := part_info } =
        .ok scan →
      scan.part_info.partitions.length = tops.length ∧ scan.num_subparts = S ∧
      scan.part_elem_it = tops.length ∧ scan.curr_part = some (tops.length - 1)) ∧
    ∀ subs2 : List Partition, (∀ p ∈ subs2, p.level ≠ 0) → subs2 ≠ [] →
      subs2.length < tops.length →
      to_uint ((((tops ++ subs2).length - tops.length) / tops.length : Nat) : Int) = 0 ∧
      ∀ scan,
        add_partitions penv (tops ++ subs2).length (tops ++ subs2) { part_info := part_info } ≠
          .ok scan := by
  have hdiv : ((tops ++ subs).length - tops.length) / tops.length = S := by
    rw [List.length_append, Nat.add_sub_cancel_left, hcount]
    exact Nat.mul_div_cancel_left S (by omega)
  have hSlt : S < 4294967296 := by
    rw [List.length_append, hcount] at hfit
    have : S ≤ tops.length * S := Nat.le_mul_of_pos_left S (by omega)
    omega
  have hsize : to_uint ((((tops ++ subs).length - tops.length) / tops.length : Nat) : Int) =
      S := by
    rw [hdiv]
    exact to_uint_of_lt S hSlt
  have hloop : add_partitions penv (tops ++ subs).length (tops ++ subs)
        { part_info := part_info } = .error .returns_true ∨
      ∃ s1 c1, add_partitions penv (tops ++ subs).length (tops ++ subs)
          { part_info := part_info } = .ok s1 ∧
        s1.part_info.partitions.length = tops.length ∧ s1.curr_part = some c1 ∧
        s1.part_elem_it = c1 + 1 ∧ s1.num_subparts = S ∧
        c1 * S < subs.length ∧ subs.length ≤ (c1 + 1) * S := by
    rcases add_partitions_tops_defined penv (tops ++ subs).length tops subs
        { part_info := part_info } htops with h | ⟨s1, a1, a2, a3, a4, a5⟩
    · exact Or.inl h
    · simp only [hempty, List.length_nil, Nat.zero_add] at a2
      have hd := add_partitions_subs_defined penv (tops ++ subs).length tops.length S subs hP hS
        hcount hsubs hnumber hsize subs.length 0 s1 (by omega) a2 (fun _ => a3)
        (fun h => absurd h (by omega))
      rw [List.drop_zero] at hd
      rw [a1]
      exact hd
  refine ⟨hsize, ?_, ?_, ?_⟩
  · rcases hloop with h | ⟨s1, c1, h, _⟩
    · rw [h]
      simp
    · rw [h]
      simp
  · intro scan hscan
    rcases hloop with h | ⟨s1, c1, h, b1, b2, b3, b4, b5, b6⟩
    · rw [h] at hscan
      exact absurd hscan (by simp)
    · rw [h] at hscan
      simp only [Except.ok.injEq] at hscan
      subst hscan
      have hc : c1 + 1 = tops.length := by
        rw [hcount] at b5 b6
        have h1 : c1 < tops.length := by
          by_contra hx
          have h3 : tops.length ≤ c1 := Nat.le_of_not_lt hx
          have h4 : tops.length * S ≤ c1 * S := Nat.mul_le_mul_right S h3
          omega
        have h2 : tops.length ≤ c1 + 1 := by
          by_contra hx
          have h3 : c1 + 1 + 1 ≤ tops.length := by omega
          have h4 : (c1 + 1 + 1) * S ≤ tops.length * S := Nat.mul_le_mul_right S h3
          have h5 : (c1 + 1 + 1) * S = (c1 + 1) * S + S := Nat.succ_mul (c1 + 1) S
          omega
        omega
      refine ⟨b1, b4, by omega, ?_⟩
      rw [b2]
      congr 1
      omega
  · intro subs2 hlev2 hne hfew
    have hlen2 : 1 ≤ subs2.length := by
      cases subs2 with
      | nil => exact absurd rfl hne
      | cons a l => simp
    have hz : ((tops ++ subs2).length - tops.length) / tops.length = 0 := by
      rw [List.length_append, Nat.add_sub_cancel_left]
      exact Nat.div_eq_of_lt hfew
    have hzero : to_uint ((((tops ++ subs2).length - tops.length) / tops.length : Nat) : Int) =
        0 := by
      rw [hz]
      rfl
    refine ⟨hzero, ?_⟩
    intro scan hscan
    rcases add_partitions_tops_defined penv (tops ++ subs2).length tops subs2
        { part_info := part_info } htops with h | ⟨s1, a1, a2, a3, a4, a5⟩
    · rw [h] at hscan
      exact absurd hscan (by simp)
    · simp only [hempty, List.length_nil, Nat.zero_add] at a2
      rw [a1] at hscan
      cases subs2 with
      | nil => exact absurd rfl hne
      | cons p rest =>
        have hp := add_partition_sub_undefined penv (tops ++ p :: rest).length s1 p
          (hlev2 p (List.mem_cons_self _ _)) a3 (by rw [a2]; omega) (by rw [a2]; exact hzero)
        rcases hp with hp | hp
        · simp only [add_partitions, hp] at hscan
          exact absurd hscan (by simp)
        · simp only [add_partitions, hp] at hscan
          exact absurd hscan (by simp)

/-- C35, on the two partitions and four subpartitions of
`example_subpartitioned_table`: the loop succeeds with 2 subpartitions per
partition, and the iterator has been advanced twice. With three of the
subpartitions dropped the number computed is 0. -/
theorem partition_loop_divisors_witness :
    (∃ scan,
      add_partitions example_partition_env 6 (example_top_partitions ++ example_subpartitions)
        { part_info := { part_type := .RANGE } } = .ok scan ∧
      scan.num_subparts = 2 ∧ scan.part_elem_it = 2) ∧
    to_uint ((((example_top_partitions ++ example_subpartitions.take 1).length - 2) / 2 : Nat) :
      Int) = 0 := by
  have hnumber : ∀ n (h : n < example_subpartitions.length),
      (example_subpartitions.get ⟨n, h⟩).number = n := by
    intro n h
    have h4 : n < 4 := h
    interval_cases n <;> rfl
  have h := partition_loop_divisors example_partition_env { part_type := .RANGE }
    example_top_partitions example_subpartitions 2 rfl (by decide) (by decide) (by decide)
    (by decide) (by decide) hnumber (by decide)
  have hok : add_partitions example_partition_env 6
      (example_top_partitions ++ example_subpartitions)
      { part_info := { part_type := .RANGE } } =
      .ok (match add_partitions example_partition_env 6
        (example_top_partitions ++ example_subpartitions)
        { part_info := { part_type := .RANGE } } with
        | .ok scan => scan
        | .error _ => { part_info := {} }) := by rfl
  obtain ⟨_, b, c, _⟩ := h.2.2.1 _ hok
  exact ⟨⟨_, hok, b, c⟩,
    (h.2.2.2 (example_subpartitions.take 1) (by decide) (by decide) (by decide)).1⟩


/-! ## The index into list_val_array -/

/-- C34: the non-column LIST branch of `setup_partition_from_dd`, for a new
partition element and value entries whose number and list numbers fit in 32
bits. When the entries pass the test `entries != (max_index + 1)` and their
list numbers are pairwise distinct, the index `list_index` computed for an
entry with a text is below the number of slots of `list_val_array` (the number
of entries, less one with a NULL entry). Without distinctness the index
reaches that number: the entries of `example_repeated_list_values` (list
numbers 1 and 1, the first without text) pass the test, the array has one
slot, and the index computed for the second entry is 1. -/
theorem list_index_below_size (values : List Partition_value) :
    ((∀ v ∈ values, v.list_num < 4294967296) → values.length < 4294967296 →
      (list_scan values false).2.1 = to_uint ((list_scan values false).1 + 1) →
      (values.map (fun v => v.list_num)).Nodup →
      ∀ v ∈ values, v.value_utf8.isEmpty = false →
        list_value_index (list_scan values false).2.2.1 (list_scan values false).2.2.2
            v.list_num <
          (if (list_scan values false).2.2.1 then
            to_uint (((list_scan values false).2.1 : Int) - 1)
          else (list_scan values false).2.1)) ∧
    ((list_scan example_repeated_list_values false).2.1 =
        to_uint ((list_scan example_repeated_list_values false).1 + 1) ∧
      (if (list_scan example_repeated_list_values false).2.2.1 then
          to_uint (((list_scan example_repeated_list_values false).2.1 : Int) - 1)
        else (list_scan example_repeated_list_values false).2.1) = 1 ∧
      list_value_index (list_scan example_repeated_list_values false).2.2.1
        (list_scan example_repeated_list_values false).2.2.2 1 = 1) := by
  refine ⟨?_, by decide⟩
  intro hnum hlen hcount hdistinct v hv hve
  obtain ⟨s1, s2, s3, s4⟩ := list_scan_eq values false
  have hent := list_scan_entries_lt values false
  have hn : (list_scan values false).2.1 = values.length := by omega
  have hmax : ∀ w ∈ values, w.list_num ≤ (list_scan values false).1 := by
    intro w hw
    rw [s1]
    exact (foldl_max_ge (fun v => v.list_num) values 0).2 w hw
  have hbound : (list_scan values false).1 < 4294967296 := by
    rw [s1]
    have := foldl_max_le (fun v => v.list_num) values 4294967295 0 (by omega)
      (fun w hw => by
        have := hnum w hw
        show w.list_num ≤ 4294967295
        omega)
    show values.foldl (fun m part_value => max m part_value.list_num) 0 < 4294967296
    exact Nat.lt_succ_of_le this
  have hpos : 1 ≤ values.length := List.length_pos_of_mem hv
  have hM : values.length = (list_scan values false).1 + 1 := by
    rw [hn] at hcount
    unfold to_uint at hcount
    omega
  have hl := hmax v hv
  cases hnull : (list_scan values false).2.2.1 with
  | false =>
    simp only [list_value_index, Bool.false_eq_true, false_and, if_false]
    omega
  | true =>
    rw [hnull] at s3
    have hany : values.any (fun w => w.value_utf8.isEmpty) = true := by
      simpa using s3.symm
    obtain ⟨w0, hw0, hw0e⟩ := List.any_eq_true.mp hany
    have hfne : values.filter (fun w => w.value_utf8.isEmpty) ≠ [] := by
      intro hnil
      have : w0 ∈ values.filter (fun w => w.value_utf8.isEmpty) :=
        List.mem_filter.mpr ⟨hw0, hw0e⟩
      rw [hnil] at this
      exact absurd this (List.not_mem_nil _)
    have hlast : (values.filter (fun w => w.value_utf8.isEmpty)).getLast? =
        some ((values.filter (fun w => w.value_utf8.isEmpty)).getLast hfne) :=
      List.getLast?_eq_getLast _ hfne
    have hwmem := List.getLast_mem hfne
    obtain ⟨hw, hwe⟩ := List.mem_filter.mp hwmem
    rw [hlast] at s4
    simp only [Option.map_some', Option.getD_some] at s4
    have hne : v.list_num ≠ (list_scan values false).2.2.2 := by
      intro heq
      rw [s4] at heq
      have hinj := List.inj_on_of_nodup_map hdistinct hv hw heq
      rw [hinj, hwe] at hve
      exact absurd hve (by simp)
    have hnl := hmax _ hw
    rw [← s4] at hnl
    simp only [if_true]
    have hsize : to_uint (((list_scan values false).2.1 : Int) - 1) =
        (list_scan values false).1 := by
      unfold to_uint
      omega
    rw [hsize]
    unfold list_value_index
    by_cases hgt : v.list_num > (list_scan values false).2.2.2
    · rw [if_pos ⟨rfl, hgt⟩]
      unfold to_uint
      omega
    · rw [if_neg (fun h => hgt h.2)]
      omega

/-- C34, on the three value entries of `example_list_partition`, with the list
numbers 0, 1 and 2 and the NULL entry at 1: the array has two slots, and the
entries with a text are written at the indexes 0 and 1. -/
theorem list_index_below_size_witness :
    list_value_index (list_scan example_list_partition.values false).2.2.1
        (list_scan example_list_partition.values false).2.2.2 0 < 2 ∧
    list_value_index (list_scan example_list_partition.values false).2.2.1
        (list_scan example_list_partition.values false).2.2.2 2 < 2 := by
  have h := (list_index_below_size example_list_partition.values).1 (by decide) (by decide)
    (by decide) (by decide)
  exact ⟨h { list_num := 0, value_utf8 := "2000" } (by decide) (by decide),
    h { list_num := 2, value_utf8 := "-5" } (by decide) (by decide)⟩


/-! ## The key named PRIMARY -/

/-- C36: `prepare_share` on a share that `fill_indexes_from_dd` has built, with
at most `MAX_KEY` keys, when `find_type` finds the name PRIMARY at position
`k + 1` of the key names. The local `primary_key` starts as `k`, the promotion
test changes it in no turn of the loop over the keys, whatever the keys and
their parts are, and `share->primary_key` is `k`. The promotion test changes a
local `primary_key` only when that is `MAX_KEY` or more, as it is at the start
when `find_type` answers 0. -/
theorem named_primary_key_wins (env : Server) (eng : Engine)
    (share0 share share1 : TABLE_SHARE) (tab_obj : Table) (k : Nat)
    (hk0 : share0.keys = 0) (hn0 : share0.keynames.type_names = [])
    (hfill : fill_indexes_from_dd env eng share0 tab_obj = some share)
    (hok : prepare_share eng share = some share1)
    (hmax : share.keys ≤ MAX_KEY)
    (hname : find_type primary_key_name share.keynames = (k : Int) + 1) :
    named_primary_key share = k ∧
    (∀ n, promoted_key share.key_info (named_primary_key share) n = k) ∧
    share1.primary_key = k ∧
    (∀ primary_key key keyinfo, promote_key primary_key key keyinfo ≠ primary_key →
      MAX_KEY ≤ primary_key) ∧
    ∀ share2 : TABLE_SHARE, find_type primary_key_name share2.keynames = 0 →
      MAX_KEY ≤ named_primary_key share2 := by
  obtain ⟨r1, r2, r3⟩ := fill_indexes_from_dd_ready env eng share0 share tab_obj hfill hk0 hn0
  have hrange := find_type_range primary_key_name share.keynames
  have hklt : k < share.keys := by
    rcases hrange with h | ⟨h1, h2⟩
    · rw [hname] at h
      omega
    · rw [hname] at h2
      omega
  have hkmax : k < MAX_KEY := by omega
  have hnamed : named_primary_key share = k := by
    unfold named_primary_key to_uint
    rw [hname]
    unfold MAX_KEY at hkmax
    omega
  have hprom : ∀ n, promoted_key share.key_info (named_primary_key share) n = k := by
    intro n
    rw [hnamed]
    exact promoted_key_of_lt share.key_info k hkmax n
  refine ⟨hnamed, hprom, ?_, ?_, ?_⟩
  · rw [prepare_share_primary_key eng share share1 hok]
    have hp := hprom share.keys
    unfold named_primary_key at hp
    rw [hp, if_neg (by omega), if_pos ⟨hkmax, r3 k (by rw [r1] at hklt ⊢; exact hklt)⟩]
  · intro primary_key key keyinfo hne
    by_contra hlt
    exact hne (promote_key_of_lt primary_key key keyinfo (by omega))
  · intro share2 h0
    unfold named_primary_key to_uint MAX_KEY
    rw [h0]
    omega

/-- C36, on `example_late_primary_table`, whose key named PRIMARY is key 1 and
has a part on the nullable column `name`: `share->primary_key` is 1. -/
theorem named_primary_key_wins_witness :
    (prepare_share {} (example_late_primary_share {})).map (fun share1 => share1.primary_key) =
      some 1 := by
  have hfill : fill_indexes_from_dd example_server {} example_columns_share
      example_late_primary_table = some (example_late_primary_share {}) := by rfl
  have hok : prepare_share {} (example_late_primary_share {}) =
      some ((prepare_share {} (example_late_primary_share {})).getD {}) := by rfl
  have h := named_primary_key_wins example_server {} example_columns_share
    (example_late_primary_share {}) _ example_late_primary_table 1 (by rfl) (by rfl) hfill hok
    (by decide) (by rfl)
  rw [hok]
  simp only [Option.map_some', h.2.2.1]


/-! ## The offsets of the blob fields -/

/-- The loop of `prepare_share` over the slots of `share->field`, started at
slot `k` with `m` filled slots and an empty one ahead: it ends at the empty
slot and has written the numbers of the fields with `BLOB_FLAG` among them, in
increasing order. -/
theorem blob_field_scan_spec (share : TABLE_SHARE) :
    ∀ (m k : Nat) (save : List Nat),
      (∀ j, k ≤ j → j < k + m → (share.field j).isSome = true) →
      share.field (k + m) = none →
      blob_field_scan share.field (m + 1) k save =
        some (save ++ (List.range' k m).filter (blob_flagged share)) := by
  intro m
  induction m with
  | zero =>
    intro k save _ hend
    rw [Nat.add_zero] at hend
    simp only [blob_field_scan, hend, List.range'_zero, List.filter_nil, List.append_nil]
  | succ m ih =>
    intro k save hslots hend
    obtain ⟨f, hf⟩ := Option.isSome_iff_exists.mp (hslots k (Nat.le_refl k) (by omega))
    have hrest := ih (k + 1) (if f.flags &&& BLOB_FLAG ≠ 0 then save ++ [k] else save)
      (fun j h1 h2 => hslots j (by omega) (by omega))
      (by
        have e : k + 1 + m = k + (m + 1) := by omega
        rw [e]
        exact hend)
    rw [blob_field_scan]
    simp only [hf]
    rw [hrest, List.range'_succ, List.filter_cons]
    by_cases hb : f.flags &&& BLOB_FLAG ≠ 0
    · have hfl : blob_flagged share k = true := by
        simp only [blob_flagged, hf, bne_iff_ne]
        exact hb
      rw [if_pos hb, hfl, if_pos rfl, List.append_assoc, List.singleton_append]
    · have hfl : blob_flagged share k = false := by
        simp only [blob_flagged, hf]
        simpa using hb
      rw [if_neg hb, hfl]
      simp

/-- C32: the block of `prepare_share` that stores the offsets of the blob
fields, on a share whose slots `0 .. fields - 1` of `share->field` hold fields
and whose slot `fields` is empty, when the allocation succeeds and
`share->blob_fields` is the number of fields with `BLOB_FLAG`. The block
succeeds. With `blob_fields` other than 0, `share->blob_field` holds the
numbers of the fields with `BLOB_FLAG` and no other number, each once, in
strictly increasing order, in `blob_fields` entries. With `blob_fields` 0 the
share is left as it is. -/
theorem blob_field_offsets (eng : Engine) (share : TABLE_SHARE)
    (hslots : ∀ k, k < share.fields → (share.field k).isSome = true)
    (hend : share.field share.fields = none)
    (halloc : eng.alloc_root_fails = false)
    (hcount : share.blob_fields =
      ((List.range share.fields).filter (blob_flagged share)).length) :
    ∃ share1, store_blob_fields eng share = .ok share1 ∧
      (share.blob_fields = 0 → share1 = share) ∧
      (share.blob_fields ≠ 0 →
        share1.blob_field = (List.range share.fields).filter (blob_flagged share) ∧
        share1.blob_field.length = share.blob_fields ∧
        share1.blob_field.Pairwise (fun a b => a < b) ∧
        share1.blob_field.Nodup ∧
        ∀ k, k ∈ share1.blob_field ↔
          k < share.fields ∧ ∃ f, share.field k = some f ∧ f.flags &&& BLOB_FLAG ≠ 0) := by
  have hscan : blob_field_scan share.field (share.fields + 1) 0 [] =
      some ((List.range share.fields).filter (blob_flagged share)) := by
    have h := blob_field_scan_spec share share.fields 0 []
      (fun j _ h2 => hslots j (by omega)) (by rw [Nat.zero_add]; exact hend)
    rw [h, List.nil_append, List.range_eq_range']
  by_cases h0 : share.blob_fields = 0
  · refine ⟨share, ?_, fun _ => rfl, fun h => absurd h0 h⟩
    simp only [store_blob_fields, h0, ne_eq, not_true_eq_false, if_false]
  · refine ⟨{ share with
        blob_field := (List.range share.fields).filter (blob_flagged share) }, ?_,
      fun h => absurd h h0, fun _ => ⟨rfl, hcount.symm, ?_, ?_, ?_⟩⟩
    · simp only [store_blob_fields, h0, ne_eq, not_false_eq_true, if_true, halloc,
        Bool.false_eq_true, if_false, hscan, ← hcount, Nat.le_refl]
    · exact List.Pairwise.sublist (List.filter_sublist _) (List.pairwise_lt_range _)
    · exact List.Nodup.sublist (List.filter_sublist _) (List.nodup_range _)
    · intro k
      simp only [List.mem_filter, List.mem_range]
      constructor
      · intro ⟨hk, hfl⟩
        obtain ⟨f, hf⟩ := Option.isSome_iff_exists.mp (hslots k hk)
        refine ⟨hk, f, hf, ?_⟩
        simpa [blob_flagged, hf] using hfl
      · intro ⟨hk, f, hf, hfl⟩
        refine ⟨hk, ?_⟩
        simpa [blob_flagged, hf] using hfl

/-- C32, on `example_blob_share`, whose fields 0 and 2 have `BLOB_FLAG`: the
array `share->blob_field` holds 0 and 2. -/
theorem blob_field_offsets_witness :
    ∃ share1, store_blob_fields {} example_blob_share = .ok share1 ∧
      share1.blob_field = [0, 2] := by
  obtain ⟨share1, h1, _, h3⟩ := blob_field_offsets {} example_blob_share
    (by
      intro k hk
      have h3 : k < 3 := hk
      interval_cases k <;> rfl)
    (by rfl) rfl (by rfl)
  refine ⟨share1, h1, ?_⟩
  rw [(h3 (by decide)).1]
  rfl


/-! ## The keys that fill_indexes_from_dd hands to prepare_share -/

/-- The sizing loop of `fill_indexes_from_dd` leaves `share->field`
alone. -/
theorem count_indexes_field (indexes : List Index) :
    ∀ (share : TABLE_SHARE) (primary_key_parts : Nat),
      (count_indexes indexes (share, primary_key_parts)).1.field =
        share.field := by
  induction indexes with
  | nil =>
    intro share primary_key_parts
    rfl
  | cons idx_obj rest ih =>
    intro share primary_key_parts
    rw [count_indexes]
    by_cases hh : idx_obj.is_hidden = true
    · simp only [hh, if_true]
      exact ih _ _
    · have hf : idx_obj.is_hidden = false := by simpa using hh
      simp only [hf, Bool.false_eq_true, if_false]
      rw [ih]

/-- The function `fill_index_from_dd` leaves `share->field` alone. -/
theorem fill_index_from_dd_field {env : Server} {share share1 : TABLE_SHARE}
    {idx_obj : Index} {key_nr : Nat}
    (h : fill_index_from_dd env share idx_obj key_nr = some share1) :
    share1.field = share.field := by
  unfold fill_index_from_dd at h
  simp only at h
  split at h
  · exact absurd h (by simp)
  · simp only [Option.some.injEq] at h
    subst h
    rfl

/-- The first filling loop of `fill_indexes_from_dd` leaves
`share->field` alone. -/
theorem fill_keys_scan_field (env : Server) (indexes : List Index) :
    ∀ (key_nr : Nat) (share : TABLE_SHARE) (index_at_pos : List Index)
      (r : TABLE_SHARE × List Index),
      fill_keys_scan env indexes key_nr (share, index_at_pos) = some r →
      r.1.field = share.field := by
  induction indexes with
  | nil =>
    intro key_nr share index_at_pos r h
    simp only [fill_keys_scan, Option.some.injEq] at h
    subst h
    rfl
  | cons idx_obj rest ih =>
    intro key_nr share index_at_pos r h
    rw [fill_keys_scan] at h
    by_cases hh : idx_obj.is_hidden = true
    · simp only [hh, if_true] at h
      exact ih _ _ _ _ h
    · have hf : idx_obj.is_hidden = false := by simpa using hh
      simp only [hf, Bool.false_eq_true, if_false] at h
      cases hfi : fill_index_from_dd env share idx_obj key_nr with
      | none =>
        rw [hfi] at h
        exact absurd h (by simp)
      | some share2 =>
        rw [hfi] at h
        simp only at h
        rw [ih _ _ _ _ h]
        have e := fill_index_from_dd_field hfi
        split_ifs <;> exact e

/-- The loop of `fill_index_elements_from_dd` leaves `share->field`
alone. -/
theorem fill_index_elements_scan_field (key_nr : Nat) (elements : List Index_element) :
    ∀ (i : Nat) (share share1 : TABLE_SHARE),
      fill_index_elements_scan key_nr elements i share = some share1 →
      share1.field = share.field := by
  induction elements with
  | nil =>
    intro i share share1 h
    simp only [fill_index_elements_scan, Option.some.injEq] at h
    subst h
    rfl
  | cons idx_elem_obj rest ih =>
    intro i share share1 h
    rw [fill_index_elements_scan] at h
    split at h
    · exact ih _ _ _ h
    · simp only at h
      split at h
      · exact absurd h (by simp)
      · rw [ih _ _ _ h]

/-- One turn of the `do ... while` loop of `fill_indexes_from_dd` leaves
`share->field` alone. -/
theorem fill_key_parts_field {use_extended_sk : Bool} {primary_key_parts : Nat}
    {index_at_pos : List Index} {share share1 : TABLE_SHARE} {key_nr : Nat}
    (h : fill_key_parts use_extended_sk primary_key_parts index_at_pos share key_nr =
      some share1) :
    share1.field = share.field := by
  unfold fill_key_parts at h
  simp only at h
  split at h
  · exact absurd h (by simp)
  · rename_i share2 h2
    have e := fill_index_elements_scan_field _ _ _ _ _ h2
    simp only [Option.some.injEq] at h
    subst h
    split_ifs <;> exact e

/-- The function `fill_indexes_from_dd` leaves `share->field` alone. -/
theorem fill_indexes_from_dd_field {env : Server} {eng : Engine} {share share1 : TABLE_SHARE}
    {tab_obj : Table} (h : fill_indexes_from_dd env eng share tab_obj = some share1) :
    share1.field = share.field := by
  have hc := count_indexes_field tab_obj.indexes share 0
  unfold fill_indexes_from_dd at h
  simp only at h
  split_ifs at h
  · split at h
    · exact absurd h (by simp)
    · rename_i share2 index_at_pos h2
      have e2 := fill_keys_scan_field env _ _ _ _ _ h2
      simp only at e2
      unfold fill_keys_parts at h
      rw [foldl_bind_frame (fun (s : TABLE_SHARE) => s.field) _
        (fun a b a1 hs => fill_key_parts_field hs) _ _ _ h, e2, hc]
  · simp only [Option.some.injEq] at h
    subst h
    exact hc

/-- The number of non-hidden elements of an index, as a length. -/
theorem listed_elements_eq (idx_obj : Index) :
    listed_elements idx_obj = (visible_elements idx_obj).length := by
  unfold listed_elements visible_elements
  exact List.countP_eq_length_filter _ _

/-- What `fill_index_from_dd` writes to key `key_nr`: the number of
user-defined parts, the key length, and flags that hold `HA_NULL_PART_KEY` only
if the stored flags do. -/
theorem fill_index_from_dd_content {env : Server} {share share1 : TABLE_SHARE} {idx_obj : Index}
    {key_nr : Nat} (h : fill_index_from_dd env share idx_obj key_nr = some share1) :
    ∀ keyinfo, share1.key_info[key_nr]? = some keyinfo →
      keyinfo.user_defined_key_parts = listed_elements idx_obj ∧
      keyinfo.key_length = index_key_length idx_obj ∧
      keyinfo.flags &&& HA_NULL_PART_KEY =
        idx_obj.options.flags.getD 0 &&& HA_NULL_PART_KEY := by
  unfold fill_index_from_dd at h
  simp only at h
  split at h
  · exact absurd h (by simp)
  · simp only [Option.some.injEq] at h
    subst h
    intro keyinfo hk
    simp only at hk
    by_cases hl : key_nr < share.key_info.length
    · rw [List.getElem?_set_self hl] at hk
      simp only [Option.some.injEq] at hk
      subst hk
      refine ⟨rfl, rfl, ?_⟩
      have h1 : HA_USES_COMMENT &&& HA_NULL_PART_KEY = 0 := by decide
      have h2 : HA_USES_PARSER &&& HA_NULL_PART_KEY = 0 := by decide
      have h3 : HA_USES_BLOCK_SIZE &&& HA_NULL_PART_KEY = 0 := by decide
      have h4 : HA_GENERATED_KEY &&& HA_NULL_PART_KEY = 0 := by decide
      have h5 : HA_FULLTEXT &&& HA_NULL_PART_KEY = 0 := by decide
      have h6 : HA_SPATIAL &&& HA_NULL_PART_KEY = 0 := by decide
      have h7 : HA_NOSAME &&& HA_NULL_PART_KEY = 0 := by decide
      cases idx_obj.type <;> simp only [] <;> split_ifs <;>
        simp only [or_and_of_disjoint _ _ _ h1, or_and_of_disjoint _ _ _ h2,
          or_and_of_disjoint _ _ _ h3, Nat.and_distrib_right, h4, h5, h6, h7, Nat.zero_and,
          Nat.zero_or, Nat.or_zero]
    · rw [List.getElem?_eq_none (by simp; omega)] at hk
      exact absurd hk (by simp)

/-- The first filling loop of `fill_indexes_from_dd`, numbering the keys from
`key_nr`: what `fill_index_from_dd` establishes for the key of an index holds
for that key when the loop ends. -/
theorem fill_keys_scan_each (env : Server) (P : Index → KEY → Prop)
    (hP : ∀ (share share1 : TABLE_SHARE) (idx_obj : Index) (key_nr : Nat),
      fill_index_from_dd env share idx_obj key_nr = some share1 →
      ∀ keyinfo, share1.key_info[key_nr]? = some keyinfo → P idx_obj keyinfo)
    (indexes : List Index) :
    ∀ (key_nr : Nat) (share : TABLE_SHARE) (index_at_pos : List Index) (share1 : TABLE_SHARE)
      (at_pos1 : List Index),
      fill_keys_scan env indexes key_nr (share, index_at_pos) = some (share1, at_pos1) →
      ∀ k idx_obj keyinfo, (listed_indexes indexes)[k]? = some idx_obj →
        share1.key_info[key_nr + k]? = some keyinfo → P idx_obj keyinfo := by
  induction indexes with
  | nil =>
    intro key_nr share index_at_pos share1 at_pos1 _ k idx_obj keyinfo hk
    simp [listed_indexes] at hk
  | cons idx_obj rest ih =>
    intro key_nr share index_at_pos share1 at_pos1 h k idx_obj1 keyinfo hk hki
    rw [fill_keys_scan] at h
    by_cases hh : idx_obj.is_hidden = true
    · simp only [hh, if_true] at h
      have hlist : listed_indexes (idx_obj :: rest) = listed_indexes rest := by
        simp [listed_indexes, hh]
      rw [hlist] at hk
      exact ih key_nr share index_at_pos share1 at_pos1 h k idx_obj1 keyinfo hk hki
    · have hf : idx_obj.is_hidden = false := by simpa using hh
      simp only [hf, Bool.false_eq_true, if_false] at h
      have hlist : listed_indexes (idx_obj :: rest) = idx_obj :: listed_indexes rest := by
        simp [listed_indexes, hf]
      rw [hlist] at hk
      cases hfi : fill_index_from_dd env share idx_obj key_nr with
      | none =>
        rw [hfi] at h
        exact absurd h (by simp)
      | some share2 =>
        rw [hfi] at h
        simp only at h
        have hgoal : ∀ (sh : TABLE_SHARE),
            fill_keys_scan env rest (key_nr + 1) (sh, index_at_pos ++ [idx_obj]) =
              some (share1, at_pos1) → sh.key_info = share2.key_info →
            P idx_obj1 keyinfo := by
          intro sh hscan hsh
          cases k with
          | zero =>
            simp only [List.getElem?_cons_zero, Option.some.injEq] at hk
            subst hk
            obtain ⟨_, _, r3, _⟩ := fill_keys_scan_keys env rest _ _ _ _ _ hscan
            rw [Nat.add_zero, r3 key_nr (by omega), hsh] at hki
            exact hP share share2 idx_obj key_nr hfi keyinfo hki
          | succ k =>
            simp only [List.getElem?_cons_succ] at hk
            have e : key_nr + (k + 1) = key_nr + 1 + k := by omega
            rw [e] at hki
            exact ih (key_nr + 1) sh _ share1 at_pos1 hscan k idx_obj1 keyinfo hk hki
        split_ifs at h
        · exact hgoal _ h rfl
        · exact hgoal _ h rfl

/-- The key part that `fill_index_element_from_dd` builds depends on the share
through the array `share->field` only. -/
theorem fill_index_element_from_dd_congr (share share1 : TABLE_SHARE)
    (idx_elem_obj : Index_element) (keypart : KEY_PART_INFO) (h : share1.field = share.field) :
    fill_index_element_from_dd share1 idx_elem_obj keypart =
      fill_index_element_from_dd share idx_elem_obj keypart := by
  unfold fill_index_element_from_dd
  simp only [h]

/-- The loop of `fill_index_elements_from_dd` for key `key_nr`, started at slot
`i` with zeroed slots from there on: it writes to the key parts of that key
only, leaves the slots below `i`, and fills the slots from `i` on with the key
parts that `fill_index_element_from_dd` builds for the non-hidden elements, in
order. -/
theorem fill_index_elements_scan_content (key_nr : Nat) (elements : List Index_element) :
    ∀ (i : Nat) (share share1 : TABLE_SHARE) (keyinfo : KEY),
      fill_index_elements_scan key_nr elements i share = some share1 →
      share.key_info[key_nr]? = some keyinfo →
      (∀ j, i ≤ j → j < keyinfo.key_part.length → keyinfo.key_part[j]? = some {}) →
      ∃ keyinfo1, share1.key_info[key_nr]? = some keyinfo1 ∧
        keyinfo1 = { keyinfo with key_part := keyinfo1.key_part } ∧
        keyinfo1.key_part.length = keyinfo.key_part.length ∧
        (∀ j, j < i → keyinfo1.key_part[j]? = keyinfo.key_part[j]?) ∧
        ∀ n idx_elem_obj,
          (elements.filter (fun e => !e.is_hidden))[n]? = some idx_elem_obj →
          i + n < keyinfo.key_part.length →
          ∃ key_part, keyinfo1.key_part[i + n]? = some key_part ∧
            fill_index_element_from_dd share idx_elem_obj {} = some key_part := by
  induction elements with
  | nil =>
    intro i share share1 keyinfo h hk _
    simp only [fill_index_elements_scan, Option.some.injEq] at h
    subst h
    refine ⟨keyinfo, hk, rfl, rfl, fun _ _ => rfl, ?_⟩
    intro n e he
    simp at he
  | cons idx_elem_obj rest ih =>
    intro i share share1 keyinfo h hk hzero
    rw [fill_index_elements_scan] at h
    by_cases hh : idx_elem_obj.is_hidden = true
    · simp only [hh, if_true] at h
      obtain ⟨keyinfo1, a1, a2, a3, a4, a5⟩ := ih i share share1 keyinfo h hk hzero
      refine ⟨keyinfo1, a1, a2, a3, a4, ?_⟩
      intro n e he
      have hfil : (idx_elem_obj :: rest).filter (fun e => !e.is_hidden) =
          rest.filter (fun e => !e.is_hidden) := by
        simp [hh]
      rw [hfil] at he
      exact a5 n e he
    · have hf : idx_elem_obj.is_hidden = false := by simpa using hh
      simp only [hf, Bool.false_eq_true, if_false] at h
      have hkl : key_nr < share.key_info.length := by
        by_contra hge
        rw [List.getElem?_eq_none (by omega)] at hk
        exact absurd hk (by simp)
      have hgetD : share.key_info.getD key_nr {} = keyinfo := by
        rw [List.getD_eq_getElem?_getD, hk]
        rfl
      rw [hgetD] at h
      cases hfe : fill_index_element_from_dd share idx_elem_obj (keyinfo.key_part.getD i {}) with
      | none =>
        rw [hfe] at h
        exact absurd h (by simp)
      | some key_part =>
        rw [hfe] at h
        simp only at h
        have hk' : ({ share with
            key_info := share.key_info.set key_nr
              { keyinfo with key_part := keyinfo.key_part.set i key_part } } :
              TABLE_SHARE).key_info[key_nr]? =
            some { keyinfo with key_part := keyinfo.key_part.set i key_part } := by
          simp only
          exact List.getElem?_set_self hkl
        have hzero' : ∀ j, i + 1 ≤ j →
            j < ({ keyinfo with key_part := keyinfo.key_part.set i key_part } :
              KEY).key_part.length →
            ({ keyinfo with key_part := keyinfo.key_part.set i key_part } : KEY).key_part[j]? =
              some {} := by
          intro j hj hjl
          simp only [List.length_set] at hjl
          simp only
          rw [List.getElem?_set_ne (by omega)]
          exact hzero j (by omega) hjl
        obtain ⟨keyinfo1, a1, a2, a3, a4, a5⟩ := ih (i + 1) _ share1 _ h hk' hzero'
        simp only [List.length_set] at a3
        simp only at a2 a4
        refine ⟨keyinfo1, a1, ?_, a3, ?_, ?_⟩
        · rw [a2]
        · intro j hj
          rw [a4 j (by omega), List.getElem?_set_ne (by omega)]
        · intro n e he hn
          have hfil : (idx_elem_obj :: rest).filter (fun e => !e.is_hidden) =
              idx_elem_obj :: rest.filter (fun e => !e.is_hidden) := by
            simp [hf]
          rw [hfil] at he
          cases n with
          | zero =>
            simp only [List.getElem?_cons_zero, Option.some.injEq] at he
            subst he
            rw [Nat.add_zero] at hn ⊢
            refine ⟨key_part, ?_, ?_⟩
            · rw [a4 i (by omega)]
              exact List.getElem?_set_self hn
            · have hz := hzero i (Nat.le_refl i) hn
              have hgd : keyinfo.key_part.getD i {} = {} := by
                rw [List.getD_eq_getElem?_getD, hz]
                rfl
              rw [hgd] at hfe
              exact hfe
          | succ n =>
            simp only [List.getElem?_cons_succ] at he
            have e1 : i + (n + 1) = i + 1 + n := by omega
            rw [e1] at hn ⊢
            obtain ⟨part, b1, b2⟩ := a5 n e he (by
              simp only [List.length_set]
              exact hn)
            refine ⟨part, b1, ?_⟩
            rw [← b2]
            exact (fill_index_element_from_dd_congr share _ e {} rfl).symm

/-- One turn of the `do ... while` loop of `fill_indexes_from_dd`, for key
`key_nr`: the key keeps its number of user-defined parts, its key length and
its flags, and its first slots hold the key parts that
`fill_index_element_from_dd` builds, in zeroed slots, for the non-hidden
elements of the index at that position. -/
theorem fill_key_parts_content {use_extended_sk : Bool} {primary_key_parts : Nat}
    {index_at_pos : List Index} {share share1 : TABLE_SHARE} {key_nr : Nat} {keyinfo : KEY}
    (h : fill_key_parts use_extended_sk primary_key_parts index_at_pos share key_nr =
      some share1)
    (hk : share.key_info[key_nr]? = some keyinfo) :
    ∃ keyinfo1, share1.key_info[key_nr]? = some keyinfo1 ∧
      keyinfo1.user_defined_key_parts = keyinfo.user_defined_key_parts ∧
      keyinfo1.key_length = keyinfo.key_length ∧ keyinfo1.flags = keyinfo.flags ∧
      ∀ n idx_elem_obj,
        (visible_elements (index_at_pos.getD key_nr {}))[n]? = some idx_elem_obj →
        n < keyinfo.user_defined_key_parts →
        ∃ key_part, keyinfo1.key_part[n]? = some key_part ∧
          fill_index_element_from_dd share idx_elem_obj {} = some key_part := by
  have hkl : key_nr < share.key_info.length := by
    by_contra hge
    rw [List.getElem?_eq_none (by omega)] at hk
    exact absurd hk (by simp)
  have hgetD : share.key_info.getD key_nr {} = keyinfo := by
    rw [List.getD_eq_getElem?_getD, hk]
    rfl
  unfold fill_key_parts at h
  simp only at h
  rw [hgetD] at h
  split at h
  · exact absurd h (by simp)
  · rename_i share2 h2
    unfold fill_index_elements_from_dd at h2
    obtain ⟨keyinfo2, a1, a2, a3, _, a5⟩ :=
      fill_index_elements_scan_content key_nr _ 0 _ share2 _ h2
        (by
          simp only
          exact List.getElem?_set_self hkl)
        (by
          intro j _ hj
          simp only [List.length_replicate] at hj
          simp only
          rw [List.getElem?_replicate, if_pos hj])
    simp only [List.length_replicate] at a3
    have hkl2 : key_nr < share2.key_info.length := by
      by_contra hge
      rw [List.getElem?_eq_none (by omega)] at a1
      exact absurd a1 (by simp)
    have hgetD2 : share2.key_info.getD key_nr {} = keyinfo2 := by
      rw [List.getD_eq_getElem?_getD, a1]
      rfl
    rw [hgetD2] at h
    simp only [Option.some.injEq] at h
    have hcontent : ∀ n idx_elem_obj,
        (visible_elements (index_at_pos.getD key_nr {}))[n]? = some idx_elem_obj →
        n < keyinfo.user_defined_key_parts →
        ∃ key_part, keyinfo2.key_part[n]? = some key_part ∧
          fill_index_element_from_dd share idx_elem_obj {} = some key_part := by
      intro n e he hn
      obtain ⟨part, b1, b2⟩ := a5 n e he (by
        simp only [List.length_replicate]
        omega)
      rw [Nat.zero_add] at b1
      refine ⟨part, b1, ?_⟩
      rw [← b2]
      exact (fill_index_element_from_dd_congr share _ e {} rfl).symm
    have hfin : ∀ (unused : Nat) (sh : TABLE_SHARE),
        sh.key_info = share2.key_info.set key_nr
          { keyinfo2 with
            actual_key_parts := keyinfo2.user_defined_key_parts
            unused_key_parts := unused } →
        sh = share1 →
        ∃ keyinfo1, share1.key_info[key_nr]? = some keyinfo1 ∧
          keyinfo1.user_defined_key_parts = keyinfo.user_defined_key_parts ∧
          keyinfo1.key_length = keyinfo.key_length ∧ keyinfo1.flags = keyinfo.flags ∧
          ∀ n idx_elem_obj,
            (visible_elements (index_at_pos.getD key_nr {}))[n]? = some idx_elem_obj →
            n < keyinfo.user_defined_key_parts →
            ∃ key_part, keyinfo1.key_part[n]? = some key_part ∧
              fill_index_element_from_dd share idx_elem_obj {} = some key_part := by
      intro unused sh hsh he
      subst he
      refine ⟨{ keyinfo2 with
        actual_key_parts := keyinfo2.user_defined_key_parts
        unused_key_parts := unused }, ?_, ?_, ?_, ?_, hcontent⟩
      · rw [hsh]
        exact List.getElem?_set_self hkl2
      · show keyinfo2.user_defined_key_parts = keyinfo.user_defined_key_parts
        rw [a2]
      · show keyinfo2.key_length = keyinfo.key_length
        rw [a2]
      · show keyinfo2.flags = keyinfo.flags
        rw [a2]
    split_ifs at h with hext
    · exact hfin primary_key_parts _ rfl h
    · exact hfin keyinfo2.unused_key_parts _ rfl h

/-- The `do ... while` loop of `fill_indexes_from_dd` over distinct key
numbers: every key it visits keeps its number of user-defined parts, its key
length and its flags, and its first slots hold the key parts built for the
non-hidden elements of the index at its position. -/
theorem fill_keys_parts_content (use_extended_sk : Bool) (primary_key_parts : Nat)
    (index_at_pos : List Index) (l : List Nat) :
    ∀ (share share1 : TABLE_SHARE), l.Nodup →
      l.foldl
          (fun st key_nr => st.bind (fun sh =>
            fill_key_parts use_extended_sk primary_key_parts index_at_pos sh key_nr))
          (some share) = some share1 →
      ∀ k ∈ l, ∀ keyinfo, share.key_info[k]? = some keyinfo →
        ∃ keyinfo1, share1.key_info[k]? = some keyinfo1 ∧
          keyinfo1.user_defined_key_parts = keyinfo.user_defined_key_parts ∧
          keyinfo1.key_length = keyinfo.key_length ∧ keyinfo1.flags = keyinfo.flags ∧
          ∀ n idx_elem_obj,
            (visible_elements (index_at_pos.getD k {}))[n]? = some idx_elem_obj →
            n < keyinfo.user_defined_key_parts →
            ∃ key_part, keyinfo1.key_part[n]? = some key_part ∧
              fill_index_element_from_dd share idx_elem_obj {} = some key_part := by
  induction l with
  | nil =>
    intro share share1 _ _ k hk
    exact absurd hk (by simp)
  | cons key_nr rest ih =>
    intro share share1 hnd h k hmem keyinfo hki
    simp only [List.foldl_cons, Option.some_bind] at h
    cases hk : fill_key_parts use_extended_sk primary_key_parts index_at_pos share key_nr with
    | none =>
      rw [hk] at h
      have hnone : ∀ l : List Nat,
          l.foldl
            (fun st key_nr => st.bind (fun sh =>
              fill_key_parts use_extended_sk primary_key_parts index_at_pos sh key_nr))
            (none : Option TABLE_SHARE) = none := by
        intro l
        induction l with
        | nil => rfl
        | cons a l ihl => simpa using ihl
      rw [hnone] at h
      exact absurd h (by simp)
    | some share2 =>
      rw [hk] at h
      have hnd2 : rest.Nodup := (List.nodup_cons.mp hnd).2
      have hfield : share2.field = share.field := fill_key_parts_field hk
      by_cases hr : k ∈ rest
      · have hne : k ≠ key_nr := by
          intro e
          subst e
          exact (List.nodup_cons.mp hnd).1 hr
        have hki2 : share2.key_info[k]? = some keyinfo := by
          rw [(fill_key_parts_counters hk).1 k hne]
          exact hki
        obtain ⟨keyinfo1, a1, a2, a3, a4, a5⟩ := ih share2 share1 hnd2 h k hr keyinfo hki2
        refine ⟨keyinfo1, a1, a2, a3, a4, ?_⟩
        intro n e he hn
        obtain ⟨part, b1, b2⟩ := a5 n e he hn
        refine ⟨part, b1, ?_⟩
        rw [← b2]
        exact (fill_index_element_from_dd_congr share share2 e {} hfield).symm
      · have hkk : k = key_nr := by
          rcases List.mem_cons.mp hmem with e | e
          · exact e
          · exact absurd e hr
        subst hkk
        obtain ⟨keyinfo1, a1, a2, a3, a4, a5⟩ := fill_key_parts_content hk hki
        refine ⟨keyinfo1, ?_, a2, a3, a4, a5⟩
        rw [(fill_keys_parts_counters _ _ _ _ _ _ h).1 k hr]
        exact a1

/-- What `fill_indexes_from_dd` hands to `prepare_share`, key by key: key `k`
comes from the `k`-th non-hidden index; its number of user-defined parts is the
number of non-hidden elements, its key length their summed lengths, its
`HA_NULL_PART_KEY` bit that of the stored flags, and its user-defined parts are
the key parts that `fill_index_element_from_dd` builds, in zeroed slots, for
the non-hidden elements in order. -/
theorem fill_indexes_from_dd_content (env : Server) (eng : Engine) (share share1 : TABLE_SHARE)
    (tab_obj : Table) (h : fill_indexes_from_dd env eng share tab_obj = some share1)
    (hkeys : share.keys = 0) :
    ∀ k keyinfo, k < share1.keys → share1.key_info[k]? = some keyinfo →
      ∃ idx_obj, (listed_indexes tab_obj.indexes)[k]? = some idx_obj ∧
        keyinfo.user_defined_key_parts = listed_elements idx_obj ∧
        keyinfo.key_length = index_key_length idx_obj ∧
        keyinfo.flags &&& HA_NULL_PART_KEY =
          idx_obj.options.flags.getD 0 &&& HA_NULL_PART_KEY ∧
        ∀ (n : Nat) idx_elem_obj, (visible_elements idx_obj)[n]? = some idx_elem_obj →
          ∃ key_part, keyinfo.key_part[n]? = some key_part ∧
            fill_index_element_from_dd share idx_elem_obj {} = some key_part := by
  intro k keyinfo hk hki
  have hc := count_indexes_keys tab_obj.indexes share 0
  rw [hkeys, Nat.zero_add] at hc
  have hcf := count_indexes_field tab_obj.indexes share 0
  unfold fill_indexes_from_dd at h
  simp only at h
  split at h
  · split at h
    · exact absurd h (by simp)
    · split at h
      · exact absurd h (by simp)
      · rename_i share2 index_at_pos hscan
        have p1 := (fill_keys_parts_maps _ _ _ _ _ _ h).1
        obtain ⟨s1, s2, _, _⟩ := fill_keys_scan_keys env _ _ _ _ _ _ hscan
        have s5 := (fill_keys_scan_maps env _ _ _ _ _ _ hscan).1
        have s6 := fill_keys_scan_field env _ _ _ _ _ hscan
        simp only [List.length_replicate, List.nil_append] at s1 s2 s5 s6
        have hk2 : k < (listed_indexes tab_obj.indexes).length := by
          rw [← hc.1, ← s5, ← p1]
          exact hk
        have hkl : k < share2.key_info.length := by
          rw [s2, hc.1]
          exact hk2
        have hidx : (listed_indexes tab_obj.indexes)[k]? =
            some ((listed_indexes tab_obj.indexes).get ⟨k, hk2⟩) :=
          List.getElem?_eq_getElem hk2
        have hki2 : share2.key_info[k]? = some (share2.key_info.get ⟨k, hkl⟩) :=
          List.getElem?_eq_getElem hkl
        have hP := fill_keys_scan_each env
          (fun idx_obj keyinfo =>
            keyinfo.user_defined_key_parts = listed_elements idx_obj ∧
            keyinfo.key_length = index_key_length idx_obj ∧
            keyinfo.flags &&& HA_NULL_PART_KEY =
              idx_obj.options.flags.getD 0 &&& HA_NULL_PART_KEY)
          (fun _ _ _ _ hfi keyinfo hk => fill_index_from_dd_content hfi keyinfo hk)
          _ _ _ _ _ _ hscan k _ _ hidx (by rw [Nat.zero_add]; exact hki2)
        obtain ⟨c1, c2, c3⟩ := hP
        obtain ⟨keyinfo1, a1, a2, a3, a4, a5⟩ :=
          fill_keys_parts_content _ _ _ _ _ _ (List.nodup_range _) h k
            (by rw [List.mem_range, s5, hc.1]; exact hk2) _ hki2
        rw [hki] at a1
        simp only [Option.some.injEq] at a1
        subst a1
        refine ⟨_, hidx, ?_, ?_, ?_, ?_⟩
        · rw [a2]
          exact c1
        · rw [a3]
          exact c2
        · rw [a4]
          exact c3
        · intro n e he
          have hat : index_at_pos.getD k {} = (listed_indexes tab_obj.indexes).get ⟨k, hk2⟩ := by
            rw [s1, List.getD_eq_getElem?_getD, hidx]
            rfl
          have hn : n < (visible_elements
              ((listed_indexes tab_obj.indexes).get ⟨k, hk2⟩)).length := by
            by_contra hge
            rw [List.getElem?_eq_none (by omega)] at he
            exact absurd he (by simp)
          obtain ⟨part, b1, b2⟩ := a5 n e (by rw [hat]; exact he)
            (by rw [c1, listed_elements_eq]; exact hn)
          refine ⟨part, b1, ?_⟩
          rw [← b2]
          refine (fill_index_element_from_dd_congr share share2 e {} ?_).symm
          rw [s6]
          exact hcf
  · rename_i hz
    simp only [Option.some.injEq] at h
    subst h
    simp only [ne_eq, Decidable.not_not] at hz
    simp only at hk
    omega


/-- The number `primary_key_parts` that the sizing loop of
`fill_indexes_from_dd` ends with: the number of non-hidden elements of the last
non-hidden index at ordinal position 1, or the starting value when there is
none. -/
theorem count_indexes_room (indexes : List Index) :
    ∀ (share : TABLE_SHARE) (primary_key_parts : Nat),
      (count_indexes indexes (share, primary_key_parts)).2 =
        (listed_indexes indexes).foldl
          (fun (p : Nat) (idx_obj : Index) =>
            if idx_obj.ordinal_position = 1 then listed_elements idx_obj else p)
          primary_key_parts := by
  induction indexes with
  | nil =>
    intro share p
    rfl
  | cons idx_obj rest ih =>
    intro share p
    rw [count_indexes]
    by_cases hh : idx_obj.is_hidden = true
    · have hlist : listed_indexes (idx_obj :: rest) = listed_indexes rest := by
        simp [listed_indexes, hh]
      simp only [hh, if_true]
      rw [hlist]
      exact ih share p
    · have hf : idx_obj.is_hidden = false := by simpa using hh
      have hlist : listed_indexes (idx_obj :: rest) = idx_obj :: listed_indexes rest := by
        simp [listed_indexes, hf]
      simp only [hf, Bool.false_eq_true, if_false]
      rw [hlist, List.foldl_cons, ih]
      rfl

/-- When the first non-hidden index is at ordinal position 1 and no other
non-hidden index is, `primary_key_parts` is the number of non-hidden elements
of that first index. -/
theorem count_indexes_room_first (indexes : List Index) (share : TABLE_SHARE) (idx_obj : Index)
    (hfirst : (listed_indexes indexes)[0]? = some idx_obj)
    (hpos : idx_obj.ordinal_position = 1)
    (hrest : ∀ idx ∈ (listed_indexes indexes).tail, idx.ordinal_position ≠ 1) :
    (count_indexes indexes (share, 0)).2 = listed_elements idx_obj := by
  rw [count_indexes_room]
  cases hl : listed_indexes indexes with
  | nil =>
    rw [hl] at hfirst
    exact absurd hfirst (by simp)
  | cons a rest =>
    rw [hl] at hfirst hrest
    simp only [List.getElem?_cons_zero, Option.some.injEq] at hfirst
    subst hfirst
    simp only [List.tail_cons] at hrest
    rw [List.foldl_cons, if_pos hpos]
    have hkeep : ∀ (l : List Index) (p : Nat), (∀ idx ∈ l, idx.ordinal_position ≠ 1) →
        l.foldl
          (fun (p : Nat) (idx_obj : Index) =>
            if idx_obj.ordinal_position = 1 then listed_elements idx_obj else p) p = p := by
      intro l
      induction l with
      | nil =>
        intro p _
        rfl
      | cons b l ihl =>
        intro p hb
        rw [List.foldl_cons, if_neg (hb b (List.mem_cons_self _ _))]
        exact ihl p (fun idx hmem => hb idx (List.mem_cons_of_mem _ hmem))
    exact hkeep rest _ hrest

/-- Every key that `fill_indexes_from_dd` hands to `prepare_share` exists in
`share->key_info` and has as many key part slots as the cursor `key_part`
moves in its turn of the `do ... while` loop. -/
theorem fill_indexes_from_dd_slots (env : Server) (eng : Engine) (share share1 : TABLE_SHARE)
    (tab_obj : Table) (h : fill_indexes_from_dd env eng share tab_obj = some share1)
    (hkeys : share.keys = 0) :
    ∀ k, k < share1.keys →
      ∃ keyinfo, share1.key_info[k]? = some keyinfo ∧
        keyinfo.key_part.length =
          key_part_advance eng.supports_extended_keys
            (count_indexes tab_obj.indexes (share, 0)).2 keyinfo k := by
  intro k hk
  have hc := count_indexes_keys tab_obj.indexes share 0
  rw [hkeys, Nat.zero_add] at hc
  unfold fill_indexes_from_dd at h
  simp only at h
  split at h
  · split at h
    · exact absurd h (by simp)
    · split at h
      · exact absurd h (by simp)
      · rename_i share2 index_at_pos hscan
        obtain ⟨s1, _, _⟩ := fill_keys_scan_maps env _ _ _ _ _ _ hscan
        obtain ⟨_, k2, _, _⟩ := fill_keys_scan_keys env _ _ _ _ _ _ hscan
        obtain ⟨p1, _, _⟩ := fill_keys_parts_maps _ _ _ _ _ _ h
        have hlen := fill_keys_parts_length _ _ _ _ _ _ h
        have hkeysfact := fill_keys_parts_keys _ _ _ _ _ _ h
        simp only [List.length_replicate] at s1 k2
        have hk1 : k < share1.key_info.length := by
          rw [hlen, k2, ← s1, ← p1]
          exact hk
        refine ⟨share1.key_info.get ⟨k, hk1⟩, List.getElem?_eq_getElem hk1, ?_⟩
        obtain ⟨_, _, _, _, a⟩ := hkeysfact k _ (List.getElem?_eq_getElem hk1)
        exact a (by rw [List.mem_range, ← p1]; exact hk)
  · rename_i hz
    simp only [Option.some.injEq] at h
    subst h
    simp only [ne_eq, Decidable.not_not] at hz
    simp only at hk
    omega

/-- The room for the primary-key parts when the primary key is key 0, as
`fill_indexes_from_dd` expects it: when `fill_indexes_from_dd` and
`prepare_share` succeed, the first non-hidden index is the only non-hidden one
at ordinal position 1 and the key that `prepare_share` selects is key 0, then
`primary_key_parts` is the number of user-defined key parts of the selected
primary key, and every key that `fill_indexes_from_dd` extends (extended keys
supported, not key 0, not unique) has slots for its own user-defined parts and
for all user-defined parts of the selected primary key. -/
theorem primary_key_room (env : Server) (eng : Engine) (share0 share share1 : TABLE_SHARE)
    (tab_obj : Table) (idx_obj : Index)
    (hk0 : share0.keys = 0)
    (hfill : fill_indexes_from_dd env eng share0 tab_obj = some share)
    (hok : prepare_share eng share = some share1)
    (hfirst : (listed_indexes tab_obj.indexes)[0]? = some idx_obj)
    (hpos : idx_obj.ordinal_position = 1)
    (hrest : ∀ idx ∈ (listed_indexes tab_obj.indexes).tail, idx.ordinal_position ≠ 1)
    (hsel : share1.primary_key = 0) :
    ∃ primary, share1.key_info[share1.primary_key]? = some primary ∧
      (count_indexes tab_obj.indexes (share0, 0)).2 = primary.user_defined_key_parts ∧
      ∀ k, k < share.keys →
        ∃ keyinfo, share.key_info[k]? = some keyinfo ∧
          (eng.supports_extended_keys = true → k ≠ 0 → keyinfo.flags &&& HA_NOSAME = 0 →
            keyinfo.key_part.length =
              keyinfo.user_defined_key_parts + primary.user_defined_key_parts) := by
  have hroom := count_indexes_room_first tab_obj.indexes share0 idx_obj hfirst hpos hrest
  have hslots := fill_indexes_from_dd_slots env eng share0 share tab_obj hfill hk0
  have hcontent := fill_indexes_from_dd_content env eng share0 share tab_obj hfill hk0
  have hc := count_indexes_keys tab_obj.indexes share0 0
  have hpos0 : 0 < share.keys := by
    by_contra hz
    have hz0 : share.keys = 0 := by omega
    have hlen : (listed_indexes tab_obj.indexes).length = 0 := by
      unfold fill_indexes_from_dd at hfill
      simp only at hfill
      split at hfill
      · split at hfill
        · exact absurd hfill (by simp)
        · split at hfill
          · exact absurd hfill (by simp)
          · rename_i share2 index_at_pos hscan
            obtain ⟨s1, _, _⟩ := fill_keys_scan_maps env _ _ _ _ _ _ hscan
            obtain ⟨p1, _, _⟩ := fill_keys_parts_maps _ _ _ _ _ _ hfill
            simp only at s1
            have e := hc.1
            omega
      · rename_i hzz
        simp only [ne_eq, Decidable.not_not] at hzz
        have e := hc.1
        omega
    have hnil : listed_indexes tab_obj.indexes = [] := List.length_eq_zero.mp hlen
    rw [hnil] at hfirst
    exact absurd hfirst (by simp)
  obtain ⟨keyinfo0, hki0, _⟩ := hslots 0 hpos0
  obtain ⟨idx0, hidx0, hud, _⟩ := hcontent 0 keyinfo0 hpos0 hki0
  rw [hfirst] at hidx0
  simp only [Option.some.injEq] at hidx0
  subst hidx0
  obtain ⟨handler_file, _, hkey1⟩ := prepare_share_key eng share share1 hok 0 keyinfo0 hki0 hpos0
  rw [hsel]
  refine ⟨_, hkey1, ?_, ?_⟩
  · rw [(prepare_key_info_common eng _ _ 0 _).1, hroom]
    exact hud.symm
  · intro k hk
    obtain ⟨keyinfo, hki, hlen⟩ := hslots k hk
    refine ⟨keyinfo, hki, ?_⟩
    intro hext hne hns
    rw [hlen, (prepare_key_info_common eng _ _ 0 _).1]
    simp only [key_part_advance, hext, hne, hns, ne_eq, not_false_eq_true, and_self, if_true]
    rw [hroom]
    show _ = _ + keyinfo0.user_defined_key_parts
    rw [hud]

/-- The room on `example_keyed_table` with an engine that supports extended
keys: the key named `PRIMARY` is key 0, at ordinal position 1, and the two
non-unique keys have a slot of room each. -/
theorem primary_key_room_witness :
    ∃ primary, (example_prepared_share extended_engine).key_info[
        (example_prepared_share extended_engine).primary_key]? = some primary ∧
      (count_indexes example_keyed_table.indexes (example_columns_share, 0)).2 =
        primary.user_defined_key_parts ∧
      ∀ k, k < (example_keys_share extended_engine).keys →
        ∃ keyinfo, (example_keys_share extended_engine).key_info[k]? = some keyinfo ∧
          (extended_engine.supports_extended_keys = true → k ≠ 0 →
            keyinfo.flags &&& HA_NOSAME = 0 →
            keyinfo.key_part.length =
              keyinfo.user_defined_key_parts + primary.user_defined_key_parts) :=
  primary_key_room example_server extended_engine example_columns_share
    (example_keys_share extended_engine) (example_prepared_share extended_engine)
    example_keyed_table (example_keyed_table.indexes.getD 0 {}) (by rfl) (by rfl) (by rfl)
    (by rfl) (by rfl) (by decide) (by rfl)


/-! ## The key part loop of `prepare_share`: lengths and flags -/

/-- One turn of the key part loop of `prepare_share`, for a user-defined part
whose `store_length` is still its `length`: `keyinfo->key_length`, which held
the part's length, holds the part's final `store_length` in its place. -/
theorem prepared_key_length (keyinfo : KEY) (i : Nat) (key_part : KEY_PART_INFO) (others : Nat)
    (hi : i < keyinfo.user_defined_key_parts)
    (hstore : key_part.store_length = key_part.length)
    (hfit : key_part.length + HA_KEY_NULL_LENGTH + HA_KEY_BLOB_LENGTH < 65536)
    (hclamp : decimal_clamp_applies key_part →
      key_part.field.key_length + HA_KEY_NULL_LENGTH + HA_KEY_BLOB_LENGTH < 65536)
    (hkl : keyinfo.key_length = others + key_part.length)
    (hroom : others + 131072 < 4294967296) :
    (prepared_key keyinfo i key_part).key_length =
        others + (prepared_part key_part).store_length ∧
      (prepared_part key_part).store_length < 65536 ∧
      (prepared_key keyinfo i key_part).user_defined_key_parts =
        keyinfo.user_defined_key_parts := by
  by_cases hc : decimal_clamp_applies key_part
  · have a := (prepared_part_clamped key_part hc hstore (hclamp hc)).2.2.1
    have hcl := hclamp hc
    have b := prepared_key_clamped keyinfo i key_part hc hi (by omega)
      (by
        simp only [HA_KEY_NULL_LENGTH, HA_KEY_BLOB_LENGTH] at hfit hcl ⊢
        omega)
    refine ⟨?_, ?_, rfl⟩
    · rw [a]
      simp only [HA_KEY_NULL_LENGTH, HA_KEY_BLOB_LENGTH] at hfit hcl b ⊢
      omega
    · rw [a]
      simp only [HA_KEY_NULL_LENGTH, HA_KEY_BLOB_LENGTH] at hfit hcl ⊢
      split_ifs <;> omega
  · have a := (prepared_part_plain key_part hc (by rw [hstore]; exact hfit)).2.2.1
    have hi1 : i + 1 ≤ keyinfo.user_defined_key_parts := hi
    refine ⟨?_, ?_, rfl⟩
    · rw [a, hstore]
      simp only [HA_KEY_NULL_LENGTH, HA_KEY_BLOB_LENGTH] at hfit ⊢
      by_cases hn : key_part.field.real_maybe_null = true <;>
        by_cases hb : has_length_bytes key_part.field <;>
        simp only [prepared_key, hc, hn, hb, hi1, and_self, and_true, if_true, if_false,
          Bool.false_eq_true, false_and, HA_KEY_NULL_LENGTH, HA_KEY_BLOB_LENGTH] <;>
        (try unfold to_uint) <;> omega
    · rw [a, hstore]
      simp only [HA_KEY_NULL_LENGTH, HA_KEY_BLOB_LENGTH] at hfit ⊢
      split_ifs <;> omega

/-- The key part loop of `prepare_share` over user-defined parts whose
`store_length` is still their `length` and whose lengths are counted in
`keyinfo->key_length`: when the loop ends, `keyinfo->key_length` counts the
final `store_length` of each of them instead. -/
theorem prepare_key_parts_length (parts : List KEY_PART_INFO) :
    ∀ (s : key_part_scan) (i counted : Nat),
      (∀ key_part ∈ parts, key_part.store_length = key_part.length ∧
        key_part.length + HA_KEY_NULL_LENGTH + HA_KEY_BLOB_LENGTH < 65536 ∧
        (decimal_clamp_applies key_part →
          key_part.field.key_length + HA_KEY_NULL_LENGTH + HA_KEY_BLOB_LENGTH < 65536)) →
      i + parts.length ≤ s.keyinfo.user_defined_key_parts →
      s.keyinfo.key_length = counted + (parts.map (fun key_part => key_part.length)).sum →
      s.keyinfo.key_length + 131072 * parts.length < 4294967296 →
      (prepare_key_parts s i parts).keyinfo.key_length =
        counted + ((parts.map prepared_part).map (fun key_part => key_part.store_length)).sum := by
  induction parts with
  | nil =>
    intro s i counted _ _ hkl _
    simpa [prepare_key_parts] using hkl
  | cons key_part rest ih =>
    intro s i counted hparts hi hkl hroom
    obtain ⟨p1, p2, p3⟩ := hparts key_part (List.mem_cons_self _ _)
    simp only [List.map_cons, List.sum_cons, List.length_cons] at hkl hroom hi ⊢
    obtain ⟨a1, a2, a3⟩ := prepared_key_length s.keyinfo i key_part
      (counted + (rest.map (fun key_part => key_part.length)).sum)
      (by omega) p1 p2 p3 (by omega) (by omega)
    rw [prepare_key_parts]
    have hstep := ih (prepare_key_part s i key_part) (i + 1)
      (counted + (prepared_part key_part).store_length)
      (fun q hq => hparts q (List.mem_cons_of_mem _ hq))
      (by rw [prepare_key_part_keyinfo, a3]; omega)
      (by rw [prepare_key_part_keyinfo, a1]; omega)
      (by rw [prepare_key_part_keyinfo, a1]; omega)
    rw [hstep]
    omega

/-- The key after the key part loop of `prepare_share`, for a key whose
user-defined parts have `store_length` equal to `length` and whose
`key_length` is the sum of their lengths: `key_length` is the sum of the final
`store_length` of the user-defined parts. -/
theorem key_after_parts_length (share : TABLE_SHARE) (keyinfo : KEY)
    (hparts : ∀ key_part ∈ keyinfo.key_part.take keyinfo.user_defined_key_parts,
      key_part.store_length = key_part.length ∧
      key_part.length + HA_KEY_NULL_LENGTH + HA_KEY_BLOB_LENGTH < 65536 ∧
      (decimal_clamp_applies key_part →
        key_part.field.key_length + HA_KEY_NULL_LENGTH + HA_KEY_BLOB_LENGTH < 65536))
    (hlen : keyinfo.user_defined_key_parts ≤ keyinfo.key_part.length)
    (hkl : keyinfo.key_length =
      ((keyinfo.key_part.take keyinfo.user_defined_key_parts).map
        (fun key_part => key_part.length)).sum)
    (hroom : keyinfo.key_length + 131072 * keyinfo.user_defined_key_parts < 4294967296) :
    (key_after_parts share keyinfo).key_length =
      (((key_after_parts share keyinfo).key_part.take
        (key_after_parts share keyinfo).user_defined_key_parts).map
          (fun key_part => key_part.store_length)).sum := by
  have hf := key_after_parts_frame share keyinfo
  have htl : (keyinfo.key_part.take keyinfo.user_defined_key_parts).length =
      keyinfo.user_defined_key_parts := by
    rw [List.length_take]
    omega
  have htake : (key_after_parts share keyinfo).key_part.take
      (key_after_parts share keyinfo).user_defined_key_parts =
      (keyinfo.key_part.take keyinfo.user_defined_key_parts).map prepared_part := by
    rw [hf.1, hf.2.2.2.2]
    exact List.take_left' (by rw [List.length_map, htl])
  rw [htake]
  have h := prepare_key_parts_length (keyinfo.key_part.take keyinfo.user_defined_key_parts)
    { keyinfo := keyinfo, done := [], crashed := share.crashed } 0 0 hparts
    (by
      show 0 + _ ≤ keyinfo.user_defined_key_parts
      omega)
    (by
      show keyinfo.key_length = 0 + _
      omega)
    (by
      show keyinfo.key_length + _ < _
      omega)
  rw [Nat.zero_add] at h
  exact h

/-- What one turn of the key part loop of `prepare_share` leaves in the part:
the field is the one it had, and `HA_PART_KEY_SEG`, not set before, is set
exactly when the part's length is not the column's `key_length()` and the
column is not a NEWDECIMAL one. -/
theorem prepared_part_seg (key_part : KEY_PART_INFO)
    (h0 : key_part.key_part_flag &&& HA_PART_KEY_SEG = 0) :
    (prepared_part key_part).field = key_part.field ∧
      ((prepared_part key_part).key_part_flag &&& HA_PART_KEY_SEG ≠ 0 ↔
        (key_part.field.key_length ≠ key_part.length ∧
          key_part.field.type ≠ .MYSQL_TYPE_NEWDECIMAL)) := by
  have hseg : ∀ x : Nat, x &&& HA_PART_KEY_SEG = 0 →
      (x ||| HA_PART_KEY_SEG) &&& HA_PART_KEY_SEG ≠ 0 := by
    intro x hx
    rw [Nat.and_distrib_right, hx]
    decide
  by_cases hc : decimal_clamp_applies key_part
  · have hc2 := hc
    unfold decimal_clamp_applies at hc2
    simp only [prepared_part, hc, if_true]
    refine ⟨(init_flags_frame _).2.2, ?_⟩
    rw [(init_flags_flags _).2]
    constructor
    · intro h
      exact absurd h0 h
    · intro h
      exact absurd hc2.2 h.2
  · by_cases hl : key_part.field.key_length ≠ key_part.length
    · have ht : key_part.field.type ≠ .MYSQL_TYPE_NEWDECIMAL := by
        intro e
        apply hc
        unfold decimal_clamp_applies
        exact ⟨hl, e⟩
      simp only [prepared_part, hc, hl, if_true, if_false, ne_eq, not_false_eq_true]
      refine ⟨(init_flags_frame _).2.2, ?_⟩
      constructor
      · intro _
        exact ⟨trivial, ht⟩
      · intro _
        refine hseg _ ?_
        rw [(init_flags_flags _).2]
        exact h0
    · simp only [prepared_part, hc, hl, if_false]
      refine ⟨(init_flags_frame _).2.2, ?_⟩
      rw [(init_flags_flags _).2]
      constructor
      · intro h
        exact absurd h0 h
      · intro h
        exact h.1.elim

/-- The key part loop of `prepare_share`: when it ends, the key carries
`HA_NULL_PART_KEY` exactly when it carried it before or one of the parts the
loop went through lies on a field with a null bit. -/
theorem prepare_key_parts_null_flag (parts : List KEY_PART_INFO) :
    ∀ (s : key_part_scan) (i : Nat),
      ((prepare_key_parts s i parts).keyinfo.flags &&& HA_NULL_PART_KEY ≠ 0 ↔
        (s.keyinfo.flags &&& HA_NULL_PART_KEY ≠ 0 ∨
          ∃ key_part ∈ parts, key_part.field.real_maybe_null = true)) := by
  induction parts with
  | nil =>
    intro s i
    simp [prepare_key_parts]
  | cons key_part rest ih =>
    intro s i
    rw [prepare_key_parts, ih, prepare_key_part_keyinfo]
    have hv : ∀ x : Nat, (x ||| HA_VIRTUAL_GEN_KEY) &&& HA_NULL_PART_KEY =
        x &&& HA_NULL_PART_KEY :=
      fun x => or_and_of_disjoint x _ _ (by decide)
    have hn : ∀ x : Nat, (x ||| HA_NULL_PART_KEY) &&& HA_NULL_PART_KEY ≠ 0 := by
      intro x e
      have h64 : Nat.testBit 64 6 = true := by decide
      have h : ((x ||| HA_NULL_PART_KEY) &&& HA_NULL_PART_KEY).testBit 6 = true := by
        simp [HA_NULL_PART_KEY, Nat.testBit_and, Nat.testBit_or, h64]
      rw [e] at h
      simp at h
    have hstep : (prepared_key s.keyinfo i key_part).flags &&& HA_NULL_PART_KEY ≠ 0 ↔
        (s.keyinfo.flags &&& HA_NULL_PART_KEY ≠ 0 ∨ key_part.field.real_maybe_null = true) := by
      by_cases hr : key_part.field.real_maybe_null = true <;>
        by_cases hg : key_part.field.is_virtual_gcol = true <;>
        simp only [prepared_key, hr, hg, if_true, if_false, hv, Bool.false_eq_true, or_false,
          or_true, iff_true, ne_eq] <;>
        exact hn _
    rw [hstep]
    simp only [List.mem_cons, exists_eq_or_imp]
    tauto


/-- The key length that `fill_index_from_dd` sums up, for an index with fewer
than 65536 non-hidden elements, each shorter than 65536: the sum does not wrap,
so it is the sum of the lengths of the non-hidden elements. -/
theorem index_key_length_sum (idx_obj : Index)
    (hfit : ∀ e ∈ visible_elements idx_obj, e.length < 65536)
    (hcount : listed_elements idx_obj < 65536) :
    index_key_length idx_obj =
        ((visible_elements idx_obj).map (fun e => e.length)).sum ∧
      index_key_length idx_obj ≤ 65536 * listed_elements idx_obj := by
  have hgen : ∀ (elements : List Index_element) (len : Nat),
      (∀ e ∈ elements.filter (fun e => !e.is_hidden), e.length < 65536) →
      len + 65536 * (elements.filter (fun e => !e.is_hidden)).length < 4294967296 →
      elements.foldl
          (fun (len : Nat) (idx_elem : Index_element) =>
            if !idx_elem.is_hidden then to_uint (len + idx_elem.length) else len) len =
        len + ((elements.filter (fun e => !e.is_hidden)).map (fun e => e.length)).sum ∧
      ((elements.filter (fun e => !e.is_hidden)).map (fun e => e.length)).sum ≤
        65536 * (elements.filter (fun e => !e.is_hidden)).length := by
    intro elements
    induction elements with
    | nil =>
      intro len _ _
      simp
    | cons e rest ih =>
      intro len hf hb
      by_cases hh : e.is_hidden = true
      · have hfil : (e :: rest).filter (fun e => !e.is_hidden) =
            rest.filter (fun e => !e.is_hidden) := by
          simp [hh]
        rw [hfil] at hf hb ⊢
        rw [List.foldl_cons]
        simp only [hh, Bool.not_true, Bool.false_eq_true, if_false]
        exact ih len hf hb
      · have hfalse : e.is_hidden = false := by simpa using hh
        have hfil : (e :: rest).filter (fun e => !e.is_hidden) =
            e :: rest.filter (fun e => !e.is_hidden) := by
          simp [hfalse]
        rw [hfil] at hf hb ⊢
        rw [List.foldl_cons]
        simp only [hfalse, Bool.not_false, if_true, List.map_cons, List.sum_cons,
          List.length_cons] at hb ⊢
        have he := hf e (List.mem_cons_self _ _)
        have hto : to_uint ((len : Int) + (e.length : Int)) = len + e.length := by
          unfold to_uint
          omega
        rw [hto]
        obtain ⟨a1, a2⟩ := ih (len + e.length)
          (fun x hx => hf x (List.mem_cons_of_mem _ hx)) (by omega)
        rw [a1]
        constructor
        · omega
        · omega
  have h := hgen idx_obj.elements 0
    (by
      intro e he
      exact hfit e he)
    (by
      have e : (idx_obj.elements.filter (fun e => !e.is_hidden)).length =
          listed_elements idx_obj := (listed_elements_eq idx_obj).symm
      rw [e]
      omega)
  rw [Nat.zero_add] at h
  have e : (visible_elements idx_obj).length = listed_elements idx_obj :=
    (listed_elements_eq idx_obj).symm
  constructor
  · exact h.1
  · show idx_obj.elements.foldl _ 0 ≤ _
    rw [h.1, ← e]
    exact h.2

/-- A key whose first slots hold, in order, the key parts built for a list of
index elements, as many as it has user-defined parts: the user-defined parts
are exactly those key parts. -/
theorem user_parts_of_elements (share : TABLE_SHARE) (keyinfo : KEY)
    (elements : List Index_element)
    (hud : keyinfo.user_defined_key_parts = elements.length)
    (hcontent : ∀ (n : Nat) e, elements[n]? = some e →
      ∃ key_part, keyinfo.key_part[n]? = some key_part ∧
        fill_index_element_from_dd share e {} = some key_part) :
    keyinfo.user_defined_key_parts ≤ keyinfo.key_part.length ∧
      List.Forall₂ (fun e key_part => fill_index_element_from_dd share e {} = some key_part)
        elements (keyinfo.key_part.take keyinfo.user_defined_key_parts) := by
  have hlen : keyinfo.user_defined_key_parts ≤ keyinfo.key_part.length := by
    by_contra hlt
    have hn : keyinfo.key_part.length < elements.length := by omega
    obtain ⟨part, hp, _⟩ := hcontent keyinfo.key_part.length _ (List.getElem?_eq_getElem hn)
    rw [List.getElem?_eq_none (Nat.le_refl _)] at hp
    exact absurd hp (by simp)
  refine ⟨hlen, ?_⟩
  rw [List.forall₂_iff_get]
  refine ⟨by rw [List.length_take]; omega, ?_⟩
  intro i h1 h2
  obtain ⟨part, hp, hfe⟩ := hcontent i _ (List.getElem?_eq_getElem h1)
  rw [List.length_take] at h2
  have hi : i < keyinfo.key_part.length := by omega
  rw [List.getElem?_eq_getElem hi] at hp
  simp only [Option.some.injEq] at hp
  simp only [List.get_eq_getElem, List.getElem_take]
  rw [hp]
  exact hfe

/-- The key parts built by `fill_index_element_from_dd` for a list of index
elements, each of a length that fits in 16 bits with the overhead: every part
has `store_length` equal to `length`, the lengths are those of the elements,
and a part lies on a field with a null bit exactly when the field in the slot
of its element's column has one. -/
theorem element_parts (share : TABLE_SHARE) (elements : List Index_element)
    (parts : List KEY_PART_INFO)
    (h : List.Forall₂
      (fun e key_part => fill_index_element_from_dd share e {} = some key_part) elements parts) :
    (∀ key_part ∈ parts, key_part.store_length = key_part.length ∧
      ∃ e ∈ elements, key_part.length = to_uint16 e.length) ∧
    parts.map (fun key_part => key_part.length) = elements.map (fun e => to_uint16 e.length) ∧
    ((∃ key_part ∈ parts, key_part.field.real_maybe_null = true) ↔
      ∃ e ∈ elements, ∃ field, share.field (e.column.ordinal_position - 1) = some field ∧
        field.real_maybe_null = true) := by
  induction h with
  | nil => simp
  | @cons e key_part es ps hr _ ih =>
    obtain ⟨f1, f2, _, f4, _, _⟩ := fill_index_element_from_dd_some share e key_part hr
    obtain ⟨i1, i2, i3⟩ := ih
    refine ⟨?_, ?_, ?_⟩
    · intro q hq
      rcases List.mem_cons.mp hq with hq | hq
      · subst hq
        exact ⟨by rw [f1, f2], e, List.mem_cons_self _ _, f1⟩
      · obtain ⟨b1, e2, b2, b3⟩ := i1 q hq
        exact ⟨b1, e2, List.mem_cons_of_mem _ b2, b3⟩
    · simp only [List.map_cons, f1, i2]
    · simp only [List.mem_cons, exists_eq_or_imp, i3]
      constructor
      · rintro (hq | hq)
        · exact Or.inl ⟨key_part.field, f4, hq⟩
        · exact Or.inr hq
      · rintro (⟨field, hq1, hq2⟩ | hq)
        · rw [f4] at hq1
          simp only [Option.some.injEq] at hq1
          subst hq1
          exact Or.inl hq2
        · exact Or.inr hq

/-- C33: a key that `fill_indexes_from_dd` hands to `prepare_share`, built from
an index with fewer than 16384 non-hidden elements, each of a length that fits
in 16 bits together with the overhead (as does the column's `key_length()`
where the decimal clamp applies). At the point `prepare_share` has gone through
the user-defined key parts and has not yet looked at the guard of
`add_pk_parts_to_sk`, `keyinfo->key_length` is the sum of `store_length` over
the user-defined key parts, whatever the share's other members are and whether
or not the decimal clamp was applied; for a key that gets no primary-key
suffix this is the key `prepare_share` leaves in the share. -/
theorem key_length_sums_store_lengths (env : Server) (eng : Engine)
    (share0 share : TABLE_SHARE) (tab_obj : Table) (k : Nat) (idx_obj : Index) (keyinfo : KEY)
    (hk0 : share0.keys = 0)
    (hfill : fill_indexes_from_dd env eng share0 tab_obj = some share)
    (hk : k < share.keys)
    (hki : share.key_info[k]? = some keyinfo)
    (hidx : (listed_indexes tab_obj.indexes)[k]? = some idx_obj)
    (hfit : ∀ e ∈ visible_elements idx_obj,
      e.length + HA_KEY_NULL_LENGTH + HA_KEY_BLOB_LENGTH < 65536)
    (hclamp : ∀ key_part ∈ keyinfo.key_part.take keyinfo.user_defined_key_parts,
      decimal_clamp_applies key_part →
        key_part.field.key_length + HA_KEY_NULL_LENGTH + HA_KEY_BLOB_LENGTH < 65536)
    (hcount : listed_elements idx_obj < 16384) :
    (∀ sh : TABLE_SHARE,
      (key_after_parts sh keyinfo).key_length =
        (((key_after_parts sh keyinfo).key_part.take
          (key_after_parts sh keyinfo).user_defined_key_parts).map
            (fun key_part => key_part.store_length)).sum) ∧
    ∀ share1 keyinfo1, prepare_share eng share = some share1 →
      share1.key_info[k]? = some keyinfo1 →
      (eng.supports_extended_keys = false ∨ k = 0 ∨ keyinfo.flags &&& HA_NOSAME ≠ 0) →
      keyinfo1.key_length =
        ((keyinfo1.key_part.take keyinfo1.user_defined_key_parts).map
          (fun key_part => key_part.store_length)).sum := by
  obtain ⟨idx, hidx1, hud, hkl, _, hparts⟩ :=
    fill_indexes_from_dd_content env eng share0 share tab_obj hfill hk0 k keyinfo hk hki
  rw [hidx] at hidx1
  simp only [Option.some.injEq] at hidx1
  subst hidx1
  have hud1 : keyinfo.user_defined_key_parts = (visible_elements idx_obj).length := by
    rw [hud, listed_elements_eq]
  obtain ⟨hlen, hall⟩ := user_parts_of_elements share0 keyinfo (visible_elements idx_obj) hud1
    hparts
  obtain ⟨e1, e2, _⟩ := element_parts share0 _ _ hall
  have hshort : ∀ e ∈ visible_elements idx_obj, e.length < 65536 := by
    intro e he
    have h := hfit e he
    omega
  have h16 : ∀ e ∈ visible_elements idx_obj, to_uint16 (e.length : Int) = e.length :=
    fun e he => to_uint16_of_lt _ (hshort e he)
  obtain ⟨hsum, hbound⟩ := index_key_length_sum idx_obj hshort (by omega)
  have hgen : ∀ (sh : TABLE_SHARE) (key : KEY), key.key_part = keyinfo.key_part →
      key.user_defined_key_parts = keyinfo.user_defined_key_parts →
      key.key_length = keyinfo.key_length →
      (key_after_parts sh key).key_length =
        (((key_after_parts sh key).key_part.take
          (key_after_parts sh key).user_defined_key_parts).map
            (fun key_part => key_part.store_length)).sum := by
    intro sh key h1 h2 h3
    refine key_after_parts_length sh key ?_ ?_ ?_ ?_
    · intro key_part hp
      rw [h1, h2] at hp
      obtain ⟨b1, e, he, b2⟩ := e1 key_part hp
      refine ⟨b1, ?_, hclamp key_part hp⟩
      rw [b2, h16 e he]
      exact hfit e he
    · rw [h1, h2]
      exact hlen
    · rw [h1, h2, h3, hkl, hsum, e2]
      exact congrArg List.sum (List.map_congr_left (fun e he => (h16 e he).symm))
    · rw [h2, h3, hkl, hud]
      omega
  refine ⟨fun sh => hgen sh keyinfo rfl rfl rfl, ?_⟩
  intro share1 keyinfo1 hok hki1 hplain
  obtain ⟨handler_file, keyinfo2, _, hki2, hk1⟩ :=
    prepare_share_key_origin eng share share1 hok k keyinfo1 hk hki1
  rw [hki] at hki2
  simp only [Option.some.injEq] at hki2
  subst hki2
  have hne : ∀ primary_key : Nat, ¬ extension_applies eng primary_key k
      { keyinfo with name := (share.keynames.type_names[k]?).join } := by
    intro primary_key hx
    unfold extension_applies at hx
    obtain ⟨a, _, c, d⟩ := hx
    rcases hplain with h | h | h
    · rw [h] at a
      exact absurd a (by simp)
    · exact c h
    · exact h d
  rw [hk1, prepare_key_info_plain eng _ _ k _ (hne _)]
  exact hgen _ _ rfl rfl rfl

/-- C33, on key 2 of `example_keyed_table`, the key on the DECIMAL column
`amount` whose recorded length 7 is clamped to the column's key length 5: after
the key part loop the key length is 5, the `store_length` of its one part. -/
theorem key_length_sums_store_lengths_witness :
    ((∀ sh : TABLE_SHARE,
      (key_after_parts sh ((example_keys_share {}).key_info.getD 2 {})).key_length =
        (((key_after_parts sh ((example_keys_share {}).key_info.getD 2 {})).key_part.take
          (key_after_parts sh
            ((example_keys_share {}).key_info.getD 2 {})).user_defined_key_parts).map
            (fun key_part => key_part.store_length)).sum) ∧
    ∀ share1 keyinfo1, prepare_share {} (example_keys_share {}) = some share1 →
      share1.key_info[2]? = some keyinfo1 →
      (({} : Engine).supports_extended_keys = false ∨ 2 = 0 ∨
        ((example_keys_share {}).key_info.getD 2 {}).flags &&& HA_NOSAME ≠ 0) →
      keyinfo1.key_length =
        ((keyinfo1.key_part.take keyinfo1.user_defined_key_parts).map
          (fun key_part => key_part.store_length)).sum) ∧
    ((example_keys_share {}).key_info.getD 2 {}).key_length = 7 ∧
    (key_after_parts {} ((example_keys_share {}).key_info.getD 2 {})).key_length = 5 :=
  ⟨key_length_sums_store_lengths example_server {} example_columns_share (example_keys_share {})
    example_keyed_table 2 (example_keyed_table.indexes.getD 2 {})
    ((example_keys_share {}).key_info.getD 2 {}) (by rfl) (by rfl) (by decide) (by rfl) (by rfl)
    (by decide) (by decide) (by decide), by rfl, by rfl⟩

/-- C40: a key that `fill_indexes_from_dd` built from an index whose stored
flags do not hold `HA_NULL_PART_KEY`, after `prepare_share`. The user-defined
part for the `i`-th non-hidden element lies on the field in the slot of the
element's column and carries `HA_PART_KEY_SEG` exactly when the length read
from the element (as a `uint16`) is not the field's `key_length()` and the
field is not a NEWDECIMAL one; the key carries `HA_NULL_PART_KEY` exactly when
the field of one of its non-hidden elements has a null bit. -/
theorem part_key_seg_and_null_part_key (env : Server) (eng : Engine)
    (share0 share share1 : TABLE_SHARE) (tab_obj : Table) (k : Nat) (idx_obj : Index)
    (keyinfo1 : KEY)
    (hk0 : share0.keys = 0)
    (hfill : fill_indexes_from_dd env eng share0 tab_obj = some share)
    (hok : prepare_share eng share = some share1)
    (hk : k < share.keys)
    (hidx : (listed_indexes tab_obj.indexes)[k]? = some idx_obj)
    (hki1 : share1.key_info[k]? = some keyinfo1)
    (hstored : idx_obj.options.flags.getD 0 &&& HA_NULL_PART_KEY = 0) :
    (∀ (i : Nat) e, (visible_elements idx_obj)[i]? = some e →
      ∃ key_part field, keyinfo1.key_part[i]? = some key_part ∧
        share0.field (e.column.ordinal_position - 1) = some field ∧
        key_part.field = field ∧
        (key_part.key_part_flag &&& HA_PART_KEY_SEG ≠ 0 ↔
          (field.key_length ≠ to_uint16 e.length ∧
            field.type ≠ .MYSQL_TYPE_NEWDECIMAL))) ∧
    (keyinfo1.flags &&& HA_NULL_PART_KEY ≠ 0 ↔
      ∃ e ∈ visible_elements idx_obj, ∃ field,
        share0.field (e.column.ordinal_position - 1) = some field ∧
          field.real_maybe_null = true) := by
  obtain ⟨handler_file, keyinfo, _, hki, hk1⟩ :=
    prepare_share_key_origin eng share share1 hok k keyinfo1 hk hki1
  obtain ⟨idx, hidx1, hud, _, hflag, hparts⟩ :=
    fill_indexes_from_dd_content env eng share0 share tab_obj hfill hk0 k keyinfo hk hki
  rw [hidx] at hidx1
  simp only [Option.some.injEq] at hidx1
  subst hidx1
  have hud1 : keyinfo.user_defined_key_parts = (visible_elements idx_obj).length := by
    rw [hud, listed_elements_eq]
  constructor
  · intro i e he
    obtain ⟨key_part, hp, hfe⟩ := hparts i e he
    obtain ⟨f1, _, _, f4, _, f6⟩ := fill_index_element_from_dd_some share0 e key_part hfe
    have hi : i < keyinfo.user_defined_key_parts := by
      rw [hud1]
      by_contra hge
      rw [List.getElem?_eq_none (by omega)] at he
      exact absurd he (by simp)
    have h0 : key_part.key_part_flag &&& HA_PART_KEY_SEG = 0 := by
      rw [f6]
      split_ifs <;> decide
    obtain ⟨g1, g2⟩ := prepared_part_seg key_part h0
    refine ⟨prepared_part key_part, key_part.field, ?_, f4, g1, ?_⟩
    · rw [hk1]
      exact (prepare_key_info_common eng _ _ k _).2.2.2 i key_part hp hi
    · rw [g2, f1]
  · have hflags : keyinfo1.flags &&& HA_NULL_PART_KEY ≠ 0 ↔
        (keyinfo.flags &&& HA_NULL_PART_KEY ≠ 0 ∨
          ∃ key_part ∈ keyinfo.key_part.take keyinfo.user_defined_key_parts,
            key_part.field.real_maybe_null = true) := by
      rw [hk1, (prepare_key_info_common eng _ _ k _).2.1]
      exact prepare_key_parts_null_flag _ _ 0
    obtain ⟨_, hall⟩ := user_parts_of_elements share0 keyinfo (visible_elements idx_obj) hud1
      hparts
    have e3 := (element_parts share0 _ _ hall).2.2
    have hz : keyinfo.flags &&& HA_NULL_PART_KEY = 0 := by
      rw [hflag]
      exact hstored
    rw [hflags, e3]
    constructor
    · rintro (h | h)
      · exact absurd hz h
      · exact h
    · intro h
      exact Or.inr h

/-- C40, on key 1 of `example_keyed_table`, the key on the nullable VARCHAR
column `name` with the column's full length: after `prepare_share` its part
does not carry `HA_PART_KEY_SEG` and the key carries `HA_NULL_PART_KEY`. -/
theorem part_key_seg_and_null_part_key_witness :
    ((∀ (i : Nat) e, (visible_elements (example_keyed_table.indexes.getD 1 {}))[i]? = some e →
      ∃ key_part field,
        ((example_prepared_share {}).key_info.getD 1 {}).key_part[i]? = some key_part ∧
        example_columns_share.field (e.column.ordinal_position - 1) = some field ∧
        key_part.field = field ∧
        (key_part.key_part_flag &&& HA_PART_KEY_SEG ≠ 0 ↔
          (field.key_length ≠ to_uint16 e.length ∧
            field.type ≠ .MYSQL_TYPE_NEWDECIMAL))) ∧
    (((example_prepared_share {}).key_info.getD 1 {}).flags &&& HA_NULL_PART_KEY ≠ 0 ↔
      ∃ e ∈ visible_elements (example_keyed_table.indexes.getD 1 {}), ∃ field,
        example_columns_share.field (e.column.ordinal_position - 1) = some field ∧
          field.real_maybe_null = true)) ∧
    ((example_prepared_share {}).key_info.getD 1 {}).flags &&& HA_NULL_PART_KEY = 64 ∧
    ((example_prepared_share {}).key_info.getD 1 {}).key_part.map
      (fun key_part => key_part.key_part_flag &&& HA_PART_KEY_SEG) = [0] :=
  ⟨part_key_seg_and_null_part_key example_server {} example_columns_share
    (example_keys_share {}) (example_prepared_share {}) example_keyed_table 1
    (example_keyed_table.indexes.getD 1 {}) ((example_prepared_share {}).key_info.getD 1 {})
    (by rfl) (by rfl) (by rfl) (by decide) (by rfl) (by rfl) (by rfl), by rfl, by rfl⟩

end DdTableShare
